import Mathlib

/-!
The schema-to-type-model compiler of cape-sdks.

A shallow embedding of the Pulumi schema generator
(`provider/pulumi/internal/schemas/gen.schemas.go`) and of the helpers it
uses from `provider/pulumi/internal/codegen/utils.go`.

Conventions of the embedding.

* Go strings are Lean strings read as their list of runes (`String.data`).
* Go maps are association lists with unique keys (`mapGet`, `mapSet`);
  ordered maps of libopenapi are lists of pairs in insertion order.
* A `*base.SchemaProxy` is `SchemaProxy`: `nil`, or a proxy that carries its
  reference string (when `IsReference()`) and the schema that `Schema()`
  renders from it (`none` when rendering fails). The member `Type` of a
  schema is written `Typ`.
* The functions return their result together with the variables they
  update: the helper cache is passed in and returned.
* Recursion that follows references through the resolver has no bound in
  the source; the embedding bounds it by a fuel argument and returns `none`
  when the fuel runs out. A call with fuel `n + 1` gives `n + 1` to the type
  resolution it does itself and `n` to the nested object definitions.
* Formatting of the standard library (`%q`, `%d`, strings.Fields,
  unicode.ToLower) is written out for the runes the generator meets.
-/

namespace Cape

/-! ## Go maps -/

/-- Map read `m[k]` with presence flag. -/
def mapGet {V : Type} : List (String × V) → String → Option V
  | [], _ => none
  | (k1, v) :: rest, k => if k1 = k then some v else mapGet rest k

/-- Map write `m[k] = v`: replaces the entry of an existing key in place. -/
def mapSet {V : Type} : List (String × V) → String → V → List (String × V)
  | [], k, v => [(k, v)]
  | (k1, v1) :: rest, k, v =>
    if k1 = k then (k, v) :: rest else (k1, v1) :: mapSet rest k v

/-- The keys of a map. -/
def mapKeys {V : Type} (m : List (String × V)) : List String := m.map Prod.fst

/-! ## Go strings -/

/-- Double quote character. -/
def dq : Char := Char.ofNat 34

/-- Backslash character. -/
def bsl : Char := Char.ofNat 92

/-- The Go test strings.HasPrefix. -/
def startsWithStr (s p : String) : Bool := p.data.isPrefixOf s.data

/-- The digit of `n % 16` in the string `lowerhex` of strconv. -/
def lowerhex (n : Nat) : Char := "0123456789abcdef".data.getD (n % 16) '0'

/-- The test strconv.IsPrint on the runes up to U+00FF, where it is decided
without a table: space to `~`, and the runes from U+00A1 on except the soft
hyphen U+00AD. -/
def isPrintLatin1 (r : Nat) : Bool :=
  (decide (0x20 ≤ r) && decide (r ≤ 0x7E)) || (decide (0xA1 ≤ r) && decide (r ≠ 0xAD))

/-- Escape of one rune by strconv.Quote. It is the one of strconv on every
rune up to U+00FF: quote and backslash are backslashed, a printable rune is
kept, seven control characters have short escapes, the other runes below
space and DEL are written as two hex digits after a backslash and `x`, and
the remaining ones as four hex digits after a backslash and `u`. Above U+00FF
the printable runes are those of the tables of the package unicode, which are
no part of this repository; a rune above U+00FF is kept as it is. -/
def quoteRune (c : Char) : List Char :=
  if c = dq then [bsl, dq]
  else if c = bsl then [bsl, bsl]
  else if 0xFF < c.toNat ∨ isPrintLatin1 c.toNat = true then [c]
  else if c.toNat = 7 then [bsl, 'a']
  else if c.toNat = 8 then [bsl, 'b']
  else if c.toNat = 12 then [bsl, 'f']
  else if c.toNat = 10 then [bsl, 'n']
  else if c.toNat = 13 then [bsl, 'r']
  else if c.toNat = 9 then [bsl, 't']
  else if c.toNat = 11 then [bsl, 'v']
  else if c.toNat < 0x20 ∨ c.toNat = 0x7F then
    [bsl, 'x', lowerhex (c.toNat / 16), lowerhex c.toNat]
  else [bsl, 'u', '0', '0', lowerhex (c.toNat / 16), lowerhex c.toNat]

/-- The formatting verb `%q` of fmt.Sprintf on a string. -/
def goQuote (s : String) : String :=
  String.mk (dq :: (s.data.flatMap quoteRune ++ [dq]))

/-- The formatting verb `%d` on a natural number. -/
def itoa (n : Nat) : String := String.mk (Nat.toDigits 10 n)

def isLowerAscii (r : Char) : Bool := decide (97 ≤ r.toNat) && decide (r.toNat ≤ 122)

def isUpperAscii (r : Char) : Bool := decide (65 ≤ r.toNat) && decide (r.toNat ≤ 90)

def isDigitAscii (r : Char) : Bool := decide (48 ≤ r.toNat) && decide (r.toNat ≤ 57)

/-- The rune test of toExportedName: an ASCII letter or digit. -/
def isAlnumAscii (r : Char) : Bool := isLowerAscii r || isUpperAscii r || isDigitAscii r

/-- Computes `r - 'a' + 'A'`. -/
def upperAscii (r : Char) : Char := Char.ofNat (r.toNat - 97 + 65)

/-- Computes unicode.ToLower on the runes the generator passes to it (ASCII). -/
def lowerRune (r : Char) : Char := if isUpperAscii r then Char.ofNat (r.toNat + 32) else r

/-- The white space of unicode.IsSpace. -/
def isSpaceRune (r : Char) : Bool :=
  let n := r.toNat
  decide (9 ≤ n ∧ n ≤ 13) || n == 32 || n == 133 || n == 160 || n == 5760 ||
    decide (8192 ≤ n ∧ n ≤ 8202) || n == 8232 || n == 8233 || n == 8239 ||
    n == 8287 || n == 12288

/-- The loop of strings.Fields: `cur` is the field being read, reversed. -/
def fieldsLoop : List Char → List Char → List (List Char)
  | [], cur => if cur.isEmpty then [] else [cur.reverse]
  | c :: rest, cur =>
    if isSpaceRune c then
      (if cur.isEmpty then fieldsLoop rest [] else cur.reverse :: fieldsLoop rest [])
    else fieldsLoop rest (c :: cur)

/-- The Go function strings.Fields. -/
def stringsFields (s : String) : List (List Char) := fieldsLoop s.data []

/-- The Go function strings.Join on rune lists, with a one-rune separator. -/
def joinWith (sep : Char) : List (List Char) → List Char
  | [] => []
  | [w] => w
  | w :: rest => w ++ sep :: joinWith sep rest

/-- codegen.NormalizeDescription -/
def NormalizeDescription (desc : String) : String :=
  if desc = "" then "" else String.mk (joinWith ' ' (stringsFields desc))

/-- Index-free form of strings.LastIndex followed by `ref[idx+1:]`: the
runes after the last occurrence of `sep`, when there is one. -/
def afterLast (sep : Char) : List Char → Option (List Char)
  | [] => none
  | c :: rest =>
    match afterLast sep rest with
    | some tail => some tail
    | none => if c = sep then some rest else none

/-- codegen.RefToSchemaName -/
def RefToSchemaName (ref : String) : String :=
  if ref = "" then ""
  else
    match afterLast '/' ref.data with
    | some (c :: tail) => String.mk (c :: tail)
    | _ =>
      match afterLast '#' ref.data with
      | some (c :: tail) => String.mk (c :: tail)
      | _ => ref

/-! ## The schema model of libopenapi and yaml -/

/-- The node kinds of yaml.Kind (`Zero` is the kind of an empty node). -/
inductive Kind
  | Zero | DocumentNode | SequenceNode | MappingNode | ScalarNode | AliasNode
  deriving DecidableEq, Repr

/-- A yaml.Node, with the members the generator reads. -/
inductive YamlNode
  | mk (kind : Kind) (tag : String) (value : String) (content : List (Option YamlNode))

def YamlNode.Kind : YamlNode → Kind
  | .mk k _ _ _ => k

def YamlNode.Tag : YamlNode → String
  | .mk _ t _ _ => t

def YamlNode.Value : YamlNode → String
  | .mk _ _ v _ => v

def YamlNode.Content : YamlNode → List (Option YamlNode)
  | .mk _ _ _ c => c

/-- A base.DynamicValue holding a schema proxy (`IsA`) or a boolean (`IsB`). -/
inductive DynamicValue (P : Type)
  | A (a : P)
  | B (b : Bool)

/-- The members of base.Schema that the generator reads. `ParentRef` stands
for `ParentProxy`: the proxy the schema was rendered from, given by its
reference string when that proxy is a reference. -/
structure SchemaOf (P : Type) where
  Typ : List String := []
  Title : String := ""
  Description : String := ""
  Required : List String := []
  Properties : Option (List (String × P)) := none
  AllOf : List P := []
  AnyOf : List P := []
  OneOf : List P := []
  Items : Option (DynamicValue P) := none
  AdditionalProperties : Option (DynamicValue P) := none
  Enum : List (Option YamlNode) := []
  Extensions : Option (List (String × Option YamlNode)) := none
  Default : Option YamlNode := none
  ParentRef : Option String := none

/-- A `*base.SchemaProxy`. -/
inductive SchemaProxy
  | nil
  | mk (ref : Option String) (schema : Option (SchemaOf SchemaProxy))

abbrev Schema := SchemaOf SchemaProxy

def SchemaProxy.IsReference : SchemaProxy → Bool
  | .nil => false
  | .mk r _ => r.isSome

def SchemaProxy.GetReference : SchemaProxy → String
  | .nil => ""
  | .mk r _ => r.getD ""

def SchemaProxy.Schema : SchemaProxy → Option Schema
  | .nil => none
  | .mk _ s => s

def SchemaProxy.isNil : SchemaProxy → Bool
  | .nil => true
  | .mk _ _ => false

/-- The proxy `schema.ParentProxy`. -/
def ParentProxy (schema : Schema) : SchemaProxy := .mk schema.ParentRef (some schema)

/-- codegen.SchemaResolver -/
structure SchemaResolver where
  Schemas : List (String × SchemaProxy)

/-- SchemaResolver.Lookup, on a resolver pointer that may be nil. -/
def Lookup (r : Option SchemaResolver) (name : String) : SchemaProxy :=
  match r with
  | none => .nil
  | some res => (mapGet res.Schemas name).getD .nil

/-! ## Generated definitions -/

structure fieldDef where
  Name : String := ""
  GoName : String := ""
  GoType : String := ""
  Optional : Bool := false
  Tag : String := ""
  Description : String := ""
  Default : String := ""
  HasDefault : Bool := false
  Annotate : Bool := false
  deriving DecidableEq, Repr

structure enumValue where
  Name : String
  Value : String
  deriving DecidableEq, Repr

structure dtoDef where
  TypeName : String := ""
  Fields : List fieldDef := []
  Alias : String := ""
  TypeDef : String := ""
  Enums : List enumValue := []
  Description : String := ""
  AnnotateLines : List String := []
  HasAnnotate : Bool := false
  deriving DecidableEq, Repr

/-! ## Identifier canonicalization -/

/-- The loop of toExportedName over the runes of the name; the state is
`upperNext` and `wrote`, the result is what the builder receives. -/
def toExportedLoop : List Char → Bool → Bool → List Char
  | [], _, _ => []
  | r :: rest, upperNext, wrote =>
    if isAlnumAscii r then
      let r1 := if upperNext && isLowerAscii r then upperAscii r else r
      (if !wrote && isDigitAscii r1 then "Field".data else []) ++
        r1 :: toExportedLoop rest false true
    else toExportedLoop rest true wrote

def toExportedName (name : String) : String :=
  if name = "" then "" else String.mk (toExportedLoop name.data true false)

/-- The function toLowerCamel. Its callers pass the exported name of a union
variant, which toExportedName and the counter make of ASCII letters and
digits; on these unicode.ToLower is lowerRune. -/
def toLowerCamel (name : String) : String :=
  match name.data with
  | [] => ""
  | r :: rest => String.mk (lowerRune r :: rest)

def helperTypeName (parentName propName : String) : String :=
  toExportedName parentName ++ toExportedName propName

/-! ## Enumerations -/

/-- codegen.EnumBaseType -/
def EnumBaseType (schema : Option Schema) : String :=
  match schema with
  | none => "string"
  | some s =>
    match s.Typ with
    | [] => "string"
    | t :: _ =>
      if t = "string" then "string"
      else if t = "integer" then "int"
      else if t = "number" then "float64"
      else if t = "boolean" then "bool"
      else "string"

/-- codegen.EnumValueLiteral -/
def EnumValueLiteral (baseType : String) (node : Option YamlNode) : String :=
  match node with
  | none => String.mk [dq, dq]
  | some n =>
    if baseType = "string" then goQuote n.Value
    else if n.Tag = "!!str" then goQuote n.Value
    else n.Value

/-- The first value stored under the key `x-enumNames`. -/
def findEnumNames : List (String × Option YamlNode) → Option YamlNode
  | [] => none
  | (key, value) :: rest => if key = "x-enumNames" then value else findEnumNames rest

def enumNamesFromSchema (schema : Option Schema) : List String :=
  match schema with
  | none => []
  | some s =>
    match s.Extensions with
    | none => []
    | some ext =>
      match findEnumNames ext with
      | none => []
      | some node =>
        if node.Kind ≠ Kind.SequenceNode then []
        else node.Content.filterMap (fun item => item.map YamlNode.Value)

/-- The backward scan of enumTypeFromName over a reversed name: the runes in
front of the last upper-case ASCII letter, reversed. -/
def dropThroughUpper : List Char → Option (List Char)
  | [] => none
  | c :: rest => if isUpperAscii c then some rest else dropThroughUpper rest

def enumTypeFromName (name : String) : String :=
  if name = "" then ""
  else
    match dropThroughUpper name.data.reverse with
    | some front => String.mk front.reverse
    | none => name

def enumConstName (typeName enumName : String) : String :=
  if enumName = "" then typeName
  else if typeName = "" then enumName
  else if startsWithStr enumName typeName then enumName
  else typeName ++ enumName

/-- The constants of an enumeration: `enumNames[idx]` is read for every index
of `schema.Enum`. -/
def enumConstants (typeName baseType : String) :
    List (Option YamlNode) → List String → List enumValue
  | [], _ => []
  | node :: nodes, names =>
    { Name := enumConstName typeName (names.headD ""),
      Value := EnumValueLiteral baseType node } ::
      enumConstants typeName baseType nodes names.tail

/-- The function buildEnumDTO; `none` is the result `(dtoDef{}, false)`. -/
def buildEnumDTO (name : String) (schema : Option Schema) : Option dtoDef :=
  match schema with
  | none => none
  | some s =>
    if s.Enum.length = 0 then none
    else
      let enumNames := enumNamesFromSchema schema
      if enumNames.length = 0 ∨ enumNames.length ≠ s.Enum.length then none
      else
        let baseType := EnumBaseType schema
        let typeName0 := toExportedName name
        let typeName :=
          if typeName0 = "" ∧ enumNames.length > 0 then enumTypeFromName (enumNames.headD "")
          else typeName0
        if typeName = "" then none
        else
          some { TypeName := typeName, Alias := baseType,
                 Enums := enumConstants typeName baseType s.Enum enumNames }

def isEnumSchema (schema : Option Schema) : Bool :=
  match schema with
  | none => false
  | some s =>
    if s.Enum.length = 0 then false
    else decide ((enumNamesFromSchema schema).length = s.Enum.length)

/-! ## Type synthesis -/

def isUnionSchema (schema : Option Schema) : Bool :=
  match schema with
  | none => false
  | some s => decide (s.AnyOf.length > 0) || decide (s.OneOf.length > 0)

/-- The test `schema.Properties != nil && schema.Properties.Len() > 0`. -/
def hasProperties (s : Schema) : Bool :=
  match s.Properties with
  | none => false
  | some ps => decide (ps.length > 0)

/-- The test `len(AllOf) > 0 || len(AnyOf) > 0 || len(OneOf) > 0`. -/
def hasComposition (s : Schema) : Bool :=
  decide (s.AllOf.length > 0) || decide (s.AnyOf.length > 0) || decide (s.OneOf.length > 0)

/-- The test `len(AllOf) == 1 && len(AnyOf) == 0 && len(OneOf) == 0` followed
by `AllOf[0] != nil && AllOf[0].IsReference()`: the schema is a single allOf
member that is a reference. -/
def isSingleRefAllOf (s : Schema) : Bool :=
  decide (s.AllOf.length = 1) && decide (s.AnyOf.length = 0) && decide (s.OneOf.length = 0) &&
    (s.AllOf.headD .nil).IsReference

def isSimpleAliasSchema (schema : Option Schema) : Bool :=
  match schema with
  | none => false
  | some s =>
    if hasProperties s then false
    else if s.AdditionalProperties.isSome then false
    else if hasComposition s then false
    else
      match s.Typ with
      | [] => false
      | t :: _ =>
        t = "string" || t = "integer" || t = "number" || t = "boolean" || t = "array"

/-- The body of additionalPropertiesAlias, over the function that resolves
the value type (`goTypeForSchema` with unions allowed). The outer option is
the fuel of that function; the inner one is the flag of the Go result, whose
string is empty when the flag is false. -/
def additionalPropertiesAliasWith (goType : SchemaProxy → Option String)
    (schema : Option Schema) : Option (Option String) :=
  match schema with
  | none => some none
  | some s =>
    match s.AdditionalProperties with
    | none => some none
    | some ap =>
      if (match s.Typ with
          | [] => false
          | t :: _ => decide (t ≠ "object")) then some none
      else if hasProperties s then some none
      else
        match ap with
        | .A .nil => some none
        | .A a => (goType a).map (fun valueType => some ("map[string]" ++ valueType))
        | .B true => some (some "map[string]any")
        | .B false => some none

/-- The function goTypeForSchema; the first argument bounds the depth of the
recursion, `none` is the result when it is exhausted. -/
def goTypeForSchema : Nat → SchemaProxy → Option SchemaResolver → Bool → Option String
  | 0, _, _, _ => none
  | _ + 1, .nil, _, _ => some "any"
  | fuel + 1, .mk (some ref) _, resolver, allowUnion =>
    let refName := RefToSchemaName ref
    match resolver with
    | none => some (toExportedName refName)
    | some _ =>
      match (Lookup resolver refName).Schema with
      | none => some (toExportedName refName)
      | some sch =>
        match buildEnumDTO refName (some sch) with
        | some enumDTO => some enumDTO.TypeName
        | none =>
          if isUnionSchema (some sch) then
            (if allowUnion then some (toExportedName refName) else some "any")
          else if isSimpleAliasSchema (some sch) then some (toExportedName refName)
          else
            match sch.Typ with
            | [] => some (toExportedName refName)
            | t :: _ =>
              if t = "string" then some "string"
              else if t = "integer" then some "int"
              else if t = "number" then some "float64"
              else if t = "boolean" then some "bool"
              else if t = "array" then
                match sch.Items with
                | some (.A a) =>
                  (goTypeForSchema fuel a resolver allowUnion).map (fun t => "[]" ++ t)
                | _ => some "[]any"
              else some (toExportedName refName)
  | fuel + 1, .mk none schema, resolver, allowUnion =>
    match schema with
    | none => some "any"
    | some s =>
      if s.AllOf.length = 1 ∧ s.AnyOf.length = 0 ∧ s.OneOf.length = 0 then
        goTypeForSchema fuel (s.AllOf.headD .nil) resolver allowUnion
      else
        match buildEnumDTO "" (some s) with
        | some enumDTO => some enumDTO.Alias
        | none =>
          if isUnionSchema (some s) then some "any"
          else
            let aliasRes :=
              additionalPropertiesAliasWith (fun p => goTypeForSchema fuel p resolver true) (some s)
            let noType : Option String :=
              match aliasRes with
              | none => none
              | some (some a) => some a
              | some none => some "any"
            match s.Typ with
            | [] => noType
            | t :: _ =>
              if t = "string" then some "string"
              else if t = "integer" then some "int64"
              else if t = "number" then some "float64"
              else if t = "boolean" then some "bool"
              else if t = "array" then
                match s.Items with
                | some (.A a) =>
                  (goTypeForSchema fuel a resolver allowUnion).map (fun t => "[]" ++ t)
                | _ => some "[]any"
              else if t = "object" then
                match aliasRes with
                | none => none
                | some (some a) => some a
                | some none => some "map[string]any"
              else noType

def additionalPropertiesAlias (fuel : Nat) (schema : Option Schema)
    (resolver : Option SchemaResolver) : Option (Option String) :=
  additionalPropertiesAliasWith (fun p => goTypeForSchema fuel p resolver true) schema

/-- The function isEmptySchema; the inner option is the flag `isEmpty`, with
the type string that comes with it. -/
def isEmptySchema (fuel : Nat) (schema : Option Schema) (resolver : Option SchemaResolver) :
    Option (Option String) :=
  match schema with
  | none => some none
  | some s =>
    if !hasProperties s && !s.AdditionalProperties.isSome && !hasComposition s then
      (goTypeForSchema fuel (ParentProxy s) resolver false).map some
    else some none

def makeOptionalType (goType : String) : String :=
  if goType = "" then "*any"
  else if startsWithStr goType "*" || startsWithStr goType "[]" || startsWithStr goType "map[" then
    goType
  else "*" ++ goType

def stripOptionalType (goType : String) : String :=
  match goType.data with
  | '*' :: rest => String.mk rest
  | _ => goType

def buildPulumiTag (name : String) (optional : Bool) : String :=
  let tag := "pulumi:" ++ String.mk [dq] ++ name
  let tag := if optional then tag ++ ",optional" else tag
  tag ++ String.mk [dq]

/-- The lines that buildAnnotateLines appends for one field. -/
def annotateField (field : fieldDef) : List String :=
  (if field.Description ≠ "" then
      ["a.Describe(&dto." ++ field.GoName ++ ", " ++ goQuote field.Description ++ ")"]
    else []) ++
  (if field.HasDefault then
      ["a.SetDefault(&dto." ++ field.GoName ++ ", " ++ field.Default ++ ")"]
    else [])

def buildAnnotateLines (desc : String) (fields : List fieldDef) : List String :=
  (if desc ≠ "" then ["a.Describe(&dto, " ++ goQuote desc ++ ")"] else []) ++
    fields.flatMap annotateField

def schemaDescription (schemaProxy : SchemaProxy) : String :=
  match schemaProxy.Schema with
  | some schema => schema.Description
  | none => ""

/-- codegen.DefaultValueLiteral -/
def DefaultValueLiteral (schemaProxy : SchemaProxy) : String × Bool :=
  match schemaProxy.Schema with
  | none => ("", false)
  | some schema =>
    match schema.Default with
    | none => ("", false)
    | some d =>
      if d.Kind = Kind.MappingNode ∨ d.Kind = Kind.SequenceNode then ("", false)
      else (EnumValueLiteral (EnumBaseType (some schema)) (some d), true)

/-- The tests that both branches of isAnnotatableSchema run on a schema. -/
def annotatableShape (fuel : Nat) (schema : Schema) (resolver : Option SchemaResolver) :
    Option Bool :=
  if isEnumSchema (some schema) then some false
  else
    match additionalPropertiesAlias fuel (some schema) resolver with
    | none => none
    | some (some _) => some false
    | some none =>
      if isUnionSchema (some schema) then some true
      else if schema.AllOf.length > 0 then some true
      else if hasProperties schema then some true
      else some false

def isAnnotatableSchema (fuel : Nat) (schemaProxy : SchemaProxy)
    (resolver : Option SchemaResolver) : Option Bool :=
  match schemaProxy with
  | .nil => some false
  | .mk (some ref) _ =>
    match resolver with
    | none => some false
    | some _ =>
      match (Lookup resolver (RefToSchemaName ref)).Schema with
      | none => some false
      | some schema => annotatableShape fuel schema resolver
  | .mk none schema =>
    match schema with
    | none => some false
    | some s => annotatableShape fuel s resolver

def isAnnotatableProperty (fuel : Nat) (schemaProxy : SchemaProxy)
    (resolver : Option SchemaResolver) : Option Bool :=
  match schemaProxy with
  | .nil => some false
  | .mk (some _) _ => isAnnotatableSchema fuel schemaProxy resolver
  | .mk none schema =>
    match schema with
    | none => some false
    | some s =>
      if isSingleRefAllOf s then isAnnotatableSchema fuel (s.AllOf.headD .nil) resolver
      else isAnnotatableSchema fuel schemaProxy resolver

/-! ## Unions -/

def unionVariantName (idx : Nat) (schemaProxy : SchemaProxy) : String :=
  match schemaProxy with
  | .nil => "Variant" ++ itoa (idx + 1)
  | .mk (some ref) _ => RefToSchemaName ref
  | .mk none schema =>
    match schema with
    | none => "Variant" ++ itoa (idx + 1)
    | some s =>
      if s.Title ≠ "" then s.Title
      else
        match s.Typ with
        | t :: _ => t
        | [] => "Variant" ++ itoa (idx + 1)

/-- The exported name of the variant at `idx` and the updated `seen` map. -/
def variantGoName (idx : Nat) (variant : SchemaProxy) (seen : List (String × Nat)) :
    String × List (String × Nat) :=
  let goName0 := toExportedName (unionVariantName idx variant)
  let goName := if goName0 = "" then "Variant" ++ itoa (idx + 1) else goName0
  match mapGet seen goName with
  | some count => (goName ++ itoa (count + 1), mapSet seen goName (count + 1))
  | none => (goName, mapSet seen goName 1)

/-- The loop of buildUnionDTO over the variants, from index `idx` on. -/
def unionFields (fuel : Nat) (resolver : Option SchemaResolver) :
    List SchemaProxy → Nat → List (String × Nat) → Option (List fieldDef)
  | [], _, _ => some []
  | variant :: rest, idx, seen =>
    match goTypeForSchema fuel variant resolver true,
          isAnnotatableProperty fuel variant resolver,
          unionFields fuel resolver rest (idx + 1) (variantGoName idx variant seen).2 with
    | some goType, some annotate, some fields =>
      some ({ Name := unionVariantName idx variant,
              GoName := (variantGoName idx variant seen).1,
              GoType := makeOptionalType goType,
              Optional := true,
              Tag := buildPulumiTag (toLowerCamel (variantGoName idx variant seen).1) true,
              Description :=
                (match variant.Schema with
                 | some variantSchema => NormalizeDescription variantSchema.Description
                 | none => ""),
              Annotate := annotate } :: fields)
    | _, _, _ => none

/-- The variants that buildUnionDTO iterates over. -/
def unionVariants (schema : Schema) : List SchemaProxy :=
  if schema.AnyOf.length > 0 then schema.AnyOf else schema.OneOf

def buildUnionDTO (fuel : Nat) (name : String) (schema : Schema)
    (resolver : Option SchemaResolver) : Option dtoDef :=
  match unionFields fuel resolver (unionVariants schema) 0 [] with
  | none => none
  | some fields =>
    let desc := NormalizeDescription schema.Description
    some { TypeName := toExportedName name,
           Fields := fields,
           Description := desc,
           HasAnnotate := true,
           AnnotateLines := buildAnnotateLines desc fields }

/-! ## Objects -/

def mergeRequired (target : List (String × Bool)) : List String → List (String × Bool)
  | [] => target
  | name :: rest => mergeRequired (mapSet target name true) rest

def requiredSet (required : List String) : List (String × Bool) :=
  mergeRequired [] required

/-- The first loop of buildObjectDTO: the required names of the allOf members. -/
def mergeAllOfRequired (target : List (String × Bool)) : List SchemaProxy → List (String × Bool)
  | [] => target
  | allOf :: rest =>
    match allOf.Schema with
    | some allOfSchema => mergeAllOfRequired (mergeRequired target allOfSchema.Required) rest
    | none => mergeAllOfRequired target rest

/-- The map read `required[propName]`. -/
def isRequired (required : List (String × Bool)) (propName : String) : Bool :=
  (mapGet required propName).getD false

abbrev Helpers := List (String × dtoDef)

/-- The variables that the closure addProperties of buildObjectDTO updates:
the map `fields`, the slice `order` and the helper cache. -/
structure mergeState where
  fields : List (String × fieldDef)
  order : List String
  helpers : Helpers

/-- The update of an existing field by a later contribution. -/
def mergeExisting (existing : fieldDef) (propOptional : Bool) (tagName : String) : fieldDef :=
  let optional := existing.Optional && propOptional
  { existing with
    Optional := optional,
    GoType := if !optional then stripOptionalType existing.GoType else existing.GoType,
    Tag := buildPulumiTag tagName optional }

/-- The field that addProperties stores for a variant of a folded union. -/
def unionFieldEntry (field : fieldDef) : fieldDef :=
  { Name := field.Name, GoName := field.GoName, GoType := field.GoType,
    Optional := true, Tag := field.Tag, Annotate := field.Annotate }

/-- The body of the loop of addProperties over the fields of a folded union. -/
def addUnionField (st : mergeState) (field : fieldDef) : mergeState :=
  match mapGet st.fields field.Name with
  | some existing =>
    { fields := mapSet st.fields field.Name
        (mergeExisting existing true (toLowerCamel field.GoName)),
      order := st.order,
      helpers := st.helpers }
  | none =>
    { fields := mapSet st.fields field.Name (unionFieldEntry field),
      order := st.order ++ [field.Name],
      helpers := st.helpers }

/-- The field that addProperties stores for a declared property. -/
def propertyFieldEntry (propName : String) (propSchema : SchemaProxy) (goType0 : String)
    (propOptional annotate : Bool) : fieldDef :=
  { Name := propName,
    GoName := toExportedName propName,
    GoType := if propOptional then makeOptionalType goType0 else goType0,
    Optional := propOptional,
    Tag := buildPulumiTag propName propOptional,
    Description := NormalizeDescription (schemaDescription propSchema),
    Default := (DefaultValueLiteral propSchema).1,
    HasDefault := (DefaultValueLiteral propSchema).2,
    Annotate := annotate }

/-- The body of the loop of addProperties over the declared properties;
`resolveProp` is resolvePropertyType with the resolver fixed. -/
def addProperty
    (resolveProp : String → String → SchemaProxy → Helpers → Option (String × Helpers))
    (fuel : Nat) (resolver : Option SchemaResolver) (required : List (String × Bool))
    (parentName : String) (optOverride : Bool) (st : mergeState)
    (propName : String) (propSchema : SchemaProxy) : Option mergeState :=
  match resolveProp parentName propName propSchema st.helpers,
        isAnnotatableProperty fuel propSchema resolver with
  | some (goType0, helpers1), some annotate =>
    match mapGet st.fields propName with
    | some existing =>
      some { fields := mapSet st.fields propName
               (mergeExisting existing (optOverride || !isRequired required propName) propName),
             order := st.order,
             helpers := helpers1 }
    | none =>
      some { fields := mapSet st.fields propName
               (propertyFieldEntry propName propSchema goType0
                 (optOverride || !isRequired required propName) annotate),
             order := st.order ++ [propName],
             helpers := helpers1 }
  | _, _ => none

/-- The loop of addProperties over `s.Properties.FromOldest()`. -/
def addPropertyList
    (resolveProp : String → String → SchemaProxy → Helpers → Option (String × Helpers))
    (fuel : Nat) (resolver : Option SchemaResolver) (required : List (String × Bool))
    (parentName : String) (optOverride : Bool) :
    mergeState → List (String × SchemaProxy) → Option mergeState
  | st, [] => some st
  | st, (propName, propSchema) :: rest =>
    match addProperty resolveProp fuel resolver required parentName optOverride st
            propName propSchema with
    | none => none
    | some st1 =>
      addPropertyList resolveProp fuel resolver required parentName optOverride st1 rest

/-- The declared properties `s.Properties` of a schema pointer, `none` when
the pointer or the map is nil. -/
def declaredProperties (s : Option Schema) : Option (List (String × SchemaProxy)) :=
  match s with
  | none => none
  | some sch => sch.Properties

/-- The closure addProperties of buildObjectDTO. -/
def addProperties
    (resolveProp : String → String → SchemaProxy → Helpers → Option (String × Helpers))
    (fuel : Nat) (resolver : Option SchemaResolver) (required : List (String × Bool))
    (parentName : String) (s : Option Schema) (optOverride : Bool) (st : mergeState) :
    Option mergeState :=
  match declaredProperties s with
  | none =>
    match s with
    | none => some st
    | some sch =>
      if isUnionSchema (some sch) then
        match buildUnionDTO fuel "" sch resolver with
        | none => none
        | some unionDTO => some (unionDTO.Fields.foldl addUnionField st)
      else some st
  | some props =>
    addPropertyList resolveProp fuel resolver required parentName optOverride st props

/-- The second loop of buildObjectDTO: addProperties on every allOf member. -/
def addAllOf
    (resolveProp : String → String → SchemaProxy → Helpers → Option (String × Helpers))
    (fuel : Nat) (resolver : Option SchemaResolver) (required : List (String × Bool))
    (parentName : String) : mergeState → List SchemaProxy → Option mergeState
  | st, [] => some st
  | st, allOf :: rest =>
    match addProperties resolveProp fuel resolver required parentName allOf.Schema false st with
    | none => none
    | some st1 => addAllOf resolveProp fuel resolver required parentName st1 rest

/-- The fields of the result, read from the map in the order of `order`. -/
def orderedFields (st : mergeState) : List fieldDef :=
  st.order.filterMap (fun propName => mapGet st.fields propName)

/-- The last part of buildObjectDTO: the merge of the properties of the
schema and of its allOf members into the field list. -/
def mergeFields
    (resolveProp : String → String → SchemaProxy → Helpers → Option (String × Helpers))
    (fuel : Nat) (name : String) (schema : Schema) (resolver : Option SchemaResolver)
    (helpers : Helpers) : Option (dtoDef × Helpers) :=
  match addProperties resolveProp fuel resolver
          (mergeAllOfRequired (requiredSet schema.Required) schema.AllOf) name (some schema) false
          { fields := [], order := [], helpers := helpers } with
  | none => none
  | some st1 =>
    match addAllOf resolveProp fuel resolver
            (mergeAllOfRequired (requiredSet schema.Required) schema.AllOf) name st1
            schema.AllOf with
    | none => none
    | some st2 =>
      some ({ TypeName := toExportedName name,
              Fields := orderedFields st2,
              Description := NormalizeDescription schema.Description,
              HasAnnotate := true,
              AnnotateLines := buildAnnotateLines (NormalizeDescription schema.Description)
                (orderedFields st2) },
            st2.helpers)

/-- The body of buildObjectDTO over the function that resolves a property. -/
def buildObjectDTOWith
    (resolveProp : String → String → SchemaProxy → Helpers → Option (String × Helpers))
    (fuel : Nat) (name : String) (schema : Schema) (resolver : Option SchemaResolver)
    (helpers : Helpers) : Option (dtoDef × Helpers) :=
  match buildEnumDTO name (some schema) with
  | some enumDTO => some (enumDTO, helpers)
  | none =>
    match additionalPropertiesAlias fuel (some schema) resolver with
    | none => none
    | some (some aliasType) =>
      some ({ TypeName := toExportedName name, Alias := aliasType }, helpers)
    | some none =>
      match isEmptySchema fuel (some schema) resolver with
      | none => none
      | some (some typ) =>
        if NormalizeDescription schema.Description ≠ "" then
          some ({ TypeName := toExportedName name, TypeDef := typ,
                  Description := NormalizeDescription schema.Description,
                  HasAnnotate := true,
                  AnnotateLines :=
                    buildAnnotateLines (NormalizeDescription schema.Description) [] }, helpers)
        else some ({ TypeName := toExportedName name, Alias := typ }, helpers)
      | some none => mergeFields resolveProp fuel name schema resolver helpers

/-- The body of resolvePropertyType over the function that builds a nested
object definition (buildObjectDTO). -/
def resolvePropertyTypeWith
    (build : String → Schema → Helpers → Option (dtoDef × Helpers))
    (fuel : Nat) (resolver : Option SchemaResolver)
    (parentName propName : String) (schemaProxy : SchemaProxy) (helpers : Helpers) :
    Option (String × Helpers) :=
  match schemaProxy with
  | .nil => some ("any", helpers)
  | .mk (some _) _ =>
    (goTypeForSchema fuel schemaProxy resolver true).map (fun t => (t, helpers))
  | .mk none none => some ("any", helpers)
  | .mk none (some schema) =>
    if isSingleRefAllOf schema then
      (goTypeForSchema fuel (schema.AllOf.headD .nil) resolver true).map (fun t => (t, helpers))
    else
      match buildEnumDTO (helperTypeName parentName propName) (some schema) with
      | some enumDTO =>
        match mapGet helpers enumDTO.TypeName with
        | some _ => some (enumDTO.TypeName, helpers)
        | none => some (enumDTO.TypeName, mapSet helpers enumDTO.TypeName enumDTO)
      | none =>
        if hasComposition schema then
          let helperName := helperTypeName parentName propName
          match mapGet helpers helperName with
          | some _ => some (helperName, helpers)
          | none =>
            if isUnionSchema (some schema) then
              match buildUnionDTO fuel helperName schema resolver with
              | none => none
              | some dto => some (helperName, mapSet helpers helperName dto)
            else
              match build helperName schema helpers with
              | none => none
              | some (dto, helpers1) => some (helperName, mapSet helpers1 helperName dto)
        else (goTypeForSchema fuel schemaProxy resolver true).map (fun t => (t, helpers))

/-- The function buildObjectDTO. It returns the definition and the helper
cache as the call leaves it; the first argument bounds the recursion. -/
def buildObjectDTO : Nat → String → Schema → Option SchemaResolver → Helpers →
    Option (dtoDef × Helpers)
  | 0, _, _, _, _ => none
  | fuel + 1, name, schema, resolver, helpers =>
    buildObjectDTOWith
      (resolvePropertyTypeWith (fun n s h => buildObjectDTO fuel n s resolver h) (fuel + 1) resolver)
      (fuel + 1) name schema resolver helpers

/-- The function resolvePropertyType. It returns the type and the helper
cache as the call leaves it. -/
def resolvePropertyType (fuel : Nat) (parentName propName : String) (schemaProxy : SchemaProxy)
    (resolver : Option SchemaResolver) (helpers : Helpers) : Option (String × Helpers) :=
  match fuel with
  | 0 => none
  | fuel + 1 =>
    resolvePropertyTypeWith (fun n s h => buildObjectDTO fuel n s resolver h) (fuel + 1) resolver
      parentName propName schemaProxy helpers

/-- The function buildTypes: the calls of writeDTOFile it makes, each with
the schema name that names the file and the definition written. Helper
definitions follow in the order of the cache. -/
def buildTypes (fuel : Nat) (name : String) (schemaProxy : SchemaProxy)
    (resolver : Option SchemaResolver) : Option (List (String × dtoDef)) :=
  match schemaProxy.Schema with
  | none => some []
  | some schema =>
    match buildEnumDTO name (some schema) with
    | some enumDTO => some [(name, enumDTO)]
    | none =>
      match additionalPropertiesAlias fuel (some schema) resolver with
      | none => none
      | some (some aliasType) =>
        some [(name, { TypeName := toExportedName name, Alias := aliasType })]
      | some none =>
        if isUnionSchema (some schema) then
          (buildUnionDTO fuel name schema resolver).map (fun dto => [(name, dto)])
        else
          match buildObjectDTO fuel name schema resolver [] with
          | none => none
          | some (dto, helpers) => some ((name, dto) :: helpers)

/-- The loop of main over the schemas of the loaded documents, in load
order, skipping the names of `skipSchemas`: every definition written. -/
def buildAllTypes (fuel : Nat) (skipSchemas : List (String × Bool))
    (resolver : Option SchemaResolver) :
    List (String × SchemaProxy) → Option (List (String × dtoDef))
  | [] => some []
  | (name, schema) :: rest =>
    if (mapGet skipSchemas name).getD false then
      buildAllTypes fuel skipSchemas resolver rest
    else
      match buildTypes fuel name schema resolver,
            buildAllTypes fuel skipSchemas resolver rest with
      | some defs, some more => some (defs ++ more)
      | _, _ => none

/-! ## Sample inputs -/

/-- A reference to a schema named `Missing`. -/
def missingRef : SchemaProxy := .mk (some "#/components/schemas/Missing") none

/-- A resolver in which no schema is registered. -/
def emptyResolver : SchemaResolver := { Schemas := [] }

/-- The schema `type: integer, enum: [1, 2], x-enumNames: [Low, High]`. -/
def lowHighEnum : Schema :=
  { Typ := ["integer"],
    Enum := [some (.mk .ScalarNode "!!int" "1" []), some (.mk .ScalarNode "!!int" "2" [])],
    Extensions := some [("x-enumNames", some (.mk .SequenceNode "!!seq" ""
      [some (.mk .ScalarNode "!!str" "Low" []), some (.mk .ScalarNode "!!str" "High" [])]))] }

/-! ## Notions used to state the properties -/

/-- The names of the declared properties of a schema pointer. -/
def propertyNames (s : Option Schema) : List String :=
  match declaredProperties s with
  | none => []
  | some props => props.map Prod.fst

/-- The names of the properties declared by a schema itself and by its allOf
members. -/
def declaredNames (schema : Schema) : List String :=
  propertyNames (some schema) ++ schema.AllOf.flatMap (fun m => propertyNames m.Schema)

/-- The required list of a schema pointer. -/
def requiredOf (s : Option Schema) : List String :=
  match s with
  | none => []
  | some sch => sch.Required

/-- The names in the required lists of a schema itself and of its allOf
members. -/
def allRequired (schema : Schema) : List String :=
  schema.Required ++ schema.AllOf.flatMap (fun m => requiredOf m.Schema)

/-- The invariant of the merge for optionality: every field is stored under
its own name and is optional unless its name is required; the fields of the
declared properties seen so far (`seen`) are optional exactly when their name
is not required. -/
def OptInv (required : List (String × Bool)) (seen : List String) (st : mergeState) : Prop :=
  (∀ k f, mapGet st.fields k = some f →
      f.Name = k ∧ (f.Optional = false → isRequired required k = true)) ∧
  (∀ k, k ∈ seen → ∃ f, mapGet st.fields k = some f ∧ f.Optional = !isRequired required k)

/-- An allOf member that declares the property `status` and requires it. -/
def statusMember : SchemaProxy :=
  .mk none (some { Typ := ["object"], Required := ["status"],
                   Properties := some [("status", .mk none (some { Typ := ["string"] }))] })

/-- An allOf member without properties that is a union of a variant titled
`status` and an integer variant. -/
def unionMember : SchemaProxy :=
  .mk none (some { OneOf := [.mk none (some { Title := "status", Typ := ["string"] }),
                             .mk none (some { Typ := ["integer"] })] })

/-- The declaring member first, the union second. -/
def statusFirst : Schema := { AllOf := [statusMember, unionMember] }

/-- The union first, the declaring member second. -/
def unionFirst : Schema := { AllOf := [unionMember, statusMember] }

/-- The field `status` of the definitions built from statusFirst and unionFirst. -/
def statusField : fieldDef :=
  { Name := "status", GoName := "Status", GoType := "string", Optional := false,
    Tag := buildPulumiTag "status" false }

/-- The field `integer` of the definitions built from statusFirst and unionFirst. -/
def integerField : fieldDef :=
  { Name := "integer", GoName := "Integer", GoType := "*int64", Optional := true,
    Tag := buildPulumiTag "integer" true }

/-- Every entry of the first cache is an entry of the second. -/
def Extends (h h1 : Helpers) : Prop :=
  ∀ k v, mapGet h k = some v → mapGet h1 k = some v

/-- The key under which resolvePropertyType looks up and stores the helper of
an inline property schema: the type name of its enumeration, or the helper
name of a composite; `none` when the property needs no helper. -/
def helperKey (parentName propName : String) (schema : Schema) : Option String :=
  if isSingleRefAllOf schema then none
  else
    match buildEnumDTO (helperTypeName parentName propName) (some schema) with
    | some enumDTO => some enumDTO.TypeName
    | none =>
      if hasComposition schema then some (helperTypeName parentName propName) else none

/-- The merge state with another helper cache. -/
def withHelpers (st : mergeState) (helpers : Helpers) : mergeState :=
  { fields := st.fields, order := st.order, helpers := helpers }

/-- An inline property schema `anyOf: [{type: string}, {$ref: Missing}]`. -/
def barUnion : SchemaProxy :=
  .mk none (some { AnyOf := [.mk none (some { Typ := ["string"] }), missingRef] })

/-- A helper cache that already holds a definition under the key `FooBar`. -/
def cachedFooBar : Helpers := [("FooBar", { TypeName := "FooBar", Alias := "string" })]

/-- The object schema with the property `bar`, an inline union, and the
property `baz`, a reference to `Missing`. -/
def fooObject : Schema :=
  { Typ := ["object"], Properties := some [("bar", barUnion), ("baz", missingRef)] }

/-- The resolver built from one document with the schema `Foo`. -/
def fooOnlyResolver : SchemaResolver :=
  { Schemas := [("Foo", .mk none (some fooObject))] }

/-- The helper that buildObjectDTO mints for the property `bar` of `Foo`. -/
def fooBarHelper : dtoDef :=
  { TypeName := "FooBar",
    Fields := [{ Name := "string", GoName := "String", GoType := "*string", Optional := true,
                 Tag := buildPulumiTag "string" true },
               { Name := "Missing", GoName := "Missing", GoType := "*Missing", Optional := true,
                 Tag := buildPulumiTag "missing" true }],
    HasAnnotate := true }

/-- The helper cache that buildObjectDTO leaves for `Foo`. -/
def fooHelpers : Helpers := [("FooBar", fooBarHelper)]

/-- The definition that buildObjectDTO returns for `Foo`. -/
def fooDTO : dtoDef :=
  { TypeName := "Foo",
    Fields := [{ Name := "bar", GoName := "Bar", GoType := "*FooBar", Optional := true,
                 Tag := buildPulumiTag "bar" true, Annotate := true },
               { Name := "baz", GoName := "Baz", GoType := "*Missing", Optional := true,
                 Tag := buildPulumiTag "baz" true }],
    HasAnnotate := true }

/-- The type string begins with `*`. -/
def leadingStar (t : String) : Bool := startsWithStr t "*"

/-- The built-in type names that goTypeForSchema returns. -/
def builtinTypes : List String := ["any", "string", "int", "int64", "float64", "bool"]

/-- The forms of the type strings that goTypeForSchema returns: a built-in, the
canonical form of the name of a reference, the type name of a registered
enumeration that is referenced, and sequences and string-keyed maps of these. -/
inductive GoType (resolver : Option SchemaResolver) : String → Prop
  | builtin (t : String) : t ∈ builtinTypes → GoType resolver t
  | named (ref : String) : GoType resolver (toExportedName (RefToSchemaName ref))
  | enumRef (ref : String) (sch : Schema) (enumDTO : dtoDef) :
      (Lookup resolver (RefToSchemaName ref)).Schema = some sch →
      buildEnumDTO (RefToSchemaName ref) (some sch) = some enumDTO →
      GoType resolver enumDTO.TypeName
  | seq (t : String) : GoType resolver t → GoType resolver ("[]" ++ t)
  | map (t : String) : GoType resolver t → GoType resolver ("map[string]" ++ t)

/-- Every name registered in the resolver has a non-empty canonical form. -/
def canonicalKeys (resolver : Option SchemaResolver) : Bool :=
  match resolver with
  | none => true
  | some res => (mapKeys res.Schemas).all (fun k => toExportedName k != "")

/-- The invariant of the merge for the optional wrapper: no field type begins
with two `*`, and the type of a required field begins with none. -/
def NoStarInv (st : mergeState) : Prop :=
  ∀ k f, mapGet st.fields k = some f →
    leadingStar (stripOptionalType f.GoType) = false ∧
    (f.Optional = false → leadingStar f.GoType = false)

/-- The names of `order` are the keys of the map `fields`. -/
def OrderInv (st : mergeState) : Prop :=
  ∀ k, k ∈ st.order ↔ ∃ f, mapGet st.fields k = some f

/-- An enumeration registered under the name `_`, with the companion name
`**aB` for its only literal. -/
def starEnum : Schema :=
  { Typ := ["string"],
    Enum := [some (.mk .ScalarNode "!!str" "a" [])],
    Extensions := some [("x-enumNames", some (.mk .SequenceNode "!!seq" ""
      [some (.mk .ScalarNode "!!str" "**aB" [])]))] }

/-- The resolver in which `_` is the only registered schema. -/
def starResolver : SchemaResolver := { Schemas := [("_", .mk none (some starEnum))] }

/-- An allOf member that declares the required property `status`, a
reference to the schema `_`. -/
def starMember : SchemaProxy :=
  .mk none (some { Typ := ["object"], Required := ["status"],
                   Properties :=
                     some [("status", .mk (some "#/components/schemas/_") (some starEnum))] })

/-- The declaring member first, the union second. -/
def starFirst : Schema := { AllOf := [starMember, unionMember] }

/-- An empty schema `type: string` with a description. -/
def describedString : Schema := { Typ := ["string"], Description := "a note" }

/-- The list is empty or begins with an upper-case ASCII letter. -/
def startsUpper (l : List Char) : Bool :=
  match l with
  | [] => true
  | c :: _ => isUpperAscii c

/-- Every entry of the cache is stored under the type name of its definition,
and no key occurs twice. -/
def KeysOK (h : Helpers) : Prop :=
  (∀ k d, mapGet h k = some d → d.TypeName = k) ∧ (mapKeys h).Nodup

/-- The object schema `FooBar` with a string property `id`. -/
def fooBarObject : Schema :=
  { Typ := ["object"], Properties := some [("id", .mk none (some { Typ := ["string"] }))] }

/-- The resolver built from one document with the schemas `Foo` and `FooBar`. -/
def fooResolver : SchemaResolver :=
  { Schemas := [("Foo", .mk none (some fooObject)), ("FooBar", .mk none (some fooBarObject))] }

/-- Removes the leading `[]` and `map[string]` prefixes of a type string; the
first argument bounds the number of prefixes removed. -/
def stripSeqMap : Nat → List Char → List Char
  | 0, l => l
  | n + 1, l =>
    if "[]".data.isPrefixOf l then stripSeqMap n (l.drop 2)
    else if "map[string]".data.isPrefixOf l then stripSeqMap n (l.drop 11)
    else l

/-- The type string after removing a leading `*` and the leading `[]` and
`map[string]` prefixes. -/
def baseTypeName (t : String) : String :=
  String.mk (stripSeqMap t.length (stripOptionalType t).data)

/-- The runes of `l` after the final occurrence of `sep`; all of `l` when
`sep` does not occur. -/
def afterFinal (sep : Char) (l : List Char) : List Char :=
  (l.reverse.takeWhile (fun c => decide (c ≠ sep))).reverse

/-- The bare name of a reference string as the specification words it: the
substring after the final `/` when the string contains `/`, otherwise the
substring after `#` when it contains `#`, otherwise the string itself. -/
def refNameBySpec (ref : String) : String :=
  if '/' ∈ ref.data then String.mk (afterFinal '/' ref.data)
  else if '#' ∈ ref.data then String.mk (afterFinal '#' ref.data)
  else ref

/-- The variant name as the specification words it: the declared title of
the member when it has one, otherwise its reference name when it is a
reference, otherwise its primitive type name, otherwise `Variant<i+1>`. -/
def variantNameBySpec (idx : Nat) (schemaProxy : SchemaProxy) : String :=
  match schemaProxy.Schema with
  | some s =>
    if s.Title ≠ "" then s.Title
    else if schemaProxy.IsReference then RefToSchemaName schemaProxy.GetReference
    else
      match s.Typ with
      | t :: _ => t
      | [] => "Variant" ++ itoa (idx + 1)
  | none =>
    if schemaProxy.IsReference then RefToSchemaName schemaProxy.GetReference
    else "Variant" ++ itoa (idx + 1)

/-- A union member that refers to the schema `Pet`, whose title is `Animal`. -/
def petMember : SchemaProxy :=
  .mk (some "#/components/schemas/Pet") (some { Title := "Animal", Typ := ["object"] })

/-- The map-alias test as the specification words it: the declared type, if
any, is `object`; there are no declared named properties (none, or an empty
set); an additional-properties policy is declared. -/
def declaresMapAlias (s : Schema) : Bool :=
  (match s.Typ with
   | [] => true
   | t :: _ => decide (t = "object")) &&
  (match s.Properties with
   | none => true
   | some ps => ps.isEmpty) &&
  s.AdditionalProperties.isSome

/-- An additional-properties policy that admits values: a schema, or the
boolean `true`. -/
def permitsAdditional : DynamicValue SchemaProxy → Bool
  | .A a => !a.isNil
  | .B b => b

/-- An object schema that forbids additional properties. -/
def closedObject : Schema := { Typ := ["object"], AdditionalProperties := some (.B false) }

/-- The schema `type: object, additionalProperties: {type: string}`. -/
def stringMap : Schema :=
  { Typ := ["object"],
    AdditionalProperties := some (.A (.mk none (some { Typ := ["string"] }))) }

/-- The test of EnumBaseType for a base type other than `string`: the first
declared type is integer, number or boolean. -/
def numericOrBoolean (s : Schema) : Bool :=
  match s.Typ with
  | [] => false
  | t :: _ => t = "integer" || t = "number" || t = "boolean"

/-- A property schema without a declared type whose default is the integer
scalar `5`. -/
def untypedFive : SchemaProxy :=
  .mk none (some { Default := some (.mk Kind.ScalarNode "!!int" "5" []) })

/-- A property of type array whose default is a sequence node. -/
def tagsProperty : SchemaProxy :=
  .mk none (some { Description := "the tags", Typ := ["array"],
                   Default := some (.mk Kind.SequenceNode "!!seq" "" []) })

/-- A property of type integer whose default is the scalar `5`. -/
def sizeProperty : SchemaProxy :=
  .mk none (some { Description := "the size", Typ := ["integer"],
                   Default := some (.mk Kind.ScalarNode "!!int" "5" []) })

/-- The test that additionalPropertiesAlias makes before it reports an alias:
the first declared type, if any, is `object`; there are no declared named
properties; and the additional-properties policy admits values. -/
def mapAliasShape (s : Schema) : Bool :=
  (match s.Typ with
   | [] => true
   | t :: _ => decide (t = "object")) &&
  (match s.Properties with
   | none => true
   | some ps => ps.isEmpty) &&
  (match s.AdditionalProperties with
   | none => false
   | some ap => permitsAdditional ap)

/-- The part `Components` of a v3 document; `Schemas` is the ordered map of
its named schemas, `none` when the map is nil. -/
structure Components where
  Schemas : Option (List (String × SchemaProxy)) := none

/-- The document of a libopenapi.DocumentModel, with the member the generator
reads. -/
structure Document where
  Components : Option Components := none

/-- codegen.ModelEntry; `Model` is `none` for a nil model pointer. -/
structure ModelEntry where
  Path : String := ""
  Model : Option Document := none

/-- The schemas that the loop of NewSchemaResolver reads from one entry:
nothing when the model, its components or their schema map is nil. -/
def ModelEntry.schemas (entry : ModelEntry) : List (String × SchemaProxy) :=
  match entry.Model with
  | none => []
  | some doc =>
    match doc.Components with
    | none => []
    | some comps =>
      match comps.Schemas with
      | none => []
      | some schemas => schemas

/-- The inner loop of NewSchemaResolver: `schemas[name] = schema` for the
pairs of one document, oldest first. -/
def registerSchemas (schemas : List (String × SchemaProxy)) :
    List (String × SchemaProxy) → List (String × SchemaProxy)
  | [] => schemas
  | (name, schema) :: rest => registerSchemas (mapSet schemas name schema) rest

/-- The outer loop of NewSchemaResolver over the entries, in load order. -/
def registerModels (schemas : List (String × SchemaProxy)) :
    List ModelEntry → List (String × SchemaProxy)
  | [] => schemas
  | entry :: rest => registerModels (registerSchemas schemas entry.schemas) rest

/-- codegen.NewSchemaResolver -/
def NewSchemaResolver (models : List ModelEntry) : SchemaResolver :=
  { Schemas := registerModels [] models }

/-- The schema that a list of pairs gives to a name: that of the last pair
with the name. -/
def lastBinding (name : String) : List (String × SchemaProxy) → Option SchemaProxy
  | [] => none
  | (k, v) :: rest =>
    match lastBinding name rest with
    | some w => some w
    | none => if k = name then some v else none

/-- The entry `defines` the name: its schema map has the name as a key. -/
def ModelEntry.defines (entry : ModelEntry) (name : String) : Bool :=
  decide (name ∈ mapKeys entry.schemas)

/-- A document with one schema. -/
def oneSchemaEntry (file name : String) (schema : SchemaProxy) : ModelEntry :=
  { Path := file, Model := some { Components := some { Schemas := some [(name, schema)] } } }

/-- An inline member of primitive type string. -/
def stringMember : SchemaProxy := .mk none (some { Typ := ["string"] })

/-- An inline member of primitive type integer. -/
def integerMember : SchemaProxy := .mk none (some { Typ := ["integer"] })

/-- An inline member of primitive type boolean. -/
def booleanMember : SchemaProxy := .mk none (some { Typ := ["boolean"] })

/-- A schema with both anyOf and oneOf members. -/
def valueUnion : Schema :=
  { AnyOf := [stringMember, integerMember], OneOf := [booleanMember] }

/-- The maximal runs of runes of a text that are not white space, in order:
the pieces between its white-space runes, without the empty pieces. -/
def nonSpaceRuns (l : List Char) : List (List Char) :=
  (l.splitOnP isSpaceRune).filter (fun w => !w.isEmpty)

/-- The text has no two adjacent white-space runes. -/
def noDoubleSpace : List Char → Bool
  | a :: b :: rest => !(isSpaceRune a && isSpaceRune b) && noDoubleSpace (b :: rest)
  | _ => true

/-- The exported name that buildUnionDTO derives for the member at `idx`,
before it looks at the names seen so far. -/
def variantBaseName (idx : Nat) (variant : SchemaProxy) : String :=
  if toExportedName (unionVariantName idx variant) = "" then "Variant" ++ itoa (idx + 1)
  else toExportedName (unionVariantName idx variant)

/-- The derived names of the members, from index `idx` on. -/
def variantBaseNames : List SchemaProxy → Nat → List String
  | [], _ => []
  | v :: rest, idx => variantBaseName idx v :: variantBaseNames rest (idx + 1)

/-- The name `b` is the name `a` followed by one or more decimal digits. -/
def digitExtension (b a : String) : Bool :=
  a.data.isPrefixOf b.data && decide (a.data.length < b.data.length) &&
    (b.data.drop a.data.length).all isDigitAscii

/-- The name that the loop of buildUnionDTO gives to a derived name that it
has seen `count` times before: the name itself the first time, the name
followed by the running count afterwards. -/
def numbered (b : String) (count : Nat) : String :=
  if count = 0 then b else b ++ itoa (count + 1)

/-- The loop of buildUnionDTO on the derived names alone. -/
def dedupNames : List String → List (String × Nat) → List String
  | [], _ => []
  | b :: rest, seen =>
    match mapGet seen b with
    | some count => (b ++ itoa (count + 1)) :: dedupNames rest (mapSet seen b (count + 1))
    | none => b :: dedupNames rest (mapSet seen b 1)

/-- The number that a string of decimal digits denotes. -/
def digitsValue (l : List Char) : Nat :=
  l.foldl (fun a c => 10 * a + (c.toNat - 48)) 0

/-- An inline member of type string with the title `String2`. -/
def titledString2 : SchemaProxy := .mk none (some { Title := "String2", Typ := ["string"] })

/-- A union of a member titled `String2` and two untitled string members. -/
def clashUnion : Schema := { OneOf := [titledString2, stringMember, stringMember] }

/-- A union of two untitled string members. -/
def twoStrings : Schema := { OneOf := [stringMember, stringMember] }

/-! ## Resource definitions (gen.controlresources.go) -/

/-- codegen.LowerCamel. The first rune is replaced by the first rune of
strings.ToLower of the string made of it, which is the rune unicode.ToLower
gives. The case tables of the package unicode are no part of this repository:
the mapping of a rune to its lower case is the parameter `toLower` here and in
the functions that call LowerCamel. On the ASCII runes it is lowerRune, which
the examples pass. -/
def LowerCamel (toLower : Char → Char) (name : String) : String :=
  match name.data with
  | [] => ""
  | r :: rest => String.mk (toLower r :: rest)

/-- codegen.ControlFieldSpec; `Typ` is the member `Type`, `Default` is `none`
for a nil node. -/
structure ControlFieldSpec where
  Name : String := ""
  Typ : String := ""
  Description : String := ""
  Default : Option YamlNode := none

/-- codegen.ControlResourceSpec -/
structure ControlResourceSpec where
  Package : String := ""
  APIPackage : String := ""
  WithoutWorkspace : Bool := false
  WithCustomGenerators : Bool := false
  Input : List ControlFieldSpec := []
  Output : List ControlFieldSpec := []

/-- The Go test strings.Contains for a pattern of one rune. -/
def containsRune (s : String) (c : Char) : Bool := decide (c ∈ s.data)

/-- The Go function strings.TrimPrefix for a pattern of one rune. -/
def trimPrefixRune (s : String) (c : Char) : String :=
  match s.data with
  | [] => s
  | r :: rest => if r = c then String.mk rest else s

namespace ControlResources

/-- The struct resourceField; `Typ` is the member `Type`. -/
structure resourceField where
  Name : String := ""
  Typ : String := ""
  Tag : String := ""
  Desc : String := ""
  Default : String := ""
  Optional : Bool := false
  HasDefault : Bool := false
  Annotate : Bool := false
  deriving DecidableEq, Repr

/-- The struct resourceDef. -/
structure resourceDef where
  Name : String := ""
  Package : String := ""
  APIPackage : String := ""
  APIPackageID : String := ""
  WithoutWorkspace : Bool := false
  WithCustomGenerators : Bool := false
  Inputs : List resourceField := []
  Outputs : List resourceField := []
  ResourceDesc : String := ""
  ArgsAnnotateLines : List String := []
  StateAnnotateLines : List String := []
  deriving DecidableEq, Repr

/-- The property `name` among the declared properties of a schema: the read
`schema.Properties.Get(name)` guarded by `schema.Properties != nil`. -/
def getProperty (schema : Schema) (name : String) : Option SchemaProxy :=
  match schema.Properties with
  | none => none
  | some props => mapGet props name

/-- The loop of findPropertySchema over the allOf members. -/
def findInAllOf (name : String) : List SchemaProxy → SchemaProxy
  | [] => .nil
  | allOf :: rest =>
    match allOf.Schema with
    | none => findInAllOf name rest
    | some allOfSchema =>
      match getProperty allOfSchema name with
      | some prop => prop
      | none => findInAllOf name rest

/-- The function findPropertySchema; the result `.nil` is the nil pointer. -/
def findPropertySchema (schema : Option Schema) (name : String)
    (_resolver : Option SchemaResolver) : SchemaProxy :=
  match schema with
  | none => .nil
  | some s =>
    match getProperty s name with
    | some prop => prop
    | none => findInAllOf name s.AllOf

/-- The function lookupResourcePropertyType. -/
def lookupResourcePropertyType (toLower : Char → Char) (resourceName fieldName : String)
    (resolver : Option SchemaResolver) : String :=
  match resolver with
  | none => ""
  | some _ =>
    match Lookup resolver resourceName with
    | .nil => ""
    | resourceSchema =>
      match resourceSchema.Schema with
      | none => ""
      | some schema =>
        match findPropertySchema (some schema) (LowerCamel toLower fieldName) resolver with
        | .nil => ""
        | propSchema =>
          if propSchema.IsReference then RefToSchemaName propSchema.GetReference
          else
            match propSchema.Schema with
            | none => ""
            | some prop =>
              if isSingleRefAllOf prop then RefToSchemaName (prop.AllOf.headD .nil).GetReference
              else ""

/-- The function resolveControlType. -/
def resolveControlType (toLower : Char → Char)
    (resourceName fieldName : String) (resolver : Option SchemaResolver) :
    String :=
  let propType := lookupResourcePropertyType toLower resourceName fieldName resolver
  if propType ≠ "" then propType
  else if resolver.isSome && !(Lookup resolver fieldName).isNil then fieldName
  else if resolver.isSome && !(Lookup resolver (resourceName ++ fieldName)).isNil then
    resourceName ++ fieldName
  else fieldName

def qualifySchemaType (typeName : String) : String :=
  if typeName = "" then "any" else "schemas." ++ typeName

def isRequiredInput (name : String) : Bool := decide (name = "Spec")

def buildControlTag (toLower : Char → Char) (name : String) (optional : Bool) : String :=
  if optional then LowerCamel toLower name ++ ",optional" else LowerCamel toLower name

/-- The lines that the loop of buildAnnotateLines appends for one field. -/
def annotateField (field : resourceField) : List String :=
  if !field.Annotate then []
  else
    (if field.Desc ≠ "" then
        ["a.Describe(&dto." ++ field.Name ++ ", " ++ goQuote field.Desc ++ ")"]
      else []) ++
    (if field.HasDefault then
        ["a.SetDefault(&dto." ++ field.Name ++ ", " ++ field.Default ++ ")"]
      else [])

def buildAnnotateLines (fields : List resourceField) : List String :=
  fields.flatMap annotateField

def schemaDescriptionString (name : String) (resolver : Option SchemaResolver) : String :=
  match resolver with
  | none => ""
  | some _ =>
    match (Lookup resolver name).Schema with
    | none => ""
    | some schema =>
      if NormalizeDescription schema.Description = "" then ""
      else goQuote (NormalizeDescription schema.Description)

/-- The function lookupResourceProperty; the result `.nil` is the nil pointer. -/
def lookupResourceProperty (toLower : Char → Char) (resourceName fieldName : String)
    (resolver : Option SchemaResolver) : SchemaProxy :=
  match resolver with
  | none => .nil
  | some _ =>
    match (Lookup resolver resourceName).Schema with
    | none => .nil
    | some schema => findPropertySchema (some schema) (LowerCamel toLower fieldName) resolver

/-- The description of the schema that a reference names, as schemaDescription
reads it through the resolver. -/
def referencedDescription (ref : String) (resolver : Option SchemaResolver) : String :=
  match resolver with
  | none => ""
  | some _ =>
    match (Lookup resolver (RefToSchemaName ref)).Schema with
    | none => ""
    | some schema => schema.Description

/-- The function schemaDescription of the resource generator. -/
def schemaDescription (schemaProxy : SchemaProxy) (resolver : Option SchemaResolver) : String :=
  match schemaProxy with
  | .nil => ""
  | .mk (some ref) _ => referencedDescription ref resolver
  | .mk none none => ""
  | .mk none (some schema) =>
    if schema.Description ≠ "" then schema.Description
    else if schema.AllOf.length = 1 ∧ (schema.AllOf.headD .nil).IsReference then
      referencedDescription (schema.AllOf.headD .nil).GetReference resolver
    else ""

def propertyDescription (toLower : Char → Char)
    (resourceName fieldName : String) (resolver : Option SchemaResolver) :
    String :=
  match lookupResourceProperty toLower resourceName fieldName resolver with
  | .nil => ""
  | prop => NormalizeDescription (schemaDescription prop resolver)

def propertyDefaultLiteral (toLower : Char → Char) (resourceName fieldName : String)
    (resolver : Option SchemaResolver) : String × Bool :=
  match lookupResourceProperty toLower resourceName fieldName resolver with
  | .nil => ("", false)
  | prop => DefaultValueLiteral prop

def defaultLiteralFromNode (typeName : String) (node : Option YamlNode) : String × Bool :=
  match node with
  | none => ("", false)
  | some n =>
    if n.Kind = Kind.MappingNode ∨ n.Kind = Kind.SequenceNode then ("", false)
    else if trimPrefixRune typeName '*' = "string" then (goQuote n.Value, true)
    else if trimPrefixRune typeName '*' ∈ ["int", "int64", "float32", "float64", "bool"] then
      (if n.Tag = "!!str" then (goQuote n.Value, true) else (n.Value, true))
    else
      (if n.Tag = "!!str" then (goQuote n.Value, true) else (n.Value, true))

/-- The test `hasOverride` of buildResourceDef. -/
def hasOverride (field : ControlFieldSpec) : Bool :=
  decide (field.Typ ≠ "") || decide (field.Description ≠ "") || field.Default.isSome

/-- The description, the default literal, its presence and the annotation
flag that both loops of buildResourceDef compute for a field. -/
def fieldNotes (toLower : Char → Char)
    (name : String) (resolver : Option SchemaResolver) (field : ControlFieldSpec) :
    String × String × Bool × Bool :=
  if hasOverride field then
    if field.Description ≠ "" then
      (NormalizeDescription field.Description,
       (defaultLiteralFromNode field.Typ field.Default).1,
       (defaultLiteralFromNode field.Typ field.Default).2, true)
    else ("", "", false, false)
  else
    (propertyDescription toLower name field.Name resolver,
     (propertyDefaultLiteral toLower name field.Name resolver).1,
     (propertyDefaultLiteral toLower name field.Name resolver).2, true)

/-- The type name `typeName` that both loops of buildResourceDef compute. -/
def fieldTypeName (toLower : Char → Char)
    (name : String) (resolver : Option SchemaResolver) (field : ControlFieldSpec) :
    String :=
  if field.Typ = "" then resolveControlType toLower name field.Name resolver else field.Typ

/-- The body of the loop of buildResourceDef over `spec.Input`. -/
def inputField (toLower : Char → Char)
    (name : String) (resolver : Option SchemaResolver) (input : ControlFieldSpec) :
    resourceField :=
  let optional :=
    if hasOverride input && decide (input.Typ ≠ "") then containsRune input.Typ '*'
    else !isRequiredInput input.Name
  let fieldType :=
    if hasOverride input && decide (input.Typ ≠ "") then input.Typ
    else if optional then "*" ++ qualifySchemaType (fieldTypeName toLower name resolver input)
    else qualifySchemaType (fieldTypeName toLower name resolver input)
  let notes := fieldNotes toLower name resolver input
  { Name := input.Name,
    Typ := fieldType,
    Tag := buildControlTag toLower input.Name optional,
    Desc := notes.1,
    Default := notes.2.1,
    HasDefault := notes.2.2.1,
    Annotate := notes.2.2.2 }

/-- The body of the loop of buildResourceDef over `spec.Output`. -/
def outputField (toLower : Char → Char)
    (name : String) (resolver : Option SchemaResolver) (output : ControlFieldSpec) :
    resourceField :=
  let optional :=
    if hasOverride output && decide (output.Typ ≠ "") then containsRune output.Typ '*'
    else false
  let fieldType :=
    if hasOverride output && decide (output.Typ ≠ "") then output.Typ
    else qualifySchemaType (fieldTypeName toLower name resolver output)
  let notes := fieldNotes toLower name resolver output
  { Name := output.Name,
    Typ := fieldType,
    Tag := buildControlTag toLower output.Name optional,
    Desc := notes.1,
    Default := notes.2.1,
    Optional := optional,
    HasDefault := notes.2.2.1,
    Annotate := notes.2.2.2 }

/-- The function buildResourceDef. -/
def buildResourceDef (toLower : Char → Char) (name : String) (spec : ControlResourceSpec)
    (resolver : Option SchemaResolver) : resourceDef :=
  let inputs := spec.Input.map (inputField toLower name resolver)
  let outputs := spec.Output.map (outputField toLower name resolver)
  { Name := name,
    Package := spec.Package,
    APIPackage := spec.APIPackage,
    APIPackageID := String.mk (afterFinal '/' spec.APIPackage.data),
    WithoutWorkspace := spec.WithoutWorkspace,
    WithCustomGenerators := spec.WithCustomGenerators,
    Inputs := inputs,
    Outputs := outputs,
    ResourceDesc := schemaDescriptionString name resolver,
    ArgsAnnotateLines := buildAnnotateLines inputs,
    StateAnnotateLines := buildAnnotateLines outputs }

end ControlResources

/-- An override with the explicit type `[]*string`. -/
def tagsOverride : ControlFieldSpec := { Name := "Tags", Typ := "[]*string" }

/-- An override that supplies only the name `Status`. -/
def statusOverride : ControlFieldSpec := { Name := "Status" }

/-- An override that supplies only the name `Spec`. -/
def specOverride : ControlFieldSpec := { Name := "Spec" }

/-- An override with the explicit type `*string`. -/
def labelOverride : ControlFieldSpec := { Name := "Label", Typ := "*string" }

/-- An override with a type and the scalar default `5`, without description. -/
def sizeOverride : ControlFieldSpec :=
  { Name := "Size", Typ := "int", Default := some (.mk Kind.ScalarNode "!!int" "5" []) }

/-- An override with a description, a type and the scalar default `5`. -/
def describedSizeOverride : ControlFieldSpec :=
  { Name := "Size", Typ := "int", Description := "the  size",
    Default := some (.mk Kind.ScalarNode "!!int" "5" []) }

/-- The reference name that lookupResourcePropertyType reads off a property:
that of the property when it is a reference, that of its single allOf member
when that is a reference, otherwise the empty string. -/
def referenceName (prop : SchemaProxy) : String :=
  if prop.IsReference then RefToSchemaName prop.GetReference
  else
    match prop.Schema with
    | none => ""
    | some p =>
      if isSingleRefAllOf p then RefToSchemaName (p.AllOf.headD .nil).GetReference else ""

/-- A reference to the schema `ServerSpec`. -/
def serverSpecRef : SchemaProxy := .mk (some "#/components/schemas/ServerSpec") none

/-- An inline schema with the property `status`, a reference. -/
def statusHolder : SchemaProxy :=
  .mk none (some { Properties := some [("status", SchemaProxy.mk (some "ServerStatus") none)] })

/-- A resource schema with the own property `spec` and, in its second allOf
member, the property `status`, both references. -/
def serverSchema : Schema :=
  { Properties := some [("spec", serverSpecRef)], AllOf := [stringMember, statusHolder] }

/-- A resolver that knows `Server`, `Zone` and `ServerMetadata`. -/
def serverResolver : SchemaResolver :=
  { Schemas := [("Server", .mk none (some serverSchema)), ("Zone", stringMember),
      ("ServerMetadata", stringMember)] }

/-! ## Field overrides of the control manifest (codegen/utils.go) -/

/-- The record `raw` that UnmarshalYAML decodes a mapping node into; `Typ` is
the member `Type`. -/
structure rawFieldSpec where
  Name : String := ""
  Typ : String := ""
  Description : String := ""
  Default : Option YamlNode := none

/-- The positional reading of a mapping by UnmarshalYAML: the name is the
text of the first content node, the type that of the second. A nil content
node stands for the nil dereference of the Go code. -/
def positionalField (c : ControlFieldSpec) (value : YamlNode) : Except String ControlFieldSpec :=
  if value.Content.length < 2 then .error "invalid field mapping"
  else
    match value.Content with
    | some k :: some t :: _ => .ok { c with Name := k.Value, Typ := t.Value }
    | _ => .error "nil pointer dereference"

/-- ControlFieldSpec.UnmarshalYAML on the receiver `c`. The library call
`value.Decode(&raw)` is the parameter `decode`, `none` when it returns an
error. -/
def UnmarshalYAML (decode : YamlNode → Option rawFieldSpec) (c : ControlFieldSpec)
    (value : Option YamlNode) : Except String ControlFieldSpec :=
  match value with
  | none => .ok c
  | some v =>
    match v.Kind with
    | Kind.ScalarNode => .ok { c with Name := v.Value }
    | Kind.MappingNode =>
      match decode v with
      | some raw =>
        if raw.Name ≠ "" ∨ raw.Typ ≠ "" ∨ raw.Description ≠ "" ∨ raw.Default.isSome = true then
          .ok { Name := raw.Name, Typ := raw.Typ, Description := raw.Description,
                Default := raw.Default }
        else positionalField c v
      | none => positionalField c v
    | _ => .error "invalid field type"

/-- The members that the pairs of a mapping set in the record `raw`: the keys
name, type and description give the text of their value; other keys are
ignored. -/
def decodePairs : List (Option YamlNode) → rawFieldSpec → rawFieldSpec
  | some k :: some v :: rest, raw =>
    decodePairs rest
      (if k.Value = "name" then { raw with Name := v.Value }
       else if k.Value = "type" then { raw with Typ := v.Value }
       else if k.Value = "description" then { raw with Description := v.Value }
       else raw)
  | _, raw => raw

/-- Whether one of the keys of a mapping is `default`. -/
def hasDefaultKey : List (Option YamlNode) → Bool
  | some k :: _ :: rest => decide (k.Value = "default") || hasDefaultKey rest
  | _ => false

/-- The decoding of the yaml library on a mapping whose keys are scalars and
whose values under name, type and description are string scalars. A mapping
with the key `default` is not decoded: the library returns an error for a
scalar under that key, which it cannot store in the struct yaml.Node behind
the pointer `Default`. The function serves for the examples, which have no
such key; the properties are stated for every decoding function. -/
def decodeFieldMapping (value : YamlNode) : Option rawFieldSpec :=
  if hasDefaultKey value.Content then none
  else some (decodePairs value.Content { })

/-- A string scalar. -/
def strScalar (text : String) : YamlNode := .mk Kind.ScalarNode "!!str" text []

/-- The mapping `{name: ""}`. -/
def emptyNameMapping : YamlNode :=
  .mk Kind.MappingNode "!!map" "" [some (strScalar "name"), some (strScalar "")]

/-- The mapping `{name: Size, type: int}`. -/
def sizeMapping : YamlNode :=
  .mk Kind.MappingNode "!!map" ""
    [some (strScalar "name"), some (strScalar "Size"), some (strScalar "type"),
     some (strScalar "int")]

/-- The mapping `{Size: int}`. -/
def shortMapping : YamlNode :=
  .mk Kind.MappingNode "!!map" "" [some (strScalar "Size"), some (strScalar "int")]

/-- The source names of the members of a union, from index `idx` on. -/
def variantSourceNames : List SchemaProxy → Nat → List String
  | [], _ => []
  | v :: rest, idx => unionVariantName idx v :: variantSourceNames rest (idx + 1)

/-- The names that a schema pointer declares, in the order of declaration:
the names of its properties when it has a property map; otherwise, for a
union, the source names of its members; otherwise none. -/
def contributedNames (s : Option Schema) : List String :=
  match s with
  | none => []
  | some sch =>
    match sch.Properties with
    | some props => props.map Prod.fst
    | none => if isUnionSchema (some sch) then variantSourceNames (unionVariants sch) 0 else []

/-- The list without the repetitions of a name after its first occurrence. -/
def firstOccurrences : List String → List String
  | [] => []
  | x :: xs => x :: (firstOccurrences xs).filter (fun y => decide (y ≠ x))

/-- The names declared by a schema and then by its allOf members in member
order, each at its first declaration. -/
def declarationOrder (schema : Schema) : List String :=
  firstOccurrences
    (contributedNames (some schema) ++ schema.AllOf.flatMap (fun m => contributedNames m.Schema))

/-- The slice `order` after a name is declared: the name is appended when it
is new. -/
def appendNew (order : List String) (name : String) : List String :=
  if name ∈ order then order else order ++ [name]

/-- An object that declares `b` and `a`, with allOf members that declare `a`
and `c`, and `b` and `d`. -/
def orderSample : Schema :=
  { Properties := some [("b", stringMember), ("a", integerMember)],
    AllOf := [SchemaProxy.mk none (some { Properties := some [("a", stringMember), ("c", stringMember)] }),
      SchemaProxy.mk none (some { Properties := some [("b", stringMember), ("d", booleanMember)] })] }

/-- A manifest entry with two inputs and two outputs. -/
def serverSpec : ControlResourceSpec :=
  { Package := "compute", APIPackage := "secapi/compute", Input := [specOverride, labelOverride],
    Output := [statusOverride, tagsOverride] }

/-! ## References between schemas -/

/-- The proxy is an immediate part of the schema: its item schema, one of its
allOf members, its additional-properties schema, or one of its properties. -/
inductive Part : Schema → SchemaProxy → Prop
  | items {s : Schema} {a : SchemaProxy} : s.Items = some (.A a) → Part s a
  | allOf {s : Schema} {m : SchemaProxy} : m ∈ s.AllOf → Part s m
  | additional {s : Schema} {a : SchemaProxy} : s.AdditionalProperties = some (.A a) → Part s a
  | property {s : Schema} {props : List (String × SchemaProxy)} {k : String} {p : SchemaProxy} :
      s.Properties = some props → (k, p) ∈ props → Part s p

/-- The proxy refers to the schema name: it is a reference with that name, or
it is inline and one of the parts of its schema refers to the name. -/
inductive Refers : SchemaProxy → String → Prop
  | ref {r : String} {x : Option Schema} : Refers (.mk (some r) x) (RefToSchemaName r)
  | part {s : Schema} {q : SchemaProxy} {name : String} :
      Part s q → Refers q name → Refers (.mk none (some s)) name

/-- The schema registered under `a` reaches the name `b` in one step: one of
its parts refers to `b`, through items, allOf, additional properties or
properties. -/
def RefEdge (resolver : Option SchemaResolver) (a b : String) : Prop :=
  ∃ s q, (Lookup resolver a).Schema = some s ∧ Part s q ∧ Refers q b

/-- The schema set has no reference cycle: no name reaches itself in one or
more steps. -/
def Acyclic (resolver : Option SchemaResolver) : Prop :=
  ∀ name, ¬ Relation.TransGen (RefEdge resolver) name name

/-- The call of goTypeForSchema on the proxy returns, whatever the flag, once
the bound on the recursion is large enough. -/
def goTypeReturns (resolver : Option SchemaResolver) (p : SchemaProxy) : Prop :=
  ∃ n, ∀ fuel, n ≤ fuel → ∀ allowUnion,
    (goTypeForSchema fuel p resolver allowUnion).isSome = true

/-- The call of resolvePropertyType on the proxy returns, whatever the names
and the helper cache, once the bound on the recursion is large enough. -/
def resolveReturns (resolver : Option SchemaResolver) (p : SchemaProxy) : Prop :=
  ∃ n, ∀ fuel, n ≤ fuel → ∀ parentName propName helpers,
    (resolvePropertyType fuel parentName propName p resolver helpers).isSome = true

/-- The call of buildObjectDTO on the schema returns, whatever the name and
the helper cache, once the bound on the recursion is large enough. -/
def buildReturns (resolver : Option SchemaResolver) (schema : Schema) : Prop :=
  ∃ n, ∀ fuel, n ≤ fuel → ∀ name helpers,
    (buildObjectDTO fuel name schema resolver helpers).isSome = true

/-- A reference to the schema `Item`. -/
def itemRef : SchemaProxy := .mk (some "#/components/schemas/Item") none

/-- An array of `Item` that declares the property `first`, an `Item`. -/
def itemList : Schema :=
  { Typ := ["array"], Items := some (.A itemRef), Properties := some [("first", itemRef)] }

/-- A resolver that knows `Items`, an array of `Item`, and the string `Item`. -/
def listResolver : SchemaResolver :=
  { Schemas := [("Items", .mk none (some itemList)), ("Item", stringMember)] }

/-- The calls of goTypeForSchema on the references to the name return. -/
def nameReturns (resolver : Option SchemaResolver) (name : String) : Prop :=
  ∀ ref x, RefToSchemaName ref = name → goTypeReturns resolver (.mk (some ref) x)

/-- A reference to the schema `Loop`. -/
def loopRef : SchemaProxy := .mk (some "Loop") none

/-- An array whose items are of the schema that it is registered under. -/
def loopList : Schema :=
  { Typ := ["array"], Items := some (.A loopRef), Properties := some [("first", stringMember)] }

/-- A resolver with the reference cycle `Loop`, through items. -/
def loopResolver : SchemaResolver := { Schemas := [("Loop", .mk none (some loopList))] }

/-! ## The identifier functions of the templates and of the provider configuration -/

/-- The ASCII branch of codegen.PascalCase: the loop over the bytes of the
string, with the state `upperNext`. -/
def pascalLoop : List Char → Bool → List Char
  | [], _ => []
  | c :: rest, upperNext =>
    if isAlnumAscii c then
      (if upperNext && isLowerAscii c then upperAscii c else c) :: pascalLoop rest false
    else pascalLoop rest true

/-- The other branch of codegen.PascalCase: the loop over the runes of the
string. The tables of the unicode package are parameters: `isLetterOrDigit`
is `unicode.IsLetter(r) || unicode.IsDigit(r)` and `toUpper` is
unicode.ToUpper. -/
def pascalLoopUnicode (isLetterOrDigit : Char → Bool) (toUpper : Char → Char) :
    List Char → Bool → List Char
  | [], _ => []
  | r :: rest, upperNext =>
    if isLetterOrDigit r then
      (if upperNext then toUpper r else r) ::
        pascalLoopUnicode isLetterOrDigit toUpper rest false
    else pascalLoopUnicode isLetterOrDigit toUpper rest true

/-- The test of PascalCase that no byte of the string is `0x80` or above. -/
def isAsciiString (s : String) : Bool := s.data.all (fun c => decide (c.toNat < 128))

/-- codegen.PascalCase -/
def PascalCase (isLetterOrDigit : Char → Bool) (toUpper : Char → Char) (s : String) : String :=
  if s = "" then ""
  else if isAsciiString s then String.mk (pascalLoop s.data true)
  else String.mk (pascalLoopUnicode isLetterOrDigit toUpper s.data true)

/-- The first ASCII letter or digit of a string, if there is one. -/
def firstAlnum (s : String) : Option Char := s.data.find? isAlnumAscii

/-- The loop of strings.FieldsFunc: `cur` is the field being read, reversed. -/
def fieldsFuncLoop (f : Char → Bool) : List Char → List Char → List (List Char)
  | [], cur => if cur.isEmpty then [] else [cur.reverse]
  | c :: rest, cur =>
    if f c then
      (if cur.isEmpty then fieldsFuncLoop f rest [] else cur.reverse :: fieldsFuncLoop f rest [])
    else fieldsFuncLoop f rest (c :: cur)

/-- The separator test that toGoIdentifier passes to strings.FieldsFunc. -/
def isIdentifierBreak (r : Char) : Bool :=
  (decide (r.toNat < 48) || decide (r.toNat > 57)) &&
  (decide (r.toNat < 65) || decide (r.toNat > 90)) &&
  (decide (r.toNat < 97) || decide (r.toNat > 122))

/-- Computes strings.ToUpper on one ASCII rune. -/
def upperRune (r : Char) : Char := if isLowerAscii r then upperAscii r else r

/-- What the loop of toGoIdentifier writes for one part: the part in lower
case with its first byte in upper case. The parts hold ASCII letters and
digits only. -/
def titlePart (part : List Char) : List Char :=
  match part.map lowerRune with
  | [] => []
  | c :: rest => upperRune c :: rest

/-- The function toGoIdentifier of the configuration generator. -/
def toGoIdentifier (s : String) : String :=
  String.mk ((fieldsFuncLoop isIdentifierBreak s.data []).flatMap titlePart)

/-! ## The mock server (mockserver/foundation/compute/v1/server.go)

The package `models` is generated code; its types are given here with the
members that server.go reads and writes. The other members of an instance
are the value `Body` of a type parameter, the constants of the package are
parameters of the functions, and `time.Now()` is the parameter `now`. -/

/-- The type models.StatusCondition. -/
structure StatusCondition where
  LastTransitionAt : Nat
  Message : Option String
  Reason : Option String
  State : String
  deriving DecidableEq, Repr

/-- The type models.InstanceStatus; `Conditions` is `none` for a nil slice. -/
structure InstanceStatus where
  Conditions : Option (List StatusCondition) := none
  PowerState : String := ""
  State : Option String := none
  deriving DecidableEq, Repr

/-- The type models.RegionalWorkspaceResourceMetadata. -/
structure ResourceMetadata where
  ApiVersion : String := ""
  CreatedAt : Nat := 0
  Kind : String := ""
  LastModifiedAt : Nat := 0
  Name : String := ""
  Provider : String := ""
  Region : String := ""
  Resource : String := ""
  ResourceVersion : Int := 0
  Tenant : String := ""
  Verb : String := ""
  Workspace : String := ""
  deriving DecidableEq, Repr

/-- The type models.Instance; `Metadata` and `Status` are pointers. -/
structure Instance (B : Type) where
  Metadata : Option ResourceMetadata := none
  Status : Option InstanceStatus := none
  Body : B
  deriving DecidableEq, Repr

/-- The map `instances` of the server. -/
abbrev Store (B : Type) := List (String × Instance B)

/-- The function instanceKey. -/
def instanceKey (tenant workspace name : String) : String :=
  tenant ++ "-" ++ workspace ++ "-" ++ name

/-- The function setInstanceState; `powerOff` is the constant
models.InstanceStatusPowerStateOff. -/
def setInstanceState {B : Type} (powerOff : String) (now : Nat) (inst : Instance B)
    (state : String) : Instance B :=
  let status : InstanceStatus :=
    match inst.Status with
    | none => { Conditions := some [], PowerState := powerOff }
    | some st => st
  let conditions : List StatusCondition := status.Conditions.getD []
  if status.State = some state then
    { inst with Status := some { status with Conditions := some conditions } }
  else
    { inst with
      Status := some { status with
        State := some state,
        Conditions := some (conditions ++
          [{ LastTransitionAt := now,
             Message := some ("Instance is now in " ++ state ++ " state"),
             Reason := some "stateChange",
             State := state }]) } }

/-- The body of the goroutine that scheduleInstanceStateTransition starts, as
it runs after the delay: one step on the store, taken while the lock of the
server is held. -/
def stateTransition {B : Type} (powerOff : String) (now : Nat) (store : Store B)
    (tenant workspace name : String) (version : Int) (state : String) : Store B :=
  match mapGet store (instanceKey tenant workspace name) with
  | none => store
  | some inst =>
    match inst.Metadata with
    | none => store
    | some metadata =>
      if metadata.ResourceVersion ≠ version then store
      else mapSet store (instanceKey tenant workspace name)
        (setInstanceState powerOff now inst state)

/-- The reply of GetInstance: the instance found, or `none` for the status
not found. -/
def GetInstance {B : Type} (store : Store B) (tenant workspace name : String) :
    Option (Instance B) :=
  mapGet store (instanceKey tenant workspace name)

/-- Map removal `delete(m, k)`. -/
def mapDelete {V : Type} : List (String × V) → String → List (String × V)
  | [], _ => []
  | (k1, v) :: rest, k => if k1 = k then rest else (k1, v) :: mapDelete rest k

/-- The store after DeleteInstance and whether the instance was found. -/
def DeleteInstance {B : Type} (store : Store B) (tenant workspace name : String) :
    Store B × Bool :=
  match mapGet store (instanceKey tenant workspace name) with
  | none => (store, false)
  | some _ => (mapDelete store (instanceKey tenant workspace name), true)

/-- The constants of the package `models` that CreateOrUpdateInstance uses:
four resource states and the power state off. -/
structure ModelConstants where
  Pending : String
  Creating : String
  Active : String
  Updating : String
  PowerOff : String

/-- The value of an int64 after an arithmetic step: the integer wrapped into
the range from `-2^63` to `2^63 - 1`. -/
def wrapInt64 (x : Int) : Int := (x + 2 ^ 63) % 2 ^ 64 - 2 ^ 63

/-- A call of scheduleInstanceStateTransition: the version captured, the
delay in milliseconds and the state to set. -/
structure Scheduled where
  tenant : String
  workspace : String
  name : String
  version : Int
  delay : Nat
  state : String
  deriving DecidableEq, Repr

/-- The string `tenants/<tenant>/workspaces/<workspace>/instances/<name>`. -/
def resourcePath (tenant workspace name : String) : String :=
  "tenants/" ++ tenant ++ "/workspaces/" ++ workspace ++ "/instances/" ++ name

/-- The handler CreateOrUpdateInstance after the request body is bound to
`inst`: the store it leaves and the transitions it schedules, in order. The
readings of the clock are parameters: `now` is the one of the handler, `t1`
and `t2` are those of the first and second call of setInstanceState. -/
def CreateOrUpdateInstance {B : Type} (consts : ModelConstants) (now t1 t2 : Nat)
    (store : Store B) (tenant workspace name : String) (inst : Instance B) :
    Store B × List Scheduled :=
  match mapGet store (instanceKey tenant workspace name) with
  | none =>
    let created : Instance B :=
      { inst with
        Metadata := some
          { ApiVersion := "v1", CreatedAt := now, Kind := "instance", LastModifiedAt := now,
            Name := name, Provider := "seca.compute", Region := "global",
            Resource := resourcePath tenant workspace name, ResourceVersion := 1,
            Tenant := tenant, Verb := "put", Workspace := workspace } }
    (mapSet store (instanceKey tenant workspace name)
        (setInstanceState consts.PowerOff t1 created consts.Pending),
      [{ tenant := tenant, workspace := workspace, name := name, version := 1, delay := 100,
         state := consts.Creating },
       { tenant := tenant, workspace := workspace, name := name, version := 1, delay := 600,
         state := consts.Active }])
  | some existing =>
    let store1 := mapSet store (instanceKey tenant workspace name)
      (setInstanceState consts.PowerOff t1 existing consts.Active)
    let metadata0 : ResourceMetadata :=
      match existing.Metadata with
      | some m => m
      | none => { }
    let bumped := wrapInt64 (metadata0.ResourceVersion + 1)
    let metadata : ResourceMetadata :=
      { metadata0 with
        ApiVersion := "v1", Kind := "instance", Name := name, Provider := "seca.compute",
        Region := "global", Resource := resourcePath tenant workspace name, Tenant := tenant,
        Verb := "put", Workspace := workspace,
        CreatedAt := if metadata0.CreatedAt = 0 then now else metadata0.CreatedAt,
        LastModifiedAt := now,
        ResourceVersion := if bumped = 0 then 1 else bumped }
    let updated : Instance B := { inst with Metadata := some metadata }
    (mapSet store1 (instanceKey tenant workspace name)
        (setInstanceState consts.PowerOff t2 updated consts.Updating),
      [{ tenant := tenant, workspace := workspace, name := name, version := metadata.ResourceVersion,
         delay := 500, state := consts.Active }])

/-- The transition fires: stateTransition with the data of the call that
scheduled it. -/
def fire {B : Type} (consts : ModelConstants) (now : Nat) (store : Store B) (t : Scheduled) :
    Store B :=
  stateTransition consts.PowerOff now store t.tenant t.workspace t.name t.version t.state

/-- The constants with the names of the states as their values. -/
def sampleConstants : ModelConstants :=
  { Pending := "pending", Creating := "creating", Active := "active", Updating := "updating",
    PowerOff := "off" }

/-- A request body without metadata and status. -/
def emptyBody : Instance Unit := { Body := () }

/-- The metadata that CreateOrUpdateInstance gives the instance `vm` of
tenant `t` and workspace `w` created at time 1. -/
def vmMetadata : ResourceMetadata :=
  { ApiVersion := "v1", CreatedAt := 1, Kind := "instance", LastModifiedAt := 1,
    Name := "vm", Provider := "seca.compute", Region := "global",
    Resource := resourcePath "t" "w" "vm", ResourceVersion := 1,
    Tenant := "t", Verb := "put", Workspace := "w" }

/-- The instance `vm` as CreateOrUpdateInstance stores it at time 1. -/
def vmPending : Instance Unit :=
  setInstanceState "off" 1 { Metadata := some vmMetadata, Body := () } "pending"

/-- The store after the instance `vm` is created at time 1. -/
def vmStore : Store Unit :=
  (CreateOrUpdateInstance sampleConstants 1 1 1 [] "t" "w" "vm" emptyBody).1

/-- The Go test strings.Contains on rune lists: `pat` occurs in the list as a
contiguous piece. -/
def hasInfix (pat : List Char) : List Char → Bool
  | [] => pat.isEmpty
  | c :: cs => pat.isPrefixOf (c :: cs) || hasInfix pat cs

/-- The text contains `,optional`. -/
def containsOptional (s : String) : Bool := hasInfix ",optional".data s.data

/-- The invariant of the merge for the tags: the tag of every field is built
from a tag name and the optional flag of the field, and the tag name is the
source name of the field or consists of ASCII letters and digits. -/
def TagInv (st : mergeState) : Prop :=
  ∀ k f, mapGet st.fields k = some f →
    ∃ n : String, f.Tag = buildPulumiTag n f.Optional ∧
      (n = k ∨ ∀ c, c ∈ n.data → isAlnumAscii c = true)

/-- An object with the required property `a,optional`, a string. -/
def commaObject : Schema :=
  { Typ := ["object"], Required := ["a,optional"],
    Properties := some [("a,optional", stringMember)] }

/-- An object with the required property `status`, a reference to the
schema `_`. -/
def starObject : Schema :=
  { Typ := ["object"], Required := ["status"],
    Properties := some [("status", SchemaProxy.mk (some "#/components/schemas/_") (some starEnum))] }

/-- The type string without its leading `*`s: the base type of a field. -/
def dropStars (t : String) : String := String.mk (t.data.dropWhile (fun c => c == '*'))

/-- The later field keeps what the earlier one has from its source: source
name, exported name, description, default and annotation flag; its type is
the earlier type without some of its leading `*`. Only the optional flag,
the leading `*` and the tag may differ. -/
def Keeps (first later : fieldDef) : Prop :=
  later.Name = first.Name ∧ later.GoName = first.GoName ∧
  later.Description = first.Description ∧ later.Default = first.Default ∧
  later.HasDefault = first.HasDefault ∧ later.Annotate = first.Annotate ∧
  ∃ j : Nat, first.GoType.data = List.replicate j '*' ++ later.GoType.data

/-- A schema whose property `status`, an integer with a description and a
default, is declared again by an allOf member, as a required string, and
folded in once more as the variant of a union. -/
def statusTwice : Schema :=
  { Properties := some [("status", sizeProperty)], AllOf := [statusMember, unionMember] }

/-- The store after `vm` is deleted from `vmStore`, and whether it was
found. -/
def vmDeleted : Store Unit × Bool := DeleteInstance vmStore "t" "w" "vm"

/-- The store after `vm` is created again at time 2, and the transitions that
this second creation schedules. -/
def vmRecreated : Store Unit × List Scheduled :=
  CreateOrUpdateInstance sampleConstants 2 2 2 vmDeleted.1 "t" "w" "vm" emptyBody

/-- The second transition that the first creation of `vm` scheduled: version
1, after 600 ms, to the state active. -/
def vmFirstActive : Scheduled :=
  { tenant := "t", workspace := "w", name := "vm", version := 1, delay := 600,
    state := "active" }

/-- A lowering that maps `É` to `é`, as unicode.ToLower does, and is lowerRune
on the other runes. -/
def accentLower (c : Char) : Char := if c = 'É' then 'é' else lowerRune c

/-- A resource schema with the own property `éclair`, a reference to the
schema `Pastry`. -/
def cakeSchema : Schema :=
  { Properties := some [("éclair", SchemaProxy.mk (some "#/components/schemas/Pastry") none)] }

/-- A resolver that knows `Cake` only. -/
def cakeResolver : SchemaResolver := { Schemas := [("Cake", .mk none (some cakeSchema))] }

/-! ## The references that a schema mentions -/

/-- The proxy is an immediate member of the schema: its item schema, one of
its allOf, anyOf or oneOf members, its additional-properties schema, or one
of its properties. -/
inductive Member : Schema → SchemaProxy → Prop
  | items {s : Schema} {a : SchemaProxy} : s.Items = some (.A a) → Member s a
  | allOf {s : Schema} {m : SchemaProxy} : m ∈ s.AllOf → Member s m
  | anyOf {s : Schema} {m : SchemaProxy} : m ∈ s.AnyOf → Member s m
  | oneOf {s : Schema} {m : SchemaProxy} : m ∈ s.OneOf → Member s m
  | additional {s : Schema} {a : SchemaProxy} :
      s.AdditionalProperties = some (.A a) → Member s a
  | property {s : Schema} {props : List (String × SchemaProxy)} {k : String} {p : SchemaProxy} :
      s.Properties = some props → (k, p) ∈ props → Member s p

/-- The reference string occurs in the proxy: the proxy is a reference with
that string, or the string occurs in a member of the schema that the proxy
holds. -/
inductive Occurs : SchemaProxy → String → Prop
  | here {r : String} {x : Option Schema} : Occurs (.mk (some r) x) r
  | inside {r : Option String} {s : Schema} {q : SchemaProxy} {ref : String} :
      Member s q → Occurs q ref → Occurs (.mk r (some s)) ref

/-- Every reference string that occurs in the proxy belongs to `R`. -/
def Within (R : String → Prop) (p : SchemaProxy) : Prop :=
  ∀ ref, Occurs p ref → R ref

/-- The reference strings that the generator can meet when it builds the
definition of `schema`: those that occur in the schema, and those that occur
in a schema that the resolver registers. -/
def Mentioned (resolver : Option SchemaResolver) (schema : Schema) (ref : String) : Prop :=
  Occurs (.mk none (some schema)) ref ∨ ∃ name, Occurs (Lookup resolver name) ref

/-- The type strings over the references of `R`: a built-in, the canonical
form of the name of a reference of `R`, and sequences and string-keyed maps
of these. -/
inductive TypeOver (R : String → Prop) : String → Prop
  | builtin (t : String) : t ∈ builtinTypes → TypeOver R t
  | named (ref : String) : R ref → TypeOver R (toExportedName (RefToSchemaName ref))
  | seq (t : String) : TypeOver R t → TypeOver R ("[]" ++ t)
  | map (t : String) : TypeOver R t → TypeOver R ("map[string]" ++ t)

/-- A built-in, the key of an entry of the helper cache, or the canonical form
of the name of a reference of `R`. -/
def KnownOver (R : String → Prop) (helpers : Helpers) (b : String) : Prop :=
  b ∈ builtinTypes ∨ b ∈ mapKeys helpers ∨
    ∃ ref, R ref ∧ b = toExportedName (RefToSchemaName ref)

/-- The names that a field type of the definitions built from `schema` may
refer to: a built-in; the key of an entry of the helper cache; the canonical
form of the name of a reference that occurs in the schema or in a registered
schema, where either the resolver registers that name or its lookup finds
nothing. -/
def KnownName (resolver : Option SchemaResolver) (schema : Schema) (helpers : Helpers)
    (b : String) : Prop :=
  b ∈ builtinTypes ∨ b ∈ mapKeys helpers ∨
    ∃ ref, Mentioned resolver schema ref ∧ b = toExportedName (RefToSchemaName ref) ∧
      ((∃ res, resolver = some res ∧ RefToSchemaName ref ∈ mapKeys res.Schemas) ∨
        Lookup resolver (RefToSchemaName ref) = .nil)

/-- Every field of every cached helper refers to a known name. -/
def CacheOK (R : String → Prop) (helpers : Helpers) : Prop :=
  ∀ k d, mapGet helpers k = some d →
    ∀ f, f ∈ d.Fields → KnownOver R helpers (baseTypeName f.GoType)

/-- The invariant of the merge for the field types: the wrapper invariant,
every field of the state and every field of a cached helper refers to a known
name. -/
def KnownInv (R : String → Prop) (st : mergeState) : Prop :=
  NoStarInv st ∧
  (∀ k f, mapGet st.fields k = some f → KnownOver R st.helpers (baseTypeName f.GoType)) ∧
  CacheOK R st.helpers

/-! # Theorems -/

/-! ## Maps -/

theorem mapGet_mapSet_same {V : Type} (m : List (String × V)) (k : String) (v : V) :
    mapGet (mapSet m k v) k = some v := by
  induction m with
  | nil => simp [mapSet, mapGet]
  | cons e rest ih =>
    obtain ⟨k1, v1⟩ := e
    by_cases h : k1 = k
    · simp [mapSet, mapGet, h]
    · simp [mapSet, mapGet, h, ih]

theorem mapGet_mapSet_other {V : Type} (m : List (String × V)) (k j : String) (v : V)
    (h : k ≠ j) : mapGet (mapSet m k v) j = mapGet m j := by
  induction m with
  | nil => simp [mapSet, mapGet, h]
  | cons e rest ih =>
    obtain ⟨k1, v1⟩ := e
    by_cases h1 : k1 = k
    · subst h1
      simp [mapSet, mapGet, h]
    · by_cases h2 : k1 = j
      · subst h2
        simp [mapSet, mapGet, h1]
      · simp [mapSet, mapGet, h1, h2, ih]

theorem mapGet_isSome_iff {V : Type} (m : List (String × V)) (k : String) :
    (∃ v, mapGet m k = some v) ↔ k ∈ mapKeys m := by
  induction m with
  | nil => simp [mapGet, mapKeys]
  | cons e rest ih =>
    obtain ⟨k1, v1⟩ := e
    by_cases h : k1 = k
    · simp [mapGet, mapKeys, h]
    · have h' : ¬ k = k1 := fun e => h e.symm
      simp only [mapGet, h, if_false, ih, mapKeys, List.map_cons, List.mem_cons, h', false_or]

theorem mapGet_none_iff {V : Type} (m : List (String × V)) (k : String) :
    mapGet m k = none ↔ k ∉ mapKeys m := by
  rw [← mapGet_isSome_iff]
  cases mapGet m k <;> simp

/-! ## Enumerations -/

theorem enumConstants_eq_zipWith (typeName baseType : String) :
    ∀ (nodes : List (Option YamlNode)) (names : List String),
      names.length = nodes.length →
      enumConstants typeName baseType nodes names =
        List.zipWith (fun node enumName =>
          ({ Name := enumConstName typeName enumName,
             Value := EnumValueLiteral baseType node } : enumValue)) nodes names := by
  intro nodes
  induction nodes with
  | nil => intro names _; simp [enumConstants]
  | cons node rest ih =>
    intro names hlen
    cases names with
    | nil => simp at hlen
    | cons nm names =>
      simp only [List.length_cons, Nat.add_right_cancel_iff] at hlen
      simp [enumConstants, ih names hlen]

/-- What buildEnumDTO returns for a name with a non-empty canonical form. -/
theorem buildEnumDTO_of_canonical (name : String) (s : Schema)
    (hname : toExportedName name ≠ "") :
    buildEnumDTO name (some s) =
      if s.Enum.length ≠ 0 ∧ (enumNamesFromSchema (some s)).length = s.Enum.length then
        some ({ TypeName := toExportedName name,
                Alias := EnumBaseType (some s),
                Enums := enumConstants (toExportedName name) (EnumBaseType (some s)) s.Enum
                          (enumNamesFromSchema (some s)) } : dtoDef)
      else none := by
  unfold buildEnumDTO
  by_cases hlen : s.Enum.length = 0
  · simp [hlen]
  · by_cases hN : (enumNamesFromSchema (some s)).length = s.Enum.length
    · simp [hlen, hN, hname]
    · simp [hlen, hN]

/-! ## C4: references that the resolver does not know -/

/-- C4 (counterexample). For the reference `#/components/schemas/Missing` and
a resolver without any schema, goTypeForSchema returns `Missing` and, with
whatever fuel and union flag, never `any`. -/
theorem C4_unregistered_reference_is_not_any :
    goTypeForSchema 1 missingRef (some emptyResolver) true = some "Missing" ∧
    ¬ ∃ fuel allowUnion,
        goTypeForSchema fuel missingRef (some emptyResolver) allowUnion = some "any" := by
  refine ⟨by decide, ?_⟩
  rintro ⟨fuel, allowUnion, h⟩
  cases fuel with
  | zero => simp [goTypeForSchema] at h
  | succ n =>
    have h2 : goTypeForSchema (n + 1) missingRef (some emptyResolver) allowUnion
        = some "Missing" := by
      simp only [goTypeForSchema, missingRef, emptyResolver, Lookup, mapGet, Option.getD,
        SchemaProxy.Schema]
      decide
    rw [h2] at h
    revert h
    decide

/-- C4 (amended). For every reference whose name is absent from the
resolver, goTypeForSchema returns, with any positive fuel, the canonical form
of the referenced name (toExportedName of RefToSchemaName), not `any`. -/
theorem C4_unregistered_reference_type (fuel : Nat) (ref : String) (sch : Option Schema)
    (res : SchemaResolver) (allowUnion : Bool)
    (habsent : mapGet res.Schemas (RefToSchemaName ref) = none) :
    goTypeForSchema (fuel + 1) (.mk (some ref) sch) (some res) allowUnion =
      some (toExportedName (RefToSchemaName ref)) := by
  simp [goTypeForSchema, Lookup, habsent, SchemaProxy.Schema]

theorem C4_unregistered_reference_type_witness :
    mapGet emptyResolver.Schemas (RefToSchemaName "#/components/schemas/Missing") = none ∧
    goTypeForSchema 1 (.mk (some "#/components/schemas/Missing") none) (some emptyResolver) true =
      some (toExportedName (RefToSchemaName "#/components/schemas/Missing")) :=
  ⟨rfl, C4_unregistered_reference_type 0 "#/components/schemas/Missing" none emptyResolver true rfl⟩

/-! ## C9, C10: what buildEnumDTO returns -/

theorem enumConstName_eq_self (typeName enumName : String) (hT : typeName ≠ "")
    (hE : enumName ≠ "") (h : enumConstName typeName enumName = enumName) :
    typeName.data.isPrefixOf enumName.data = true := by
  unfold enumConstName at h
  simp only [hE, hT, if_false, startsWithStr] at h
  by_cases hp : typeName.data.isPrefixOf enumName.data = true
  · exact hp
  · exfalso
    simp only [hp] at h
    have h2 := congrArg String.length h
    have h3 : typeName.length ≠ 0 := by
      intro h0
      apply hT
      cases typeName with
      | mk l =>
        cases l with
        | nil => rfl
        | cons a t => simp [String.length] at h0
    simp only [String.length_append, Bool.false_eq_true, if_false] at h2
    omega

/-- C9 (counterexample). For the schema `type: integer, enum: [1, 2],
x-enumNames: [Low, High]` no name makes buildEnumDTO return constants named
`Low` and `High`; for the name `Level` the constants are `LevelLow = 1` and
`LevelHigh = 2`. -/
theorem C9_constants_are_not_the_bare_names :
    (¬ ∃ name d, buildEnumDTO name (some lowHighEnum) = some d ∧
        d.Enums.map (fun e => e.Name) = ["Low", "High"]) ∧
    (buildEnumDTO "Level" (some lowHighEnum)).map (fun d => d.Enums) =
      some [{ Name := "LevelLow", Value := "1" }, { Name := "LevelHigh", Value := "2" }] := by
  refine ⟨?_, by decide⟩
  rintro ⟨name, d, hd, hnames⟩
  have hN : enumNamesFromSchema (some lowHighEnum) = ["Low", "High"] := by decide
  have hlenE : lowHighEnum.Enum.length = 2 := rfl
  have hLow : enumTypeFromName "Low" = "" := by decide
  by_cases hne : toExportedName name = ""
  · unfold buildEnumDTO at hd
    simp [hN, hlenE, hne, hLow] at hd
  · rw [buildEnumDTO_of_canonical name lowHighEnum hne] at hd
    simp only [hN, hlenE] at hd
    simp only [List.length_cons, List.length_nil] at hd
    norm_num at hd
    subst hd
    have hEnum : lowHighEnum.Enum =
        [some (.mk .ScalarNode "!!int" "1" []), some (.mk .ScalarNode "!!int" "2" [])] := rfl
    simp only [hEnum, enumConstants, List.map_cons, List.map_nil, List.headD_cons,
      List.tail_cons, List.cons.injEq, and_true] at hnames
    obtain ⟨h1, h2⟩ := hnames
    have p1 := enumConstName_eq_self _ _ hne (by decide) h1
    have p2 := enumConstName_eq_self _ _ hne (by decide) h2
    have hdata : (toExportedName name).data ≠ [] := by
      intro h0
      apply hne
      cases hx : toExportedName name with
      | mk l =>
        rw [hx] at h0
        simp at h0
        rw [h0]
    cases hl : (toExportedName name).data with
    | nil => exact hdata hl
    | cons c t =>
      rw [hl] at p1 p2
      have q1 : c = 'L' := by
        have : ("Low".data) = 'L' :: ['o', 'w'] := rfl
        rw [this] at p1
        simp [List.isPrefixOf] at p1
        exact p1.1
      have q2 : c = 'H' := by
        have : ("High".data) = 'H' :: ['i', 'g', 'h'] := rfl
        rw [this] at p2
        simp [List.isPrefixOf] at p2
        exact p2.1
      rw [q1] at q2
      exact absurd q2 (by decide)

/-- The rule of enumConstName for a non-empty type name: the type name alone
for an empty companion name, the companion name as it is when it begins with
the type name, otherwise the type name followed by the companion name. -/
theorem enumConstName_rule (typeName enumName : String) (hT : typeName ≠ "") :
    enumConstName typeName enumName =
      if enumName = "" then typeName
      else if typeName.data.isPrefixOf enumName.data = true then enumName
      else typeName ++ enumName := by
  unfold enumConstName
  simp only [hT, if_false, startsWithStr]

/-- C9 (amended). For a schema with declared type integer, the two enum
literals 1 and 2 (not tagged as strings) and the companion names Low and High,
and for every name with a non-empty canonical form T, buildEnumDTO returns the
definition named T with base type `int` and exactly two constants, of values
1 and 2. The first is named T followed by `Low`, the second T followed by
`High`; the prefix T is left out only for a companion name that already
begins with T. -/
theorem C9_low_high_enum (name : String) (s : Schema) (n1 n2 : YamlNode) (rest : List String)
    (hname : toExportedName name ≠ "")
    (hT : s.Typ = "integer" :: rest)
    (hE : s.Enum = [some n1, some n2])
    (hv1 : n1.Value = "1") (ht1 : n1.Tag ≠ "!!str")
    (hv2 : n2.Value = "2") (ht2 : n2.Tag ≠ "!!str")
    (hN : enumNamesFromSchema (some s) = ["Low", "High"]) :
    buildEnumDTO name (some s) =
      some { TypeName := toExportedName name,
             Alias := "int",
             Enums :=
               [{ Name := if (toExportedName name).data.isPrefixOf ['L', 'o', 'w'] = true then "Low"
                          else toExportedName name ++ "Low",
                  Value := "1" },
                { Name := if (toExportedName name).data.isPrefixOf ['H', 'i', 'g', 'h'] = true
                          then "High" else toExportedName name ++ "High",
                  Value := "2" }] } := by
  rw [buildEnumDTO_of_canonical name s hname]
  have hB : EnumBaseType (some s) = "int" := by
    simp [EnumBaseType, hT]
  have hne : ("int" : String) ≠ "string" := by decide
  have hL : ("Low" : String) ≠ "" := by decide
  have hH : ("High" : String) ≠ "" := by decide
  have dL : ("Low" : String).data = ['L', 'o', 'w'] := rfl
  have dH : ("High" : String).data = ['H', 'i', 'g', 'h'] := rfl
  have e1 := enumConstName_rule (toExportedName name) "Low" hname
  have e2 := enumConstName_rule (toExportedName name) "High" hname
  rw [if_neg hL, dL] at e1
  rw [if_neg hH, dH] at e2
  simp [hE, hN, hB, enumConstants, EnumValueLiteral, hv1, hv2, ht1, ht2, hne, e1, e2]

theorem C9_low_high_enum_witness :
    buildEnumDTO "Level" (some lowHighEnum) =
      some { TypeName := "Level",
             Alias := "int",
             Enums := [{ Name := "LevelLow", Value := "1" },
                       { Name := "LevelHigh", Value := "2" }] } ∧
    buildEnumDTO "Lo" (some lowHighEnum) =
      some { TypeName := "Lo",
             Alias := "int",
             Enums := [{ Name := "Low", Value := "1" },
                       { Name := "LoHigh", Value := "2" }] } :=
  ⟨(C9_low_high_enum "Level" lowHighEnum (.mk .ScalarNode "!!int" "1" [])
      (.mk .ScalarNode "!!int" "2" []) [] (by decide) rfl rfl rfl (by decide) rfl (by decide)
      (by decide)).trans (by decide),
   (C9_low_high_enum "Lo" lowHighEnum (.mk .ScalarNode "!!int" "1" [])
      (.mk .ScalarNode "!!int" "2" []) [] (by decide) rfl rfl rfl (by decide) rfl (by decide)
      (by decide)).trans (by decide)⟩

/-- C10. For every schema and every name whose canonical form T is non-empty,
buildEnumDTO succeeds exactly when the enum list is non-empty and the
companion name list read by enumNamesFromSchema has the same length; on
success the type name is T and the constants are, in order and one per enum
literal, made of the i-th companion name and the i-th enum value. The name of
the i-th constant is T for an empty companion name, the companion name itself
when it begins with T, and otherwise T followed by the companion name; its
value is the literal of the i-th enum value: the value text of the node, in
Go quotes when the base type is string or the node is tagged as a string, and
two quotes for a nil node. -/
theorem C10_buildEnumDTO_succeeds_iff (name : String) (s : Schema)
    (hname : toExportedName name ≠ "") :
    ((buildEnumDTO name (some s)).isSome = true ↔
      (s.Enum ≠ [] ∧ (enumNamesFromSchema (some s)).length = s.Enum.length)) ∧
    ∀ d, buildEnumDTO name (some s) = some d →
      d.TypeName = toExportedName name ∧
      d.Enums.length = s.Enum.length ∧
      d.Enums = List.zipWith (fun node enumName =>
        ({ Name :=
             if enumName = "" then toExportedName name
             else if (toExportedName name).data.isPrefixOf enumName.data = true then enumName
             else toExportedName name ++ enumName,
           Value :=
             match node with
             | none => String.mk [dq, dq]
             | some n =>
               if EnumBaseType (some s) = "string" ∨ n.Tag = "!!str" then goQuote n.Value
               else n.Value } : enumValue))
        s.Enum (enumNamesFromSchema (some s)) := by
  rw [buildEnumDTO_of_canonical name s hname]
  have hnil : s.Enum.length ≠ 0 ↔ s.Enum ≠ [] := by
    rw [Ne, List.length_eq_zero]
  constructor
  · by_cases hc : s.Enum.length ≠ 0 ∧ (enumNamesFromSchema (some s)).length = s.Enum.length
    · rw [if_pos hc]
      simp only [Option.isSome_some, true_iff]
      exact ⟨hnil.mp hc.1, hc.2⟩
    · rw [if_neg hc]
      simp only [Option.isSome_none, Bool.false_eq_true, false_iff]
      intro h
      exact hc ⟨hnil.mpr h.1, h.2⟩
  · intro d hd
    by_cases hc : s.Enum.length ≠ 0 ∧ (enumNamesFromSchema (some s)).length = s.Enum.length
    · rw [if_pos hc] at hd
      simp only [Option.some.injEq] at hd
      subst hd
      have hz := enumConstants_eq_zipWith (toExportedName name) (EnumBaseType (some s))
        s.Enum (enumNamesFromSchema (some s)) hc.2
      refine ⟨rfl, ?_, ?_⟩
      · simp only [hz, List.length_zipWith, hc.2, Nat.min_self]
      · show enumConstants _ _ _ _ = _
        rw [hz]
        congr 1
        funext node enumName
        rw [enumConstName_rule _ _ hname]
        congr 1
        unfold EnumValueLiteral
        cases node with
        | none => rfl
        | some n =>
          by_cases hb : EnumBaseType (some s) = "string"
          · simp [hb]
          · by_cases ht : n.Tag = "!!str"
            · simp [hb, ht]
            · simp [hb, ht]
    · rw [if_neg hc] at hd
      exact absurd hd (by simp)

theorem C10_buildEnumDTO_succeeds_iff_witness :
    toExportedName "Level" ≠ "" ∧
    (buildEnumDTO "Level" (some lowHighEnum)).isSome = true ∧
    buildEnumDTO "Level" (some lowHighEnum) =
      some { TypeName := "Level", Alias := "int",
             Enums := [{ Name := "LevelLow", Value := "1" },
                       { Name := "LevelHigh", Value := "2" }] } ∧
    List.zipWith (fun node enumName =>
        ({ Name :=
             if enumName = "" then toExportedName "Level"
             else if (toExportedName "Level").data.isPrefixOf enumName.data = true then enumName
             else toExportedName "Level" ++ enumName,
           Value :=
             match node with
             | none => String.mk [dq, dq]
             | some n =>
               if EnumBaseType (some lowHighEnum) = "string" ∨ n.Tag = "!!str" then goQuote n.Value
               else n.Value } : enumValue))
        lowHighEnum.Enum (enumNamesFromSchema (some lowHighEnum)) =
      [{ Name := "LevelLow", Value := "1" }, { Name := "LevelHigh", Value := "2" }] :=
  ⟨by decide,
   (C10_buildEnumDTO_succeeds_iff "Level" lowHighEnum (by decide)).1.mpr
     ⟨by simp [lowHighEnum], by decide⟩,
   by decide,
   ((C10_buildEnumDTO_succeeds_iff "Level" lowHighEnum (by decide)).2
      { TypeName := "Level", Alias := "int",
        Enums := [{ Name := "LevelLow", Value := "1" },
                  { Name := "LevelHigh", Value := "2" }] } (by decide)).2.2.symm⟩

/-! ## The steps of the merge -/

/-- The field stored under `k` after a step that writes `field.Name`. -/
theorem addUnionField_get (st : mergeState) (field : fieldDef) (k : String) :
    mapGet (addUnionField st field).fields k =
      if field.Name = k then
        (match mapGet st.fields field.Name with
         | some existing => some (mergeExisting existing true (toLowerCamel field.GoName))
         | none => some (unionFieldEntry field))
      else mapGet st.fields k := by
  unfold addUnionField
  by_cases hk : field.Name = k
  · subst hk
    cases hg : mapGet st.fields field.Name <;> simp [mapGet_mapSet_same]
  · cases hg : mapGet st.fields field.Name <;> simp [mapGet_mapSet_other _ _ _ _ hk, hk]

theorem addUnionField_helpers (st : mergeState) (field : fieldDef) :
    (addUnionField st field).helpers = st.helpers := by
  unfold addUnionField
  cases mapGet st.fields field.Name <;> rfl

theorem foldl_addUnionField_helpers (fields : List fieldDef) :
    ∀ st : mergeState, (fields.foldl addUnionField st).helpers = st.helpers := by
  induction fields with
  | nil => intro st; rfl
  | cons f rest ih =>
    intro st
    rw [List.foldl_cons, ih, addUnionField_helpers]

/-- What a successful step of addProperty does: the property is resolved
against the helper cache of the state, and its field is created or merged. -/
theorem addProperty_spec
    {resolveProp : String → String → SchemaProxy → Helpers → Option (String × Helpers)}
    {fuel : Nat} {resolver : Option SchemaResolver} {required : List (String × Bool)}
    {parentName : String} {optOverride : Bool} {st st1 : mergeState}
    {propName : String} {propSchema : SchemaProxy}
    (hstep : addProperty resolveProp fuel resolver required parentName optOverride st
      propName propSchema = some st1) :
    ∃ goType0 annotate,
      resolveProp parentName propName propSchema st.helpers = some (goType0, st1.helpers) ∧
      isAnnotatableProperty fuel propSchema resolver = some annotate ∧
      st1.order = (match mapGet st.fields propName with
                   | some _ => st.order
                   | none => st.order ++ [propName]) ∧
      ∀ k, mapGet st1.fields k =
        if propName = k then
          (match mapGet st.fields propName with
           | some existing =>
             some (mergeExisting existing (optOverride || !isRequired required propName) propName)
           | none =>
             some (propertyFieldEntry propName propSchema goType0
               (optOverride || !isRequired required propName) annotate))
        else mapGet st.fields k := by
  unfold addProperty at hstep
  split at hstep
  · rename_i goType0 helpers1 annotate hres hann
    refine ⟨goType0, annotate, ?_, hann, ?_, ?_⟩
    · cases hg : mapGet st.fields propName <;>
        simp only [hg, Option.some.injEq] at hstep <;> subst hstep <;> exact hres
    · cases hg : mapGet st.fields propName <;>
        simp only [hg, Option.some.injEq] at hstep <;> subst hstep <;> rfl
    · intro k
      by_cases hk : propName = k
      · subst hk
        cases hg : mapGet st.fields propName <;>
          simp only [hg, Option.some.injEq] at hstep <;> subst hstep <;>
          simp [mapGet_mapSet_same]
      · cases hg : mapGet st.fields propName <;>
          simp only [hg, Option.some.injEq] at hstep <;> subst hstep <;>
          simp [mapGet_mapSet_other _ _ _ _ hk, hk]
  · exact absurd hstep (by simp)

theorem enumConstants_length (typeName baseType : String) :
    ∀ (nodes : List (Option YamlNode)) (names : List String),
      (enumConstants typeName baseType nodes names).length = nodes.length := by
  intro nodes
  induction nodes with
  | nil => intro names; rfl
  | cons n rest ih => intro names; simp [enumConstants, ih]

/-- The form of a definition returned by buildEnumDTO. -/
theorem buildEnumDTO_form {name : String} {s : Schema} {d : dtoDef}
    (h : buildEnumDTO name (some s) = some d) :
    ∃ T, T ≠ "" ∧ (toExportedName name ≠ "" → T = toExportedName name) ∧
      s.Enum.length ≠ 0 ∧ (enumNamesFromSchema (some s)).length = s.Enum.length ∧
      d = { TypeName := T, Alias := EnumBaseType (some s),
            Enums := enumConstants T (EnumBaseType (some s)) s.Enum
              (enumNamesFromSchema (some s)) } := by
  unfold buildEnumDTO at h
  simp only at h
  by_cases h1 : s.Enum.length = 0
  · simp [h1] at h
  · rw [if_neg h1] at h
    by_cases h2 : (enumNamesFromSchema (some s)).length = 0 ∨
        (enumNamesFromSchema (some s)).length ≠ s.Enum.length
    · rw [if_pos h2] at h
      exact absurd h (by simp)
    · rw [if_neg h2] at h
      have h3 : (enumNamesFromSchema (some s)).length = s.Enum.length := by
        by_contra hc
        exact h2 (Or.inr hc)
      by_cases h4 : (if toExportedName name = "" ∧ (enumNamesFromSchema (some s)).length > 0
          then enumTypeFromName ((enumNamesFromSchema (some s)).headD "")
          else toExportedName name) = ""
      · rw [if_pos h4] at h
        exact absurd h (by simp)
      · rw [if_neg h4] at h
        simp only [Option.some.injEq] at h
        refine ⟨_, h4, ?_, h1, h3, h.symm⟩
        intro hne
        have : ¬ (toExportedName name = "" ∧ (enumNamesFromSchema (some s)).length > 0) :=
          fun hc => hne hc.1
        rw [if_neg this]

theorem buildEnumDTO_shape {name : String} {schema : Option Schema} {d : dtoDef}
    (h : buildEnumDTO name schema = some d) :
    d.Fields = [] ∧ d.Alias = EnumBaseType schema ∧ d.Enums ≠ [] ∧ d.TypeName ≠ "" ∧
      (toExportedName name ≠ "" → d.TypeName = toExportedName name) := by
  cases schema with
  | none => simp [buildEnumDTO] at h
  | some s =>
    obtain ⟨T, hT, hname, hlen, _, hd⟩ := buildEnumDTO_form h
    subst hd
    refine ⟨rfl, rfl, ?_, hT, hname⟩
    intro hnil
    have := enumConstants_length T (EnumBaseType (some s)) s.Enum (enumNamesFromSchema (some s))
    simp only at hnil
    rw [hnil] at this
    exact hlen this.symm

/-! ## C1: optionality of merged fields -/

theorem isRequired_mergeRequired (names : List String) :
    ∀ (target : List (String × Bool)) (n : String),
      isRequired (mergeRequired target names) n = true ↔
        (isRequired target n = true ∨ n ∈ names) := by
  induction names with
  | nil => intro target n; simp [mergeRequired]
  | cons a rest ih =>
    intro target n
    rw [mergeRequired, ih]
    by_cases h : a = n
    · subst h
      simp [isRequired, mapGet_mapSet_same]
    · have h' : ¬ n = a := fun e => h e.symm
      simp [isRequired, mapGet_mapSet_other _ _ _ _ h, h']

theorem isRequired_mergeAllOfRequired (members : List SchemaProxy) :
    ∀ (target : List (String × Bool)) (n : String),
      isRequired (mergeAllOfRequired target members) n = true ↔
        (isRequired target n = true ∨ n ∈ members.flatMap (fun m => requiredOf m.Schema)) := by
  induction members with
  | nil => intro target n; simp [mergeAllOfRequired]
  | cons m rest ih =>
    intro target n
    unfold mergeAllOfRequired
    cases hm : m.Schema with
    | none => simp [ih, requiredOf, hm]
    | some a =>
      simp only [ih, isRequired_mergeRequired, List.flatMap_cons, List.mem_append, requiredOf, hm]
      tauto

/-- The map `required` of buildObjectDTO holds the names of allRequired. -/
theorem isRequired_iff_mem_allRequired (schema : Schema) (n : String) :
    isRequired (mergeAllOfRequired (requiredSet schema.Required) schema.AllOf) n = true ↔
      n ∈ allRequired schema := by
  rw [isRequired_mergeAllOfRequired, requiredSet, isRequired_mergeRequired]
  simp [allRequired, isRequired, mapGet]

theorem OptInv_mono {required : List (String × Bool)} {seen seen2 : List String}
    {st : mergeState} (h : OptInv required seen st) (hsub : ∀ k, k ∈ seen2 → k ∈ seen) :
    OptInv required seen2 st :=
  ⟨h.1, fun k hk => h.2 k (hsub k hk)⟩

theorem OptInv_addUnionField {required : List (String × Bool)} {seen : List String}
    {st : mergeState} (h : OptInv required seen st) (field : fieldDef) :
    OptInv required seen (addUnionField st field) := by
  refine ⟨?_, ?_⟩
  · intro k f hk
    rw [addUnionField_get] at hk
    by_cases hkn : field.Name = k
    · rw [if_pos hkn] at hk
      cases hg : mapGet st.fields field.Name with
      | none =>
        simp only [hg, Option.some.injEq] at hk
        subst hk
        exact ⟨hkn, by simp [unionFieldEntry]⟩
      | some existing =>
        simp only [hg, Option.some.injEq] at hk
        subst hk
        have hex := h.1 _ _ hg
        simp only [mergeExisting, Bool.and_true]
        exact ⟨hex.1.trans hkn, fun ho => hkn ▸ hex.2 ho⟩
    · rw [if_neg hkn] at hk
      exact h.1 k f hk
  · intro k hk
    obtain ⟨f, hf, hopt⟩ := h.2 k hk
    rw [addUnionField_get]
    by_cases hkn : field.Name = k
    · rw [if_pos hkn]
      subst hkn
      rw [hf]
      exact ⟨_, rfl, by simpa [mergeExisting] using hopt⟩
    · rw [if_neg hkn]
      exact ⟨f, hf, hopt⟩

theorem OptInv_foldl_addUnionField {required : List (String × Bool)} {seen : List String}
    (fields : List fieldDef) :
    ∀ {st : mergeState}, OptInv required seen st →
      OptInv required seen (fields.foldl addUnionField st) := by
  induction fields with
  | nil => intro st h; exact h
  | cons f rest ih =>
    intro st h
    exact ih (OptInv_addUnionField h f)

theorem OptInv_addProperty
    {resolveProp : String → String → SchemaProxy → Helpers → Option (String × Helpers)}
    {fuel : Nat} {resolver : Option SchemaResolver} {required : List (String × Bool)}
    {parentName : String} {seen : List String} {st st1 : mergeState}
    {propName : String} {propSchema : SchemaProxy}
    (h : OptInv required seen st)
    (hstep : addProperty resolveProp fuel resolver required parentName false st
      propName propSchema = some st1) :
    OptInv required (propName :: seen) st1 := by
  obtain ⟨goType0, annotate, _, _, _, hget⟩ := addProperty_spec hstep
  have hnew : ∃ f, mapGet st1.fields propName = some f ∧
      f.Name = propName ∧ f.Optional = !isRequired required propName := by
    rw [hget, if_pos rfl]
    cases hg : mapGet st.fields propName with
    | none => exact ⟨_, rfl, by simp [propertyFieldEntry]⟩
    | some existing =>
      have hex := h.1 _ _ hg
      refine ⟨_, rfl, hex.1, ?_⟩
      simp only [mergeExisting, Bool.false_or]
      cases hreq : isRequired required propName with
      | true => simp
      | false =>
        cases ho : existing.Optional with
        | true => simp
        | false =>
          have := hex.2 ho
          rw [hreq] at this
          exact absurd this (by simp)
  refine ⟨?_, ?_⟩
  · intro k f hk
    by_cases hkn : propName = k
    · subst hkn
      obtain ⟨f2, hf2, hname, hopt⟩ := hnew
      rw [hf2] at hk
      simp only [Option.some.injEq] at hk
      subst hk
      refine ⟨hname, fun ho => ?_⟩
      rw [ho] at hopt
      cases hreq : isRequired required propName with
      | true => rfl
      | false => simp [hreq] at hopt
    · rw [hget, if_neg hkn] at hk
      exact h.1 k f hk
  · intro k hk
    by_cases hkn : propName = k
    · subst hkn
      obtain ⟨f2, hf2, _, hopt⟩ := hnew
      exact ⟨f2, hf2, hopt⟩
    · rw [hget, if_neg hkn]
      have hk2 : k ∈ seen := by
        rcases List.mem_cons.mp hk with e | e
        · exact absurd e.symm hkn
        · exact e
      exact h.2 k hk2

theorem OptInv_addPropertyList
    {resolveProp : String → String → SchemaProxy → Helpers → Option (String × Helpers)}
    {fuel : Nat} {resolver : Option SchemaResolver} {required : List (String × Bool)}
    {parentName : String} (props : List (String × SchemaProxy)) :
    ∀ {seen : List String} {st st1 : mergeState}, OptInv required seen st →
      addPropertyList resolveProp fuel resolver required parentName false st props = some st1 →
      OptInv required (props.map Prod.fst ++ seen) st1 := by
  induction props with
  | nil =>
    intro seen st st1 h hstep
    simp only [addPropertyList, Option.some.injEq] at hstep
    subst hstep
    simpa using h
  | cons p rest ih =>
    intro seen st st1 h hstep
    obtain ⟨propName, propSchema⟩ := p
    unfold addPropertyList at hstep
    cases hone : addProperty resolveProp fuel resolver required parentName false st
        propName propSchema with
    | none => simp [hone] at hstep
    | some st2 =>
      simp only [hone] at hstep
      have h2 := ih (OptInv_addProperty h hone) hstep
      refine OptInv_mono h2 ?_
      intro k hk
      simp only [List.map_cons, List.cons_append, List.mem_cons, List.mem_append] at hk
      simp only [List.mem_append, List.mem_cons]
      tauto

theorem OptInv_addProperties
    {resolveProp : String → String → SchemaProxy → Helpers → Option (String × Helpers)}
    {fuel : Nat} {resolver : Option SchemaResolver} {required : List (String × Bool)}
    {parentName : String} {s : Option Schema} {seen : List String} {st st1 : mergeState}
    (h : OptInv required seen st)
    (hstep : addProperties resolveProp fuel resolver required parentName s false st = some st1) :
    OptInv required (propertyNames s ++ seen) st1 := by
  unfold addProperties at hstep
  unfold propertyNames
  cases hd : declaredProperties s with
  | some props =>
    simp only [hd] at hstep
    exact OptInv_addPropertyList props h hstep
  | none =>
    simp only [hd] at hstep
    simp only [List.nil_append]
    cases s with
    | none =>
      simp only [Option.some.injEq] at hstep
      subst hstep
      exact h
    | some sch =>
      simp only at hstep
      split at hstep
      · cases hu : buildUnionDTO fuel "" sch resolver with
        | none => simp [hu] at hstep
        | some unionDTO =>
          simp only [hu, Option.some.injEq] at hstep
          subst hstep
          exact OptInv_foldl_addUnionField _ h
      · simp only [Option.some.injEq] at hstep
        subst hstep
        exact h

theorem OptInv_addAllOf
    {resolveProp : String → String → SchemaProxy → Helpers → Option (String × Helpers)}
    {fuel : Nat} {resolver : Option SchemaResolver} {required : List (String × Bool)}
    {parentName : String} (members : List SchemaProxy) :
    ∀ {seen : List String} {st st1 : mergeState}, OptInv required seen st →
      addAllOf resolveProp fuel resolver required parentName st members = some st1 →
      OptInv required (members.flatMap (fun m => propertyNames m.Schema) ++ seen) st1 := by
  induction members with
  | nil =>
    intro seen st st1 h hstep
    simp only [addAllOf, Option.some.injEq] at hstep
    subst hstep
    simpa using h
  | cons m rest ih =>
    intro seen st st1 h hstep
    unfold addAllOf at hstep
    cases hone : addProperties resolveProp fuel resolver required parentName m.Schema false st with
    | none => simp [hone] at hstep
    | some st2 =>
      simp only [hone] at hstep
      have h2 := ih (OptInv_addProperties h hone) hstep
      refine OptInv_mono h2 ?_
      intro k hk
      simp only [List.flatMap_cons, List.mem_append] at hk
      simp only [List.mem_append]
      tauto

/-- A field of the result is stored in the map under some name of `order`. -/
theorem mem_orderedFields {st : mergeState} {f : fieldDef} (h : f ∈ orderedFields st) :
    ∃ k, k ∈ st.order ∧ mapGet st.fields k = some f := by
  unfold orderedFields at h
  rcases List.mem_filterMap.mp h with ⟨k, hk, hf⟩
  exact ⟨k, hk, hf⟩

/-- The shape of a successful run of buildObjectDTOWith: an early result
without fields, which does not depend on the helper cache and leaves it as it
is, or the merge of the schema and its allOf members. -/
theorem buildObjectDTOWith_cases
    {resolveProp : String → String → SchemaProxy → Helpers → Option (String × Helpers)}
    {fuel : Nat} {name : String} {schema : Schema} {resolver : Option SchemaResolver}
    {helpers : Helpers} {dto : dtoDef} {helpers1 : Helpers}
    (h : buildObjectDTOWith resolveProp fuel name schema resolver helpers = some (dto, helpers1)) :
    (dto.Fields = [] ∧ helpers1 = helpers ∧
      (∀ H, buildObjectDTOWith resolveProp fuel name schema resolver H = some (dto, H)) ∧
      (buildEnumDTO name (some schema) = some dto ∨
        (dto.Enums = [] ∧ dto.TypeName = toExportedName name))) ∨
    (buildEnumDTO name (some schema) = none ∧
      (∀ H, buildObjectDTOWith resolveProp fuel name schema resolver H =
        mergeFields resolveProp fuel name schema resolver H) ∧
      mergeFields resolveProp fuel name schema resolver helpers = some (dto, helpers1)) := by
  unfold buildObjectDTOWith at h
  unfold buildObjectDTOWith
  cases he : buildEnumDTO name (some schema) with
  | some enumDTO =>
    simp only [he, Option.some.injEq, Prod.mk.injEq] at h
    obtain ⟨h1, h2⟩ := h
    subst h1 h2
    left
    exact ⟨(buildEnumDTO_shape he).1, rfl, fun H => rfl, Or.inl rfl⟩
  | none =>
    simp only [he] at h
    cases ha : additionalPropertiesAlias fuel (some schema) resolver with
    | none => simp [ha] at h
    | some a =>
      cases a with
      | some aliasType =>
        simp only [ha, Option.some.injEq, Prod.mk.injEq] at h
        obtain ⟨h1, h2⟩ := h
        subst h1 h2
        left
        exact ⟨rfl, rfl, fun H => rfl, Or.inr ⟨rfl, rfl⟩⟩
      | none =>
        simp only [ha] at h
        cases hem : isEmptySchema fuel (some schema) resolver with
        | none => simp [hem] at h
        | some e =>
          cases e with
          | some typ =>
            simp only [hem] at h
            by_cases hdesc : NormalizeDescription schema.Description ≠ ""
            · rw [if_pos hdesc] at h
              simp only [Option.some.injEq, Prod.mk.injEq] at h
              obtain ⟨h1, h2⟩ := h
              subst h1 h2
              left
              exact ⟨rfl, rfl, fun H => by simp only [if_pos hdesc], Or.inr ⟨rfl, rfl⟩⟩
            · rw [if_neg hdesc] at h
              simp only [Option.some.injEq, Prod.mk.injEq] at h
              obtain ⟨h1, h2⟩ := h
              subst h1 h2
              left
              exact ⟨rfl, rfl, fun H => by simp only [if_neg hdesc], Or.inr ⟨rfl, rfl⟩⟩
          | none =>
            simp only [hem] at h
            right
            exact ⟨rfl, fun H => rfl, h⟩

/-- The two steps of a successful merge. -/
theorem mergeFields_cases
    {resolveProp : String → String → SchemaProxy → Helpers → Option (String × Helpers)}
    {fuel : Nat} {name : String} {schema : Schema} {resolver : Option SchemaResolver}
    {helpers : Helpers} {dto : dtoDef} {helpers1 : Helpers}
    (h : mergeFields resolveProp fuel name schema resolver helpers = some (dto, helpers1)) :
    ∃ st1 st2,
      addProperties resolveProp fuel resolver
        (mergeAllOfRequired (requiredSet schema.Required) schema.AllOf) name (some schema) false
        { fields := [], order := [], helpers := helpers } = some st1 ∧
      addAllOf resolveProp fuel resolver
        (mergeAllOfRequired (requiredSet schema.Required) schema.AllOf) name st1 schema.AllOf
        = some st2 ∧
      dto = { TypeName := toExportedName name,
              Fields := orderedFields st2,
              Description := NormalizeDescription schema.Description,
              HasAnnotate := true,
              AnnotateLines := buildAnnotateLines (NormalizeDescription schema.Description)
                (orderedFields st2) } ∧
      helpers1 = st2.helpers := by
  unfold mergeFields at h
  split at h
  · exact absurd h (by simp)
  · rename_i st1 hst1
    split at h
    · exact absurd h (by simp)
    · rename_i st2 hst2
      simp only [Option.some.injEq, Prod.mk.injEq] at h
      exact ⟨st1, st2, hst1, hst2, h.1.symm, h.2.symm⟩

/-- The optionality rule over any property resolver. -/
theorem buildObjectDTOWith_optional
    {resolveProp : String → String → SchemaProxy → Helpers → Option (String × Helpers)}
    {fuel : Nat} {name : String} {schema : Schema} {resolver : Option SchemaResolver}
    {helpers : Helpers} {dto : dtoDef} {helpers1 : Helpers}
    (h : buildObjectDTOWith resolveProp fuel name schema resolver helpers = some (dto, helpers1))
    (f : fieldDef) (hf : f ∈ dto.Fields) (hdecl : f.Name ∈ declaredNames schema) :
    (f.Optional = true ↔ f.Name ∉ allRequired schema) := by
  rcases buildObjectDTOWith_cases h with ⟨hnil, _, _⟩ | ⟨_, _, hm⟩
  · rw [hnil] at hf
    exact absurd hf (by simp)
  · obtain ⟨st1, st2, h1, h2, hdto, _⟩ := mergeFields_cases hm
    have hinv0 : OptInv (mergeAllOfRequired (requiredSet schema.Required) schema.AllOf) []
        { fields := [], order := [], helpers := helpers } :=
      ⟨fun k f hk => by simp [mapGet] at hk, fun k hk => by simp at hk⟩
    have hinv2 := OptInv_addAllOf schema.AllOf (OptInv_addProperties hinv0 h1) h2
    rw [hdto] at hf
    obtain ⟨k, _, hk⟩ := mem_orderedFields hf
    have hname := (hinv2.1 k f hk).1
    have hseen : f.Name ∈ schema.AllOf.flatMap (fun m => propertyNames m.Schema) ++
        (propertyNames (some schema) ++ []) := by
      unfold declaredNames at hdecl
      simp only [List.mem_append] at hdecl
      simp only [List.mem_append, List.append_nil]
      tauto
    obtain ⟨f2, hf2, hopt⟩ := hinv2.2 _ hseen
    rw [hname, hk] at hf2
    simp only [Option.some.injEq] at hf2
    subst hf2
    rw [hopt, ← isRequired_iff_mem_allRequired]
    cases isRequired (mergeAllOfRequired (requiredSet schema.Required) schema.AllOf) f.Name <;>
      simp

/-- The optionality rule for buildObjectDTO. -/
theorem buildObjectDTO_optional_iff {fuel : Nat} {name : String} {schema : Schema}
    {resolver : Option SchemaResolver} {helpers : Helpers} {dto : dtoDef} {helpers1 : Helpers}
    (h : buildObjectDTO fuel name schema resolver helpers = some (dto, helpers1))
    (f : fieldDef) (hf : f ∈ dto.Fields) (hdecl : f.Name ∈ declaredNames schema) :
    (f.Optional = true ↔ f.Name ∉ allRequired schema) := by
  cases fuel with
  | zero => simp [buildObjectDTO] at h
  | succ n =>
    unfold buildObjectDTO at h
    exact buildObjectDTOWith_optional h f hf hdecl

/-- C1. In a definition built by buildObjectDTO, a field whose name is a
declared property of the schema or of one of its allOf members is optional
exactly when the name occurs in none of the required lists of the schema and
of its allOf members; when it occurs in one of them the field is required. -/
theorem C1_optional_iff_not_required (fuel : Nat) (name : String) (schema : Schema)
    (resolver : Option SchemaResolver) (helpers : Helpers) (dto : dtoDef) (helpers1 : Helpers)
    (h : buildObjectDTO fuel name schema resolver helpers = some (dto, helpers1))
    (f : fieldDef) (hf : f ∈ dto.Fields) (hdecl : f.Name ∈ declaredNames schema) :
    (f.Optional = true ↔ f.Name ∉ allRequired schema) ∧
    (f.Name ∈ allRequired schema → f.Optional = false) := by
  have hiff := buildObjectDTO_optional_iff h f hf hdecl
  refine ⟨hiff, fun hreq => ?_⟩
  cases ho : f.Optional with
  | false => rfl
  | true => exact absurd hreq (hiff.mp ho)

theorem C1_optional_iff_not_required_witness :
    ((statusField.Optional = true ↔ statusField.Name ∉ allRequired unionFirst) ∧
     (statusField.Name ∈ allRequired unionFirst → statusField.Optional = false)) ∧
    (buildObjectDTO 2 "Thing" unionFirst none []).map (fun r => r.1.Fields) =
      some [statusField, integerField] :=
  ⟨C1_optional_iff_not_required 2 "Thing" unionFirst none []
      { TypeName := "Thing", Fields := [statusField, integerField], HasAnnotate := true } []
      (by decide) statusField (by decide) (by decide),
   by decide⟩

/-! ## The helper cache -/

theorem Extends_refl (h : Helpers) : Extends h h := fun _ _ hk => hk

theorem Extends_trans {h1 h2 h3 : Helpers} (h12 : Extends h1 h2) (h23 : Extends h2 h3) :
    Extends h1 h3 := fun k v hk => h23 k v (h12 k v hk)

/-- Storing under a key that is absent keeps every entry. -/
theorem Extends_mapSet_absent {h : Helpers} {k : String} (d : dtoDef)
    (habsent : mapGet h k = none) : Extends h (mapSet h k d) := by
  intro j v hj
  have hne : k ≠ j := by
    intro e
    rw [e, hj] at habsent
    exact absurd habsent (by simp)
  rw [mapGet_mapSet_other _ _ _ _ hne]
  exact hj

theorem Extends_mem_keys {h h1 : Helpers} (hext : Extends h h1) {k : String}
    (hk : k ∈ mapKeys h) : k ∈ mapKeys h1 := by
  obtain ⟨v, hv⟩ := (mapGet_isSome_iff h k).mpr hk
  exact (mapGet_isSome_iff h1 k).mp ⟨v, hext k v hv⟩

/-- Memoization: when the helper key of the property is in the cache, the key
is returned and the cache is left as it is. -/
theorem resolvePropertyTypeWith_cached
    (build : String → Schema → Helpers → Option (dtoDef × Helpers))
    (fuel : Nat) (resolver : Option SchemaResolver) (parentName propName : String)
    (schema : Schema) (helpers : Helpers) (key : String)
    (hkey : helperKey parentName propName schema = some key)
    (hin : key ∈ mapKeys helpers) :
    resolvePropertyTypeWith build fuel resolver parentName propName (.mk none (some schema))
      helpers = some (key, helpers) := by
  obtain ⟨v, hv⟩ := (mapGet_isSome_iff helpers key).mpr hin
  unfold helperKey at hkey
  unfold resolvePropertyTypeWith
  by_cases hs : isSingleRefAllOf schema = true
  · simp [hs] at hkey
  · simp only [hs, Bool.false_eq_true, if_false] at hkey ⊢
    cases he : buildEnumDTO (helperTypeName parentName propName) (some schema) with
    | some enumDTO =>
      simp only [he, Option.some.injEq] at hkey
      subst hkey
      simp only [hv]
    | none =>
      simp only [he] at hkey
      by_cases hc : hasComposition schema = true
      · simp only [hc, if_true, Option.some.injEq] at hkey
        subst hkey
        simp only [hc, if_true, hv]
      · simp [hc] at hkey

/-- A property with a helper key resolves to that key, and the key is in the
cache afterwards. -/
theorem resolvePropertyTypeWith_key
    {build : String → Schema → Helpers → Option (dtoDef × Helpers)}
    {fuel : Nat} {resolver : Option SchemaResolver} {parentName propName : String}
    {schema : Schema} {helpers helpers1 : Helpers} {key t : String}
    (hkey : helperKey parentName propName schema = some key)
    (hrun : resolvePropertyTypeWith build fuel resolver parentName propName
      (.mk none (some schema)) helpers = some (t, helpers1)) :
    t = key ∧ key ∈ mapKeys helpers1 := by
  unfold helperKey at hkey
  unfold resolvePropertyTypeWith at hrun
  by_cases hs : isSingleRefAllOf schema = true
  · simp [hs] at hkey
  · simp only [hs, Bool.false_eq_true, if_false] at hkey hrun
    cases he : buildEnumDTO (helperTypeName parentName propName) (some schema) with
    | some enumDTO =>
      simp only [he, Option.some.injEq] at hkey hrun
      subst hkey
      cases hg : mapGet helpers enumDTO.TypeName with
      | some d =>
        simp only [hg, Option.some.injEq, Prod.mk.injEq] at hrun
        obtain ⟨h1, h2⟩ := hrun
        subst h2
        exact ⟨h1.symm, (mapGet_isSome_iff _ _).mp ⟨d, hg⟩⟩
      | none =>
        simp only [hg, Option.some.injEq, Prod.mk.injEq] at hrun
        obtain ⟨h1, h2⟩ := hrun
        subst h2
        exact ⟨h1.symm, (mapGet_isSome_iff _ _).mp ⟨_, mapGet_mapSet_same _ _ _⟩⟩
    | none =>
      simp only [he] at hkey hrun
      by_cases hc : hasComposition schema = true
      · simp only [hc, if_true, Option.some.injEq] at hkey hrun
        subst hkey
        cases hg : mapGet helpers (helperTypeName parentName propName) with
        | some d =>
          simp only [hg, Option.some.injEq, Prod.mk.injEq] at hrun
          obtain ⟨h1, h2⟩ := hrun
          subst h2
          exact ⟨h1.symm, (mapGet_isSome_iff _ _).mp ⟨d, hg⟩⟩
        | none =>
          simp only [hg] at hrun
          by_cases hu : isUnionSchema (some schema) = true
          · simp only [hu, if_true] at hrun
            cases hb : buildUnionDTO fuel (helperTypeName parentName propName) schema resolver with
            | none => simp [hb] at hrun
            | some dto =>
              simp only [hb, Option.some.injEq, Prod.mk.injEq] at hrun
              obtain ⟨h1, h2⟩ := hrun
              subst h2
              exact ⟨h1.symm, (mapGet_isSome_iff _ _).mp ⟨_, mapGet_mapSet_same _ _ _⟩⟩
          · simp only [hu, Bool.false_eq_true, if_false] at hrun
            cases hb : build (helperTypeName parentName propName) schema helpers with
            | none => simp [hb] at hrun
            | some r =>
              obtain ⟨dto, h3⟩ := r
              simp only [hb, Option.some.injEq, Prod.mk.injEq] at hrun
              obtain ⟨h1, h2⟩ := hrun
              subst h2
              exact ⟨h1.symm, (mapGet_isSome_iff _ _).mp ⟨_, mapGet_mapSet_same _ _ _⟩⟩
      · simp [hc] at hkey

/-- A property without a helper key is resolved without the cache. -/
theorem resolvePropertyTypeWith_nokey
    (build : String → Schema → Helpers → Option (dtoDef × Helpers))
    (fuel : Nat) (resolver : Option SchemaResolver) (parentName propName : String)
    (schemaProxy : SchemaProxy)
    (hno : ∀ schema, schemaProxy = .mk none (some schema) →
      helperKey parentName propName schema = none) :
    ∃ r : Option String, ∀ H,
      resolvePropertyTypeWith build fuel resolver parentName propName schemaProxy H =
        r.map (fun t => (t, H)) := by
  cases schemaProxy with
  | nil => exact ⟨some "any", fun H => rfl⟩
  | mk ref sch =>
    cases ref with
    | some r =>
      exact ⟨goTypeForSchema fuel (.mk (some r) sch) resolver true, fun H => rfl⟩
    | none =>
      cases sch with
      | none => exact ⟨some "any", fun H => rfl⟩
      | some schema =>
        have hk := hno schema rfl
        unfold helperKey at hk
        by_cases hs : isSingleRefAllOf schema = true
        · refine ⟨goTypeForSchema fuel (schema.AllOf.headD .nil) resolver true, fun H => ?_⟩
          simp only [resolvePropertyTypeWith, hs, if_true]
        · simp only [hs, Bool.false_eq_true, if_false] at hk
          cases he : buildEnumDTO (helperTypeName parentName propName) (some schema) with
          | some enumDTO => simp [he] at hk
          | none =>
            simp only [he] at hk
            by_cases hc : hasComposition schema = true
            · simp [hc] at hk
            · refine ⟨goTypeForSchema fuel (.mk none (some schema)) resolver true, fun H => ?_⟩
              simp only [resolvePropertyTypeWith, hs, he, hc, Bool.false_eq_true, if_false]

/-- Whether an inline property has a helper key. -/
theorem helperKey_cases (parentName propName : String) (schemaProxy : SchemaProxy) :
    (∃ schema key, schemaProxy = .mk none (some schema) ∧
      helperKey parentName propName schema = some key) ∨
    (∀ schema, schemaProxy = .mk none (some schema) →
      helperKey parentName propName schema = none) := by
  cases schemaProxy with
  | nil => right; intro schema h; exact absurd h (by simp)
  | mk ref sch =>
    cases ref with
    | some r => right; intro schema h; simp at h
    | none =>
      cases sch with
      | none => right; intro schema h; simp at h
      | some schema =>
        cases hk : helperKey parentName propName schema with
        | none =>
          right
          intro s2 h
          simp only [SchemaProxy.mk.injEq, Option.some.injEq, true_and] at h
          rw [← h]
          exact hk
        | some key => left; exact ⟨schema, key, rfl, hk⟩

/-- Resolving again against a larger cache gives the same type and leaves
that cache as it is. -/
theorem resolvePropertyTypeWith_stable
    {build : String → Schema → Helpers → Option (dtoDef × Helpers)}
    {fuel : Nat} {resolver : Option SchemaResolver} {parentName propName : String}
    {schemaProxy : SchemaProxy} {helpers helpers1 : Helpers} {t : String}
    (hrun : resolvePropertyTypeWith build fuel resolver parentName propName schemaProxy helpers
      = some (t, helpers1))
    (H : Helpers) (hext : Extends helpers1 H) :
    resolvePropertyTypeWith build fuel resolver parentName propName schemaProxy H
      = some (t, H) := by
  rcases helperKey_cases parentName propName schemaProxy with ⟨schema, key, hp, hkey⟩ | hno
  · subst hp
    obtain ⟨ht, hin⟩ := resolvePropertyTypeWith_key hkey hrun
    subst ht
    exact resolvePropertyTypeWith_cached build fuel resolver parentName propName schema H t hkey
      (Extends_mem_keys hext hin)
  · obtain ⟨r, hr⟩ := resolvePropertyTypeWith_nokey build fuel resolver parentName propName
      schemaProxy hno
    rw [hr] at hrun ⊢
    cases r with
    | none => simp at hrun
    | some t2 =>
      simp only [Option.map_some', Option.some.injEq, Prod.mk.injEq] at hrun
      simp only [Option.map_some', hrun.1]

/-- The frame of one call: when the nested builds keep every entry of the
cache, so does the call. -/
theorem resolvePropertyTypeWith_frame
    {build : String → Schema → Helpers → Option (dtoDef × Helpers)}
    (hbuild : ∀ n s h d h1, build n s h = some (d, h1) → Extends h h1)
    {fuel : Nat} {resolver : Option SchemaResolver} {parentName propName : String}
    {schemaProxy : SchemaProxy} {helpers helpers1 : Helpers} {t : String}
    (hrun : resolvePropertyTypeWith build fuel resolver parentName propName schemaProxy helpers
      = some (t, helpers1)) :
    Extends helpers helpers1 := by
  rcases helperKey_cases parentName propName schemaProxy with ⟨schema, key, hp, hkey⟩ | hno
  · subst hp
    unfold helperKey at hkey
    unfold resolvePropertyTypeWith at hrun
    by_cases hs : isSingleRefAllOf schema = true
    · simp [hs] at hkey
    · simp only [hs, Bool.false_eq_true, if_false] at hkey hrun
      cases he : buildEnumDTO (helperTypeName parentName propName) (some schema) with
      | some enumDTO =>
        simp only [he] at hrun
        cases hg : mapGet helpers enumDTO.TypeName with
        | some d =>
          simp only [hg, Option.some.injEq, Prod.mk.injEq] at hrun
          rw [← hrun.2]
          exact Extends_refl _
        | none =>
          simp only [hg, Option.some.injEq, Prod.mk.injEq] at hrun
          rw [← hrun.2]
          exact Extends_mapSet_absent _ hg
      | none =>
        simp only [he] at hkey hrun
        by_cases hc : hasComposition schema = true
        · simp only [hc, if_true] at hrun
          cases hg : mapGet helpers (helperTypeName parentName propName) with
          | some d =>
            simp only [hg, Option.some.injEq, Prod.mk.injEq] at hrun
            rw [← hrun.2]
            exact Extends_refl _
          | none =>
            simp only [hg] at hrun
            by_cases hu : isUnionSchema (some schema) = true
            · simp only [hu, if_true] at hrun
              cases hb : buildUnionDTO fuel (helperTypeName parentName propName) schema
                  resolver with
              | none => simp [hb] at hrun
              | some dto =>
                simp only [hb, Option.some.injEq, Prod.mk.injEq] at hrun
                rw [← hrun.2]
                exact Extends_mapSet_absent _ hg
            · simp only [hu, Bool.false_eq_true, if_false] at hrun
              cases hb : build (helperTypeName parentName propName) schema helpers with
              | none => simp [hb] at hrun
              | some r =>
                obtain ⟨dto, h3⟩ := r
                simp only [hb, Option.some.injEq, Prod.mk.injEq] at hrun
                rw [← hrun.2]
                have h13 := hbuild _ _ _ _ _ hb
                intro j v hj
                have hne : helperTypeName parentName propName ≠ j := by
                  intro e
                  rw [e, hj] at hg
                  exact absurd hg (by simp)
                rw [mapGet_mapSet_other _ _ _ _ hne]
                exact h13 j v hj
        · simp [hc] at hkey
  · obtain ⟨r, hr⟩ := resolvePropertyTypeWith_nokey build fuel resolver parentName propName
      schemaProxy hno
    rw [hr] at hrun
    cases r with
    | none => simp at hrun
    | some t2 =>
      simp only [Option.map_some', Option.some.injEq, Prod.mk.injEq] at hrun
      rw [← hrun.2]
      exact Extends_refl _

/-! ## Threading the helper cache through the merge -/

section HelperRelation

variable {R : Helpers → Helpers → Prop}
variable {resolveProp : String → String → SchemaProxy → Helpers → Option (String × Helpers)}
variable {fuel : Nat} {resolver : Option SchemaResolver} {required : List (String × Bool)}
variable {parentName : String}

theorem addPropertyList_helpers_rel (hrefl : ∀ h, R h h)
    (htrans : ∀ h1 h2 h3, R h1 h2 → R h2 h3 → R h1 h3)
    (hres : ∀ p ps h t h1, resolveProp parentName p ps h = some (t, h1) → R h h1)
    {optOverride : Bool} (props : List (String × SchemaProxy)) :
    ∀ {st st1 : mergeState},
      addPropertyList resolveProp fuel resolver required parentName optOverride st props
        = some st1 → R st.helpers st1.helpers := by
  induction props with
  | nil =>
    intro st st1 hstep
    simp only [addPropertyList, Option.some.injEq] at hstep
    subst hstep
    exact hrefl _
  | cons p rest ih =>
    intro st st1 hstep
    obtain ⟨propName, propSchema⟩ := p
    unfold addPropertyList at hstep
    cases hone : addProperty resolveProp fuel resolver required parentName optOverride st
        propName propSchema with
    | none => simp [hone] at hstep
    | some st2 =>
      simp only [hone] at hstep
      obtain ⟨goType0, annotate, hr, _, _, _⟩ := addProperty_spec hone
      exact htrans _ _ _ (hres _ _ _ _ _ hr) (ih hstep)

theorem addProperties_helpers_rel (hrefl : ∀ h, R h h)
    (htrans : ∀ h1 h2 h3, R h1 h2 → R h2 h3 → R h1 h3)
    (hres : ∀ p ps h t h1, resolveProp parentName p ps h = some (t, h1) → R h h1)
    {optOverride : Bool} {s : Option Schema} {st st1 : mergeState}
    (hstep : addProperties resolveProp fuel resolver required parentName s optOverride st
      = some st1) : R st.helpers st1.helpers := by
  unfold addProperties at hstep
  cases hd : declaredProperties s with
  | some props =>
    simp only [hd] at hstep
    exact addPropertyList_helpers_rel hrefl htrans hres props hstep
  | none =>
    simp only [hd] at hstep
    cases s with
    | none =>
      simp only [Option.some.injEq] at hstep
      subst hstep
      exact hrefl _
    | some sch =>
      simp only at hstep
      split at hstep
      · cases hu : buildUnionDTO fuel "" sch resolver with
        | none => simp [hu] at hstep
        | some unionDTO =>
          simp only [hu, Option.some.injEq] at hstep
          subst hstep
          rw [foldl_addUnionField_helpers]
          exact hrefl _
      · simp only [Option.some.injEq] at hstep
        subst hstep
        exact hrefl _

theorem addAllOf_helpers_rel (hrefl : ∀ h, R h h)
    (htrans : ∀ h1 h2 h3, R h1 h2 → R h2 h3 → R h1 h3)
    (hres : ∀ p ps h t h1, resolveProp parentName p ps h = some (t, h1) → R h h1)
    (members : List SchemaProxy) :
    ∀ {st st1 : mergeState},
      addAllOf resolveProp fuel resolver required parentName st members = some st1 →
      R st.helpers st1.helpers := by
  induction members with
  | nil =>
    intro st st1 hstep
    simp only [addAllOf, Option.some.injEq] at hstep
    subst hstep
    exact hrefl _
  | cons m rest ih =>
    intro st st1 hstep
    unfold addAllOf at hstep
    cases hone : addProperties resolveProp fuel resolver required parentName m.Schema false st with
    | none => simp [hone] at hstep
    | some st2 =>
      simp only [hone] at hstep
      exact htrans _ _ _ (addProperties_helpers_rel hrefl htrans hres hone) (ih hstep)

/-- A reflexive and transitive relation that every property resolution
establishes between the cache before and after holds between the cache given
to buildObjectDTO and the cache it leaves. -/
theorem buildObjectDTOWith_helpers_rel (hrefl : ∀ h, R h h)
    (htrans : ∀ h1 h2 h3, R h1 h2 → R h2 h3 → R h1 h3)
    {name : String} {schema : Schema} {helpers helpers1 : Helpers} {dto : dtoDef}
    (hres : ∀ p ps h t h1, resolveProp name p ps h = some (t, h1) → R h h1)
    (h : buildObjectDTOWith resolveProp fuel name schema resolver helpers = some (dto, helpers1)) :
    R helpers helpers1 := by
  rcases buildObjectDTOWith_cases h with ⟨_, heq, _⟩ | ⟨_, _, hm⟩
  · rw [heq]
    exact hrefl _
  · obtain ⟨st1, st2, h1, h2, _, hh⟩ := mergeFields_cases hm
    rw [hh]
    exact htrans _ _ _ (addProperties_helpers_rel hrefl htrans hres h1)
      (addAllOf_helpers_rel hrefl htrans hres schema.AllOf h2)

end HelperRelation

/-- The frame of buildObjectDTO: every entry of the cache it is given is an
entry of the cache it leaves. -/
theorem buildObjectDTO_frame (fuel : Nat) :
    ∀ (name : String) (schema : Schema) (resolver : Option SchemaResolver)
      (helpers : Helpers) (dto : dtoDef) (helpers1 : Helpers),
      buildObjectDTO fuel name schema resolver helpers = some (dto, helpers1) →
      Extends helpers helpers1 := by
  induction fuel with
  | zero =>
    intro name schema resolver helpers dto helpers1 h
    simp [buildObjectDTO] at h
  | succ n ih =>
    intro name schema resolver helpers dto helpers1 h
    unfold buildObjectDTO at h
    refine buildObjectDTOWith_helpers_rel Extends_refl (fun _ _ _ => Extends_trans) ?_ h
    intro p ps h0 t h1 hr
    exact resolvePropertyTypeWith_frame (fun n2 s h2 d h3 hb => ih n2 s resolver h2 d h3 hb) hr

/-- The frame of resolvePropertyType. -/
theorem resolvePropertyType_frame {fuel : Nat} {parentName propName : String}
    {schemaProxy : SchemaProxy} {resolver : Option SchemaResolver} {helpers helpers1 : Helpers}
    {t : String}
    (h : resolvePropertyType fuel parentName propName schemaProxy resolver helpers
      = some (t, helpers1)) : Extends helpers helpers1 := by
  cases fuel with
  | zero => simp [resolvePropertyType] at h
  | succ n =>
    unfold resolvePropertyType at h
    exact resolvePropertyTypeWith_frame
      (fun n2 s h2 d h3 hb => buildObjectDTO_frame n n2 s resolver h2 d h3 hb) h

/-! ## C7: memoization of helpers -/

/-- C7. Helper memoization. When the key that resolvePropertyType derives for
an inline property (the type name of its enumeration, or the helper name of a
composite) is already in the cache, the call returns that key and leaves the
cache as it is; and no call removes or replaces an entry that was in the cache
before it. -/
theorem C7_helper_memoization (fuel : Nat) (parentName propName : String)
    (schemaProxy : SchemaProxy) (resolver : Option SchemaResolver) (helpers : Helpers) :
    (∀ schema key, schemaProxy = .mk none (some schema) →
      helperKey parentName propName schema = some key → key ∈ mapKeys helpers →
      resolvePropertyType (fuel + 1) parentName propName schemaProxy resolver helpers
        = some (key, helpers)) ∧
    (∀ t helpers1,
      resolvePropertyType fuel parentName propName schemaProxy resolver helpers
        = some (t, helpers1) →
      ∀ k d, mapGet helpers k = some d → mapGet helpers1 k = some d) := by
  refine ⟨?_, ?_⟩
  · intro schema key hp hkey hin
    subst hp
    unfold resolvePropertyType
    exact resolvePropertyTypeWith_cached _ _ _ _ _ _ _ _ hkey hin
  · intro t helpers1 hrun
    exact resolvePropertyType_frame hrun

theorem C7_helper_memoization_witness :
    resolvePropertyType 1 "Foo" "bar" barUnion none cachedFooBar = some ("FooBar", cachedFooBar) ∧
    mapGet cachedFooBar "FooBar" = some { TypeName := "FooBar", Alias := "string" } :=
  ⟨(C7_helper_memoization 0 "Foo" "bar" barUnion none cachedFooBar).1
      { AnyOf := [.mk none (some { Typ := ["string"] }), missingRef] } "FooBar" rfl
      (by decide) (by decide),
   (C7_helper_memoization 1 "Foo" "bar" barUnion none cachedFooBar).2 "FooBar" cachedFooBar
      (by decide) "FooBar" { TypeName := "FooBar", Alias := "string" } (by decide)⟩

/-! ## C6: a second run on the cache left by the first -/

theorem addUnionField_withHelpers (st : mergeState) (field : fieldDef) (H : Helpers) :
    addUnionField (withHelpers st H) field = withHelpers (addUnionField st field) H := by
  unfold addUnionField withHelpers
  cases mapGet st.fields field.Name <;> rfl

theorem foldl_addUnionField_withHelpers (fields : List fieldDef) (H : Helpers) :
    ∀ st : mergeState,
      fields.foldl addUnionField (withHelpers st H) =
        withHelpers (fields.foldl addUnionField st) H := by
  induction fields with
  | nil => intro st; rfl
  | cons f rest ih =>
    intro st
    rw [List.foldl_cons, List.foldl_cons, addUnionField_withHelpers, ih]

section SecondRun

variable {resolveProp : String → String → SchemaProxy → Helpers → Option (String × Helpers)}
variable {fuel : Nat} {resolver : Option SchemaResolver} {required : List (String × Bool)}
variable {parentName : String}

theorem addProperty_withHelpers
    (hstable : ∀ p ps h t h1, resolveProp parentName p ps h = some (t, h1) →
      ∀ H, Extends h1 H → resolveProp parentName p ps H = some (t, H))
    {optOverride : Bool} {st st1 : mergeState} {propName : String} {propSchema : SchemaProxy}
    (hstep : addProperty resolveProp fuel resolver required parentName optOverride st
      propName propSchema = some st1)
    (H : Helpers) (hext : Extends st1.helpers H) :
    addProperty resolveProp fuel resolver required parentName optOverride (withHelpers st H)
      propName propSchema = some (withHelpers st1 H) := by
  unfold addProperty at hstep
  split at hstep
  · rename_i goType0 helpers1 annotate hres hann
    have hh : st1.helpers = helpers1 := by
      cases hg : mapGet st.fields propName <;>
        simp only [hg, Option.some.injEq] at hstep <;> subst hstep <;> rfl
    rw [hh] at hext
    have hres2 := hstable _ _ _ _ _ hres H hext
    unfold addProperty
    simp only [withHelpers, hres2, hann]
    cases hg : mapGet st.fields propName <;>
      simp only [hg, Option.some.injEq] at hstep ⊢ <;> subst hstep <;> rfl
  · exact absurd hstep (by simp)

theorem addPropertyList_withHelpers
    (hframe : ∀ p ps h t h1, resolveProp parentName p ps h = some (t, h1) → Extends h h1)
    (hstable : ∀ p ps h t h1, resolveProp parentName p ps h = some (t, h1) →
      ∀ H, Extends h1 H → resolveProp parentName p ps H = some (t, H))
    {optOverride : Bool} (props : List (String × SchemaProxy)) :
    ∀ {st st1 : mergeState},
      addPropertyList resolveProp fuel resolver required parentName optOverride st props
        = some st1 →
      ∀ H, Extends st1.helpers H →
      addPropertyList resolveProp fuel resolver required parentName optOverride
        (withHelpers st H) props = some (withHelpers st1 H) := by
  induction props with
  | nil =>
    intro st st1 hstep H _
    simp only [addPropertyList, Option.some.injEq] at hstep ⊢
    rw [hstep]
  | cons p rest ih =>
    intro st st1 hstep H hext
    obtain ⟨propName, propSchema⟩ := p
    unfold addPropertyList at hstep ⊢
    cases hone : addProperty resolveProp fuel resolver required parentName optOverride st
        propName propSchema with
    | none => simp [hone] at hstep
    | some st2 =>
      simp only [hone] at hstep
      have h21 : Extends st2.helpers st1.helpers :=
        addPropertyList_helpers_rel Extends_refl (fun _ _ _ => Extends_trans) hframe rest hstep
      rw [addProperty_withHelpers hstable hone H (Extends_trans h21 hext)]
      exact ih hstep H hext

theorem addProperties_withHelpers
    (hframe : ∀ p ps h t h1, resolveProp parentName p ps h = some (t, h1) → Extends h h1)
    (hstable : ∀ p ps h t h1, resolveProp parentName p ps h = some (t, h1) →
      ∀ H, Extends h1 H → resolveProp parentName p ps H = some (t, H))
    {optOverride : Bool} {s : Option Schema} {st st1 : mergeState}
    (hstep : addProperties resolveProp fuel resolver required parentName s optOverride st
      = some st1)
    (H : Helpers) (hext : Extends st1.helpers H) :
    addProperties resolveProp fuel resolver required parentName s optOverride (withHelpers st H)
      = some (withHelpers st1 H) := by
  unfold addProperties at hstep ⊢
  cases hd : declaredProperties s with
  | some props =>
    simp only [hd] at hstep ⊢
    exact addPropertyList_withHelpers hframe hstable props hstep H hext
  | none =>
    simp only [hd] at hstep ⊢
    cases s with
    | none =>
      simp only [Option.some.injEq] at hstep ⊢
      rw [hstep]
    | some sch =>
      simp only at hstep ⊢
      by_cases hu : isUnionSchema (some sch) = true
      · simp only [hu, if_true] at hstep ⊢
        cases hb : buildUnionDTO fuel "" sch resolver with
        | none => simp [hb] at hstep
        | some unionDTO =>
          simp only [hb, Option.some.injEq] at hstep ⊢
          rw [foldl_addUnionField_withHelpers, hstep]
      · simp only [hu, Bool.false_eq_true, if_false, Option.some.injEq] at hstep ⊢
        rw [hstep]

theorem addAllOf_withHelpers
    (hframe : ∀ p ps h t h1, resolveProp parentName p ps h = some (t, h1) → Extends h h1)
    (hstable : ∀ p ps h t h1, resolveProp parentName p ps h = some (t, h1) →
      ∀ H, Extends h1 H → resolveProp parentName p ps H = some (t, H))
    (members : List SchemaProxy) :
    ∀ {st st1 : mergeState},
      addAllOf resolveProp fuel resolver required parentName st members = some st1 →
      ∀ H, Extends st1.helpers H →
      addAllOf resolveProp fuel resolver required parentName (withHelpers st H) members
        = some (withHelpers st1 H) := by
  induction members with
  | nil =>
    intro st st1 hstep H _
    simp only [addAllOf, Option.some.injEq] at hstep ⊢
    rw [hstep]
  | cons m rest ih =>
    intro st st1 hstep H hext
    unfold addAllOf at hstep ⊢
    cases hone : addProperties resolveProp fuel resolver required parentName m.Schema false st with
    | none => simp [hone] at hstep
    | some st2 =>
      simp only [hone] at hstep
      have h21 : Extends st2.helpers st1.helpers :=
        addAllOf_helpers_rel Extends_refl (fun _ _ _ => Extends_trans) hframe rest hstep
      rw [addProperties_withHelpers hframe hstable hone H (Extends_trans h21 hext)]
      exact ih hstep H hext

/-- The merge, run again on the cache it left, gives the same definition and
leaves the cache as it is. -/
theorem mergeFields_again {name : String} {schema : Schema}
    (hframe : ∀ p ps h t h1, resolveProp name p ps h = some (t, h1) → Extends h h1)
    (hstable : ∀ p ps h t h1, resolveProp name p ps h = some (t, h1) →
      ∀ H, Extends h1 H → resolveProp name p ps H = some (t, H))
    {helpers helpers1 : Helpers} {dto : dtoDef}
    (h : mergeFields resolveProp fuel name schema resolver helpers = some (dto, helpers1)) :
    mergeFields resolveProp fuel name schema resolver helpers1 = some (dto, helpers1) := by
  obtain ⟨st1, st2, h1, h2, hdto, hh⟩ := mergeFields_cases h
  have h12 : Extends st1.helpers st2.helpers :=
    addAllOf_helpers_rel Extends_refl (fun _ _ _ => Extends_trans) hframe schema.AllOf h2
  have e1 := addProperties_withHelpers hframe hstable h1 st2.helpers h12
  have e2 := addAllOf_withHelpers hframe hstable schema.AllOf h2 st2.helpers (Extends_refl _)
  have e0 : withHelpers { fields := [], order := [], helpers := helpers } st2.helpers =
      ({ fields := [], order := [], helpers := st2.helpers } : mergeState) := rfl
  rw [e0] at e1
  unfold mergeFields
  rw [hh, e1]
  simp only [e2]
  rw [hdto]
  rfl

end SecondRun

/-- C6. Idempotent regeneration: when buildObjectDTO returns a definition and
leaves a helper cache, running it again on the same schema and resolver from
that cache returns the same definition, field order included, and leaves the
cache unchanged. -/
theorem C6_second_run_is_identical (fuel : Nat) (name : String) (schema : Schema)
    (resolver : Option SchemaResolver) (helpers : Helpers) (dto : dtoDef) (helpers1 : Helpers)
    (h : buildObjectDTO fuel name schema resolver helpers = some (dto, helpers1)) :
    buildObjectDTO fuel name schema resolver helpers1 = some (dto, helpers1) := by
  cases fuel with
  | zero => simp [buildObjectDTO] at h
  | succ n =>
    unfold buildObjectDTO at h ⊢
    rcases buildObjectDTOWith_cases h with ⟨_, _, hall, _⟩ | ⟨_, heq, hm⟩
    · exact hall helpers1
    · rw [heq]
      refine mergeFields_again ?_ ?_ hm
      · intro p ps h0 t h1 hr
        exact resolvePropertyTypeWith_frame
          (fun n2 s h2 d h3 hb => buildObjectDTO_frame n n2 s resolver h2 d h3 hb) hr
      · intro p ps h0 t h1 hr H hext
        exact resolvePropertyTypeWith_stable hr H hext

theorem C6_second_run_is_identical_witness :
    buildObjectDTO 2 "Foo" fooObject (some emptyResolver) [] = some (fooDTO, fooHelpers) ∧
    buildObjectDTO 2 "Foo" fooObject (some emptyResolver) fooHelpers = some (fooDTO, fooHelpers) :=
  ⟨by decide,
   C6_second_run_is_identical 2 "Foo" fooObject (some emptyResolver) [] fooDTO fooHelpers
     (by decide)⟩

/-! ## Type strings -/

theorem leadingStar_iff (t : String) :
    leadingStar t = true ↔ ∃ rest, t.data = '*' :: rest := by
  unfold leadingStar startsWithStr
  have : ("*" : String).data = ['*'] := rfl
  rw [this]
  cases hd : t.data with
  | nil => simp [List.isPrefixOf]
  | cons c rest =>
    simp only [List.isPrefixOf, Bool.and_true, beq_iff_eq, List.cons.injEq]
    constructor
    · intro h
      exact ⟨rest, h.symm, rfl⟩
    · rintro ⟨r2, h1, _⟩
      exact h1.symm

theorem stripOptionalType_of_noStar {t : String} (h : leadingStar t = false) :
    stripOptionalType t = t := by
  unfold stripOptionalType
  split
  · rename_i rest hd
    have : leadingStar t = true := (leadingStar_iff t).mpr ⟨rest, hd⟩
    rw [h] at this
    exact absurd this (by simp)
  · rfl

theorem stripOptionalType_star (t : String) :
    stripOptionalType ("*" ++ t) = t := by
  unfold stripOptionalType
  have : ("*" ++ t).data = '*' :: t.data := rfl
  rw [this]
  rfl

theorem leadingStar_strip_makeOptional {g : String} (h : leadingStar g = false) :
    leadingStar (stripOptionalType (makeOptionalType g)) = false := by
  unfold makeOptionalType
  by_cases h0 : g = ""
  · subst h0
    decide
  · rw [if_neg h0]
    split
    · rw [stripOptionalType_of_noStar h]; exact h
    · rw [stripOptionalType_star]; exact h

/-- A string whose first rune is an ASCII letter or digit does not begin
with `*`. -/
theorem leadingStar_of_alnum {t : String}
    (h : ∀ c, c ∈ t.data → isAlnumAscii c = true) : leadingStar t = false := by
  cases hs : leadingStar t with
  | false => rfl
  | true =>
    obtain ⟨rest, hd⟩ := (leadingStar_iff t).mp hs
    have := h '*' (by rw [hd]; exact List.mem_cons_self _ _)
    exact absurd this (by decide)

theorem leadingStar_append_of_cons (c : Char) (l : List Char) (t : String) (hc : c ≠ '*') :
    leadingStar (String.mk (c :: l) ++ t) = false := by
  cases hs : leadingStar (String.mk (c :: l) ++ t) with
  | false => rfl
  | true =>
    obtain ⟨rest, hd⟩ := (leadingStar_iff _).mp hs
    have e : (String.mk (c :: l) ++ t).data = c :: (l ++ t.data) := rfl
    rw [e] at hd
    simp only [List.cons.injEq] at hd
    exact absurd hd.1 hc

/-! ## Canonical names -/

theorem toNat_ofNat_small (n : Nat) (h : n < 55296) : (Char.ofNat n).toNat = n := by
  have hv : n.isValidChar := Or.inl h
  unfold Char.ofNat
  rw [dif_pos hv]
  simp only [Char.ofNatAux, Char.toNat]
  show (UInt32.ofNat' n _).toNat = n
  simp [UInt32.ofNat', UInt32.toNat]

theorem isUpperAscii_upperAscii (r : Char) (h : isLowerAscii r = true) :
    isUpperAscii (upperAscii r) = true := by
  unfold isLowerAscii at h
  simp only [Bool.and_eq_true, decide_eq_true_eq] at h
  unfold isUpperAscii upperAscii
  rw [toNat_ofNat_small _ (by omega)]
  simp only [Bool.and_eq_true, decide_eq_true_eq]
  omega

/-- The rune that toExportedName writes for an accepted rune is accepted. -/
theorem isAlnumAscii_written (r : Char) (upperNext : Bool) (h : isAlnumAscii r = true) :
    isAlnumAscii (if (upperNext && isLowerAscii r) = true then upperAscii r else r) = true := by
  by_cases hc : (upperNext && isLowerAscii r) = true
  · rw [if_pos hc]
    simp only [Bool.and_eq_true] at hc
    simp [isAlnumAscii, isUpperAscii_upperAscii r hc.2]
  · rw [if_neg hc]
    exact h

theorem mem_fieldPrefix (b : Bool) (c : Char)
    (h : c ∈ (if b = true then "Field".data else [])) : isAlnumAscii c = true := by
  cases b with
  | false => simp at h
  | true =>
    have hF : ∀ x, x ∈ "Field".data → isAlnumAscii x = true := by decide
    exact hF c h

/-- The canonical form consists of ASCII letters and digits. -/
theorem toExportedLoop_alnum :
    ∀ (l : List Char) (upperNext wrote : Bool) (c : Char),
      c ∈ toExportedLoop l upperNext wrote → isAlnumAscii c = true := by
  intro l
  induction l with
  | nil => intro u w c hc; simp [toExportedLoop] at hc
  | cons r rest ih =>
    intro u w c hc
    unfold toExportedLoop at hc
    by_cases hr : isAlnumAscii r = true
    · rw [if_pos hr] at hc
      simp only [List.mem_append, List.mem_cons] at hc
      rcases hc with hc | hc | hc
      · exact mem_fieldPrefix _ c hc
      · rw [hc]
        exact isAlnumAscii_written r u hr
      · exact ih _ _ c hc
    · rw [if_neg hr] at hc
      exact ih _ _ c hc

theorem toExportedName_data (name : String) :
    (toExportedName name).data = toExportedLoop name.data true false := by
  unfold toExportedName
  by_cases h : name = ""
  · subst h
    rfl
  · rw [if_neg h]

theorem toExportedName_alnum (name : String) (c : Char) (hc : c ∈ (toExportedName name).data) :
    isAlnumAscii c = true := by
  rw [toExportedName_data] at hc
  exact toExportedLoop_alnum _ _ _ c hc

theorem toExportedName_noStar (name : String) : leadingStar (toExportedName name) = false :=
  leadingStar_of_alnum (toExportedName_alnum name)

theorem toExportedLoop_ne_nil :
    ∀ (l : List Char) (upperNext wrote : Bool),
      (∃ c, c ∈ l ∧ isAlnumAscii c = true) → toExportedLoop l upperNext wrote ≠ [] := by
  intro l
  induction l with
  | nil => intro u w h; simp at h
  | cons r rest ih =>
    intro u w h
    unfold toExportedLoop
    by_cases hr : isAlnumAscii r = true
    · rw [if_pos hr]
      simp
    · rw [if_neg hr]
      apply ih
      obtain ⟨c, hc, ha⟩ := h
      rcases List.mem_cons.mp hc with e | e
      · rw [e] at ha
        exact absurd ha hr
      · exact ⟨c, e, ha⟩

theorem string_eq_empty_iff (s : String) : s = "" ↔ s.data = [] := by
  constructor
  · intro h; rw [h]
  · intro h
    cases s with
    | mk l =>
      simp only at h
      rw [h]

/-- A name that contains an ASCII letter or digit has a non-empty canonical
form. -/
theorem toExportedName_ne_empty (name : String)
    (h : ∃ c, c ∈ name.data ∧ isAlnumAscii c = true) : toExportedName name ≠ "" := by
  intro he
  have hd := (string_eq_empty_iff _).mp he
  rw [toExportedName_data] at hd
  exact toExportedLoop_ne_nil _ _ _ h hd

/-- The helper name of a parent with a non-empty canonical form has a
non-empty canonical form. -/
theorem toExportedName_helperTypeName_ne_empty (parentName propName : String)
    (h : toExportedName parentName ≠ "") :
    toExportedName (helperTypeName parentName propName) ≠ "" := by
  apply toExportedName_ne_empty
  have hd : (toExportedName parentName).data ≠ [] := fun e => h ((string_eq_empty_iff _).mpr e)
  cases hl : (toExportedName parentName).data with
  | nil => exact absurd hl hd
  | cons c rest =>
    refine ⟨c, ?_, toExportedName_alnum parentName c (by rw [hl]; exact List.mem_cons_self _ _)⟩
    have e : (helperTypeName parentName propName).data =
        (toExportedName parentName).data ++ (toExportedName propName).data := rfl
    rw [e, hl]
    exact List.mem_cons_self _ _

theorem helperTypeName_noStar (parentName propName : String) :
    leadingStar (helperTypeName parentName propName) = false := by
  apply leadingStar_of_alnum
  intro c hc
  have e : (helperTypeName parentName propName).data =
      (toExportedName parentName).data ++ (toExportedName propName).data := rfl
  rw [e] at hc
  rcases List.mem_append.mp hc with h | h
  · exact toExportedName_alnum _ c h
  · exact toExportedName_alnum _ c h

/-! ## The forms of the types returned by goTypeForSchema -/

theorem EnumBaseType_builtin (schema : Option Schema) : EnumBaseType schema ∈ builtinTypes := by
  unfold EnumBaseType
  split
  · decide
  · split
    · decide
    · split_ifs <;> decide

theorem GoType_any (resolver : Option SchemaResolver) : GoType resolver "any" :=
  GoType.builtin _ (by decide)

theorem GoType_seq_any (resolver : Option SchemaResolver) : GoType resolver "[]any" := by
  have e : ("[]any" : String) = "[]" ++ "any" := by decide
  rw [e]
  exact GoType.seq _ (GoType_any resolver)

theorem GoType_map_any (resolver : Option SchemaResolver) :
    GoType resolver "map[string]any" := by
  have e : ("map[string]any" : String) = "map[string]" ++ "any" := by decide
  rw [e]
  exact GoType.map _ (GoType_any resolver)

theorem additionalPropertiesAliasWith_form {resolver : Option SchemaResolver}
    {goType : SchemaProxy → Option String}
    (hgo : ∀ p t, goType p = some t → GoType resolver t)
    {schema : Option Schema} {a : String}
    (h : additionalPropertiesAliasWith goType schema = some (some a)) : GoType resolver a := by
  unfold additionalPropertiesAliasWith at h
  repeat' split at h
  all_goals first
    | (simp at h; done)
    | skip
  · rename_i p _ _
    cases hg : goType p with
    | none => simp [hg] at h
    | some v =>
      simp only [hg, Option.map_some', Option.some.injEq] at h
      subst h
      exact GoType.map _ (hgo _ _ hg)
  · simp only [Option.some.injEq] at h
    subst h
    exact GoType_map_any resolver

/-- Every type string returned by goTypeForSchema has one of the forms of
GoType. -/
theorem goTypeForSchema_form (resolver : Option SchemaResolver) (fuel : Nat) :
    ∀ (schemaProxy : SchemaProxy) (allowUnion : Bool) (t : String),
      goTypeForSchema fuel schemaProxy resolver allowUnion = some t → GoType resolver t := by
  induction fuel with
  | zero => intro p au t h; simp [goTypeForSchema] at h
  | succ n ih =>
    intro p au t h
    cases p with
    | nil =>
      simp only [goTypeForSchema, Option.some.injEq] at h
      subst h
      exact GoType_any resolver
    | mk ref sch =>
      cases ref with
      | some r =>
        simp only [goTypeForSchema] at h
        repeat' split at h
        all_goals first
          | (simp at h; done)
          | (simp only [Option.some.injEq] at h; subst h; exact GoType.named _)
          | (simp only [Option.some.injEq] at h; subst h; exact GoType.builtin _ (by decide))
          | (simp only [Option.some.injEq] at h; subst h; exact GoType_seq_any _)
          | (simp only [Option.some.injEq] at h; subst h; exact GoType.enumRef _ _ _ ‹_› ‹_›)
          | (obtain ⟨v, hv, rfl⟩ := Option.map_eq_some'.mp h; exact GoType.seq _ (ih _ _ _ hv))
      | none =>
        have hgo : ∀ p t, (fun p => goTypeForSchema n p resolver true) p = some t →
            GoType resolver t := fun p t hp => ih p true t hp
        simp only [goTypeForSchema] at h
        repeat' split at h
        all_goals first
          | (simp at h; done)
          | exact ih _ _ _ h
          | (simp only [Option.some.injEq] at h; subst h; exact GoType.builtin _ (by decide))
          | (simp only [Option.some.injEq] at h; subst h; exact GoType_seq_any _)
          | (simp only [Option.some.injEq] at h; subst h; exact GoType_map_any _)
          | (simp only [Option.some.injEq] at h; subst h; rw [(buildEnumDTO_shape ‹_›).2.1];
             exact GoType.builtin _ (EnumBaseType_builtin _))
          | (obtain ⟨v, hv, rfl⟩ := Option.map_eq_some'.mp h; exact GoType.seq _ (ih _ _ _ hv))
          | (simp only [Option.some.injEq] at h; subst h;
             exact additionalPropertiesAliasWith_form hgo ‹_›)

/-- A name that Lookup finds in the resolver is one of its keys. -/
theorem Lookup_schema_mem_keys {resolver : Option SchemaResolver} {refName : String}
    {sch : Schema} (h : (Lookup resolver refName).Schema = some sch) :
    ∃ res, resolver = some res ∧ refName ∈ mapKeys res.Schemas := by
  cases resolver with
  | none => simp [Lookup, SchemaProxy.Schema] at h
  | some res =>
    refine ⟨res, rfl, ?_⟩
    unfold Lookup at h
    simp only at h
    cases hg : mapGet res.Schemas refName with
    | none => simp [hg, SchemaProxy.Schema] at h
    | some p => exact (mapGet_isSome_iff _ _).mp ⟨p, hg⟩

theorem canonicalKeys_spec {resolver : Option SchemaResolver} (h : canonicalKeys resolver = true)
    {res : SchemaResolver} (hres : resolver = some res) {k : String}
    (hk : k ∈ mapKeys res.Schemas) : toExportedName k ≠ "" := by
  subst hres
  unfold canonicalKeys at h
  simp only [List.all_eq_true, bne_iff_ne, ne_eq] at h
  exact h k hk

/-- When the registered names have non-empty canonical forms, no type
returned by goTypeForSchema begins with `*`. -/
theorem GoType_noStar {resolver : Option SchemaResolver} (hkeys : canonicalKeys resolver = true)
    {t : String} (h : GoType resolver t) : leadingStar t = false := by
  induction h with
  | builtin t ht =>
    have : ∀ x, x ∈ builtinTypes → leadingStar x = false := by decide
    exact this t ht
  | named r => exact toExportedName_noStar _
  | enumRef r sch e hl he =>
    obtain ⟨res, hres, hk⟩ := Lookup_schema_mem_keys hl
    have hne := canonicalKeys_spec hkeys hres hk
    rw [(buildEnumDTO_shape he).2.2.2.2 hne]
    exact toExportedName_noStar _
  | seq t _ _ => exact leadingStar_append_of_cons '[' [']'] t (by decide)
  | map t _ _ =>
    exact leadingStar_append_of_cons 'm' "ap[string]".data t (by decide)

/-! ## Invariants of the merge state -/

section MergeInvariant

variable {resolveProp : String → String → SchemaProxy → Helpers → Option (String × Helpers)}
variable {fuel : Nat} {resolver : Option SchemaResolver} {required : List (String × Bool)}
variable {parentName : String} {I : mergeState → Prop}

theorem foldl_addUnionField_invariant (fields : List fieldDef)
    (hU : ∀ st f, I st → f ∈ fields → I (addUnionField st f)) :
    ∀ st, I st → I (fields.foldl addUnionField st) := by
  induction fields with
  | nil => intro st h; exact h
  | cons f rest ih =>
    intro st h
    rw [List.foldl_cons]
    exact ih (fun st2 f2 h2 hf2 => hU st2 f2 h2 (List.mem_cons_of_mem _ hf2)) _
      (hU st f h (List.mem_cons_self _ _))

theorem addPropertyList_invariant
    (hP : ∀ st p ps st1, I st →
      addProperty resolveProp fuel resolver required parentName false st p ps = some st1 → I st1)
    (props : List (String × SchemaProxy)) :
    ∀ {st st1 : mergeState}, I st →
      addPropertyList resolveProp fuel resolver required parentName false st props = some st1 →
      I st1 := by
  induction props with
  | nil =>
    intro st st1 h hstep
    simp only [addPropertyList, Option.some.injEq] at hstep
    subst hstep
    exact h
  | cons p rest ih =>
    intro st st1 h hstep
    obtain ⟨propName, propSchema⟩ := p
    unfold addPropertyList at hstep
    cases hone : addProperty resolveProp fuel resolver required parentName false st
        propName propSchema with
    | none => simp [hone] at hstep
    | some st2 =>
      simp only [hone] at hstep
      exact ih (hP _ _ _ _ h hone) hstep

theorem addProperties_invariant
    (hU : ∀ sch d, buildUnionDTO fuel "" sch resolver = some d →
      ∀ st f, I st → f ∈ d.Fields → I (addUnionField st f))
    (hP : ∀ st p ps st1, I st →
      addProperty resolveProp fuel resolver required parentName false st p ps = some st1 → I st1)
    {s : Option Schema} {st st1 : mergeState} (h : I st)
    (hstep : addProperties resolveProp fuel resolver required parentName s false st = some st1) :
    I st1 := by
  unfold addProperties at hstep
  cases hd : declaredProperties s with
  | some props =>
    simp only [hd] at hstep
    exact addPropertyList_invariant hP props h hstep
  | none =>
    simp only [hd] at hstep
    cases s with
    | none =>
      simp only [Option.some.injEq] at hstep
      subst hstep
      exact h
    | some sch =>
      simp only at hstep
      split at hstep
      · cases hu : buildUnionDTO fuel "" sch resolver with
        | none => simp [hu] at hstep
        | some unionDTO =>
          simp only [hu, Option.some.injEq] at hstep
          subst hstep
          exact foldl_addUnionField_invariant _ (hU sch unionDTO hu) _ h
      · simp only [Option.some.injEq] at hstep
        subst hstep
        exact h

theorem addAllOf_invariant
    (hU : ∀ sch d, buildUnionDTO fuel "" sch resolver = some d →
      ∀ st f, I st → f ∈ d.Fields → I (addUnionField st f))
    (hP : ∀ st p ps st1, I st →
      addProperty resolveProp fuel resolver required parentName false st p ps = some st1 → I st1)
    (members : List SchemaProxy) :
    ∀ {st st1 : mergeState}, I st →
      addAllOf resolveProp fuel resolver required parentName st members = some st1 → I st1 := by
  induction members with
  | nil =>
    intro st st1 h hstep
    simp only [addAllOf, Option.some.injEq] at hstep
    subst hstep
    exact h
  | cons m rest ih =>
    intro st st1 h hstep
    unfold addAllOf at hstep
    cases hone : addProperties resolveProp fuel resolver required parentName m.Schema false st with
    | none => simp [hone] at hstep
    | some st2 =>
      simp only [hone] at hstep
      exact ih (addProperties_invariant hU hP h hone) hstep

/-- A property of the merge state that holds at the start and that every
step of addProperties keeps holds for the state from which the fields of the
definition are read. -/
theorem mergeFields_invariant {name : String} {schema : Schema} {helpers helpers1 : Helpers}
    {dto : dtoDef} {J : mergeState → Prop}
    (h0 : J { fields := [], order := [], helpers := helpers })
    (hU : ∀ sch d, buildUnionDTO fuel "" sch resolver = some d →
      ∀ st f, J st → f ∈ d.Fields → J (addUnionField st f))
    (hP : ∀ st p ps st1, J st →
      addProperty resolveProp fuel resolver
        (mergeAllOfRequired (requiredSet schema.Required) schema.AllOf) name false st p ps
        = some st1 → J st1)
    (h : mergeFields resolveProp fuel name schema resolver helpers = some (dto, helpers1)) :
    ∃ st2, J st2 ∧ dto.Fields = orderedFields st2 ∧ helpers1 = st2.helpers := by
  obtain ⟨st1, st2, h1, h2, hdto, hh⟩ := mergeFields_cases h
  refine ⟨st2, ?_, ?_, hh⟩
  · exact addAllOf_invariant hU hP schema.AllOf (addProperties_invariant hU hP h0 h1) h2
  · rw [hdto]

end MergeInvariant

/-! ## Fields of a union definition -/

/-- Every field of a union definition is optional and has the type of its
variant, made optional. -/
theorem unionFields_mem (fuel : Nat) (resolver : Option SchemaResolver) :
    ∀ (variants : List SchemaProxy) (idx : Nat) (seen : List (String × Nat))
      (fields : List fieldDef),
      unionFields fuel resolver variants idx seen = some fields →
      ∀ f, f ∈ fields → f.Optional = true ∧
        ∃ v g, v ∈ variants ∧ goTypeForSchema fuel v resolver true = some g ∧
          f.GoType = makeOptionalType g := by
  intro variants
  induction variants with
  | nil =>
    intro idx seen fields h f hf
    simp only [unionFields, Option.some.injEq] at h
    subst h
    simp at hf
  | cons v rest ih =>
    intro idx seen fields h f hf
    unfold unionFields at h
    split at h
    · rename_i g ann fs hg hann hfs
      simp only [Option.some.injEq] at h
      subst h
      rcases List.mem_cons.mp hf with e | e
      · subst e
        exact ⟨rfl, v, g, List.mem_cons_self _ _, hg, rfl⟩
      · obtain ⟨ho, v2, g2, hv2, hg2, ht⟩ := ih _ _ _ hfs f e
        exact ⟨ho, v2, g2, List.mem_cons_of_mem _ hv2, hg2, ht⟩
    · exact absurd h (by simp)

theorem unionFields_length (fuel : Nat) (resolver : Option SchemaResolver) :
    ∀ (variants : List SchemaProxy) (idx : Nat) (seen : List (String × Nat))
      (fields : List fieldDef),
      unionFields fuel resolver variants idx seen = some fields →
      fields.length = variants.length := by
  intro variants
  induction variants with
  | nil =>
    intro idx seen fields h
    simp only [unionFields, Option.some.injEq] at h
    subst h
    rfl
  | cons v rest ih =>
    intro idx seen fields h
    unfold unionFields at h
    split at h
    · rename_i g ann fs hg hann hfs
      simp only [Option.some.injEq] at h
      subst h
      simp [ih _ _ _ hfs]
    · exact absurd h (by simp)

theorem buildUnionDTO_fields {fuel : Nat} {name : String} {schema : Schema}
    {resolver : Option SchemaResolver} {d : dtoDef}
    (h : buildUnionDTO fuel name schema resolver = some d) :
    unionFields fuel resolver (unionVariants schema) 0 [] = some d.Fields ∧
      d.TypeName = toExportedName name ∧ d.Alias = "" ∧ d.Enums = [] := by
  unfold buildUnionDTO at h
  cases hu : unionFields fuel resolver (unionVariants schema) 0 [] with
  | none => simp [hu] at h
  | some fields =>
    simp only [hu, Option.some.injEq] at h
    subst h
    exact ⟨rfl, rfl, rfl, rfl⟩

/-! ## C2: a required property and a folded union -/

theorem NoStar_addUnionField {st : mergeState} {field : fieldDef}
    (h : NoStarInv st) (hf : leadingStar (stripOptionalType field.GoType) = false) :
    NoStarInv (addUnionField st field) := by
  intro k f hk
  rw [addUnionField_get] at hk
  by_cases hkn : field.Name = k
  · rw [if_pos hkn] at hk
    cases hg : mapGet st.fields field.Name with
    | none =>
      simp only [hg, Option.some.injEq] at hk
      subst hk
      exact ⟨hf, by simp [unionFieldEntry]⟩
    | some existing =>
      simp only [hg, Option.some.injEq] at hk
      subst hk
      have hex := h _ _ hg
      simp only [mergeExisting, Bool.and_true]
      cases ho : existing.Optional with
      | true => simpa [ho] using hex.1
      | false =>
        simp only [Bool.not_false, if_true]
        rw [stripOptionalType_of_noStar hex.1]
        exact ⟨hex.1, fun _ => hex.1⟩
  · rw [if_neg hkn] at hk
    exact h k f hk

theorem NoStar_addProperty
    {resolveProp : String → String → SchemaProxy → Helpers → Option (String × Helpers)}
    {fuel : Nat} {resolver : Option SchemaResolver} {required : List (String × Bool)}
    {parentName : String} {st st1 : mergeState} {propName : String} {propSchema : SchemaProxy}
    (hres : ∀ p ps h t h1, resolveProp parentName p ps h = some (t, h1) → leadingStar t = false)
    (h : NoStarInv st)
    (hstep : addProperty resolveProp fuel resolver required parentName false st
      propName propSchema = some st1) : NoStarInv st1 := by
  obtain ⟨goType0, annotate, hr, _, _, hget⟩ := addProperty_spec hstep
  have ht := hres _ _ _ _ _ hr
  intro k f hk
  rw [hget] at hk
  by_cases hkn : propName = k
  · rw [if_pos hkn] at hk
    cases hg : mapGet st.fields propName with
    | none =>
      simp only [hg, Option.some.injEq] at hk
      subst hk
      simp only [propertyFieldEntry, Bool.false_or]
      cases hreq : isRequired required propName with
      | true =>
        simp only [Bool.not_true, Bool.false_eq_true, if_false]
        rw [stripOptionalType_of_noStar ht]
        exact ⟨ht, fun _ => ht⟩
      | false =>
        simp only [Bool.not_false, if_true]
        exact ⟨leadingStar_strip_makeOptional ht, fun hc => absurd hc (by simp)⟩
    | some existing =>
      simp only [hg, Option.some.injEq] at hk
      subst hk
      have hex := h _ _ hg
      simp only [mergeExisting]
      cases ho : (existing.Optional && (false || !isRequired required propName)) with
      | true =>
        simp only [Bool.not_true, Bool.false_eq_true, if_false]
        exact ⟨hex.1, fun hc => absurd hc (by simp)⟩
      | false =>
        simp only [Bool.not_false, if_true]
        rw [stripOptionalType_of_noStar hex.1]
        exact ⟨hex.1, fun _ => hex.1⟩
  · rw [if_neg hkn] at hk
    exact h k f hk

/-- The types that resolvePropertyType returns do not begin with `*`, when
the parent name and the registered names have non-empty canonical forms. -/
theorem resolvePropertyTypeWith_noStar
    {build : String → Schema → Helpers → Option (dtoDef × Helpers)}
    {fuel : Nat} {resolver : Option SchemaResolver} {parentName propName : String}
    {schemaProxy : SchemaProxy} {helpers helpers1 : Helpers} {t : String}
    (hkeys : canonicalKeys resolver = true) (hparent : toExportedName parentName ≠ "")
    (hrun : resolvePropertyTypeWith build fuel resolver parentName propName schemaProxy helpers
      = some (t, helpers1)) : leadingStar t = false := by
  rcases helperKey_cases parentName propName schemaProxy with ⟨schema, key, hp, hkey⟩ | hno
  · subst hp
    obtain ⟨ht, _⟩ := resolvePropertyTypeWith_key hkey hrun
    subst ht
    unfold helperKey at hkey
    split at hkey
    · exact absurd hkey (by simp)
    · split at hkey
      · rename_i enumDTO he
        simp only [Option.some.injEq] at hkey
        subst hkey
        rw [(buildEnumDTO_shape he).2.2.2.2
          (toExportedName_helperTypeName_ne_empty parentName propName hparent)]
        exact toExportedName_noStar _
      · split at hkey
        · simp only [Option.some.injEq] at hkey
          subst hkey
          exact helperTypeName_noStar _ _
        · exact absurd hkey (by simp)
  · cases schemaProxy with
    | nil =>
      simp only [resolvePropertyTypeWith, Option.some.injEq, Prod.mk.injEq] at hrun
      rw [← hrun.1]
      decide
    | mk ref sch =>
      cases ref with
      | some r =>
        simp only [resolvePropertyTypeWith] at hrun
        obtain ⟨v, hv, he⟩ := Option.map_eq_some'.mp hrun
        simp only [Prod.mk.injEq] at he
        rw [← he.1]
        exact GoType_noStar hkeys (goTypeForSchema_form _ _ _ _ _ hv)
      | none =>
        cases sch with
        | none =>
          simp only [resolvePropertyTypeWith, Option.some.injEq, Prod.mk.injEq] at hrun
          rw [← hrun.1]
          decide
        | some schema =>
          have hk := hno schema rfl
          unfold helperKey at hk
          unfold resolvePropertyTypeWith at hrun
          by_cases hs : isSingleRefAllOf schema = true
          · simp only [hs, if_true] at hrun
            obtain ⟨v, hv, he⟩ := Option.map_eq_some'.mp hrun
            simp only [Prod.mk.injEq] at he
            rw [← he.1]
            exact GoType_noStar hkeys (goTypeForSchema_form _ _ _ _ _ hv)
          · simp only [hs, Bool.false_eq_true, if_false] at hk hrun
            cases he : buildEnumDTO (helperTypeName parentName propName) (some schema) with
            | some enumDTO => simp [he] at hk
            | none =>
              simp only [he] at hk hrun
              by_cases hc : hasComposition schema = true
              · simp [hc] at hk
              · simp only [hc, Bool.false_eq_true, if_false] at hrun
                obtain ⟨v, hv, he2⟩ := Option.map_eq_some'.mp hrun
                simp only [Prod.mk.injEq] at he2
                rw [← he2.1]
                exact GoType_noStar hkeys (goTypeForSchema_form _ _ _ _ _ hv)

/-- The wrapper invariant for the definition built by buildObjectDTO. -/
theorem buildObjectDTO_noStar {fuel : Nat} {name : String} {schema : Schema}
    {resolver : Option SchemaResolver} {helpers helpers1 : Helpers} {dto : dtoDef}
    (hkeys : canonicalKeys resolver = true) (hname : toExportedName name ≠ "")
    (h : buildObjectDTO fuel name schema resolver helpers = some (dto, helpers1))
    (f : fieldDef) (hf : f ∈ dto.Fields) (hreq : f.Optional = false) :
    leadingStar f.GoType = false := by
  cases fuel with
  | zero => simp [buildObjectDTO] at h
  | succ n =>
    unfold buildObjectDTO at h
    rcases buildObjectDTOWith_cases h with ⟨hnil, _, _⟩ | ⟨_, _, hm⟩
    · rw [hnil] at hf
      exact absurd hf (by simp)
    · have hinv := mergeFields_invariant (J := NoStarInv)
        (fun k f hk => by simp [mapGet] at hk)
        (fun sch d hd st f2 hst hf2 => by
          obtain ⟨huf, _⟩ := buildUnionDTO_fields hd
          obtain ⟨_, v, g, _, hg, ht⟩ := unionFields_mem _ _ _ _ _ _ huf f2 hf2
          refine NoStar_addUnionField hst ?_
          rw [ht]
          exact leadingStar_strip_makeOptional
            (GoType_noStar hkeys (goTypeForSchema_form _ _ _ _ _ hg)))
        (fun st p ps st1 hst hstep =>
          NoStar_addProperty
            (fun p2 ps2 h2 t2 h3 hr => resolvePropertyTypeWith_noStar hkeys hname hr) hst hstep)
        hm
      obtain ⟨st2, hJ, hfields, _⟩ := hinv
      rw [hfields] at hf
      obtain ⟨k, _, hk⟩ := mem_orderedFields hf
      exact (hJ k f hk).2 hreq

theorem OrderInv_addUnionField {st : mergeState} (h : OrderInv st) (field : fieldDef) :
    OrderInv (addUnionField st field) := by
  intro k
  rw [addUnionField_get]
  unfold addUnionField
  cases hg : mapGet st.fields field.Name with
  | none =>
    simp only [List.mem_append, List.mem_singleton]
    by_cases hkn : field.Name = k
    · simp [hkn]
    · have hkn2 : ¬ k = field.Name := fun e => hkn e.symm
      simp only [hkn, hkn2, or_false, if_false]
      exact h k
  | some existing =>
    simp only
    by_cases hkn : field.Name = k
    · simp only [hkn, if_true]
      constructor
      · intro _
        exact ⟨_, rfl⟩
      · intro _
        exact (h k).mpr ⟨existing, hkn ▸ hg⟩
    · simp only [hkn, if_false]
      exact h k

theorem OrderInv_addProperty
    {resolveProp : String → String → SchemaProxy → Helpers → Option (String × Helpers)}
    {fuel : Nat} {resolver : Option SchemaResolver} {required : List (String × Bool)}
    {parentName : String} {optOverride : Bool} {st st1 : mergeState} {propName : String}
    {propSchema : SchemaProxy} (h : OrderInv st)
    (hstep : addProperty resolveProp fuel resolver required parentName optOverride st
      propName propSchema = some st1) : OrderInv st1 := by
  obtain ⟨goType0, annotate, _, _, hord, hget⟩ := addProperty_spec hstep
  intro k
  rw [hget, hord]
  cases hg : mapGet st.fields propName with
  | none =>
    simp only [List.mem_append, List.mem_singleton]
    by_cases hkn : propName = k
    · simp [hkn]
    · have hkn2 : ¬ k = propName := fun e => hkn e.symm
      simp only [hkn, hkn2, or_false, if_false]
      exact h k
  | some existing =>
    simp only
    by_cases hkn : propName = k
    · simp only [hkn, if_true]
      constructor
      · intro _
        exact ⟨_, rfl⟩
      · intro _
        exact (h k).mpr ⟨existing, hkn ▸ hg⟩
    · simp only [hkn, if_false]
      exact h k

/-- The state from which a successful merge reads the fields: it satisfies
the optionality invariant for all declared names and every property that the
steps of the merge keep. -/
theorem mergeFields_state
    {resolveProp : String → String → SchemaProxy → Helpers → Option (String × Helpers)}
    {fuel : Nat} {name : String} {schema : Schema} {resolver : Option SchemaResolver}
    {helpers helpers1 : Helpers} {dto : dtoDef}
    (h : mergeFields resolveProp fuel name schema resolver helpers = some (dto, helpers1)) :
    ∃ st2, dto.Fields = orderedFields st2 ∧ helpers1 = st2.helpers ∧
      OptInv (mergeAllOfRequired (requiredSet schema.Required) schema.AllOf)
        (declaredNames schema) st2 ∧
      ∀ J : mergeState → Prop,
        J { fields := [], order := [], helpers := helpers } →
        (∀ sch d, buildUnionDTO fuel "" sch resolver = some d →
          ∀ st f, J st → f ∈ d.Fields → J (addUnionField st f)) →
        (∀ st p ps st1, J st →
          addProperty resolveProp fuel resolver
            (mergeAllOfRequired (requiredSet schema.Required) schema.AllOf) name false st p ps
            = some st1 → J st1) →
        J st2 := by
  obtain ⟨st1, st2, h1, h2, hdto, hh⟩ := mergeFields_cases h
  refine ⟨st2, by rw [hdto], hh, ?_, ?_⟩
  · have hinv0 : OptInv (mergeAllOfRequired (requiredSet schema.Required) schema.AllOf) []
        { fields := [], order := [], helpers := helpers } :=
      ⟨fun k f hk => by simp [mapGet] at hk, fun k hk => by simp at hk⟩
    refine OptInv_mono (OptInv_addAllOf schema.AllOf (OptInv_addProperties hinv0 h1) h2) ?_
    intro k hk
    unfold declaredNames at hk
    simp only [List.mem_append] at hk
    simp only [List.mem_append, List.append_nil]
    tauto
  · intro J h0 hU hP
    exact addAllOf_invariant hU hP schema.AllOf (addProperties_invariant hU hP h0 h1) h2

/-- A schema with allOf members, without additional properties, that is not
an enumeration is built by the merge. -/
theorem buildObjectDTOWith_eq_mergeFields
    (resolveProp : String → String → SchemaProxy → Helpers → Option (String × Helpers))
    (fuel : Nat) (name : String) (schema : Schema) (resolver : Option SchemaResolver)
    (helpers : Helpers)
    (he : buildEnumDTO name (some schema) = none) (hap : schema.AdditionalProperties = none)
    (hall : schema.AllOf ≠ []) :
    buildObjectDTOWith resolveProp fuel name schema resolver helpers =
      mergeFields resolveProp fuel name schema resolver helpers := by
  have hlen : schema.AllOf.length > 0 := List.length_pos.mpr hall
  have hc : hasComposition schema = true := by
    simp [hasComposition, hlen]
  unfold buildObjectDTOWith
  simp [he, additionalPropertiesAlias, additionalPropertiesAliasWith, hap, isEmptySchema, hc]

/-- C2 (amended). Let the name of the schema and the names registered in the
resolver have non-empty canonical forms. When an allOf member declares the
property X and lists it as required, and another allOf member, at any position
before or after it, has no properties and is a union with a variant named X,
every field named X of the definition built by buildObjectDTO is required and
its type does not begin with `*`; and the definition has such a field when
the schema is merged (it is not an enumeration and has no additional
properties). -/
theorem C2_required_beats_folded_union (fuel : Nat) (name : String) (schema : Schema)
    (resolver : Option SchemaResolver) (helpers : Helpers) (dto : dtoDef) (helpers1 : Helpers)
    (a b : SchemaProxy) (sa sb : Schema) (X : String) (idx : Nat) (v : SchemaProxy)
    (hkeys : canonicalKeys resolver = true) (hname : toExportedName name ≠ "")
    (hrun : buildObjectDTO fuel name schema resolver helpers = some (dto, helpers1))
    (ha : a ∈ schema.AllOf) (hsa : a.Schema = some sa)
    (hdecl : X ∈ propertyNames (some sa)) (hreq : X ∈ sa.Required)
    (_hb : b ∈ schema.AllOf) (_hsb : b.Schema = some sb) (_hprops : sb.Properties = none)
    (_hvar : (unionVariants sb)[idx]? = some v) (_hvn : unionVariantName idx v = X) :
    (∀ f, f ∈ dto.Fields → f.Name = X → f.Optional = false ∧ leadingStar f.GoType = false) ∧
    (buildEnumDTO name (some schema) = none → schema.AdditionalProperties = none →
      ∃ f, f ∈ dto.Fields ∧ f.Name = X) := by
  have hXdecl : X ∈ declaredNames schema := by
    unfold declaredNames
    refine List.mem_append_right _ (List.mem_flatMap.mpr ⟨a, ha, ?_⟩)
    rw [hsa]
    exact hdecl
  have hXreq : X ∈ allRequired schema := by
    unfold allRequired
    refine List.mem_append_right _ (List.mem_flatMap.mpr ⟨a, ha, ?_⟩)
    rw [hsa]
    exact hreq
  refine ⟨?_, ?_⟩
  · intro f hf hfX
    have hopt : f.Optional = false := by
      have h1 := (buildObjectDTO_optional_iff hrun f hf (hfX ▸ hXdecl)).mp
      cases ho : f.Optional with
      | false => rfl
      | true => exact absurd (hfX ▸ hXreq) (h1 ho)
    exact ⟨hopt, buildObjectDTO_noStar hkeys hname hrun f hf hopt⟩
  · intro he hap
    cases fuel with
    | zero => simp [buildObjectDTO] at hrun
    | succ n =>
      unfold buildObjectDTO at hrun
      rw [buildObjectDTOWith_eq_mergeFields _ _ _ _ _ _ he hap
        (List.ne_nil_of_mem ha)] at hrun
      obtain ⟨st2, hfields, _, hopt, hJ⟩ := mergeFields_state hrun
      have hord : OrderInv st2 :=
        hJ OrderInv (fun k => by simp [mapGet])
          (fun _ _ _ st f hst _ => OrderInv_addUnionField hst f)
          (fun st p ps st1 hst hstep => OrderInv_addProperty hst hstep)
      obtain ⟨f, hf, _⟩ := hopt.2 X hXdecl
      refine ⟨f, ?_, (hopt.1 X f hf).1⟩
      rw [hfields]
      unfold orderedFields
      exact List.mem_filterMap.mpr ⟨X, (hord X).mpr ⟨f, hf⟩, hf⟩

theorem C2_required_beats_folded_union_witness :
    ((∀ f, f ∈ [statusField, integerField] → f.Name = "status" →
        f.Optional = false ∧ leadingStar f.GoType = false) ∧
      (buildEnumDTO "Thing" (some unionFirst) = none → unionFirst.AdditionalProperties = none →
        ∃ f, f ∈ [statusField, integerField] ∧ f.Name = "status")) ∧
    (buildObjectDTO 2 "Thing" statusFirst none []).map (fun r => r.1.Fields) =
      some [statusField, integerField] :=
  ⟨C2_required_beats_folded_union 2 "Thing" unionFirst none []
      { TypeName := "Thing", Fields := [statusField, integerField], HasAnnotate := true } []
      statusMember unionMember
      { Typ := ["object"], Required := ["status"],
        Properties := some [("status", .mk none (some { Typ := ["string"] }))] }
      { OneOf := [.mk none (some { Title := "status", Typ := ["string"] }),
                  .mk none (some { Typ := ["integer"] })] }
      "status" 0 (.mk none (some { Title := "status", Typ := ["string"] }))
      (by decide) (by decide) (by decide) (by simp [unionFirst]) rfl (by decide) (by decide)
      (by simp [unionFirst]) rfl rfl rfl (by decide),
   by decide⟩

/-- C2 (counterexample). The member declaring `status` (required) refers to
the registered enumeration `_`, whose first companion name is `**aB`; the
union member folds in a variant titled `status`. The merged field `status` is
required and its type is `*a`, which begins with `*`. -/
theorem C2_required_type_keeps_a_star :
    (buildObjectDTO 2 "Thing" starFirst (some starResolver) []).map
        (fun r => r.1.Fields.map (fun f => (f.Name, f.Optional, f.GoType, leadingStar f.GoType))) =
      some [("status", false, "*a", true), ("integer", true, "*int64", true)] := by
  decide

/-! ## C8: the shapes of a definition -/

theorem EnumBaseType_ne_empty (schema : Option Schema) : EnumBaseType schema ≠ "" := by
  have h : ∀ x, x ∈ builtinTypes → x ≠ "" := by decide
  exact h _ (EnumBaseType_builtin schema)

/-- C8 (counterexample). The definition that buildEnumDTO returns for the
schema `type: integer, enum: [1, 2], x-enumNames: [Low, High]` named `Level`
has both Alias (`int`) and Enums populated; and the definition that
buildObjectDTO returns for an empty schema with a description has none of
Fields, Alias and Enums. -/
theorem C8_two_or_none_populated :
    (buildEnumDTO "Level" (some lowHighEnum)).map (fun d => (d.Fields, d.Alias, d.Enums)) =
      some ([], "int", [{ Name := "LevelLow", Value := "1" },
                        { Name := "LevelHigh", Value := "2" }]) ∧
    (buildObjectDTO 1 "Note" describedString none []).map
        (fun r => (r.1.Fields, r.1.Alias, r.1.Enums, r.1.TypeDef)) =
      some ([], "", [], "string") := by
  constructor <;> decide

/-- C8 (amended). A definition never has Fields together with Alias or
Enums. A definition built by buildEnumDTO has no Fields and has both Alias,
the base type, and Enums populated; a definition built by buildUnionDTO has
one field per member and neither Alias nor Enums; a definition built by
buildObjectDTO has Enums only when it is the definition of buildEnumDTO, and
when it has fields it has neither Alias nor Enums. -/
theorem C8_definition_shapes (fuel : Nat) (name : String) (schema : Schema)
    (resolver : Option SchemaResolver) (helpers : Helpers) :
    (∀ d, buildEnumDTO name (some schema) = some d →
      d.Fields = [] ∧ d.Alias ≠ "" ∧ d.Enums ≠ []) ∧
    (∀ d, buildUnionDTO fuel name schema resolver = some d →
      d.Fields.length = (unionVariants schema).length ∧ d.Alias = "" ∧ d.Enums = []) ∧
    (∀ d helpers1, buildObjectDTO fuel name schema resolver helpers = some (d, helpers1) →
      (d.Enums ≠ [] → buildEnumDTO name (some schema) = some d) ∧
      (d.Fields ≠ [] → d.Alias = "" ∧ d.Enums = [])) := by
  refine ⟨?_, ?_, ?_⟩
  · intro d hd
    obtain ⟨h1, h2, h3, _⟩ := buildEnumDTO_shape hd
    exact ⟨h1, h2 ▸ EnumBaseType_ne_empty _, h3⟩
  · intro d hd
    obtain ⟨hf, _, ha, he⟩ := buildUnionDTO_fields hd
    exact ⟨unionFields_length _ _ _ _ _ _ hf, ha, he⟩
  · intro d helpers1 hd
    cases fuel with
    | zero => simp [buildObjectDTO] at hd
    | succ n =>
      unfold buildObjectDTO at hd
      rcases buildObjectDTOWith_cases hd with ⟨hnil, _, _, hshape⟩ | ⟨_, _, hm⟩
      · refine ⟨fun hen => ?_, fun hne => absurd hnil hne⟩
        rcases hshape with he | ⟨he, _⟩
        · exact he
        · exact absurd he hen
      · obtain ⟨st1, st2, _, _, hdto, _⟩ := mergeFields_cases hm
        subst hdto
        exact ⟨fun hen => absurd rfl hen, fun _ => ⟨rfl, rfl⟩⟩

theorem C8_definition_shapes_witness :
    (∀ d, buildEnumDTO "Level" (some lowHighEnum) = some d →
      d.Fields = [] ∧ d.Alias ≠ "" ∧ d.Enums ≠ []) ∧
    (buildEnumDTO "Level" (some lowHighEnum)).isSome = true ∧
    (buildObjectDTO 2 "Foo" fooObject (some emptyResolver) []).map
        (fun r => (r.1.Fields.length, r.1.Alias, r.1.Enums)) = some (2, "", []) :=
  ⟨(C8_definition_shapes 2 "Level" lowHighEnum none []).1, by decide, by decide⟩

/-- In a map without repeated keys every listed pair is an entry. -/
theorem mapGet_of_mem_nodup {V : Type} :
    ∀ (m : List (String × V)), (mapKeys m).Nodup → ∀ e, e ∈ m → mapGet m e.1 = some e.2 := by
  intro m
  induction m with
  | nil => intro _ e he; simp at he
  | cons x rest ih =>
    intro hnd e he
    obtain ⟨k1, v1⟩ := x
    simp only [mapKeys, List.map_cons, List.nodup_cons] at hnd
    rcases List.mem_cons.mp he with h | h
    · subst h
      simp [mapGet]
    · have hne : k1 ≠ e.1 := by
        intro heq
        apply hnd.1
        rw [heq]
        exact List.mem_map_of_mem Prod.fst h
      simp only [mapGet, hne, if_false]
      exact ih hnd.2 e h

theorem KeysOK_mem {h : Helpers} (hinv : KeysOK h) {e : String × dtoDef} (he : e ∈ h) :
    e.2.TypeName = e.1 :=
  hinv.1 e.1 e.2 (mapGet_of_mem_nodup h hinv.2 e he)

/-! ## Canonical names are fixed by toExportedName -/

theorem toExportedLoop_id :
    ∀ (l : List Char), (∀ c, c ∈ l → isAlnumAscii c = true) → toExportedLoop l false true = l := by
  intro l
  induction l with
  | nil => intro _; rfl
  | cons r rest ih =>
    intro h
    unfold toExportedLoop
    have hr : isAlnumAscii r = true := h r (List.mem_cons_self _ _)
    rw [if_pos hr]
    simp only [Bool.false_and, Bool.false_eq_true, if_false, Bool.not_true, List.nil_append]
    rw [ih (fun c hc => h c (List.mem_cons_of_mem _ hc))]

theorem startsUpper_toExportedLoop :
    ∀ (l : List Char), startsUpper (toExportedLoop l true false) = true := by
  intro l
  induction l with
  | nil => rfl
  | cons r rest ih =>
    unfold toExportedLoop
    by_cases hr : isAlnumAscii r = true
    · rw [if_pos hr]
      simp only [Bool.true_and, Bool.not_false]
      by_cases hl : isLowerAscii r = true
      · simp only [hl, if_true]
        have hu := isUpperAscii_upperAscii r hl
        by_cases hd : isDigitAscii (upperAscii r) = true
        · simp only [hd, if_true]
          rfl
        · simp only [hd, Bool.false_eq_true, if_false, List.nil_append]
          exact hu
      · simp only [hl, Bool.false_eq_true, if_false]
        by_cases hd : isDigitAscii r = true
        · simp only [hd, if_true]
          rfl
        · simp only [hd, Bool.false_eq_true, if_false, List.nil_append]
          unfold isAlnumAscii at hr
          simp only [Bool.or_eq_true] at hr
          rcases hr with (hr | hr) | hr
          · exact absurd hr hl
          · exact hr
          · exact absurd hr hd
    · rw [if_neg hr]
      exact ih

theorem isUpperAscii_not_lower_digit (r : Char) (h : isUpperAscii r = true) :
    isLowerAscii r = false ∧ isDigitAscii r = false ∧ isAlnumAscii r = true := by
  unfold isUpperAscii at h
  simp only [Bool.and_eq_true, decide_eq_true_eq] at h
  refine ⟨?_, ?_, ?_⟩
  · unfold isLowerAscii
    simp only [Bool.and_eq_false_imp, decide_eq_true_eq, decide_eq_false_iff_not]
    omega
  · unfold isDigitAscii
    simp only [Bool.and_eq_false_imp, decide_eq_true_eq, decide_eq_false_iff_not]
    omega
  · unfold isAlnumAscii isUpperAscii
    simp [h.1, h.2]

/-- A list of ASCII letters and digits that begins with an upper-case letter
is its own canonical form. -/
theorem toExportedLoop_fixed (l : List Char) (hal : ∀ c, c ∈ l → isAlnumAscii c = true)
    (hup : startsUpper l = true) : toExportedLoop l true false = l := by
  cases l with
  | nil => rfl
  | cons r rest =>
    have hu : isUpperAscii r = true := hup
    obtain ⟨hl, hd, ha⟩ := isUpperAscii_not_lower_digit r hu
    unfold toExportedLoop
    rw [if_pos ha]
    simp only [hl, hd, Bool.and_false, Bool.false_eq_true, if_false, List.nil_append]
    rw [toExportedLoop_id rest (fun c hc => hal c (List.mem_cons_of_mem _ hc))]

theorem toExportedName_fixed (s : String) (hal : ∀ c, c ∈ s.data → isAlnumAscii c = true)
    (hup : startsUpper s.data = true) : toExportedName s = s := by
  unfold toExportedName
  by_cases h : s = ""
  · rw [if_pos h, h]
  · rw [if_neg h, toExportedLoop_fixed s.data hal hup]

theorem startsUpper_append (l1 l2 : List Char) (h1 : startsUpper l1 = true)
    (h2 : startsUpper l2 = true) : startsUpper (l1 ++ l2) = true := by
  cases l1 with
  | nil => exact h2
  | cons c t => exact h1

/-- The helper name is its own canonical form. -/
theorem toExportedName_helperTypeName (parentName propName : String) :
    toExportedName (helperTypeName parentName propName) = helperTypeName parentName propName := by
  have e : (helperTypeName parentName propName).data =
      (toExportedName parentName).data ++ (toExportedName propName).data := rfl
  apply toExportedName_fixed
  · intro c hc
    rw [e] at hc
    rcases List.mem_append.mp hc with h | h
    · exact toExportedName_alnum _ c h
    · exact toExportedName_alnum _ c h
  · rw [e]
    apply startsUpper_append
    · rw [toExportedName_data]; exact startsUpper_toExportedLoop _
    · rw [toExportedName_data]; exact startsUpper_toExportedLoop _

/-! ## The writes of resolvePropertyType -/

/-- What a successful call of resolvePropertyType does to the cache: nothing,
or one write under the key it returns, a key that was absent: of an
enumeration, of a union, or of the object built by the nested call. -/
theorem resolvePropertyTypeWith_cases
    {build : String → Schema → Helpers → Option (dtoDef × Helpers)}
    {fuel : Nat} {resolver : Option SchemaResolver} {parentName propName : String}
    {schemaProxy : SchemaProxy} {helpers helpers1 : Helpers} {t : String}
    (hrun : resolvePropertyTypeWith build fuel resolver parentName propName schemaProxy helpers
      = some (t, helpers1)) :
    helpers1 = helpers ∨
    (∃ schema d, schemaProxy = .mk none (some schema) ∧ mapGet helpers t = none ∧
      helpers1 = mapSet helpers t d ∧
      ((buildEnumDTO (helperTypeName parentName propName) (some schema) = some d ∧
          t = d.TypeName) ∨
       (t = helperTypeName parentName propName ∧
          buildUnionDTO fuel t schema resolver = some d))) ∨
    (∃ schema d helpers3, schemaProxy = .mk none (some schema) ∧ mapGet helpers t = none ∧
      t = helperTypeName parentName propName ∧
      buildEnumDTO t (some schema) = none ∧
      build t schema helpers = some (d, helpers3) ∧
      helpers1 = mapSet helpers3 t d) := by
  rcases helperKey_cases parentName propName schemaProxy with ⟨schema, key, hp, hkey⟩ | hno
  · subst hp
    unfold helperKey at hkey
    unfold resolvePropertyTypeWith at hrun
    by_cases hs : isSingleRefAllOf schema = true
    · simp [hs] at hkey
    · simp only [hs, Bool.false_eq_true, if_false] at hkey hrun
      cases he : buildEnumDTO (helperTypeName parentName propName) (some schema) with
      | some enumDTO =>
        simp only [he] at hrun
        cases hg : mapGet helpers enumDTO.TypeName with
        | some d =>
          simp only [hg, Option.some.injEq, Prod.mk.injEq] at hrun
          exact Or.inl hrun.2.symm
        | none =>
          simp only [hg, Option.some.injEq, Prod.mk.injEq] at hrun
          obtain ⟨h1, h2⟩ := hrun
          subst h1
          exact Or.inr (Or.inl ⟨schema, enumDTO, rfl, hg, h2.symm, Or.inl ⟨he, rfl⟩⟩)
      | none =>
        simp only [he] at hkey hrun
        by_cases hc : hasComposition schema = true
        · simp only [hc, if_true] at hrun
          cases hg : mapGet helpers (helperTypeName parentName propName) with
          | some d =>
            simp only [hg, Option.some.injEq, Prod.mk.injEq] at hrun
            exact Or.inl hrun.2.symm
          | none =>
            simp only [hg] at hrun
            by_cases hu : isUnionSchema (some schema) = true
            · simp only [hu, if_true] at hrun
              cases hb : buildUnionDTO fuel (helperTypeName parentName propName) schema
                  resolver with
              | none => simp [hb] at hrun
              | some dto =>
                simp only [hb, Option.some.injEq, Prod.mk.injEq] at hrun
                obtain ⟨h1, h2⟩ := hrun
                subst h1
                exact Or.inr (Or.inl ⟨schema, dto, rfl, hg, h2.symm, Or.inr ⟨rfl, hb⟩⟩)
            · simp only [hu, Bool.false_eq_true, if_false] at hrun
              cases hb : build (helperTypeName parentName propName) schema helpers with
              | none => simp [hb] at hrun
              | some r =>
                obtain ⟨dto, h3⟩ := r
                simp only [hb, Option.some.injEq, Prod.mk.injEq] at hrun
                obtain ⟨h1, h2⟩ := hrun
                subst h1
                exact Or.inr (Or.inr ⟨schema, dto, h3, rfl, hg, rfl, he, hb, h2.symm⟩)
        · simp [hc] at hkey
  · obtain ⟨r, hr⟩ := resolvePropertyTypeWith_nokey build fuel resolver parentName propName
      schemaProxy hno
    rw [hr] at hrun
    cases r with
    | none => simp at hrun
    | some t2 =>
      simp only [Option.map_some', Option.some.injEq, Prod.mk.injEq] at hrun
      exact Or.inl hrun.2.symm

/-! ## Keys and type names of the helper cache -/

theorem mapKeys_mapSet {V : Type} (m : List (String × V)) (k : String) (v : V) :
    mapKeys (mapSet m k v) = if k ∈ mapKeys m then mapKeys m else mapKeys m ++ [k] := by
  induction m with
  | nil => simp [mapSet, mapKeys]
  | cons e rest ih =>
    obtain ⟨k1, v1⟩ := e
    by_cases h : k1 = k
    · subst h
      simp [mapSet, mapKeys]
    · have h2 : ¬ k = k1 := fun e => h e.symm
      unfold mapKeys at ih
      simp only [mapSet, h, if_false, mapKeys, List.map_cons, List.mem_cons, h2, false_or, ih]
      split <;> simp

theorem KeysOK_mapSet {h : Helpers} {k : String} {d : dtoDef} (hinv : KeysOK h)
    (hd : d.TypeName = k) : KeysOK (mapSet h k d) := by
  refine ⟨?_, ?_⟩
  · intro j e hj
    by_cases hkj : k = j
    · subst hkj
      rw [mapGet_mapSet_same] at hj
      simp only [Option.some.injEq] at hj
      rw [← hj]
      exact hd
    · rw [mapGet_mapSet_other _ _ _ _ hkj] at hj
      exact hinv.1 j e hj
  · rw [mapKeys_mapSet]
    split
    · exact hinv.2
    · rename_i hnot
      exact List.Nodup.append hinv.2 (List.nodup_singleton k)
        (by
          intro a ha hb
          simp only [List.mem_singleton] at hb
          exact hnot (hb ▸ ha))

/-- The type name of a definition built by buildObjectDTO for a name under
which there is no enumeration. -/
theorem buildObjectDTOWith_typeName
    {resolveProp : String → String → SchemaProxy → Helpers → Option (String × Helpers)}
    {fuel : Nat} {name : String} {schema : Schema} {resolver : Option SchemaResolver}
    {helpers : Helpers} {dto : dtoDef} {helpers1 : Helpers}
    (h : buildObjectDTOWith resolveProp fuel name schema resolver helpers = some (dto, helpers1))
    (he : buildEnumDTO name (some schema) = none) : dto.TypeName = toExportedName name := by
  rcases buildObjectDTOWith_cases h with ⟨_, _, _, hshape⟩ | ⟨_, _, hm⟩
  · rcases hshape with he2 | ⟨_, ht⟩
    · rw [he] at he2
      exact absurd he2 (by simp)
    · exact ht
  · obtain ⟨st1, st2, _, _, hdto, _⟩ := mergeFields_cases hm
    rw [hdto]

theorem resolvePropertyTypeWith_KeysOK
    {build : String → Schema → Helpers → Option (dtoDef × Helpers)}
    (hbuild : ∀ n s h d h1, build n s h = some (d, h1) →
      (KeysOK h → KeysOK h1) ∧ (buildEnumDTO n (some s) = none → d.TypeName = toExportedName n))
    {fuel : Nat} {resolver : Option SchemaResolver} {parentName propName : String}
    {schemaProxy : SchemaProxy} {helpers helpers1 : Helpers} {t : String}
    (hrun : resolvePropertyTypeWith build fuel resolver parentName propName schemaProxy helpers
      = some (t, helpers1)) (hinv : KeysOK helpers) : KeysOK helpers1 := by
  rcases resolvePropertyTypeWith_cases hrun with
    h | ⟨schema, d, _, _, h1, hd⟩ | ⟨schema, d, h3, _, _, ht, he, hb, h1⟩
  · rw [h]
    exact hinv
  · rw [h1]
    rcases hd with ⟨_, ht⟩ | ⟨ht, hu⟩
    · exact KeysOK_mapSet hinv ht.symm
    · refine KeysOK_mapSet hinv ?_
      rw [(buildUnionDTO_fields hu).2.1, ht]
      exact toExportedName_helperTypeName _ _
  · rw [h1]
    obtain ⟨hk, hn⟩ := hbuild _ _ _ _ _ hb
    refine KeysOK_mapSet (hk hinv) ?_
    rw [hn he, ht]
    exact toExportedName_helperTypeName _ _

/-- Every entry of the cache that buildObjectDTO leaves is stored under its
own type name and no key occurs twice, when this holds for the cache it is
given. -/
theorem buildObjectDTO_KeysOK (fuel : Nat) :
    ∀ (name : String) (schema : Schema) (resolver : Option SchemaResolver)
      (helpers : Helpers) (dto : dtoDef) (helpers1 : Helpers),
      buildObjectDTO fuel name schema resolver helpers = some (dto, helpers1) →
      (KeysOK helpers → KeysOK helpers1) ∧
      (buildEnumDTO name (some schema) = none → dto.TypeName = toExportedName name) := by
  induction fuel with
  | zero =>
    intro name schema resolver helpers dto helpers1 h
    simp [buildObjectDTO] at h
  | succ n ih =>
    intro name schema resolver helpers dto helpers1 h
    unfold buildObjectDTO at h
    refine ⟨?_, buildObjectDTOWith_typeName h⟩
    refine buildObjectDTOWith_helpers_rel (R := fun a b => KeysOK a → KeysOK b)
      (fun _ hh => hh) (fun _ _ _ h12 h23 hh => h23 (h12 hh)) ?_ h
    intro p ps h0 t h1 hr
    exact resolvePropertyTypeWith_KeysOK
      (fun n2 s h2 d h3 hb => ih n2 s resolver h2 d h3 hb) hr

/-! ## C5: the type names of the emitted definitions -/

/-- C5 (counterexample). For the schema `Foo`, whose property `bar` is an
inline union, and the schema `FooBar`, the definitions emitted are `Foo`, the
helper `FooBar` of the property and the definition `FooBar` of the second
schema: two definitions have the same type name. -/
theorem C5_helper_and_schema_share_a_name :
    (buildAllTypes 2 [] (some fooResolver) fooResolver.Schemas).map
        (fun defs => defs.map (fun e => e.2.TypeName)) = some ["Foo", "FooBar", "FooBar"] ∧
    ¬ ["Foo", "FooBar", "FooBar"].Nodup := by
  constructor <;> decide

/-- C5 (amended). Within one call of buildTypes the first definition written
is the one of the schema, named by the canonical form of the schema name
unless buildEnumDTO names it, and the helper definitions written after it have
pairwise distinct type names, each the key under which the helper is cached
and written. -/
theorem C5_helpers_of_one_schema_are_distinct (fuel : Nat) (name : String)
    (schemaProxy : SchemaProxy) (resolver : Option SchemaResolver)
    (defs : List (String × dtoDef))
    (h : buildTypes fuel name schemaProxy resolver = some defs) :
    (defs.tail.map (fun e => e.2.TypeName)).Nodup ∧
    (∀ e, e ∈ defs.tail → e.2.TypeName = e.1) ∧
    (∀ e schema, defs.head? = some e → schemaProxy.Schema = some schema →
      e.1 = name ∧ (buildEnumDTO name (some schema) = none →
        e.2.TypeName = toExportedName name)) := by
  unfold buildTypes at h
  cases hs : schemaProxy.Schema with
  | none =>
    simp only [hs, Option.some.injEq] at h
    subst h
    simp
  | some schema =>
    simp only [hs] at h
    cases he : buildEnumDTO name (some schema) with
    | some enumDTO =>
      simp only [he, Option.some.injEq] at h
      subst h
      simp
      intro hc
      rw [he] at hc
      exact absurd hc (by simp)
    | none =>
      simp only [he] at h
      cases ha : additionalPropertiesAlias fuel (some schema) resolver with
      | none => simp [ha] at h
      | some a =>
        cases a with
        | some aliasType =>
          simp only [ha, Option.some.injEq] at h
          subst h
          simp
        | none =>
          simp only [ha] at h
          by_cases hu : isUnionSchema (some schema) = true
          · simp only [hu, if_true] at h
            obtain ⟨dto, hd, hdefs⟩ := Option.map_eq_some'.mp h
            subst hdefs
            simp [(buildUnionDTO_fields hd).2.1]
          · simp only [hu, Bool.false_eq_true, if_false] at h
            cases hb : buildObjectDTO fuel name schema resolver [] with
            | none => simp [hb] at h
            | some r =>
              obtain ⟨dto, helpers⟩ := r
              simp only [hb, Option.some.injEq] at h
              subst h
              obtain ⟨hk, hn⟩ := buildObjectDTO_KeysOK fuel name schema resolver [] dto helpers hb
              have hinv : KeysOK helpers :=
                hk ⟨fun k d hkd => by simp [mapGet] at hkd, by simp [mapKeys]⟩
              have hall : ∀ e, e ∈ helpers → e.2.TypeName = e.1 := by
                intro e hmem
                exact KeysOK_mem hinv hmem
              refine ⟨?_, hall, ?_⟩
              · simp only [List.tail_cons]
                have : helpers.map (fun e => e.2.TypeName) = mapKeys helpers := by
                  unfold mapKeys
                  exact List.map_congr_left (fun e hmem => hall e hmem)
                rw [this]
                exact hinv.2
              · intro e s2 hhead hs2
                simp only [List.head?_cons, Option.some.injEq] at hhead
                subst hhead
                exact ⟨rfl, fun _ => hn he⟩

theorem C5_helpers_of_one_schema_are_distinct_witness :
    buildTypes 2 "Foo" (.mk none (some fooObject)) (some fooResolver) =
      some [("Foo", fooDTO), ("FooBar", fooBarHelper)] ∧
    ([("Foo", fooDTO), ("FooBar", fooBarHelper)].tail.map (fun e => e.2.TypeName)).Nodup :=
  ⟨by decide,
   (C5_helpers_of_one_schema_are_distinct 2 "Foo" (.mk none (some fooObject))
      (some fooResolver) [("Foo", fooDTO), ("FooBar", fooBarHelper)] (by decide)).1⟩

/-! ## The base name of a type string -/

theorem stripSeqMap_nil (n : Nat) : stripSeqMap n [] = [] := by
  cases n with
  | zero => rfl
  | succ m =>
    unfold stripSeqMap
    have e1 : "[]".data.isPrefixOf ([] : List Char) = false := by decide
    have e2 : "map[string]".data.isPrefixOf ([] : List Char) = false := by decide
    simp only [e1, e2, Bool.false_eq_true, if_false]

/-- The bound of stripSeqMap does not matter once it is at least the length
of the string. -/
theorem stripSeqMap_fuel :
    ∀ (n m : Nat) (l : List Char), l.length ≤ n → l.length ≤ m →
      stripSeqMap n l = stripSeqMap m l := by
  intro n
  induction n with
  | zero =>
    intro m l hn _
    have hl : l = [] := List.length_eq_zero.mp (Nat.le_zero.mp hn)
    subst hl
    rw [stripSeqMap_nil, stripSeqMap_nil]
  | succ n ih =>
    intro m l hn hm
    cases m with
    | zero =>
      have hl : l = [] := List.length_eq_zero.mp (Nat.le_zero.mp hm)
      subst hl
      rw [stripSeqMap_nil, stripSeqMap_nil]
    | succ m =>
      unfold stripSeqMap
      by_cases h1 : "[]".data.isPrefixOf l = true
      · rw [if_pos h1, if_pos h1]
        have hlen : l.length ≠ 0 := by
          intro h0
          rw [List.length_eq_zero.mp h0] at h1
          exact absurd h1 (by decide)
        apply ih
        · rw [List.length_drop]; omega
        · rw [List.length_drop]; omega
      · rw [if_neg h1, if_neg h1]
        by_cases h2 : "map[string]".data.isPrefixOf l = true
        · rw [if_pos h2, if_pos h2]
          have hlen : l.length ≠ 0 := by
            intro h0
            rw [List.length_eq_zero.mp h0] at h2
            exact absurd h2 (by decide)
          apply ih
          · rw [List.length_drop]; omega
          · rw [List.length_drop]; omega
        · rw [if_neg h2, if_neg h2]

theorem mem_of_isPrefixOf {p l : List Char} (h : p.isPrefixOf l = true) (c : Char)
    (hc : c ∈ p) : c ∈ l := by
  obtain ⟨t, ht⟩ := List.isPrefixOf_iff_prefix.mp h
  rw [← ht]
  exact List.mem_append_left _ hc

/-- A string of ASCII letters and digits has no prefix to remove. -/
theorem stripSeqMap_alnum (n : Nat) (l : List Char)
    (h : ∀ c, c ∈ l → isAlnumAscii c = true) : stripSeqMap n l = l := by
  cases n with
  | zero => rfl
  | succ m =>
    unfold stripSeqMap
    have hb : isAlnumAscii '[' = false := by decide
    have h1 : ¬ "[]".data.isPrefixOf l = true := by
      intro hp
      have := h '[' (mem_of_isPrefixOf hp '[' (by decide))
      rw [hb] at this
      exact absurd this (by simp)
    have h2 : ¬ "map[string]".data.isPrefixOf l = true := by
      intro hp
      have := h '[' (mem_of_isPrefixOf hp '[' (by decide))
      rw [hb] at this
      exact absurd this (by simp)
    rw [if_neg h1, if_neg h2]

theorem stripSeqMap_seq (n : Nat) (l : List Char) :
    stripSeqMap (n + 1) ("[]".data ++ l) = stripSeqMap n l := by
  rw [stripSeqMap]
  have h1 : "[]".data.isPrefixOf ("[]".data ++ l) = true :=
    List.isPrefixOf_iff_prefix.mpr (List.prefix_append _ _)
  have hd : List.drop 2 ("[]".data ++ l) = l := rfl
  rw [if_pos h1, hd]

theorem stripSeqMap_map (n : Nat) (l : List Char) :
    stripSeqMap (n + 1) ("map[string]".data ++ l) = stripSeqMap n l := by
  rw [stripSeqMap]
  have h1 : ¬ "[]".data.isPrefixOf ("map[string]".data ++ l) = true := by
    intro hp
    obtain ⟨t, ht⟩ := List.isPrefixOf_iff_prefix.mp hp
    have e : "map[string]".data ++ l = 'm' :: ("ap[string]".data ++ l) := rfl
    have e2 : "[]".data ++ t = '[' :: ([']'] ++ t) := rfl
    rw [e, e2] at ht
    simp only [List.cons.injEq] at ht
    exact absurd ht.1 (by decide)
  have h2 : "map[string]".data.isPrefixOf ("map[string]".data ++ l) = true :=
    List.isPrefixOf_iff_prefix.mpr (List.prefix_append _ _)
  have hd : List.drop 11 ("map[string]".data ++ l) = l := rfl
  rw [if_neg h1, if_pos h2, hd]

theorem string_mk_data (s : String) : String.mk s.data = s := rfl

/-- A name of ASCII letters and digits is its own base name. -/
theorem baseTypeName_alnum (t : String) (h : ∀ c, c ∈ t.data → isAlnumAscii c = true) :
    baseTypeName t = t := by
  unfold baseTypeName
  rw [stripOptionalType_of_noStar (leadingStar_of_alnum h), stripSeqMap_alnum _ _ h]

theorem stripOptionalType_length (g : String) :
    (stripOptionalType g).data.length ≤ g.data.length := by
  unfold stripOptionalType
  split
  · rename_i rest hd
    rw [hd]
    simp
  · exact Nat.le_refl _

/-- Removing the optional wrapper does not change the base name. -/
theorem baseTypeName_strip (g : String) (h : leadingStar (stripOptionalType g) = false) :
    baseTypeName (stripOptionalType g) = baseTypeName g := by
  unfold baseTypeName
  rw [stripOptionalType_of_noStar h]
  congr 1
  apply stripSeqMap_fuel
  · exact Nat.le_refl _
  · exact stripOptionalType_length g

/-- Adding the optional wrapper does not change the base name, except that
the empty type becomes `any`. -/
theorem baseTypeName_makeOptional (t : String) (h : leadingStar t = false) :
    baseTypeName (makeOptionalType t) = baseTypeName t ∨
    baseTypeName (makeOptionalType t) = "any" := by
  unfold makeOptionalType
  by_cases h0 : t = ""
  · right
    rw [if_pos h0]
    decide
  · rw [if_neg h0]
    split
    · exact Or.inl rfl
    · left
      unfold baseTypeName
      rw [stripOptionalType_star, stripOptionalType_of_noStar h]
      congr 1
      apply stripSeqMap_fuel
      · rw [String.length_append]
        exact Nat.le_add_left _ _
      · exact Nat.le_refl _

/-! ## C3: the names that field types refer to -/

theorem helperKey_alnum {parentName propName : String} {schema : Schema} {key : String}
    (hparent : toExportedName parentName ≠ "")
    (hkey : helperKey parentName propName schema = some key) :
    ∀ c, c ∈ key.data → isAlnumAscii c = true := by
  unfold helperKey at hkey
  split at hkey
  · exact absurd hkey (by simp)
  · split at hkey
    · rename_i enumDTO he
      simp only [Option.some.injEq] at hkey
      subst hkey
      rw [(buildEnumDTO_shape he).2.2.2.2
        (toExportedName_helperTypeName_ne_empty parentName propName hparent)]
      exact toExportedName_alnum _
    · split at hkey
      · simp only [Option.some.injEq] at hkey
        subst hkey
        intro c hc
        have e : (helperTypeName parentName propName).data =
            (toExportedName parentName).data ++ (toExportedName propName).data := rfl
        rw [e] at hc
        rcases List.mem_append.mp hc with h | h
        · exact toExportedName_alnum _ c h
        · exact toExportedName_alnum _ c h
      · exact absurd hkey (by simp)

theorem mapKeys_subset_mapSet (h : Helpers) (k : String) (d : dtoDef) :
    ∀ j, j ∈ mapKeys h → j ∈ mapKeys (mapSet h k d) := by
  intro j hj
  rw [mapKeys_mapSet]
  split
  · exact hj
  · exact List.mem_append_left _ hj

theorem Extends_keys {h h1 : Helpers} (hext : Extends h h1) :
    ∀ k, k ∈ mapKeys h → k ∈ mapKeys h1 := fun _ hk => Extends_mem_keys hext hk

/-! ### The references behind the type strings -/

theorem Within_nil (R : String → Prop) : Within R .nil := by
  intro ref h
  cases h

theorem Within_member {R : String → Prop} {r : Option String} {s : Schema} {q : SchemaProxy}
    (h : Within R (.mk r (some s))) (hm : Member s q) : Within R q :=
  fun ref ho => h ref (Occurs.inside hm ho)

/-- The references in the schema that a proxy holds occur in the proxy. -/
theorem Within_schema {R : String → Prop} {p : SchemaProxy} {s : Schema} (h : Within R p)
    (hs : p.Schema = some s) : Within R (.mk none (some s)) := by
  cases p with
  | nil => simp [SchemaProxy.Schema] at hs
  | mk r x =>
    simp only [SchemaProxy.Schema] at hs
    subst hs
    intro ref ho
    cases ho with
    | inside hm hq => exact h ref (Occurs.inside hm hq)

theorem Within_head {R : String → Prop} {r : Option String} {s : Schema}
    (h : Within R (.mk r (some s))) : Within R (s.AllOf.headD .nil) := by
  cases hl : s.AllOf with
  | nil => exact Within_nil R
  | cons m rest =>
    exact Within_member h (Member.allOf (by rw [hl]; exact List.mem_cons_self _ _))

theorem Within_lookup_items {resolver : Option SchemaResolver} {R : String → Prop}
    (hreg : ∀ name, Within R (Lookup resolver name)) {name : String} {sch : Schema}
    {a : SchemaProxy} (hl : (Lookup resolver name).Schema = some sch)
    (hi : sch.Items = some (.A a)) : Within R a :=
  Within_member (Within_schema (hreg name) hl) (Member.items hi)

/-- The type name of a registered enumeration is the canonical form of the
name it is registered under. -/
theorem enumRef_typeName {resolver : Option SchemaResolver}
    (hkeys : canonicalKeys resolver = true) {name : String} {sch : Schema} {e : dtoDef}
    (hl : (Lookup resolver name).Schema = some sch)
    (he : buildEnumDTO name (some sch) = some e) : e.TypeName = toExportedName name := by
  obtain ⟨res, hres, hk⟩ := Lookup_schema_mem_keys hl
  exact (buildEnumDTO_shape he).2.2.2.2 (canonicalKeys_spec hkeys hres hk)

theorem TypeOver_any (R : String → Prop) : TypeOver R "any" :=
  TypeOver.builtin _ (by decide)

theorem TypeOver_seq_any (R : String → Prop) : TypeOver R "[]any" := by
  have e : ("[]any" : String) = "[]" ++ "any" := by decide
  rw [e]
  exact TypeOver.seq _ (TypeOver_any R)

theorem TypeOver_map_any (R : String → Prop) : TypeOver R "map[string]any" := by
  have e : ("map[string]any" : String) = "map[string]" ++ "any" := by decide
  rw [e]
  exact TypeOver.map _ (TypeOver_any R)

theorem additionalPropertiesAliasWith_over {R : String → Prop}
    {goType : SchemaProxy → Option String} {s : Schema}
    (hgo : ∀ p t, s.AdditionalProperties = some (.A p) → goType p = some t → TypeOver R t)
    {a : String}
    (h : additionalPropertiesAliasWith goType (some s) = some (some a)) : TypeOver R a := by
  unfold additionalPropertiesAliasWith at h
  simp only at h
  repeat' split at h
  all_goals first
    | (simp at h; done)
    | skip
  · rename_i p _ _
    cases hg : goType p with
    | none => simp [hg] at h
    | some v =>
      simp only [hg, Option.map_some', Option.some.injEq] at h
      subst h
      exact TypeOver.map _ (hgo _ _ ‹_› hg)
  · simp only [Option.some.injEq] at h
    subst h
    exact TypeOver_map_any R

/-- Every type string returned by goTypeForSchema is a type string over the
references that occur in the proxy or in a registered schema. -/
theorem goTypeForSchema_over {resolver : Option SchemaResolver}
    (hkeys : canonicalKeys resolver = true) {R : String → Prop}
    (hreg : ∀ name, Within R (Lookup resolver name)) (fuel : Nat) :
    ∀ (schemaProxy : SchemaProxy) (allowUnion : Bool) (t : String), Within R schemaProxy →
      goTypeForSchema fuel schemaProxy resolver allowUnion = some t → TypeOver R t := by
  induction fuel with
  | zero => intro p au t _ h; simp [goTypeForSchema] at h
  | succ n ih =>
    intro p au t hw h
    cases p with
    | nil =>
      simp only [goTypeForSchema, Option.some.injEq] at h
      subst h
      exact TypeOver_any R
    | mk ref sch =>
      cases ref with
      | some r =>
        have hr : R r := hw r Occurs.here
        simp only [goTypeForSchema] at h
        repeat' split at h
        all_goals first
          | (simp at h; done)
          | (simp only [Option.some.injEq] at h; subst h; exact TypeOver.named _ hr)
          | (simp only [Option.some.injEq] at h; subst h; exact TypeOver.builtin _ (by decide))
          | (simp only [Option.some.injEq] at h; subst h; exact TypeOver_seq_any _)
          | (simp only [Option.some.injEq] at h; subst h;
             rw [enumRef_typeName hkeys ‹_› ‹_›]; exact TypeOver.named _ hr)
          | (obtain ⟨v, hv, rfl⟩ := Option.map_eq_some'.mp h;
             exact TypeOver.seq _ (ih _ _ _ (Within_lookup_items hreg ‹_› ‹_›) hv))
      | none =>
        cases sch with
        | none =>
          simp only [goTypeForSchema, Option.some.injEq] at h
          subst h
          exact TypeOver_any R
        | some s =>
          have hgo : ∀ p t, s.AdditionalProperties = some (.A p) →
              (fun p => goTypeForSchema n p resolver true) p = some t → TypeOver R t :=
            fun p t hp hg => ih p true t (Within_member hw (Member.additional hp)) hg
          simp only [goTypeForSchema] at h
          repeat' split at h
          all_goals first
            | (simp at h; done)
            | exact ih _ _ _ (Within_head hw) h
            | (simp only [Option.some.injEq] at h; subst h; exact TypeOver.builtin _ (by decide))
            | (simp only [Option.some.injEq] at h; subst h; exact TypeOver_seq_any _)
            | (simp only [Option.some.injEq] at h; subst h; exact TypeOver_map_any _)
            | (simp only [Option.some.injEq] at h; subst h; rw [(buildEnumDTO_shape ‹_›).2.1];
               exact TypeOver.builtin _ (EnumBaseType_builtin _))
            | (obtain ⟨v, hv, rfl⟩ := Option.map_eq_some'.mp h;
               exact TypeOver.seq _ (ih _ _ _ (Within_member hw (Member.items ‹_›)) hv))
            | (simp only [Option.some.injEq] at h; subst h;
               exact additionalPropertiesAliasWith_over hgo ‹_›)

theorem TypeOver_noStar {R : String → Prop} {t : String} (h : TypeOver R t) :
    leadingStar t = false := by
  induction h with
  | builtin t ht =>
    have : ∀ x, x ∈ builtinTypes → leadingStar x = false := by decide
    exact this t ht
  | named r _ => exact toExportedName_noStar _
  | seq t _ _ => exact leadingStar_append_of_cons '[' [']'] t (by decide)
  | map t _ _ =>
    exact leadingStar_append_of_cons 'm' "ap[string]".data t (by decide)

/-- The names under the prefixes of a type string over `R`. -/
theorem TypeOver_stripSeqMap {R : String → Prop} {t : String} (h : TypeOver R t) :
    ∀ n, t.length ≤ n →
      String.mk (stripSeqMap n t.data) ∈ builtinTypes ∨
      ∃ ref, R ref ∧ String.mk (stripSeqMap n t.data) = toExportedName (RefToSchemaName ref) := by
  induction h with
  | builtin t ht =>
    intro n _
    have hal : ∀ x, x ∈ builtinTypes → ∀ c, c ∈ x.data → isAlnumAscii c = true := by decide
    rw [stripSeqMap_alnum _ _ (hal t ht)]
    exact Or.inl ht
  | named r hr =>
    intro n _
    rw [stripSeqMap_alnum _ _ (toExportedName_alnum _)]
    exact Or.inr ⟨r, hr, rfl⟩
  | seq t _ ih =>
    intro n hn
    have hlen : ("[]" ++ t).length = t.length + 2 := by
      rw [String.length_append]
      have : ("[]" : String).length = 2 := by decide
      omega
    have e : ("[]" ++ t).data = "[]".data ++ t.data := rfl
    cases n with
    | zero => omega
    | succ m =>
      rw [e, stripSeqMap_seq]
      exact ih m (by omega)
  | map t _ ih =>
    intro n hn
    have hlen : ("map[string]" ++ t).length = t.length + 11 := by
      rw [String.length_append]
      have : ("map[string]" : String).length = 11 := by decide
      omega
    have e : ("map[string]" ++ t).data = "map[string]".data ++ t.data := rfl
    cases n with
    | zero => omega
    | succ m =>
      rw [e, stripSeqMap_map]
      exact ih m (by omega)

/-- The base name of a type string over `R` is a known name, in whatever
cache. -/
theorem TypeOver_known {R : String → Prop} {t : String} (h : TypeOver R t)
    (helpers : Helpers) : KnownOver R helpers (baseTypeName t) := by
  unfold baseTypeName
  rw [stripOptionalType_of_noStar (TypeOver_noStar h)]
  rcases TypeOver_stripSeqMap h t.length (Nat.le_refl _) with hb | hr
  · exact Or.inl hb
  · exact Or.inr (Or.inr hr)

theorem KnownOver_mono {R : String → Prop} {h h1 : Helpers}
    (hsub : ∀ k, k ∈ mapKeys h → k ∈ mapKeys h1)
    {b : String} (hb : KnownOver R h b) : KnownOver R h1 b := by
  rcases hb with hb | hb | hb
  · exact Or.inl hb
  · exact Or.inr (Or.inl (hsub b hb))
  · exact Or.inr (Or.inr hb)

theorem KnownOver_any (R : String → Prop) (helpers : Helpers) : KnownOver R helpers "any" :=
  Or.inl (by decide)

/-- The type of a field made optional or not refers to a known name when the
resolved type does. -/
theorem KnownOver_makeOptional {R : String → Prop} {helpers : Helpers} {t : String}
    (h : leadingStar t = false) (hk : KnownOver R helpers (baseTypeName t)) :
    KnownOver R helpers (baseTypeName (makeOptionalType t)) := by
  rcases baseTypeName_makeOptional t h with e | e
  · rw [e]; exact hk
  · rw [e]; exact KnownOver_any R helpers

/-- C3 (counterexample). The property `baz` of `Foo` refers to the schema
`Missing`, which the resolver does not register: its field has the type
`*Missing`, and `Missing` is not a built-in, not the type name of a registered
schema and not a key of the helper cache. -/
theorem C3_dangling_reference :
    buildObjectDTO 2 "Foo" fooObject (some fooOnlyResolver) [] = some (fooDTO, fooHelpers) ∧
    fooDTO.Fields.map (fun f => (f.GoType, baseTypeName f.GoType)) =
      [("*FooBar", "FooBar"), ("*Missing", "Missing")] ∧
    "Missing" ∉ builtinTypes ∧ "Missing" ∉ mapKeys fooHelpers ∧
    "Missing" ∉ (mapKeys fooOnlyResolver.Schemas).map toExportedName ∧
    "Missing" ∉ mapKeys fooOnlyResolver.Schemas := by
  refine ⟨by decide, by decide, by decide, by decide, by decide, by decide⟩

/-- A property without a helper key is resolved by goTypeForSchema. -/
theorem resolvePropertyTypeWith_nokey_over
    {build : String → Schema → Helpers → Option (dtoDef × Helpers)}
    {fuel : Nat} {resolver : Option SchemaResolver} (hkeys : canonicalKeys resolver = true)
    {R : String → Prop} (hreg : ∀ name, Within R (Lookup resolver name))
    {parentName propName : String}
    {schemaProxy : SchemaProxy} {helpers helpers1 : Helpers} {t : String}
    (hw : Within R schemaProxy)
    (hno : ∀ schema, schemaProxy = .mk none (some schema) →
      helperKey parentName propName schema = none)
    (hrun : resolvePropertyTypeWith build fuel resolver parentName propName schemaProxy helpers
      = some (t, helpers1)) : TypeOver R t := by
  cases schemaProxy with
  | nil =>
    simp only [resolvePropertyTypeWith, Option.some.injEq, Prod.mk.injEq] at hrun
    rw [← hrun.1]
    exact TypeOver_any R
  | mk ref sch =>
    cases ref with
    | some r =>
      simp only [resolvePropertyTypeWith] at hrun
      obtain ⟨v, hv, he⟩ := Option.map_eq_some'.mp hrun
      simp only [Prod.mk.injEq] at he
      rw [← he.1]
      exact goTypeForSchema_over hkeys hreg _ _ _ _ hw hv
    | none =>
      cases sch with
      | none =>
        simp only [resolvePropertyTypeWith, Option.some.injEq, Prod.mk.injEq] at hrun
        rw [← hrun.1]
        exact TypeOver_any R
      | some schema =>
        have hk := hno schema rfl
        unfold helperKey at hk
        unfold resolvePropertyTypeWith at hrun
        by_cases hs : isSingleRefAllOf schema = true
        · simp only [hs, if_true] at hrun
          obtain ⟨v, hv, he⟩ := Option.map_eq_some'.mp hrun
          simp only [Prod.mk.injEq] at he
          rw [← he.1]
          exact goTypeForSchema_over hkeys hreg _ _ _ _ (Within_head hw) hv
        · simp only [hs, Bool.false_eq_true, if_false] at hk hrun
          cases he : buildEnumDTO (helperTypeName parentName propName) (some schema) with
          | some enumDTO => simp [he] at hk
          | none =>
            simp only [he] at hk hrun
            by_cases hc : hasComposition schema = true
            · simp [hc] at hk
            · simp only [hc, Bool.false_eq_true, if_false] at hrun
              obtain ⟨v, hv, he2⟩ := Option.map_eq_some'.mp hrun
              simp only [Prod.mk.injEq] at he2
              rw [← he2.1]
              exact goTypeForSchema_over hkeys hreg _ _ _ _ hw hv

/-- The type that resolvePropertyType returns refers to a known name of the
cache it leaves: the key of the helper of the property, or a name that
goTypeForSchema gives. -/
theorem resolvePropertyTypeWith_known
    {build : String → Schema → Helpers → Option (dtoDef × Helpers)}
    {fuel : Nat} {resolver : Option SchemaResolver} {parentName propName : String}
    {schemaProxy : SchemaProxy} {helpers helpers1 : Helpers} {t : String}
    (hkeys : canonicalKeys resolver = true)
    {R : String → Prop} (hreg : ∀ name, Within R (Lookup resolver name))
    (hw : Within R schemaProxy) (hparent : toExportedName parentName ≠ "")
    (hrun : resolvePropertyTypeWith build fuel resolver parentName propName schemaProxy helpers
      = some (t, helpers1)) : KnownOver R helpers1 (baseTypeName t) := by
  rcases helperKey_cases parentName propName schemaProxy with ⟨schema, key, hp, hkey⟩ | hno
  · subst hp
    obtain ⟨ht, hin⟩ := resolvePropertyTypeWith_key hkey hrun
    subst ht
    rw [baseTypeName_alnum t (helperKey_alnum hparent hkey)]
    exact Or.inr (Or.inl hin)
  · exact TypeOver_known (resolvePropertyTypeWith_nokey_over hkeys hreg hw hno hrun) helpers1

theorem CacheOK_mapSet {R : String → Prop} {h : Helpers} {k : String} {d : dtoDef}
    (hc : CacheOK R h)
    (hd : ∀ f, f ∈ d.Fields → KnownOver R h (baseTypeName f.GoType)) :
    CacheOK R (mapSet h k d) := by
  intro j e hj f hf
  by_cases hkj : k = j
  · subst hkj
    rw [mapGet_mapSet_same] at hj
    simp only [Option.some.injEq] at hj
    subst hj
    exact KnownOver_mono (mapKeys_subset_mapSet h k d) (hd f hf)
  · rw [mapGet_mapSet_other _ _ _ _ hkj] at hj
    exact KnownOver_mono (mapKeys_subset_mapSet h k d) (hc j e hj f hf)

theorem Member_unionVariants {schema : Schema} {v : SchemaProxy}
    (h : v ∈ unionVariants schema) : Member schema v := by
  unfold unionVariants at h
  split at h
  · exact Member.anyOf h
  · exact Member.oneOf h

/-- The fields of a union definition refer to known names. -/
theorem buildUnionDTO_known {fuel : Nat} {name : String} {schema : Schema}
    {resolver : Option SchemaResolver} {d : dtoDef} (hkeys : canonicalKeys resolver = true)
    {R : String → Prop} (hreg : ∀ name, Within R (Lookup resolver name))
    (hw : Within R (.mk none (some schema)))
    (hd : buildUnionDTO fuel name schema resolver = some d) (f : fieldDef) (hf : f ∈ d.Fields) :
    leadingStar (stripOptionalType f.GoType) = false ∧
    ∀ helpers : Helpers, KnownOver R helpers (baseTypeName f.GoType) := by
  obtain ⟨huf, _⟩ := buildUnionDTO_fields hd
  obtain ⟨_, v, g, hv, hg, ht⟩ := unionFields_mem _ _ _ _ _ _ huf f hf
  have hgo := goTypeForSchema_over hkeys hreg _ _ _ _
    (Within_member hw (Member_unionVariants hv)) hg
  have hns := TypeOver_noStar hgo
  rw [ht]
  exact ⟨leadingStar_strip_makeOptional hns,
    fun helpers => KnownOver_makeOptional hns (TypeOver_known hgo helpers)⟩

theorem KnownInv_addUnionField {R : String → Prop} {st : mergeState} {field : fieldDef}
    (h : KnownInv R st)
    (hns : leadingStar (stripOptionalType field.GoType) = false)
    (hk : KnownOver R st.helpers (baseTypeName field.GoType)) :
    KnownInv R (addUnionField st field) := by
  obtain ⟨h1, h2, h3⟩ := h
  refine ⟨NoStar_addUnionField h1 hns, ?_, ?_⟩
  · intro k f hf
    rw [addUnionField_helpers]
    rw [addUnionField_get] at hf
    by_cases hkn : field.Name = k
    · rw [if_pos hkn] at hf
      cases hg : mapGet st.fields field.Name with
      | none =>
        simp only [hg, Option.some.injEq] at hf
        subst hf
        exact hk
      | some existing =>
        simp only [hg, Option.some.injEq] at hf
        subst hf
        have hex := h2 _ _ hg
        simp only [mergeExisting]
        split
        · rw [baseTypeName_strip _ (h1 _ _ hg).1]
          exact hex
        · exact hex
    · rw [if_neg hkn] at hf
      exact h2 k f hf
  · rw [addUnionField_helpers]
    exact h3

theorem KnownInv_addProperty {R : String → Prop}
    {resolveProp : String → String → SchemaProxy → Helpers → Option (String × Helpers)}
    {fuel : Nat} {resolver : Option SchemaResolver} {required : List (String × Bool)}
    {parentName : String} {st st1 : mergeState} {propName : String} {propSchema : SchemaProxy}
    (hstar : ∀ p ps h t h1, resolveProp parentName p ps h = some (t, h1) →
      leadingStar t = false)
    (hres : ∀ h t h1, resolveProp parentName propName propSchema h = some (t, h1) →
      KnownOver R h1 (baseTypeName t) ∧ Extends h h1 ∧ (CacheOK R h → CacheOK R h1))
    (h : KnownInv R st)
    (hstep : addProperty resolveProp fuel resolver required parentName false st
      propName propSchema = some st1) : KnownInv R st1 := by
  obtain ⟨h1, h2, h3⟩ := h
  obtain ⟨goType0, annotate, hr, _, _, hget⟩ := addProperty_spec hstep
  have hns := hstar _ _ _ _ _ hr
  obtain ⟨hkn, hext, hcache⟩ := hres _ _ _ hr
  refine ⟨NoStar_addProperty hstar h1 hstep, ?_, hcache h3⟩
  intro k f hf
  rw [hget] at hf
  by_cases hk : propName = k
  · rw [if_pos hk] at hf
    cases hg : mapGet st.fields propName with
    | none =>
      simp only [hg, Option.some.injEq] at hf
      subst hf
      simp only [propertyFieldEntry]
      split
      · exact KnownOver_makeOptional hns hkn
      · exact hkn
    | some existing =>
      simp only [hg, Option.some.injEq] at hf
      subst hf
      have hex := KnownOver_mono (Extends_keys hext) (h2 _ _ hg)
      simp only [mergeExisting]
      split
      · rw [baseTypeName_strip _ (h1 _ _ hg).1]
        exact hex
      · exact hex
  · rw [if_neg hk] at hf
    exact KnownOver_mono (Extends_keys hext) (h2 k f hf)

/-- What one call of resolvePropertyType guarantees, when the nested builds
guarantee the same for the definitions they return. -/
theorem resolvePropertyTypeWith_CacheOK
    {build : String → Schema → Helpers → Option (dtoDef × Helpers)}
    {fuel : Nat} {resolver : Option SchemaResolver}
    (hkeys : canonicalKeys resolver = true)
    {R : String → Prop} (hreg : ∀ name, Within R (Lookup resolver name))
    (hbuild : ∀ n s h d h1, toExportedName n ≠ "" → Within R (.mk none (some s)) →
      CacheOK R h → build n s h = some (d, h1) →
      CacheOK R h1 ∧ ∀ f, f ∈ d.Fields → KnownOver R h1 (baseTypeName f.GoType))
    {parentName propName : String} (hparent : toExportedName parentName ≠ "")
    {schemaProxy : SchemaProxy} {helpers helpers1 : Helpers} {t : String}
    (hw : Within R schemaProxy)
    (hrun : resolvePropertyTypeWith build fuel resolver parentName propName schemaProxy helpers
      = some (t, helpers1)) (hc : CacheOK R helpers) : CacheOK R helpers1 := by
  rcases resolvePropertyTypeWith_cases hrun with
    h | ⟨schema, d, hp, _, h1, hd⟩ | ⟨schema, d, h3, hp, _, ht, he, hb, h1⟩
  · rw [h]
    exact hc
  · rw [h1]
    subst hp
    refine CacheOK_mapSet hc ?_
    rcases hd with ⟨he, _⟩ | ⟨_, hu⟩
    · intro f hf
      rw [(buildEnumDTO_shape he).1] at hf
      exact absurd hf (by simp)
    · intro f hf
      exact (buildUnionDTO_known hkeys hreg hw hu f hf).2 helpers
  · rw [h1]
    subst hp
    have hne : toExportedName t ≠ "" := by
      rw [ht]
      exact toExportedName_helperTypeName_ne_empty parentName propName hparent
    obtain ⟨hc3, hf3⟩ := hbuild _ _ _ _ _ hne hw hc hb
    exact CacheOK_mapSet hc3 hf3

section MergeWithin

variable {resolveProp : String → String → SchemaProxy → Helpers → Option (String × Helpers)}
variable {fuel : Nat} {resolver : Option SchemaResolver} {required : List (String × Bool)}
variable {parentName : String} {I : mergeState → Prop} {R : String → Prop}

theorem addPropertyList_invariant_within
    (hP : ∀ st p ps st1, Within R ps → I st →
      addProperty resolveProp fuel resolver required parentName false st p ps = some st1 → I st1)
    (props : List (String × SchemaProxy)) (hprops : ∀ k p, (k, p) ∈ props → Within R p) :
    ∀ {st st1 : mergeState}, I st →
      addPropertyList resolveProp fuel resolver required parentName false st props = some st1 →
      I st1 := by
  induction props with
  | nil =>
    intro st st1 h hstep
    simp only [addPropertyList, Option.some.injEq] at hstep
    subst hstep
    exact h
  | cons p rest ih =>
    intro st st1 h hstep
    obtain ⟨propName, propSchema⟩ := p
    unfold addPropertyList at hstep
    cases hone : addProperty resolveProp fuel resolver required parentName false st
        propName propSchema with
    | none => simp [hone] at hstep
    | some st2 =>
      simp only [hone] at hstep
      exact ih (fun k p hkp => hprops k p (List.mem_cons_of_mem _ hkp))
        (hP _ _ _ _ (hprops _ _ (List.mem_cons_self _ _)) h hone) hstep

theorem addProperties_invariant_within
    (hU : ∀ sch d, Within R (.mk none (some sch)) →
      buildUnionDTO fuel "" sch resolver = some d →
      ∀ st f, I st → f ∈ d.Fields → I (addUnionField st f))
    (hP : ∀ st p ps st1, Within R ps → I st →
      addProperty resolveProp fuel resolver required parentName false st p ps = some st1 → I st1)
    {s : Option Schema} (hs : ∀ sch, s = some sch → Within R (.mk none (some sch)))
    {st st1 : mergeState} (h : I st)
    (hstep : addProperties resolveProp fuel resolver required parentName s false st = some st1) :
    I st1 := by
  unfold addProperties at hstep
  cases hd : declaredProperties s with
  | some props =>
    simp only [hd] at hstep
    refine addPropertyList_invariant_within hP props ?_ h hstep
    intro k p hkp
    cases s with
    | none => simp [declaredProperties] at hd
    | some sch =>
      simp only [declaredProperties] at hd
      exact Within_member (hs sch rfl) (Member.property hd hkp)
  | none =>
    simp only [hd] at hstep
    cases s with
    | none =>
      simp only [Option.some.injEq] at hstep
      subst hstep
      exact h
    | some sch =>
      simp only at hstep
      split at hstep
      · cases hu : buildUnionDTO fuel "" sch resolver with
        | none => simp [hu] at hstep
        | some unionDTO =>
          simp only [hu, Option.some.injEq] at hstep
          subst hstep
          exact foldl_addUnionField_invariant _
            (fun st f hst hf => hU sch unionDTO (hs sch rfl) hu st f hst hf) _ h
      · simp only [Option.some.injEq] at hstep
        subst hstep
        exact h

theorem addAllOf_invariant_within
    (hU : ∀ sch d, Within R (.mk none (some sch)) →
      buildUnionDTO fuel "" sch resolver = some d →
      ∀ st f, I st → f ∈ d.Fields → I (addUnionField st f))
    (hP : ∀ st p ps st1, Within R ps → I st →
      addProperty resolveProp fuel resolver required parentName false st p ps = some st1 → I st1)
    (members : List SchemaProxy) (hm : ∀ m, m ∈ members → Within R m) :
    ∀ {st st1 : mergeState}, I st →
      addAllOf resolveProp fuel resolver required parentName st members = some st1 → I st1 := by
  induction members with
  | nil =>
    intro st st1 h hstep
    simp only [addAllOf, Option.some.injEq] at hstep
    subst hstep
    exact h
  | cons m rest ih =>
    intro st st1 h hstep
    unfold addAllOf at hstep
    cases hone : addProperties resolveProp fuel resolver required parentName m.Schema false st with
    | none => simp [hone] at hstep
    | some st2 =>
      simp only [hone] at hstep
      exact ih (fun m2 hm2 => hm m2 (List.mem_cons_of_mem _ hm2))
        (addProperties_invariant_within hU hP
          (fun sch hsch => Within_schema (hm m (List.mem_cons_self _ _)) hsch) h hone) hstep

end MergeWithin

/-- The definition built by buildObjectDTO and the cache it leaves refer to
known names, when the cache it is given does. -/
theorem buildObjectDTO_known {resolver : Option SchemaResolver}
    (hkeys : canonicalKeys resolver = true)
    {R : String → Prop} (hreg : ∀ name, Within R (Lookup resolver name)) (fuel : Nat) :
    ∀ (name : String) (schema : Schema) (helpers : Helpers) (dto : dtoDef) (helpers1 : Helpers),
      toExportedName name ≠ "" → Within R (.mk none (some schema)) → CacheOK R helpers →
      buildObjectDTO fuel name schema resolver helpers = some (dto, helpers1) →
      CacheOK R helpers1 ∧
        ∀ f, f ∈ dto.Fields → KnownOver R helpers1 (baseTypeName f.GoType) := by
  induction fuel with
  | zero =>
    intro name schema helpers dto helpers1 _ _ _ h
    simp [buildObjectDTO] at h
  | succ n ih =>
    intro name schema helpers dto helpers1 hname hw hc h
    unfold buildObjectDTO at h
    rcases buildObjectDTOWith_cases h with ⟨hnil, heq, _, _⟩ | ⟨_, _, hm⟩
    · rw [heq, hnil]
      exact ⟨hc, fun f hf => absurd hf (by simp)⟩
    · obtain ⟨st1, st2, h1, h2, hdto, hh⟩ := mergeFields_cases hm
      have h0 : KnownInv R { fields := [], order := [], helpers := helpers } :=
        ⟨fun k f hk => by simp [mapGet] at hk, fun k f hk => by simp [mapGet] at hk, hc⟩
      have hU : ∀ sch d, Within R (.mk none (some sch)) →
          buildUnionDTO (n + 1) "" sch resolver = some d →
          ∀ st f, KnownInv R st → f ∈ d.Fields → KnownInv R (addUnionField st f) := by
        intro sch d hws hd st f hst hf
        obtain ⟨hns, hk⟩ := buildUnionDTO_known hkeys hreg hws hd f hf
        exact KnownInv_addUnionField hst hns (hk _)
      have hP : ∀ st p ps st1, Within R ps → KnownInv R st →
          addProperty
            (resolvePropertyTypeWith (fun n2 s h2 => buildObjectDTO n n2 s resolver h2) (n + 1)
              resolver) (n + 1) resolver
            (mergeAllOfRequired (requiredSet schema.Required) schema.AllOf) name false st p ps
            = some st1 → KnownInv R st1 := by
        intro st p ps st1 hwp hst hstep
        refine KnownInv_addProperty ?_ ?_ hst hstep
        · intro p2 ps2 h0 t h1 hr
          exact resolvePropertyTypeWith_noStar hkeys hname hr
        · intro h0 t h1 hr
          exact ⟨resolvePropertyTypeWith_known hkeys hreg hwp hname hr,
            resolvePropertyTypeWith_frame
              (fun n2 s h2 d h3 hb => buildObjectDTO_frame n n2 s resolver h2 d h3 hb) hr,
            fun hc0 => resolvePropertyTypeWith_CacheOK hkeys hreg
              (fun n2 s h2 d h3 hne hws hc2 hb => ih n2 s h2 d h3 hne hws hc2 hb) hname hwp hr
              hc0⟩
      have hinv : KnownInv R st2 :=
        addAllOf_invariant_within hU hP schema.AllOf
          (fun m hmem => Within_member hw (Member.allOf hmem))
          (addProperties_invariant_within hU hP
            (fun sch hsch => by
              simp only [Option.some.injEq] at hsch
              subst hsch
              exact hw) h0 h1) h2
      rw [hh]
      refine ⟨hinv.2.2, ?_⟩
      intro f hf
      rw [hdto] at hf
      obtain ⟨k, _, hk⟩ := mem_orderedFields hf
      exact hinv.2.1 k f hk

/-- A name known over the references that the schema mentions is the canonical
form of a registered name or of a name that the lookup does not find, when it
is no built-in and no key of the cache. -/
theorem KnownName_of_over {resolver : Option SchemaResolver} {schema : Schema}
    {helpers : Helpers} {b : String}
    (h : KnownOver (Mentioned resolver schema) helpers b) :
    KnownName resolver schema helpers b := by
  rcases h with h | h | ⟨ref, hm, hb⟩
  · exact Or.inl h
  · exact Or.inr (Or.inl h)
  · refine Or.inr (Or.inr ⟨ref, hm, hb, ?_⟩)
    cases resolver with
    | none => exact Or.inr rfl
    | some res =>
      cases hg : mapGet res.Schemas (RefToSchemaName ref) with
      | none =>
        right
        simp [Lookup, hg]
      | some p => exact Or.inl ⟨res, rfl, (mapGet_isSome_iff _ _).mp ⟨p, hg⟩⟩

/-- C3 (amended). Let the name of the schema and the names registered in the
resolver have non-empty canonical forms. For every field of the definition
that buildObjectDTO builds from an empty helper cache, and for every field of
every helper it mints, the type of the field, after removing a leading `*`
and the leading `[]` and `map[string]` prefixes, is a built-in, or the key of
an entry of the helper cache, or the canonical form of the name of a
reference that occurs in the schema or in a registered schema; that name is
registered in the resolver, or the lookup of the resolver finds nothing under
it. -/
theorem C3_field_types_refer_to_known_names (fuel : Nat) (name : String) (schema : Schema)
    (resolver : Option SchemaResolver) (dto : dtoDef) (helpers1 : Helpers)
    (hkeys : canonicalKeys resolver = true) (hname : toExportedName name ≠ "")
    (hrun : buildObjectDTO fuel name schema resolver [] = some (dto, helpers1)) :
    (∀ f, f ∈ dto.Fields → KnownName resolver schema helpers1 (baseTypeName f.GoType)) ∧
    (∀ k d, mapGet helpers1 k = some d →
      ∀ f, f ∈ d.Fields → KnownName resolver schema helpers1 (baseTypeName f.GoType)) := by
  have hc0 : CacheOK (Mentioned resolver schema) [] := fun k d hk => by simp [mapGet] at hk
  have hreg : ∀ n, Within (Mentioned resolver schema) (Lookup resolver n) :=
    fun n ref ho => Or.inr ⟨n, ho⟩
  have hw : Within (Mentioned resolver schema) (.mk none (some schema)) :=
    fun ref ho => Or.inl ho
  obtain ⟨hc, hf⟩ :=
    buildObjectDTO_known hkeys hreg fuel name schema [] dto helpers1 hname hw hc0 hrun
  exact ⟨fun f hmem => KnownName_of_over (hf f hmem),
    fun k d hk f hmem => KnownName_of_over (hc k d hk f hmem)⟩

theorem C3_field_types_refer_to_known_names_witness :
    (∀ f, f ∈ fooDTO.Fields →
      KnownName (some fooOnlyResolver) fooObject fooHelpers (baseTypeName f.GoType)) ∧
    (∀ k d, mapGet fooHelpers k = some d →
      ∀ f, f ∈ d.Fields →
        KnownName (some fooOnlyResolver) fooObject fooHelpers (baseTypeName f.GoType)) :=
  C3_field_types_refer_to_known_names 2 "Foo" fooObject (some fooOnlyResolver) fooDTO fooHelpers
    (by decide) (by decide) (by decide)

/-! ## C16: the bare name of a reference -/

theorem afterLast_eq_none_iff (sep : Char) :
    ∀ l : List Char, afterLast sep l = none ↔ sep ∉ l := by
  intro l
  induction l with
  | nil => simp [afterLast]
  | cons c rest ih =>
    unfold afterLast
    cases h : afterLast sep rest with
    | some tail =>
      have hin : sep ∈ rest := by
        by_contra hn
        rw [ih.mpr hn] at h
        exact absurd h (by simp)
      simp [hin]
    | none =>
      have hn : sep ∉ rest := ih.mp h
      by_cases hc : c = sep
      · simp [hc]
      · simp only [hc, if_false, List.mem_cons, true_iff, not_or]
        exact ⟨fun e => hc e.symm, hn⟩

/-- The result of afterLast is what follows the final separator. -/
theorem afterLast_of_split (sep : Char) (tail : List Char) (htail : sep ∉ tail) :
    ∀ pre : List Char, afterLast sep (pre ++ sep :: tail) = some tail := by
  intro pre
  induction pre with
  | nil =>
    show afterLast sep (sep :: tail) = some tail
    unfold afterLast
    rw [(afterLast_eq_none_iff sep tail).mpr htail]
    simp
  | cons c pre ih =>
    show afterLast sep (c :: (pre ++ sep :: tail)) = some tail
    unfold afterLast
    rw [ih]

theorem afterLast_split (sep : Char) :
    ∀ (l tail : List Char), afterLast sep l = some tail →
      ∃ pre, l = pre ++ sep :: tail ∧ sep ∉ tail := by
  intro l
  induction l with
  | nil => intro tail h; simp [afterLast] at h
  | cons c rest ih =>
    intro tail h
    unfold afterLast at h
    cases hr : afterLast sep rest with
    | some t2 =>
      rw [hr] at h
      simp only [Option.some.injEq] at h
      subst h
      obtain ⟨pre, hp, hn⟩ := ih t2 hr
      exact ⟨c :: pre, by rw [hp]; rfl, hn⟩
    | none =>
      rw [hr] at h
      by_cases hc : c = sep
      · simp only [hc, if_true, Option.some.injEq] at h
        subst h
        exact ⟨[], by rw [hc]; rfl, (afterLast_eq_none_iff sep rest).mp hr⟩
      · simp [hc] at h

theorem takeWhile_append_stop {p : Char → Bool} :
    ∀ (a : List Char) (b : Char) (c : List Char), (∀ x, x ∈ a → p x = true) → p b = false →
      (a ++ b :: c).takeWhile p = a := by
  intro a
  induction a with
  | nil =>
    intro b c _ hb
    simp [List.takeWhile, hb]
  | cons x a ih =>
    intro b c ha hb
    have hx : p x = true := ha x (List.mem_cons_self _ _)
    simp only [List.cons_append, List.takeWhile, hx]
    show x :: List.takeWhile p (a ++ b :: c) = x :: a
    rw [ih b c (fun y hy => ha y (List.mem_cons_of_mem _ hy)) hb]

theorem afterFinal_of_split (sep : Char) (pre tail : List Char) (htail : sep ∉ tail) :
    afterFinal sep (pre ++ sep :: tail) = tail := by
  unfold afterFinal
  have e : (pre ++ sep :: tail).reverse = tail.reverse ++ sep :: pre.reverse := by simp
  rw [e, takeWhile_append_stop]
  · simp
  · intro x hx
    have hx2 : x ∈ tail := List.mem_reverse.mp hx
    simp only [decide_eq_true_eq]
    intro hxe
    rw [hxe] at hx2
    exact htail hx2
  · simp

theorem afterLast_eq_afterFinal (sep : Char) (l : List Char) (h : sep ∈ l) :
    afterLast sep l = some (afterFinal sep l) := by
  cases ha : afterLast sep l with
  | none => exact absurd h ((afterLast_eq_none_iff sep l).mp ha)
  | some tail =>
    obtain ⟨pre, hp, hn⟩ := afterLast_split sep l tail ha
    rw [hp, afterFinal_of_split sep pre tail hn]

/-- RefToSchemaName in terms of the final separators of the string. -/
theorem RefToSchemaName_eq (ref : String) :
    RefToSchemaName ref =
      if '/' ∈ ref.data ∧ afterFinal '/' ref.data ≠ [] then String.mk (afterFinal '/' ref.data)
      else if '#' ∈ ref.data ∧ afterFinal '#' ref.data ≠ [] then
        String.mk (afterFinal '#' ref.data)
      else ref := by
  unfold RefToSchemaName
  by_cases h0 : ref = ""
  · subst h0
    decide
  · rw [if_neg h0]
    have hhash : (match afterLast '#' ref.data with
        | some (c :: tail) => String.mk (c :: tail)
        | _ => ref) =
        if '#' ∈ ref.data ∧ afterFinal '#' ref.data ≠ [] then String.mk (afterFinal '#' ref.data)
        else ref := by
      by_cases hh : '#' ∈ ref.data
      · rw [afterLast_eq_afterFinal '#' ref.data hh]
        cases ht : afterFinal '#' ref.data with
        | nil => simp
        | cons c tail => simp [hh]
      · rw [(afterLast_eq_none_iff '#' ref.data).mpr hh]
        simp [hh]
    by_cases hs : '/' ∈ ref.data
    · rw [afterLast_eq_afterFinal '/' ref.data hs]
      cases ht : afterFinal '/' ref.data with
      | nil =>
        simp only [ne_eq, not_true_eq_false, and_false, if_false]
        exact hhash
      | cons c tail => simp [hs]
    · rw [(afterLast_eq_none_iff '/' ref.data).mpr hs]
      simp only [hs, false_and, if_false]
      exact hhash

/-- C16 (counterexample). The reference string `#/components/schemas/`
contains `/`, and nothing follows its final `/`: the specification gives the
empty name, RefToSchemaName goes on to the `#` and returns
`/components/schemas/`. A string without `#` that ends in `/` is returned
whole. -/
theorem C16_trailing_separator :
    RefToSchemaName "#/components/schemas/" = "/components/schemas/" ∧
    refNameBySpec "#/components/schemas/" = "" ∧
    RefToSchemaName "schemas/" = "schemas/" ∧ refNameBySpec "schemas/" = "" ∧
    RefToSchemaName "Pet#" = "Pet#" ∧ refNameBySpec "Pet#" = "" := by
  refine ⟨by decide, by decide, by decide, by decide, by decide, by decide⟩

/-- C16 (amended). RefToSchemaName returns what follows the final `/` when
that is not empty; otherwise (no `/`, or the string ends in `/`) what follows
the final `#` when that is not empty; otherwise the string itself. It agrees
with the wording of the specification exactly on the empty string and on the
strings for which that wording gives a non-empty name. -/
theorem C16_RefToSchemaName_final_segment (ref : String) :
    (∀ pre tail, ref.data = pre ++ '/' :: tail → '/' ∉ tail → tail ≠ [] →
      RefToSchemaName ref = String.mk tail) ∧
    (∀ pre tail, ('/' ∉ ref.data ∨ afterFinal '/' ref.data = []) →
      ref.data = pre ++ '#' :: tail → '#' ∉ tail → tail ≠ [] →
      RefToSchemaName ref = String.mk tail) ∧
    (('/' ∉ ref.data ∨ afterFinal '/' ref.data = []) →
      ('#' ∉ ref.data ∨ afterFinal '#' ref.data = []) → RefToSchemaName ref = ref) ∧
    (RefToSchemaName ref = refNameBySpec ref ↔ (ref = "" ∨ refNameBySpec ref ≠ "")) := by
  refine ⟨?_, ?_, ?_, ?_⟩
  · intro pre tail hd hn hne
    have hin : '/' ∈ ref.data := by rw [hd]; simp
    have hf : afterFinal '/' ref.data = tail := by rw [hd]; exact afterFinal_of_split _ _ _ hn
    rw [RefToSchemaName_eq, if_pos ⟨hin, by rw [hf]; exact hne⟩, hf]
  · intro pre tail hs hd hn hne
    have hin : '#' ∈ ref.data := by rw [hd]; simp
    have hf : afterFinal '#' ref.data = tail := by rw [hd]; exact afterFinal_of_split _ _ _ hn
    have hs2 : ¬ ('/' ∈ ref.data ∧ afterFinal '/' ref.data ≠ []) := by
      rintro ⟨h1, h2⟩
      rcases hs with h | h
      · exact h h1
      · exact h2 h
    rw [RefToSchemaName_eq, if_neg hs2, if_pos ⟨hin, by rw [hf]; exact hne⟩, hf]
  · intro hs hh
    have hs2 : ¬ ('/' ∈ ref.data ∧ afterFinal '/' ref.data ≠ []) := by
      rintro ⟨h1, h2⟩
      rcases hs with h | h
      · exact h h1
      · exact h2 h
    have hh2 : ¬ ('#' ∈ ref.data ∧ afterFinal '#' ref.data ≠ []) := by
      rintro ⟨h1, h2⟩
      rcases hh with h | h
      · exact h h1
      · exact h2 h
    rw [RefToSchemaName_eq, if_neg hs2, if_neg hh2]
  · rw [RefToSchemaName_eq]
    unfold refNameBySpec
    by_cases h0 : ref = ""
    · subst h0
      simp
    · have hmk : ∀ l : List Char, String.mk l ≠ "" ↔ l ≠ [] := by
        intro l
        constructor
        · intro h e
          exact h (by rw [e])
        · intro h e
          exact h (congrArg String.data e)
      by_cases hs : '/' ∈ ref.data
      · simp only [hs, true_and, if_true, h0, false_or]
        by_cases ht : afterFinal '/' ref.data = []
        · rw [ht]
          simp only [ne_eq, not_true_eq_false, if_false]
          constructor
          · intro h
            exfalso
            split at h
            · rename_i hc
              have : (String.mk (afterFinal '#' ref.data)) = String.mk [] := h
              exact hc.2 (congrArg String.data this)
            · exact h0 h
          · intro h
            exact h.elim
        · simp only [ne_eq, ht, not_false_eq_true, if_true, true_iff]
          exact (hmk _).mpr ht
      · simp only [hs, false_and, if_false, h0, false_or]
        by_cases hh : '#' ∈ ref.data
        · simp only [hh, true_and, if_true]
          by_cases ht : afterFinal '#' ref.data = []
          · rw [ht]
            simp only [ne_eq, not_true_eq_false, if_false]
            constructor
            · intro h
              exact absurd h h0
            · intro h
              exact h.elim
          · simp only [ne_eq, ht, not_false_eq_true, if_true, true_iff]
            exact (hmk _).mpr ht
        · simp only [hh, false_and, if_false, true_iff]
          exact h0

theorem C16_RefToSchemaName_final_segment_witness :
    RefToSchemaName "#/components/schemas/Pet" = "Pet" ∧
    RefToSchemaName "defs.yaml#Pet" = "Pet" ∧
    RefToSchemaName "Pet" = "Pet" :=
  ⟨(C16_RefToSchemaName_final_segment "#/components/schemas/Pet").1
      "#/components/schemas".data "Pet".data rfl (by decide) (by decide),
   (C16_RefToSchemaName_final_segment "defs.yaml#Pet").2.1
      "defs.yaml".data "Pet".data (Or.inl (by decide)) rfl (by decide) (by decide),
   (C16_RefToSchemaName_final_segment "Pet").2.2.1 (Or.inl (by decide)) (Or.inl (by decide))⟩

/-! ## C15: the name of a union variant -/

/-- C15 (counterexample). A member that refers to the schema `Pet`, whose
title is `Animal`, is named `Pet`: the reference name is taken before the
title is looked at. -/
theorem C15_reference_beats_title :
    unionVariantName 0 petMember = "Pet" ∧ variantNameBySpec 0 petMember = "Animal" ∧
    petMember.IsReference = true ∧
    petMember.Schema.map (fun s => s.Title) = some "Animal" := by
  refine ⟨by decide, by decide, by decide, by decide⟩

/-- C15 (amended). The variant name of the member at index `idx` is its
reference name when it is a reference; otherwise its declared title when it
has one; otherwise its first declared type; otherwise, and for a nil member
or a member without a schema, `Variant<idx+1>`. It is the name the
specification words unless the member is a reference to a titled schema. -/
theorem C15_unionVariantName_order (idx : Nat) (schemaProxy : SchemaProxy) :
    (schemaProxy.IsReference = true →
      unionVariantName idx schemaProxy = RefToSchemaName schemaProxy.GetReference) ∧
    (schemaProxy.IsReference = false →
      (∀ s, schemaProxy.Schema = some s → s.Title ≠ "" →
        unionVariantName idx schemaProxy = s.Title) ∧
      (∀ s t rest, schemaProxy.Schema = some s → s.Title = "" → s.Typ = t :: rest →
        unionVariantName idx schemaProxy = t) ∧
      (∀ s, schemaProxy.Schema = some s → s.Title = "" → s.Typ = [] →
        unionVariantName idx schemaProxy = "Variant" ++ itoa (idx + 1)) ∧
      (schemaProxy.Schema = none →
        unionVariantName idx schemaProxy = "Variant" ++ itoa (idx + 1))) ∧
    ((schemaProxy.IsReference = false ∨ ∀ s, schemaProxy.Schema = some s → s.Title = "") →
      unionVariantName idx schemaProxy = variantNameBySpec idx schemaProxy) := by
  cases schemaProxy with
  | nil =>
    refine ⟨fun h => absurd h (by simp [SchemaProxy.IsReference]), fun _ => ⟨?_, ?_, ?_, ?_⟩,
      fun _ => rfl⟩
    · intro s hs; simp [SchemaProxy.Schema] at hs
    · intro s t rest hs; simp [SchemaProxy.Schema] at hs
    · intro s hs; simp [SchemaProxy.Schema] at hs
    · intro _; rfl
  | mk ref schema =>
    cases ref with
    | some r =>
      refine ⟨fun _ => rfl, fun h => absurd h (by simp [SchemaProxy.IsReference]), ?_⟩
      intro h
      rcases h with h | h
      · exact absurd h (by simp [SchemaProxy.IsReference])
      · cases schema with
        | none => rfl
        | some s =>
          have ht : s.Title = "" := h s rfl
          simp [unionVariantName, variantNameBySpec, SchemaProxy.Schema, SchemaProxy.IsReference,
            SchemaProxy.GetReference, ht]
    | none =>
      cases schema with
      | none =>
        refine ⟨fun h => absurd h (by simp [SchemaProxy.IsReference]), fun _ => ⟨?_, ?_, ?_, ?_⟩,
          fun _ => rfl⟩
        · intro s hs; simp [SchemaProxy.Schema] at hs
        · intro s t rest hs; simp [SchemaProxy.Schema] at hs
        · intro s hs; simp [SchemaProxy.Schema] at hs
        · intro _; rfl
      | some s =>
        refine ⟨fun h => absurd h (by simp [SchemaProxy.IsReference]), fun _ => ⟨?_, ?_, ?_, ?_⟩,
          ?_⟩
        · intro s2 hs ht
          simp only [SchemaProxy.Schema, Option.some.injEq] at hs
          subst hs
          simp [unionVariantName, ht]
        · intro s2 t rest hs ht hty
          simp only [SchemaProxy.Schema, Option.some.injEq] at hs
          subst hs
          simp [unionVariantName, ht, hty]
        · intro s2 hs ht hty
          simp only [SchemaProxy.Schema, Option.some.injEq] at hs
          subst hs
          simp [unionVariantName, ht, hty]
        · intro hs; simp [SchemaProxy.Schema] at hs
        · intro _
          by_cases ht : s.Title = ""
          · cases hty : s.Typ with
            | nil =>
              simp [unionVariantName, variantNameBySpec, SchemaProxy.Schema,
                SchemaProxy.IsReference, ht, hty]
            | cons t rest =>
              simp [unionVariantName, variantNameBySpec, SchemaProxy.Schema,
                SchemaProxy.IsReference, ht, hty]
          · simp [unionVariantName, variantNameBySpec, SchemaProxy.Schema, ht]

theorem C15_unionVariantName_order_witness :
    unionVariantName 0 petMember = RefToSchemaName petMember.GetReference ∧
    unionVariantName 1 (.mk none (some { Title := "Cat", Typ := ["object"] })) = "Cat" ∧
    unionVariantName 1 (.mk none (some { Typ := ["string"] })) = "string" ∧
    unionVariantName 1 (.mk none (some { })) = "Variant2" :=
  ⟨(C15_unionVariantName_order 0 petMember).1 (by decide),
   ((C15_unionVariantName_order 1 (.mk none (some { Title := "Cat", Typ := ["object"] }))).2.1
      rfl).1 _ rfl (by decide),
   ((C15_unionVariantName_order 1 (.mk none (some { Typ := ["string"] }))).2.1
      rfl).2.1 _ "string" [] rfl rfl rfl,
   ((C15_unionVariantName_order 1 (.mk none (some { }))).2.1 rfl).2.2.1 _ rfl rfl rfl⟩

/-! ## C19, C20: default literals -/

theorem ite_length_pos (p : Prop) [Decidable p] (a b : List Char) (ha : 1 ≤ a.length)
    (hb : 1 ≤ b.length) : 1 ≤ (if p then a else b).length := by
  by_cases h : p
  · rw [if_pos h]; exact ha
  · rw [if_neg h]; exact hb

theorem quoteRune_length (c : Char) : 1 ≤ (quoteRune c).length := by
  unfold quoteRune
  repeat (refine ite_length_pos _ _ _ (by simp) ?_)
  simp

theorem flatMap_quoteRune_length :
    ∀ l : List Char, l.length ≤ (l.flatMap quoteRune).length := by
  intro l
  induction l with
  | nil => simp
  | cons c rest ih =>
    simp only [List.flatMap_cons, List.length_append, List.length_cons]
    have := quoteRune_length c
    omega

/-- A quoted string is longer than the string, so never equal to it. -/
theorem goQuote_ne (s : String) : goQuote s ≠ s := by
  intro h
  have hl : (goQuote s).data.length = s.data.length := by rw [h]
  have := flatMap_quoteRune_length s.data
  simp only [goQuote, List.length_cons, List.length_append, List.length_singleton,
    List.length_nil] at hl
  omega

/-- C19. DefaultValueLiteral returns the empty literal with has-default false
for a missing schema, for a schema without default and for a default that is
a mapping or sequence node; it returns has-default true for a default that is
a scalar node; and the description of the schema has no part in the result. -/
theorem C19_composite_default_is_dropped (schemaProxy : SchemaProxy) :
    (schemaProxy.Schema = none → DefaultValueLiteral schemaProxy = ("", false)) ∧
    (∀ s, schemaProxy.Schema = some s → s.Default = none →
      DefaultValueLiteral schemaProxy = ("", false)) ∧
    (∀ s d, schemaProxy.Schema = some s → s.Default = some d →
      (d.Kind = Kind.MappingNode ∨ d.Kind = Kind.SequenceNode) →
      DefaultValueLiteral schemaProxy = ("", false)) ∧
    (∀ s d, schemaProxy.Schema = some s → s.Default = some d → d.Kind = Kind.ScalarNode →
      (DefaultValueLiteral schemaProxy).2 = true) ∧
    (∀ ref s desc,
      DefaultValueLiteral (.mk ref (some { s with Description := desc })) =
        DefaultValueLiteral (.mk ref (some s))) := by
  refine ⟨?_, ?_, ?_, ?_, ?_⟩
  · intro h
    simp [DefaultValueLiteral, h]
  · intro s h hd
    simp [DefaultValueLiteral, h, hd]
  · intro s d h hd hk
    simp [DefaultValueLiteral, h, hd, hk]
  · intro s d h hd hk
    simp [DefaultValueLiteral, h, hd, hk]
  · intro ref s desc
    rfl

theorem C19_composite_default_is_dropped_witness :
    DefaultValueLiteral tagsProperty = ("", false) ∧
    (DefaultValueLiteral sizeProperty).2 = true :=
  ⟨(C19_composite_default_is_dropped tagsProperty).2.2.1 _ _ rfl rfl (Or.inr rfl),
   (C19_composite_default_is_dropped sizeProperty).2.2.2.1 _ _ rfl rfl rfl⟩

/-- C20 (counterexample). A schema without a declared type whose default is
the integer scalar `5`, tagged `!!int`: the literal is the quoted text, not
the number. -/
theorem C20_untyped_number_is_quoted :
    DefaultValueLiteral untypedFive = (String.mk [dq, '5', dq], true) ∧
    untypedFive.Schema.map (fun s => (s.Typ, s.Default.map (fun d => (d.Tag, d.Value)))) =
      some ([], some ("!!int", "5")) := by
  refine ⟨by decide, by decide⟩

/-- C20 (amended). For a schema whose default is a scalar node,
DefaultValueLiteral returns the text of the default verbatim exactly when the
first declared type is integer, number or boolean and the node is not tagged
`!!str`; in every other case (no declared type, type string, any other type,
or a node tagged `!!str`) it returns the text quoted. In particular the text
is quoted when the declared type is string or the node is tagged `!!str`. -/
theorem C20_default_literal_quoting (schemaProxy : SchemaProxy) (s : Schema) (d : YamlNode)
    (hs : schemaProxy.Schema = some s) (hd : s.Default = some d)
    (hk : d.Kind = Kind.ScalarNode) :
    ((DefaultValueLiteral schemaProxy).1 = d.Value ↔
      (numericOrBoolean s = true ∧ d.Tag ≠ "!!str")) ∧
    ((DefaultValueLiteral schemaProxy).1 = goQuote d.Value ↔
      (numericOrBoolean s = false ∨ d.Tag = "!!str")) ∧
    ((s.Typ.head? = some "string" ∨ d.Tag = "!!str") →
      DefaultValueLiteral schemaProxy = (goQuote d.Value, true)) ∧
    (DefaultValueLiteral schemaProxy).2 = true := by
  have hlit : DefaultValueLiteral schemaProxy =
      (if numericOrBoolean s = true ∧ d.Tag ≠ "!!str" then d.Value else goQuote d.Value,
        true) := by
    cases hty : s.Typ with
    | nil =>
      simp [DefaultValueLiteral, hs, hd, hk, EnumValueLiteral, EnumBaseType, numericOrBoolean,
        hty]
    | cons t rest =>
      by_cases h1 : t = "string"
      · subst h1
        simp [DefaultValueLiteral, hs, hd, hk, EnumValueLiteral, EnumBaseType, numericOrBoolean,
          hty]
      · by_cases h2 : t = "integer"
        · subst h2
          by_cases ht : d.Tag = "!!str" <;>
            simp [DefaultValueLiteral, hs, hd, hk, EnumValueLiteral, EnumBaseType,
              numericOrBoolean, hty, ht]
        · by_cases h3 : t = "number"
          · subst h3
            by_cases ht : d.Tag = "!!str" <;>
              simp [DefaultValueLiteral, hs, hd, hk, EnumValueLiteral, EnumBaseType,
                numericOrBoolean, hty, ht]
          · by_cases h4 : t = "boolean"
            · subst h4
              by_cases ht : d.Tag = "!!str" <;>
                simp [DefaultValueLiteral, hs, hd, hk, EnumValueLiteral, EnumBaseType,
                  numericOrBoolean, hty, ht]
            · simp [DefaultValueLiteral, hs, hd, hk, EnumValueLiteral, EnumBaseType,
                numericOrBoolean, hty, h1, h2, h3, h4]
  have hq := goQuote_ne d.Value
  refine ⟨?_, ?_, ?_, ?_⟩
  · rw [hlit]
    by_cases hc : numericOrBoolean s = true ∧ d.Tag ≠ "!!str"
    · simp only [if_pos hc, true_iff]
      exact hc
    · simp only [if_neg hc, hc, iff_false]
      exact hq
  · rw [hlit]
    by_cases hc : numericOrBoolean s = true ∧ d.Tag ≠ "!!str"
    · simp only [if_pos hc]
      constructor
      · intro h
        exact absurd h.symm hq
      · intro h
        rcases h with h | h
        · rw [hc.1] at h
          exact absurd h (by simp)
        · exact absurd h hc.2
    · simp only [if_neg hc, true_iff]
      by_cases hn : numericOrBoolean s = true
      · right
        by_contra ht
        exact hc ⟨hn, ht⟩
      · left
        simpa using hn
  · intro h
    rw [hlit]
    have hc : ¬ (numericOrBoolean s = true ∧ d.Tag ≠ "!!str") := by
      rintro ⟨hn, ht⟩
      rcases h with h | h
      · unfold numericOrBoolean at hn
        cases hty : s.Typ with
        | nil => rw [hty] at h; simp at h
        | cons t rest =>
          rw [hty] at h hn
          simp only [List.head?_cons, Option.some.injEq] at h
          subst h
          simp at hn
      · exact ht h
    rw [if_neg hc]
  · rw [hlit]

theorem C20_default_literal_quoting_witness :
    ((DefaultValueLiteral untypedFive).1 = "5" ↔
      (numericOrBoolean { Default := some (.mk Kind.ScalarNode "!!int" "5" []) } = true ∧
        "!!int" ≠ "!!str")) ∧
    (DefaultValueLiteral sizeProperty).1 = "5" :=
  ⟨(C20_default_literal_quoting untypedFive _ (.mk Kind.ScalarNode "!!int" "5" []) rfl rfl rfl).1,
   (C20_default_literal_quoting sizeProperty _
      (.mk Kind.ScalarNode "!!int" "5" []) rfl rfl rfl).1.mpr ⟨by decide, by decide⟩⟩

/-! ## C11, C12: map aliases -/

/-- The result of additionalPropertiesAlias, by the shape of the schema. -/
theorem additionalPropertiesAliasWith_eq (goType : SchemaProxy → Option String) (s : Schema) :
    additionalPropertiesAliasWith goType (some s) =
      if mapAliasShape s = true then
        match s.AdditionalProperties with
        | some (.A a) => (goType a).map (fun v => some ("map[string]" ++ v))
        | _ => some (some "map[string]any")
      else some none := by
  cases hap : s.AdditionalProperties with
  | none => simp [additionalPropertiesAliasWith, mapAliasShape, hap]
  | some ap =>
    cases hty : s.Typ with
    | nil =>
      cases hp : s.Properties with
      | none =>
        cases ap with
        | A a =>
          cases a <;>
            simp [additionalPropertiesAliasWith, mapAliasShape, hasProperties, hap, hty, hp,
              permitsAdditional, SchemaProxy.isNil]
        | B b =>
          cases b <;>
            simp [additionalPropertiesAliasWith, mapAliasShape, hasProperties, hap, hty, hp,
              permitsAdditional]
      | some ps =>
        cases ps with
        | nil =>
          cases ap with
          | A a =>
            cases a <;>
              simp [additionalPropertiesAliasWith, mapAliasShape, hasProperties, hap, hty, hp,
                permitsAdditional, SchemaProxy.isNil]
          | B b =>
            cases b <;>
              simp [additionalPropertiesAliasWith, mapAliasShape, hasProperties, hap, hty, hp,
                permitsAdditional]
        | cons p ps =>
          simp [additionalPropertiesAliasWith, mapAliasShape, hasProperties, hap, hty, hp]
    | cons t rest =>
      by_cases ht : t = "object"
      · cases hp : s.Properties with
        | none =>
          cases ap with
          | A a =>
            cases a <;>
              simp [additionalPropertiesAliasWith, mapAliasShape, hasProperties, hap, hty, hp,
                permitsAdditional, SchemaProxy.isNil, ht]
          | B b =>
            cases b <;>
              simp [additionalPropertiesAliasWith, mapAliasShape, hasProperties, hap, hty, hp,
                permitsAdditional, ht]
        | some ps =>
          cases ps with
          | nil =>
            cases ap with
            | A a =>
              cases a <;>
                simp [additionalPropertiesAliasWith, mapAliasShape, hasProperties, hap, hty, hp,
                  permitsAdditional, SchemaProxy.isNil, ht]
            | B b =>
              cases b <;>
                simp [additionalPropertiesAliasWith, mapAliasShape, hasProperties, hap, hty, hp,
                  permitsAdditional, ht]
          | cons p ps =>
            simp [additionalPropertiesAliasWith, mapAliasShape, hasProperties, hap, hty, hp, ht]
      · simp [additionalPropertiesAliasWith, mapAliasShape, hap, hty, ht]

theorem mapAliasShape_declares (s : Schema) (h : mapAliasShape s = true) :
    declaresMapAlias s = true := by
  unfold mapAliasShape at h
  unfold declaresMapAlias
  simp only [Bool.and_eq_true] at h ⊢
  refine ⟨h.1, ?_⟩
  cases hap : s.AdditionalProperties with
  | none => rw [hap] at h; simp at h
  | some ap => rfl

/-- C11 (counterexample). An object schema with `additionalProperties: false`
has the type object, no named properties and a declared additional-properties
policy, and additionalPropertiesAlias reports no alias for it. -/
theorem C11_closed_object_is_no_alias :
    declaresMapAlias closedObject = true ∧
    additionalPropertiesAlias 3 (some closedObject) none = some none ∧
    ∀ fuel resolver, additionalPropertiesAlias fuel (some closedObject) resolver = some none :=
  ⟨by decide, by decide, fun _ _ => rfl⟩

/-- C11 (amended). additionalPropertiesAlias reports an alias exactly when
the first declared type of the schema, if any, is `object`, the schema has no
declared named properties, and its additional-properties policy is a schema
or the boolean `true`; the policy `false` gives no alias. The call returns
whenever the resolution of the type of the additional-properties schema
returns, and it reports no alias for a missing schema. -/
theorem C11_map_alias_condition (fuel : Nat) (schema : Schema)
    (resolver : Option SchemaResolver) :
    (∀ r, additionalPropertiesAlias fuel (some schema) resolver = some r →
      (r.isSome = true ↔ mapAliasShape schema = true)) ∧
    (additionalPropertiesAlias fuel (some schema) resolver = none ↔
      (mapAliasShape schema = true ∧
        ∃ a, schema.AdditionalProperties = some (.A a) ∧
          goTypeForSchema fuel a resolver true = none)) ∧
    (mapAliasShape schema = true → declaresMapAlias schema = true) ∧
    additionalPropertiesAlias fuel none resolver = some none := by
  have heq := additionalPropertiesAliasWith_eq (fun p => goTypeForSchema fuel p resolver true)
    schema
  refine ⟨?_, ?_, mapAliasShape_declares schema, rfl⟩
  · intro r hr
    unfold additionalPropertiesAlias at hr
    rw [heq] at hr
    by_cases hs : mapAliasShape schema = true
    · rw [if_pos hs] at hr
      simp only [hs, iff_true]
      split at hr
      · rename_i a _
        cases hg : goTypeForSchema fuel a resolver true with
        | none => simp [hg] at hr
        | some v =>
          simp only [hg, Option.map_some', Option.some.injEq] at hr
          rw [← hr]
          rfl
      · simp only [Option.some.injEq] at hr
        rw [← hr]
        rfl
    · rw [if_neg hs] at hr
      simp only [Option.some.injEq] at hr
      rw [← hr]
      simp [hs]
  · unfold additionalPropertiesAlias
    rw [heq]
    by_cases hs : mapAliasShape schema = true
    · rw [if_pos hs]
      constructor
      · intro h
        refine ⟨hs, ?_⟩
        split at h
        · rename_i a hap
          refine ⟨a, hap, ?_⟩
          cases hg : goTypeForSchema fuel a resolver true with
          | none => rfl
          | some v => simp [hg] at h
        · simp at h
      · rintro ⟨_, a, hap, hg⟩
        rw [hap]
        simp [hg]
    · rw [if_neg hs]
      constructor
      · intro h
        simp at h
      · rintro ⟨h, _⟩
        exact absurd h hs

theorem C11_map_alias_condition_witness :
    (Option.isSome (some "map[string]string") = true ↔ mapAliasShape stringMap = true) ∧
    declaresMapAlias stringMap = true :=
  ⟨(C11_map_alias_condition 1 stringMap none).1 (some "map[string]string") (by decide),
   (C11_map_alias_condition 1 stringMap none).2.2.1 (by decide)⟩

/-- C12. An alias that additionalPropertiesAlias reports is `map[string]`
followed by the type that goTypeForSchema, with unions allowed, gives for the
additional-properties schema, or `map[string]any` when additional-properties
is the boolean `true`. A schema of type object without enumeration values and
without named properties whose additional-properties schema is an inline
`type: string` makes buildObjectDTO return the definition with the alias
`map[string]string` and no fields, and leaves the helper cache as it was. -/
theorem C12_map_alias_value (fuel : Nat) (schema : Schema)
    (resolver : Option SchemaResolver) :
    (∀ aliasType, additionalPropertiesAlias fuel (some schema) resolver = some (some aliasType) →
      (∃ a valueType, schema.AdditionalProperties = some (.A a) ∧
          goTypeForSchema fuel a resolver true = some valueType ∧
          aliasType = "map[string]" ++ valueType) ∨
      (schema.AdditionalProperties = some (.B true) ∧ aliasType = "map[string]any")) ∧
    (∀ name helpers v, schema.Enum = [] → schema.Typ = ["object"] →
      hasProperties schema = false →
      schema.AdditionalProperties = some (.A (.mk none (some v))) →
      v.Typ = ["string"] → v.Enum = [] → v.AllOf = [] → v.AnyOf = [] → v.OneOf = [] →
      buildObjectDTO (fuel + 1) name schema resolver helpers =
        some ({ TypeName := toExportedName name, Alias := "map[string]string", Fields := [] },
          helpers)) := by
  constructor
  · intro aliasType h
    unfold additionalPropertiesAlias at h
    rw [additionalPropertiesAliasWith_eq] at h
    by_cases hs : mapAliasShape schema = true
    · rw [if_pos hs] at h
      cases hap : schema.AdditionalProperties with
      | none =>
        unfold mapAliasShape at hs
        rw [hap] at hs
        simp at hs
      | some ap =>
        cases ap with
        | A a =>
          left
          rw [hap] at h
          simp only at h
          cases hg : goTypeForSchema fuel a resolver true with
          | none => simp [hg] at h
          | some v =>
            simp only [hg, Option.map_some', Option.some.injEq] at h
            exact ⟨a, v, rfl, hg, h.symm⟩
        | B b =>
          right
          rw [hap] at h
          simp only [Option.some.injEq] at h
          cases b with
          | false =>
            unfold mapAliasShape at hs
            rw [hap] at hs
            simp [permitsAdditional] at hs
          | true => exact ⟨rfl, h.symm⟩
    · rw [if_neg hs] at h
      simp at h
  · intro name helpers v hen hty hp hap hvt hve hva hvn hvo
    have hv : goTypeForSchema (fuel + 1) (.mk none (some v)) resolver true = some "string" := by
      simp [goTypeForSchema, hva, hvn, hvo, buildEnumDTO, hve, isUnionSchema, hvt]
    have hshape : mapAliasShape schema = true := by
      unfold hasProperties at hp
      unfold mapAliasShape
      rw [hty, hap]
      cases hps : schema.Properties with
      | none => simp [permitsAdditional, SchemaProxy.isNil]
      | some ps =>
        rw [hps] at hp
        cases ps with
        | nil => simp [permitsAdditional, SchemaProxy.isNil]
        | cons p ps => simp at hp
    have ha : additionalPropertiesAlias (fuel + 1) (some schema) resolver =
        some (some "map[string]string") := by
      unfold additionalPropertiesAlias
      rw [additionalPropertiesAliasWith_eq, if_pos hshape, hap]
      simp only [hv, Option.map_some']
      rfl
    have he : buildEnumDTO name (some schema) = none := by
      simp [buildEnumDTO, hen]
    unfold buildObjectDTO buildObjectDTOWith
    simp only [he, ha]

theorem C12_map_alias_value_witness :
    ((∃ a valueType, stringMap.AdditionalProperties = some (.A a) ∧
          goTypeForSchema 1 a none true = some valueType ∧
          "map[string]string" = "map[string]" ++ valueType) ∨
      (stringMap.AdditionalProperties = some (.B true) ∧
        "map[string]string" = "map[string]any")) ∧
    buildObjectDTO 1 "Labels" stringMap none [] =
      some ({ TypeName := "Labels", Alias := "map[string]string", Fields := [] }, []) :=
  ⟨(C12_map_alias_value 1 stringMap none).1 "map[string]string" (by decide),
   (C12_map_alias_value 0 stringMap none).2 "Labels" [] { Typ := ["string"] }
      rfl rfl rfl rfl rfl rfl rfl rfl rfl⟩

/-! ## C17: the schema index -/

theorem lastBinding_eq_none_iff (name : String) :
    ∀ ps : List (String × SchemaProxy), lastBinding name ps = none ↔ name ∉ mapKeys ps := by
  intro ps
  induction ps with
  | nil => simp [lastBinding, mapKeys]
  | cons e rest ih =>
    obtain ⟨k, v⟩ := e
    unfold lastBinding
    cases h : lastBinding name rest with
    | some w =>
      have hin : name ∈ mapKeys rest := by
        by_contra hn
        rw [ih.mpr hn] at h
        exact absurd h (by simp)
      have hin2 : name ∈ mapKeys ((k, v) :: rest) := List.mem_cons_of_mem _ hin
      simp [hin2]
    | none =>
      have hn : name ∉ mapKeys rest := ih.mp h
      by_cases hk : k = name
      · subst hk
        simp [mapKeys]
      · have hn2 : name ∉ mapKeys ((k, v) :: rest) := by
          intro hm
          rcases List.mem_cons.mp hm with e | e
          · exact hk e.symm
          · exact hn e
        simp [hk, hn2]

theorem lastBinding_cons (name k : String) (v : SchemaProxy)
    (rest : List (String × SchemaProxy)) :
    lastBinding name ((k, v) :: rest) =
      match lastBinding name rest with
      | some w => some w
      | none => if k = name then some v else none := rfl

/-- What the writes of one document leave under a name: the schema of the
last pair with that name, or what was there. -/
theorem mapGet_registerSchemas (name : String) :
    ∀ (ps m : List (String × SchemaProxy)),
      mapGet (registerSchemas m ps) name =
        match lastBinding name ps with
        | some v => some v
        | none => mapGet m name := by
  intro ps
  induction ps with
  | nil => intro m; rfl
  | cons e rest ih =>
    intro m
    obtain ⟨k, v⟩ := e
    show mapGet (registerSchemas (mapSet m k v) rest) name = _
    rw [ih, lastBinding_cons]
    cases h : lastBinding name rest with
    | some w => rfl
    | none =>
      by_cases hk : k = name
      · subst hk
        simp [mapGet_mapSet_same]
      · simp [hk, mapGet_mapSet_other _ _ _ _ hk]

theorem registerModels_append (m : List (String × SchemaProxy)) (pre post : List ModelEntry) :
    registerModels m (pre ++ post) = registerModels (registerModels m pre) post := by
  induction pre generalizing m with
  | nil => rfl
  | cons e rest ih =>
    show registerModels (registerSchemas m e.schemas) (rest ++ post) = _
    rw [ih]
    rfl

/-- Documents that do not define a name leave its entry as it was. -/
theorem mapGet_registerModels_of_undefined (name : String) :
    ∀ (es : List ModelEntry) (m : List (String × SchemaProxy)),
      (∀ e, e ∈ es → e.defines name = false) →
      mapGet (registerModels m es) name = mapGet m name := by
  intro es
  induction es with
  | nil => intro m _; rfl
  | cons e rest ih =>
    intro m h
    show mapGet (registerModels (registerSchemas m e.schemas) rest) name = _
    rw [ih _ (fun e2 h2 => h e2 (List.mem_cons_of_mem _ h2)), mapGet_registerSchemas]
    have hd : e.defines name = false := h e (List.mem_cons_self _ _)
    have hn : name ∉ mapKeys e.schemas := by
      unfold ModelEntry.defines at hd
      simpa using hd
    rw [(lastBinding_eq_none_iff name e.schemas).mpr hn]

/-- C17. On the resolver that NewSchemaResolver builds from the loaded
documents, Lookup of a name returns the schema that the last document in load
order with that name among its schemas gives to it; it returns nil when no
document has the name, and on a nil resolver. Lookup is a read of the map: it
returns only the schema, and the resolver is not among its results. -/
theorem C17_lookup_last_write_wins (models : List ModelEntry) (name : String) :
    (∀ pre entry post, models = pre ++ entry :: post → entry.defines name = true →
      (∀ e, e ∈ post → e.defines name = false) →
      ∃ v, lastBinding name entry.schemas = some v ∧
        Lookup (some (NewSchemaResolver models)) name = v) ∧
    ((∀ e, e ∈ models → e.defines name = false) →
      Lookup (some (NewSchemaResolver models)) name = SchemaProxy.nil) ∧
    Lookup none name = SchemaProxy.nil := by
  refine ⟨?_, ?_, rfl⟩
  · intro pre entry post hm hd hpost
    have hin : name ∈ mapKeys entry.schemas := by
      unfold ModelEntry.defines at hd
      simpa using hd
    cases hl : lastBinding name entry.schemas with
    | none => exact absurd hin ((lastBinding_eq_none_iff name entry.schemas).mp hl)
    | some v =>
      refine ⟨v, rfl, ?_⟩
      have e1 : registerModels [] models =
          registerModels (registerSchemas (registerModels [] pre) entry.schemas) post := by
        rw [hm, registerModels_append]
        rfl
      unfold Lookup NewSchemaResolver
      simp only
      rw [e1, mapGet_registerModels_of_undefined name post _ hpost, mapGet_registerSchemas, hl]
      rfl
  · intro h
    unfold Lookup NewSchemaResolver
    simp only
    rw [mapGet_registerModels_of_undefined name models [] h]
    rfl

theorem C17_lookup_last_write_wins_witness :
    (∃ v, lastBinding "Pet" (oneSchemaEntry "b.yaml" "Pet" petMember).schemas = some v ∧
      Lookup (some (NewSchemaResolver
        [oneSchemaEntry "a.yaml" "Pet" missingRef, oneSchemaEntry "b.yaml" "Pet" petMember,
         oneSchemaEntry "c.yaml" "Cat" missingRef])) "Pet" = v) ∧
    Lookup (some (NewSchemaResolver [oneSchemaEntry "a.yaml" "Pet" missingRef])) "Dog" =
      SchemaProxy.nil :=
  ⟨(C17_lookup_last_write_wins
      [oneSchemaEntry "a.yaml" "Pet" missingRef, oneSchemaEntry "b.yaml" "Pet" petMember,
       oneSchemaEntry "c.yaml" "Cat" missingRef] "Pet").1
      [oneSchemaEntry "a.yaml" "Pet" missingRef] (oneSchemaEntry "b.yaml" "Pet" petMember)
      [oneSchemaEntry "c.yaml" "Cat" missingRef] rfl (by decide) (by decide),
   (C17_lookup_last_write_wins [oneSchemaEntry "a.yaml" "Pet" missingRef] "Dog").2.1
      (by decide)⟩

/-! ## C13: one optional field per union member -/

theorem unionVariants_eq (schema : Schema) :
    unionVariants schema = if schema.AnyOf.isEmpty then schema.OneOf else schema.AnyOf := by
  unfold unionVariants
  cases h : schema.AnyOf with
  | nil => simp
  | cons a rest => simp

/-- The field at each position of the list that the loop of buildUnionDTO
returns is built from the member at that position. -/
theorem unionFields_get (fuel : Nat) (resolver : Option SchemaResolver) :
    ∀ (variants : List SchemaProxy) (idx : Nat) (seen : List (String × Nat))
      (fields : List fieldDef),
      unionFields fuel resolver variants idx seen = some fields →
      ∀ i m, variants[i]? = some m →
        ∃ f, fields[i]? = some f ∧ f.Name = unionVariantName (idx + i) m ∧
          f.Optional = true ∧
          (∃ g, goTypeForSchema fuel m resolver true = some g ∧
            f.GoType = makeOptionalType g) ∧
          f.Tag = buildPulumiTag (toLowerCamel f.GoName) true := by
  intro variants
  induction variants with
  | nil =>
    intro idx seen fields _ i m hm
    simp at hm
  | cons v rest ih =>
    intro idx seen fields h i m hm
    unfold unionFields at h
    split at h
    · rename_i g ann fs hg hann hfs
      simp only [Option.some.injEq] at h
      subst h
      cases i with
      | zero =>
        simp only [List.getElem?_cons_zero, Option.some.injEq] at hm
        subst hm
        exact ⟨_, List.getElem?_cons_zero, rfl, rfl, ⟨g, hg, rfl⟩, rfl⟩
      | succ j =>
        simp only [List.getElem?_cons_succ] at hm
        obtain ⟨f, hf, hn, ho, ht, htag⟩ := ih _ _ _ hfs j m hm
        refine ⟨f, by simpa using hf, ?_, ho, ht, htag⟩
        rw [hn]
        congr 1
        omega
    · exact absurd h (by simp)

/-- The loop of buildUnionDTO returns exactly when the type resolution and
the annotation test of every member return. -/
theorem unionFields_isSome (fuel : Nat) (resolver : Option SchemaResolver) :
    ∀ (variants : List SchemaProxy) (idx : Nat) (seen : List (String × Nat)),
      (unionFields fuel resolver variants idx seen).isSome = true ↔
        ∀ m, m ∈ variants →
          (goTypeForSchema fuel m resolver true).isSome = true ∧
          (isAnnotatableProperty fuel m resolver).isSome = true := by
  intro variants
  induction variants with
  | nil =>
    intro idx seen
    simp [unionFields]
  | cons v rest ih =>
    intro idx seen
    unfold unionFields
    have ihr := ih (idx + 1) (variantGoName idx v seen).2
    cases hg : goTypeForSchema fuel v resolver true with
    | none => simp [hg]
    | some g =>
      cases hann : isAnnotatableProperty fuel v resolver with
      | none => simp [hann]
      | some ann =>
        cases hfs : unionFields fuel resolver rest (idx + 1) (variantGoName idx v seen).2 with
        | none =>
          rw [hfs] at ihr
          simp only [Option.isSome_none, Bool.false_eq_true, false_iff]
          intro hall
          exact absurd (ihr.mpr (fun m hm => hall m (List.mem_cons_of_mem _ hm))) (by simp)
        | some fs =>
          rw [hfs] at ihr
          simp only [Option.isSome_some, true_iff]
          intro m hm
          rcases List.mem_cons.mp hm with e | e
          · subst e
            simp [hg, hann]
          · exact ihr.mp rfl m e

/-- C13. The definition that buildUnionDTO returns has exactly one field per
member of anyOf when anyOf is not empty and otherwise one per member of
oneOf, the field at each position built from the member at that position:
its name is the variant name of the member, its type is the optional form of
the type of the member, it is optional and its tag carries `,optional`.
buildUnionDTO returns exactly when the type resolution and the annotation
test of every member return. -/
theorem C13_one_optional_field_per_member (fuel : Nat) (name : String) (schema : Schema)
    (resolver : Option SchemaResolver) :
    (∀ d, buildUnionDTO fuel name schema resolver = some d →
      d.Fields.length =
        (if schema.AnyOf.isEmpty then schema.OneOf else schema.AnyOf).length ∧
      (∀ f, f ∈ d.Fields → f.Optional = true) ∧
      ∀ i m, (if schema.AnyOf.isEmpty then schema.OneOf else schema.AnyOf)[i]? = some m →
        ∃ f, d.Fields[i]? = some f ∧ f.Name = unionVariantName i m ∧ f.Optional = true ∧
          (∃ g, goTypeForSchema fuel m resolver true = some g ∧
            f.GoType = makeOptionalType g) ∧
          f.Tag = buildPulumiTag (toLowerCamel f.GoName) true) ∧
    ((buildUnionDTO fuel name schema resolver).isSome = true ↔
      ∀ m, m ∈ (if schema.AnyOf.isEmpty then schema.OneOf else schema.AnyOf) →
        (goTypeForSchema fuel m resolver true).isSome = true ∧
        (isAnnotatableProperty fuel m resolver).isSome = true) := by
  rw [← unionVariants_eq]
  constructor
  · intro d hd
    obtain ⟨hf, _⟩ := buildUnionDTO_fields hd
    refine ⟨unionFields_length _ _ _ _ _ _ hf, ?_, ?_⟩
    · intro f hfm
      exact (unionFields_mem _ _ _ _ _ _ hf f hfm).1
    · intro i m hm
      obtain ⟨f, h1, h2, h3, h4, h5⟩ := unionFields_get _ _ _ _ _ _ hf i m hm
      refine ⟨f, h1, ?_, h3, h4, h5⟩
      rw [h2, Nat.zero_add]
  · rw [← unionFields_isSome fuel resolver (unionVariants schema) 0 []]
    unfold buildUnionDTO
    cases hu : unionFields fuel resolver (unionVariants schema) 0 [] with
    | none => simp
    | some fs => simp

theorem C13_one_optional_field_per_member_witness :
    (buildUnionDTO 1 "Value" valueUnion none).map
      (fun d => d.Fields.map (fun f => (f.Name, f.GoType, f.Optional))) =
      some [("string", "*string", true), ("integer", "*int64", true)] ∧
    (buildUnionDTO 1 "Value" valueUnion none).isSome = true :=
  ⟨by decide,
   (C13_one_optional_field_per_member 1 "Value" valueUnion none).2.mpr (by
      intro m hm
      have hm2 : m ∈ [stringMember, integerMember] := hm
      simp only [List.mem_cons, List.mem_singleton, List.not_mem_nil, or_false] at hm2
      rcases hm2 with e | e <;> subst e <;> exact ⟨by decide, by decide⟩)⟩

/-! ## C18: descriptions -/

theorem modifyHead_nil_append (ls : List (List Char)) :
    ls.modifyHead (fun x => ([] : List Char).reverse ++ x) = ls := by
  cases ls with
  | nil => rfl
  | cons a rest => simp [List.modifyHead]

/-- The fields that the loop of strings.Fields returns are the non-empty
pieces between the white-space runes, the first piece being prefixed with the
field that is being read. -/
theorem fieldsLoop_eq_splitOnP :
    ∀ (l cur : List Char),
      fieldsLoop l cur =
        ((l.splitOnP isSpaceRune).modifyHead (fun x => cur.reverse ++ x)).filter
          (fun w => !w.isEmpty) := by
  intro l
  induction l with
  | nil =>
    intro cur
    cases cur with
    | nil => rfl
    | cons c cur => simp [fieldsLoop, List.modifyHead]
  | cons c rest ih =>
    intro cur
    unfold fieldsLoop
    rw [List.splitOnP_cons]
    by_cases hc : isSpaceRune c = true
    · rw [if_pos hc, if_pos hc, ih [], modifyHead_nil_append]
      cases cur with
      | nil => simp [List.modifyHead]
      | cons d cur => simp [List.modifyHead]
    · rw [if_neg hc, if_neg hc, ih (c :: cur), List.modifyHead_modifyHead]
      congr 2
      funext x
      simp

theorem stringsFields_eq_nonSpaceRuns (s : String) :
    stringsFields s = nonSpaceRuns s.data := by
  unfold stringsFields nonSpaceRuns
  rw [fieldsLoop_eq_splitOnP, modifyHead_nil_append]

/-- Every field is a non-empty run of runes that are not white space. -/
theorem fieldsLoop_words :
    ∀ (l cur : List Char), (∀ c, c ∈ cur → isSpaceRune c = false) →
      ∀ w, w ∈ fieldsLoop l cur → w ≠ [] ∧ ∀ c, c ∈ w → isSpaceRune c = false := by
  intro l
  induction l with
  | nil =>
    intro cur hcur w hw
    unfold fieldsLoop at hw
    cases cur with
    | nil => simp at hw
    | cons d cur =>
      simp only [List.isEmpty_cons, Bool.false_eq_true, if_false, List.mem_singleton] at hw
      subst hw
      refine ⟨by simp, ?_⟩
      intro c hc
      exact hcur c (List.mem_reverse.mp hc)
  | cons c rest ih =>
    intro cur hcur w hw
    unfold fieldsLoop at hw
    by_cases hc : isSpaceRune c = true
    · rw [if_pos hc] at hw
      have hnil : ∀ x, x ∈ ([] : List Char) → isSpaceRune x = false := by
        intro x hx; simp at hx
      cases cur with
      | nil =>
        simp only [List.isEmpty_nil, if_true] at hw
        exact ih [] hnil w hw
      | cons d cur =>
        simp only [List.isEmpty_cons, Bool.false_eq_true, if_false, List.mem_cons] at hw
        rcases hw with e | e
        · subst e
          refine ⟨by simp, ?_⟩
          intro x hx
          exact hcur x (List.mem_reverse.mp hx)
        · exact ih [] hnil w e
    · rw [if_neg hc] at hw
      refine ih (c :: cur) ?_ w hw
      intro x hx
      rcases List.mem_cons.mp hx with e | e
      · subst e
        simpa using hc
      · exact hcur x e

/-- There is no field exactly when nothing is being read and every rune is
white space. -/
theorem fieldsLoop_eq_nil_iff :
    ∀ (l cur : List Char),
      fieldsLoop l cur = [] ↔ cur = [] ∧ ∀ c, c ∈ l → isSpaceRune c = true := by
  intro l
  induction l with
  | nil =>
    intro cur
    unfold fieldsLoop
    cases cur with
    | nil => simp
    | cons d cur => simp
  | cons c rest ih =>
    intro cur
    unfold fieldsLoop
    by_cases hc : isSpaceRune c = true
    · rw [if_pos hc]
      cases cur with
      | nil =>
        simp only [List.isEmpty_nil, if_true, true_and]
        rw [ih []]
        simp [hc]
      | cons d cur => simp
    · rw [if_neg hc, ih (c :: cur)]
      simp [hc]

theorem joinWith_eq_intercalate (sep : Char) :
    ∀ ws : List (List Char), joinWith sep ws = List.intercalate [sep] ws := by
  intro ws
  induction ws with
  | nil => rfl
  | cons w rest ih =>
    cases rest with
    | nil => simp [joinWith, List.intercalate]
    | cons w2 rest2 =>
      have e : joinWith sep (w :: w2 :: rest2) = w ++ sep :: joinWith sep (w2 :: rest2) := rfl
      rw [e, ih]
      simp [List.intercalate, List.intersperse]

theorem noDoubleSpace_append_word :
    ∀ (w t : List Char), (∀ c, c ∈ w → isSpaceRune c = false) → noDoubleSpace t = true →
      noDoubleSpace (w ++ t) = true := by
  intro w
  induction w with
  | nil => intro t _ ht; exact ht
  | cons a w ih =>
    intro t hw ht
    have ha : isSpaceRune a = false := hw a (List.mem_cons_self _ _)
    have hrest := ih t (fun c hc => hw c (List.mem_cons_of_mem _ hc)) ht
    cases hwt : w ++ t with
    | nil =>
      show noDoubleSpace (a :: (w ++ t)) = true
      rw [hwt]
      rfl
    | cons b r =>
      rw [hwt] at hrest
      show noDoubleSpace (a :: (w ++ t)) = true
      rw [hwt]
      simp [noDoubleSpace, ha, hrest]

/-- The join of non-empty words without white space: it has no two adjacent
white-space runes and, when there is a word, it begins and ends with a rune
that is not white space. -/
theorem joinWith_words :
    ∀ ws : List (List Char),
      (∀ w, w ∈ ws → w ≠ [] ∧ ∀ c, c ∈ w → isSpaceRune c = false) →
      noDoubleSpace (joinWith ' ' ws) = true ∧
      (ws ≠ [] → ∃ c t, joinWith ' ' ws = c :: t ∧ isSpaceRune c = false) ∧
      (ws ≠ [] → ∃ t c, joinWith ' ' ws = t ++ [c] ∧ isSpaceRune c = false) := by
  intro ws
  induction ws with
  | nil =>
    intro _
    exact ⟨rfl, fun h => absurd rfl h, fun h => absurd rfl h⟩
  | cons w rest ih =>
    intro h
    obtain ⟨hwne, hw⟩ := h w (List.mem_cons_self _ _)
    have hfirst : ∃ c t, w = c :: t ∧ isSpaceRune c = false := by
      cases w with
      | nil => exact absurd rfl hwne
      | cons c t => exact ⟨c, t, rfl, hw c (List.mem_cons_self _ _)⟩
    have hlast : ∃ t c, w = t ++ [c] ∧ isSpaceRune c = false := by
      refine ⟨w.dropLast, w.getLast hwne, (List.dropLast_append_getLast hwne).symm, ?_⟩
      exact hw _ (List.getLast_mem hwne)
    cases rest with
    | nil =>
      refine ⟨?_, fun _ => hfirst, fun _ => hlast⟩
      have e : joinWith ' ' [w] = w ++ [] := by simp [joinWith]
      rw [e]
      exact noDoubleSpace_append_word w [] hw rfl
    | cons w2 rest2 =>
      obtain ⟨ih1, ih2, ih3⟩ := ih (fun x hx => h x (List.mem_cons_of_mem _ hx))
      obtain ⟨c2, t2, e2, hc2⟩ := ih2 (by simp)
      obtain ⟨t3, c3, e3, hc3⟩ := ih3 (by simp)
      have e : joinWith ' ' (w :: w2 :: rest2) = w ++ ' ' :: joinWith ' ' (w2 :: rest2) := rfl
      refine ⟨?_, fun _ => ?_, fun _ => ?_⟩
      · rw [e]
        apply noDoubleSpace_append_word w _ hw
        rw [e2] at ih1 ⊢
        simp [noDoubleSpace, hc2, ih1]
      · obtain ⟨c, t, ew, hc⟩ := hfirst
        exact ⟨c, t ++ ' ' :: joinWith ' ' (w2 :: rest2), by rw [e, ew]; rfl, hc⟩
      · exact ⟨w ++ ' ' :: t3, c3, by rw [e, e3]; simp, hc3⟩

/-- C18. NormalizeDescription returns the maximal runs of runes of the text
that are not white space, in order, joined by single spaces. The result does
not begin and does not end with a white-space rune, it has no two adjacent
white-space runes, and it is empty exactly when every rune of the text is
white space. -/
theorem C18_NormalizeDescription_collapses (desc : String) :
    (NormalizeDescription desc).data = List.intercalate [' '] (nonSpaceRuns desc.data) ∧
    (∀ w, w ∈ nonSpaceRuns desc.data → w ≠ [] ∧ ∀ c, c ∈ w → isSpaceRune c = false) ∧
    (∀ c, (NormalizeDescription desc).data.head? = some c → isSpaceRune c = false) ∧
    (∀ c, (NormalizeDescription desc).data.getLast? = some c → isSpaceRune c = false) ∧
    noDoubleSpace (NormalizeDescription desc).data = true ∧
    (NormalizeDescription desc = "" ↔ ∀ c, c ∈ desc.data → isSpaceRune c = true) := by
  have hdata : (NormalizeDescription desc).data = joinWith ' ' (stringsFields desc) := by
    unfold NormalizeDescription
    by_cases h0 : desc = ""
    · subst h0
      rfl
    · rw [if_neg h0]
  have hwords : ∀ w, w ∈ stringsFields desc →
      w ≠ [] ∧ ∀ c, c ∈ w → isSpaceRune c = false :=
    fieldsLoop_words desc.data [] (fun c hc => by simp at hc)
  obtain ⟨hj1, hj2, hj3⟩ := joinWith_words (stringsFields desc) hwords
  refine ⟨?_, ?_, ?_, ?_, ?_, ?_⟩
  · rw [hdata, joinWith_eq_intercalate, stringsFields_eq_nonSpaceRuns]
  · rw [← stringsFields_eq_nonSpaceRuns]
    exact hwords
  · intro c hc
    rw [hdata] at hc
    by_cases hne : stringsFields desc = []
    · rw [hne] at hc
      simp [joinWith] at hc
    · obtain ⟨c2, t, e, h2⟩ := hj2 hne
      rw [e] at hc
      simp only [List.head?_cons, Option.some.injEq] at hc
      rw [← hc]
      exact h2
  · intro c hc
    rw [hdata] at hc
    by_cases hne : stringsFields desc = []
    · rw [hne] at hc
      simp [joinWith] at hc
    · obtain ⟨t, c2, e, h2⟩ := hj3 hne
      rw [e, List.getLast?_concat] at hc
      simp only [Option.some.injEq] at hc
      rw [← hc]
      exact h2
  · rw [hdata]
    exact hj1
  · have hiff : NormalizeDescription desc = "" ↔ stringsFields desc = [] := by
      rw [string_eq_empty_iff, hdata]
      constructor
      · intro h
        by_contra hne
        obtain ⟨c2, t, e, _⟩ := hj2 hne
        rw [e] at h
        exact absurd h (by simp)
      · intro h
        rw [h]
        rfl
    rw [hiff]
    unfold stringsFields
    rw [fieldsLoop_eq_nil_iff]
    simp

theorem C18_NormalizeDescription_collapses_witness :
    NormalizeDescription "  the  size   of it " = "the size of it" ∧
    isSpaceRune 't' = false ∧
    (NormalizeDescription "   " = "" ↔ ∀ c, c ∈ "   ".data → isSpaceRune c = true) :=
  ⟨by decide,
   (C18_NormalizeDescription_collapses "  the  size   of it ").2.2.1 't' (by decide),
   (C18_NormalizeDescription_collapses "   ").2.2.2.2.2⟩

/-! ## Decimal numbers -/

theorem digitChar_spec (k : Nat) (h : k < 10) :
    isDigitAscii (Nat.digitChar k) = true ∧ (Nat.digitChar k).toNat - 48 = k := by
  interval_cases k <;> exact ⟨by decide, by decide⟩

theorem digitsValue_concat (l : List Char) (c : Char) :
    digitsValue (l ++ [c]) = 10 * digitsValue l + (c.toNat - 48) := by
  unfold digitsValue
  rw [List.foldl_append]
  rfl

/-- The digits that Nat.toDigitsCore puts in front of its accumulator: at
least one, all decimal, and they denote the number. -/
theorem toDigitsCore_spec :
    ∀ (fuel n : Nat) (ds : List Char), n < fuel →
      ∃ l, Nat.toDigitsCore 10 fuel n ds = l ++ ds ∧ l ≠ [] ∧
        (∀ c, c ∈ l → isDigitAscii c = true) ∧ digitsValue l = n := by
  intro fuel
  induction fuel with
  | zero => intro n ds h; omega
  | succ fuel ih =>
    intro n ds h
    unfold Nat.toDigitsCore
    have hd := digitChar_spec (n % 10) (Nat.mod_lt _ (by decide))
    by_cases h0 : n / 10 = 0
    · simp only [h0, if_true]
      refine ⟨[Nat.digitChar (n % 10)], rfl, by simp, ?_, ?_⟩
      · intro c hc
        simp only [List.mem_singleton] at hc
        rw [hc]
        exact hd.1
      · have e : digitsValue [Nat.digitChar (n % 10)] = (Nat.digitChar (n % 10)).toNat - 48 := by
          simp [digitsValue]
        rw [e, hd.2]
        omega
    · simp only [h0, if_false]
      have hlt : n / 10 < fuel := by omega
      obtain ⟨l, hl, hne, hdig, hval⟩ := ih (n / 10) (Nat.digitChar (n % 10) :: ds) hlt
      refine ⟨l ++ [Nat.digitChar (n % 10)], by rw [hl]; simp, by simp, ?_, ?_⟩
      · intro c hc
        rcases List.mem_append.mp hc with e | e
        · exact hdig c e
        · simp only [List.mem_singleton] at e
          rw [e]
          exact hd.1
      · rw [digitsValue_concat, hval, hd.2]
        omega

theorem itoa_spec (n : Nat) :
    (itoa n).data ≠ [] ∧ (∀ c, c ∈ (itoa n).data → isDigitAscii c = true) ∧
      digitsValue (itoa n).data = n := by
  obtain ⟨l, hl, hne, hdig, hval⟩ := toDigitsCore_spec (n + 1) n [] (Nat.lt_succ_self n)
  have e : (itoa n).data = l := by
    show Nat.toDigits 10 n = l
    unfold Nat.toDigits
    rw [hl]
    simp
  rw [e]
  exact ⟨hne, hdig, hval⟩

theorem itoa_injective {a b : Nat} (h : itoa a = itoa b) : a = b := by
  rw [← (itoa_spec a).2.2, ← (itoa_spec b).2.2, h]

/-! ## C14: the exported names of the variants -/

theorem digitExtension_of_append {a b : String} {ext : List Char}
    (h : b.data = a.data ++ ext) (hne : ext ≠ [])
    (hdig : ∀ c, c ∈ ext → isDigitAscii c = true) : digitExtension b a = true := by
  unfold digitExtension
  rw [h]
  have h1 : a.data.isPrefixOf (a.data ++ ext) = true :=
    List.isPrefixOf_iff_prefix.mpr (List.prefix_append _ _)
  have h2 : a.data.length < (a.data ++ ext).length := by
    rw [List.length_append]
    have : 0 < ext.length := List.length_pos.mpr hne
    omega
  have h3 : List.drop a.data.length (a.data ++ ext) = ext := List.drop_left _ _
  rw [h1, h3]
  simp only [h2, decide_True, Bool.and_self, Bool.true_and, List.all_eq_true]
  exact hdig

theorem numbered_data (b : String) (count : Nat) :
    ∃ ext, (numbered b count).data = b.data ++ ext ∧
      (∀ c, c ∈ ext → isDigitAscii c = true) ∧
      (count = 0 → ext = []) ∧ (1 ≤ count → ext = (itoa (count + 1)).data) := by
  unfold numbered
  by_cases h : count = 0
  · rw [if_pos h]
    exact ⟨[], by simp, by simp, fun _ => rfl, fun h1 => by omega⟩
  · rw [if_neg h]
    exact ⟨(itoa (count + 1)).data, rfl, (itoa_spec _).2.1, fun h0 => absurd h0 h, fun _ => rfl⟩

/-- The names given to two occurrences of one derived name differ. -/
theorem numbered_count_injective {b : String} {c1 c2 : Nat}
    (h : numbered b c1 = numbered b c2) : c1 = c2 := by
  obtain ⟨e1, h1, _, z1, p1⟩ := numbered_data b c1
  obtain ⟨e2, h2, _, z2, p2⟩ := numbered_data b c2
  have hd : b.data ++ e1 = b.data ++ e2 := by rw [← h1, ← h2, h]
  have he : e1 = e2 := List.append_cancel_left hd
  by_cases a1 : c1 = 0
  · by_cases a2 : c2 = 0
    · rw [a1, a2]
    · have := p2 (by omega)
      rw [← he, z1 a1] at this
      exact absurd this.symm (itoa_spec _).1
  · by_cases a2 : c2 = 0
    · have := p1 (by omega)
      rw [he, z2 a2] at this
      exact absurd this.symm (itoa_spec _).1
    · have q1 := p1 (by omega)
      have q2 := p2 (by omega)
      rw [q1, q2] at he
      have : itoa (c1 + 1) = itoa (c2 + 1) := by
        rw [← string_mk_data (itoa (c1 + 1)), ← string_mk_data (itoa (c2 + 1)), he]
      have := itoa_injective this
      omega

/-- When two different derived names are given the same name, one of them
is the other followed by digits, and that other one has been seen before. -/
theorem numbered_clash {b1 b2 : String} {c1 c2 : Nat}
    (h : numbered b1 c1 = numbered b2 c2) (hne : b1 ≠ b2) :
    (1 ≤ c1 ∧ digitExtension b2 b1 = true) ∨ (1 ≤ c2 ∧ digitExtension b1 b2 = true) := by
  obtain ⟨e1, h1, d1, z1, _⟩ := numbered_data b1 c1
  obtain ⟨e2, h2, d2, z2, _⟩ := numbered_data b2 c2
  have hd : b1.data ++ e1 = b2.data ++ e2 := by rw [← h1, ← h2, h]
  have hdne : b1.data ≠ b2.data := by
    intro e
    apply hne
    rw [← string_mk_data b1, ← string_mk_data b2, e]
  rcases List.append_eq_append_iff.mp hd with ⟨a, ha, hb⟩ | ⟨a, ha, hb⟩
  · -- b2 = b1 ++ a, e1 = a ++ e2
    left
    have hane : a ≠ [] := by
      intro e
      rw [e, List.append_nil] at ha
      exact hdne ha.symm
    have hdig : ∀ c, c ∈ a → isDigitAscii c = true := by
      intro c hc
      apply d1
      rw [hb]
      exact List.mem_append_left _ hc
    refine ⟨?_, digitExtension_of_append ha hane hdig⟩
    by_contra hc1
    have : e1 = [] := z1 (by omega)
    rw [this] at hb
    have : a = [] := (List.append_eq_nil.mp hb.symm).1
    exact hane this
  · right
    have hane : a ≠ [] := by
      intro e
      rw [e, List.append_nil] at ha
      exact hdne ha
    have hdig : ∀ c, c ∈ a → isDigitAscii c = true := by
      intro c hc
      apply d2
      rw [hb]
      exact List.mem_append_left _ hc
    refine ⟨?_, digitExtension_of_append ha hane hdig⟩
    by_contra hc2
    have : e2 = [] := z2 (by omega)
    rw [this] at hb
    have : a = [] := (List.append_eq_nil.mp hb.symm).1
    exact hane this

theorem variantGoName_eq (idx : Nat) (variant : SchemaProxy) (seen : List (String × Nat)) :
    variantGoName idx variant seen =
      match mapGet seen (variantBaseName idx variant) with
      | some count =>
        (variantBaseName idx variant ++ itoa (count + 1),
          mapSet seen (variantBaseName idx variant) (count + 1))
      | none => (variantBaseName idx variant, mapSet seen (variantBaseName idx variant) 1) := rfl

/-- The exported names of the fields are what the loop gives on the derived
names alone. -/
theorem unionFields_names (fuel : Nat) (resolver : Option SchemaResolver) :
    ∀ (variants : List SchemaProxy) (idx : Nat) (seen : List (String × Nat))
      (fields : List fieldDef),
      unionFields fuel resolver variants idx seen = some fields →
      fields.map (fun f => f.GoName) = dedupNames (variantBaseNames variants idx) seen := by
  intro variants
  induction variants with
  | nil =>
    intro idx seen fields h
    simp only [unionFields, Option.some.injEq] at h
    subst h
    rfl
  | cons v rest ih =>
    intro idx seen fields h
    unfold unionFields at h
    split at h
    · rename_i g ann fs hg hann hfs
      simp only [Option.some.injEq] at h
      subst h
      have hrest := ih _ _ _ hfs
      simp only [List.map_cons, hrest]
      rw [variantGoName_eq]
      show _ = dedupNames (variantBaseName idx v :: variantBaseNames rest (idx + 1)) seen
      rw [dedupNames]
      cases hm : mapGet seen (variantBaseName idx v) with
      | none => rfl
      | some c => rfl
    · exact absurd h (by simp)

theorem getD_mapSet (seen : List (String × Nat)) (b0 b : String) (c : Nat) :
    (mapGet (mapSet seen b0 c) b).getD 0 = if b0 = b then c else (mapGet seen b).getD 0 := by
  by_cases h : b0 = b
  · subst h
    rw [mapGet_mapSet_same, if_pos rfl]
    rfl
  · rw [mapGet_mapSet_other _ _ _ _ h, if_neg h]

/-- The step of the loop on the derived names, by the number of times the
name has been seen. -/
theorem dedupNames_cons (b : String) (rest : List String) (seen : List (String × Nat))
    (hseen : ∀ k c, mapGet seen k = some c → 1 ≤ c) :
    dedupNames (b :: rest) seen =
      numbered b ((mapGet seen b).getD 0) ::
        dedupNames rest (mapSet seen b ((mapGet seen b).getD 0 + 1)) := by
  rw [dedupNames]
  cases hm : mapGet seen b with
  | none => rfl
  | some c =>
    have hc := hseen b c hm
    have hn : numbered b c = b ++ itoa (c + 1) := by
      unfold numbered
      rw [if_neg (by omega)]
    simp only [Option.getD_some, hn]

theorem seen_mapSet_pos {seen : List (String × Nat)} (b : String) (n : Nat)
    (hseen : ∀ k c, mapGet seen k = some c → 1 ≤ c) :
    ∀ k c, mapGet (mapSet seen b (n + 1)) k = some c → 1 ≤ c := by
  intro k c hk
  by_cases h : b = k
  · subst h
    rw [mapGet_mapSet_same] at hk
    simp only [Option.some.injEq] at hk
    omega
  · rw [mapGet_mapSet_other _ _ _ _ h] at hk
    exact hseen k c hk

/-- Every name that the loop gives is the name of one of the derived names,
for a count between the times it has been seen before the loop and the times
it occurs in all. -/
theorem dedupNames_mem :
    ∀ (bases : List String) (seen : List (String × Nat)),
      (∀ k c, mapGet seen k = some c → 1 ≤ c) →
      ∀ n, n ∈ dedupNames bases seen →
        ∃ b c, b ∈ bases ∧ n = numbered b c ∧ (mapGet seen b).getD 0 ≤ c ∧
          c < (mapGet seen b).getD 0 + bases.count b := by
  intro bases
  induction bases with
  | nil =>
    intro seen _ n hn
    simp [dedupNames] at hn
  | cons b0 rest ih =>
    intro seen hseen n hn
    rw [dedupNames_cons b0 rest seen hseen] at hn
    rcases List.mem_cons.mp hn with e | e
    · refine ⟨b0, (mapGet seen b0).getD 0, List.mem_cons_self _ _, e, Nat.le_refl _, ?_⟩
      simp
    · obtain ⟨b, c, hb, hnb, hlo, hhi⟩ :=
        ih _ (seen_mapSet_pos b0 _ hseen) n e
      refine ⟨b, c, List.mem_cons_of_mem _ hb, hnb, ?_, ?_⟩
      · rw [getD_mapSet] at hlo
        by_cases h : b0 = b
        · rw [if_pos h] at hlo
          rw [← h]
          omega
        · rw [if_neg h] at hlo
          exact hlo
      · rw [getD_mapSet] at hhi
        by_cases h : b0 = b
        · rw [if_pos h] at hhi
          subst h
          simp only [List.count_cons_self]
          omega
        · rw [if_neg h] at hhi
          rw [List.count_cons_of_ne (fun e2 => h e2.symm)]
          exact hhi

/-- The names that the loop gives are pairwise distinct when no derived name
is a derived name that occurs more than once followed by decimal digits. -/
theorem dedupNames_nodup :
    ∀ (bases : List String) (seen : List (String × Nat)),
      (∀ k c, mapGet seen k = some c → 1 ≤ c) →
      (∀ a, a ∈ bases → ∀ b, b ∈ bases →
        2 ≤ (mapGet seen a).getD 0 + bases.count a → digitExtension b a = false) →
      (dedupNames bases seen).Nodup := by
  intro bases
  induction bases with
  | nil =>
    intro seen _ _
    simp [dedupNames]
  | cons b0 rest ih =>
    intro seen hseen hclash
    rw [dedupNames_cons b0 rest seen hseen]
    have hseen1 := seen_mapSet_pos b0 ((mapGet seen b0).getD 0) hseen
    have hcount : ∀ a, (mapGet (mapSet seen b0 ((mapGet seen b0).getD 0 + 1)) a).getD 0 +
        rest.count a = (mapGet seen a).getD 0 + (b0 :: rest).count a := by
      intro a
      rw [getD_mapSet]
      by_cases h : b0 = a
      · rw [if_pos h]
        subst h
        simp only [List.count_cons_self]
        omega
      · rw [if_neg h, List.count_cons_of_ne (fun e2 => h e2.symm)]
    refine List.nodup_cons.mpr ⟨?_, ?_⟩
    · intro hmem
      obtain ⟨b, c, hb, hnb, hlo, hhi⟩ := dedupNames_mem rest _ hseen1 _ hmem
      by_cases h : b0 = b
      · subst h
        have := numbered_count_injective hnb
        rw [getD_mapSet, if_pos rfl] at hlo
        omega
      · rcases numbered_clash hnb h with ⟨h1, hx⟩ | ⟨h1, hx⟩
        · have h2 : 2 ≤ (mapGet seen b0).getD 0 + (b0 :: rest).count b0 := by
            simp only [List.count_cons_self]
            omega
          have := hclash b0 (List.mem_cons_self _ _) b (List.mem_cons_of_mem _ hb) h2
          rw [this] at hx
          exact absurd hx (by simp)
        · have h2 : 2 ≤ (mapGet seen b).getD 0 + (b0 :: rest).count b := by
            rw [← hcount b]
            omega
          have := hclash b (List.mem_cons_of_mem _ hb) b0 (List.mem_cons_self _ _) h2
          rw [this] at hx
          exact absurd hx (by simp)
    · apply ih _ hseen1
      intro a ha b hb h2
      rw [hcount a] at h2
      exact hclash a (List.mem_cons_of_mem _ ha) b (List.mem_cons_of_mem _ hb) h2

/-- C14. The exported names of the variants are not always pairwise distinct.
A union of a member titled `String2` and two untitled members of type string:
the counter of the derived name `String` gives the second string member the
name `String2`, which is the name of the first member, so the definition has
two fields of one name. -/
theorem C14_titled_member_collides :
    (buildUnionDTO 1 "Value" clashUnion none).map (fun d => d.Fields.map (fun f => f.GoName)) =
      some ["String2", "String", "String2"] ∧
    ¬ (["String2", "String", "String2"] : List String).Nodup := by
  refine ⟨by decide, by decide⟩

/-- The exported names of the fields of a union definition are the derived
names of its members, a name that has been derived before being followed by
the number of times it has now been derived. They are pairwise distinct when
no derived name is a derived name that occurs more than once followed by
decimal digits; two untitled members of type string are named `String` and
`String2`. -/
theorem buildUnionDTO_variant_names (fuel : Nat) (name : String) (schema : Schema)
    (resolver : Option SchemaResolver) (d : dtoDef)
    (hrun : buildUnionDTO fuel name schema resolver = some d) :
    d.Fields.map (fun f => f.GoName) =
      dedupNames (variantBaseNames (unionVariants schema) 0) [] ∧
    ((∀ a, a ∈ variantBaseNames (unionVariants schema) 0 →
        ∀ b, b ∈ variantBaseNames (unionVariants schema) 0 →
        2 ≤ (variantBaseNames (unionVariants schema) 0).count a → digitExtension b a = false) →
      (d.Fields.map (fun f => f.GoName)).Nodup) ∧
    (∀ v1 v2, unionVariants schema = [.mk none (some v1), .mk none (some v2)] →
      v1.Title = "" → v2.Title = "" → v1.Typ = ["string"] → v2.Typ = ["string"] →
      d.Fields.map (fun f => f.GoName) = ["String", "String2"]) := by
  obtain ⟨hf, _⟩ := buildUnionDTO_fields hrun
  have hnames := unionFields_names _ _ _ _ _ _ hf
  refine ⟨hnames, ?_, ?_⟩
  · intro hclash
    rw [hnames]
    apply dedupNames_nodup _ [] (fun k c hk => by simp [mapGet] at hk)
    intro a ha b hb h2
    apply hclash a ha b hb
    simpa [mapGet] using h2
  · intro v1 v2 hv h1 h2 t1 t2
    rw [hnames, hv]
    have e1 : variantBaseName 0 (.mk none (some v1)) = "String" := by
      simp [variantBaseName, unionVariantName, h1, t1]
      decide
    have e2 : variantBaseName 1 (.mk none (some v2)) = "String" := by
      simp [variantBaseName, unionVariantName, h2, t2]
      decide
    show dedupNames [variantBaseName 0 (.mk none (some v1)),
      variantBaseName (0 + 1) (.mk none (some v2))] [] = _
    rw [e1, e2]
    decide

/-- Two untitled members of type string are named `String` and `String2`. -/
theorem buildUnionDTO_variant_names_twoStrings :
    (buildUnionDTO 1 "Value" twoStrings none).map (fun d => d.Fields.map (fun f => f.GoName)) =
      some ["String", "String2"] ∧
    (["String", "String2"] : List String).Nodup :=
  ⟨by decide,
   (buildUnionDTO_variant_names 1 "Value" twoStrings none
      { TypeName := "Value",
        Fields := [{ Name := "string", GoName := "String", GoType := "*string", Optional := true,
                     Tag := buildPulumiTag "string" true },
                   { Name := "string", GoName := "String2", GoType := "*string", Optional := true,
                     Tag := buildPulumiTag "string2" true }],
        HasAnnotate := true } (by decide)).2.1 (by decide)⟩

/-! ## C21, C22, C23: the type of an inline schema and of a property -/

/-- A schema that is not an enumeration gives no enumeration definition,
under whatever name. -/
theorem buildEnumDTO_none_of_not_enum (name : String) (s : Schema)
    (h : isEnumSchema (some s) = false) : buildEnumDTO name (some s) = none := by
  unfold isEnumSchema at h
  unfold buildEnumDTO
  by_cases h0 : s.Enum.length = 0
  · simp [h0]
  · simp only [h0, if_false, decide_eq_false_iff_not] at h
    simp only [h0, if_false]
    have h2 : (enumNamesFromSchema (some s)).length = 0 ∨
        (enumNamesFromSchema (some s)).length ≠ s.Enum.length := Or.inr h
    rw [if_pos h2]

/-- The type dispatch of goTypeForSchema on an inline schema that gives no
enumeration, is no union and has not exactly one allOf member. -/
theorem goTypeForSchema_inline (fuel : Nat) (s : Schema) (resolver : Option SchemaResolver)
    (allowUnion : Bool) (henum : buildEnumDTO "" (some s) = none)
    (hunion : isUnionSchema (some s) = false) (hall : s.AllOf.length ≠ 1) :
    goTypeForSchema (fuel + 1) (.mk none (some s)) resolver allowUnion =
      match s.Typ with
      | [] =>
        (match additionalPropertiesAlias fuel (some s) resolver with
         | none => none
         | some (some a) => some a
         | some none => some "any")
      | t :: _ =>
        if t = "string" then some "string"
        else if t = "integer" then some "int64"
        else if t = "number" then some "float64"
        else if t = "boolean" then some "bool"
        else if t = "array" then
          (match s.Items with
           | some (.A a) => (goTypeForSchema fuel a resolver allowUnion).map (fun t => "[]" ++ t)
           | _ => some "[]any")
        else if t = "object" then
          (match additionalPropertiesAlias fuel (some s) resolver with
           | none => none
           | some (some a) => some a
           | some none => some "map[string]any")
        else
          (match additionalPropertiesAlias fuel (some s) resolver with
           | none => none
           | some (some a) => some a
           | some none => some "any") := by
  have hc : ¬ (s.AllOf.length = 1 ∧ s.AnyOf.length = 0 ∧ s.OneOf.length = 0) :=
    fun h => hall h.1
  rw [goTypeForSchema]
  simp only [hc, if_false, henum, hunion, Bool.false_eq_true]
  rfl

/-- C21. For an inline schema that is no enumeration, no union and has not
exactly one allOf member, goTypeForSchema returns, with every positive bound
on the recursion: `string`, `int64`, `float64`, `bool` for the declared types
string, integer, number, boolean; `[]any` for an array without item schema;
`any` when no type is declared and the schema has not the shape of a map
alias; and for an array with an item schema `[]` followed by the type of the
item, the call returning exactly when the resolution of the item returns. -/
theorem C21_inline_type_dispatch (fuel : Nat) (s : Schema) (resolver : Option SchemaResolver)
    (allowUnion : Bool) (henum : isEnumSchema (some s) = false)
    (hunion : isUnionSchema (some s) = false) (hall : s.AllOf.length ≠ 1) :
    (s.Typ.head? = some "string" →
      goTypeForSchema (fuel + 1) (.mk none (some s)) resolver allowUnion = some "string") ∧
    (s.Typ.head? = some "integer" →
      goTypeForSchema (fuel + 1) (.mk none (some s)) resolver allowUnion = some "int64") ∧
    (s.Typ.head? = some "number" →
      goTypeForSchema (fuel + 1) (.mk none (some s)) resolver allowUnion = some "float64") ∧
    (s.Typ.head? = some "boolean" →
      goTypeForSchema (fuel + 1) (.mk none (some s)) resolver allowUnion = some "bool") ∧
    (s.Typ.head? = some "array" → ∀ a, s.Items = some (.A a) →
      goTypeForSchema (fuel + 1) (.mk none (some s)) resolver allowUnion =
        (goTypeForSchema fuel a resolver allowUnion).map (fun t => "[]" ++ t)) ∧
    (s.Typ.head? = some "array" → (s.Items = none ∨ ∃ b, s.Items = some (.B b)) →
      goTypeForSchema (fuel + 1) (.mk none (some s)) resolver allowUnion = some "[]any") ∧
    (s.Typ = [] → mapAliasShape s = false →
      goTypeForSchema (fuel + 1) (.mk none (some s)) resolver allowUnion = some "any") := by
  have hd := goTypeForSchema_inline fuel s resolver allowUnion
    (buildEnumDTO_none_of_not_enum "" s henum) hunion hall
  refine ⟨?_, ?_, ?_, ?_, ?_, ?_, ?_⟩
  · intro ht
    cases hty : s.Typ with
    | nil => rw [hty] at ht; simp at ht
    | cons t rest =>
      rw [hty] at ht hd
      simp only [List.head?_cons, Option.some.injEq] at ht
      subst ht
      simpa using hd
  · intro ht
    cases hty : s.Typ with
    | nil => rw [hty] at ht; simp at ht
    | cons t rest =>
      rw [hty] at ht hd
      simp only [List.head?_cons, Option.some.injEq] at ht
      subst ht
      simpa using hd
  · intro ht
    cases hty : s.Typ with
    | nil => rw [hty] at ht; simp at ht
    | cons t rest =>
      rw [hty] at ht hd
      simp only [List.head?_cons, Option.some.injEq] at ht
      subst ht
      simpa using hd
  · intro ht
    cases hty : s.Typ with
    | nil => rw [hty] at ht; simp at ht
    | cons t rest =>
      rw [hty] at ht hd
      simp only [List.head?_cons, Option.some.injEq] at ht
      subst ht
      simpa using hd
  · intro ht a ha
    cases hty : s.Typ with
    | nil => rw [hty] at ht; simp at ht
    | cons t rest =>
      rw [hty] at ht hd
      simp only [List.head?_cons, Option.some.injEq] at ht
      subst ht
      rw [ha] at hd
      simpa using hd
  · intro ht hi
    cases hty : s.Typ with
    | nil => rw [hty] at ht; simp at ht
    | cons t rest =>
      rw [hty] at ht hd
      simp only [List.head?_cons, Option.some.injEq] at ht
      subst ht
      rcases hi with hi | ⟨b, hi⟩
      · rw [hi] at hd
        simpa using hd
      · rw [hi] at hd
        simpa using hd
  · intro hty hshape
    rw [hty] at hd
    have ha : additionalPropertiesAlias fuel (some s) resolver = some none := by
      unfold additionalPropertiesAlias
      rw [additionalPropertiesAliasWith_eq, if_neg (by simp [hshape])]
    rw [ha] at hd
    exact hd

theorem C21_inline_type_dispatch_witness :
    goTypeForSchema 1 integerMember none true = some "int64" ∧
    goTypeForSchema 2 (.mk none (some { Typ := ["array"], Items := some (.A stringMember) }))
      none true = (goTypeForSchema 1 stringMember none true).map (fun t => "[]" ++ t) ∧
    goTypeForSchema 1 (.mk none (some { })) none false = some "any" :=
  ⟨(C21_inline_type_dispatch 0 { Typ := ["integer"] } none true rfl rfl (by decide)).2.1 rfl,
   (C21_inline_type_dispatch 1 { Typ := ["array"], Items := some (.A stringMember) } none true
      rfl rfl (by decide)).2.2.2.2.1 rfl stringMember rfl,
   (C21_inline_type_dispatch 0 { } none false rfl rfl (by decide)).2.2.2.2.2.2 rfl rfl⟩

/-- C22. For an inline property schema whose allOf has exactly one member,
that member being a reference, and which has no anyOf and no oneOf members,
resolvePropertyType returns what goTypeForSchema, with unions allowed,
returns for that reference, and returns the helper cache as it was. -/
theorem C22_single_reference_allOf (fuel : Nat) (parentName propName : String)
    (schema : Schema) (resolver : Option SchemaResolver) (helpers : Helpers)
    (ref : SchemaProxy) (hall : schema.AllOf = [ref]) (hany : schema.AnyOf = [])
    (hone : schema.OneOf = []) (href : ref.IsReference = true) :
    resolvePropertyType (fuel + 1) parentName propName (.mk none (some schema)) resolver
        helpers =
      (goTypeForSchema (fuel + 1) ref resolver true).map (fun t => (t, helpers)) := by
  have hs : isSingleRefAllOf schema = true := by
    simp [isSingleRefAllOf, hall, hany, hone, href]
  unfold resolvePropertyType resolvePropertyTypeWith
  simp only [hs, if_true, hall, List.headD_cons]

theorem C22_single_reference_allOf_witness :
    resolvePropertyType 1 "Foo" "pet" (.mk none (some { AllOf := [petMember] }))
        (some emptyResolver) cachedFooBar =
      (goTypeForSchema 1 petMember (some emptyResolver) true).map
        (fun t => (t, cachedFooBar)) ∧
    goTypeForSchema 1 petMember (some emptyResolver) true = some "Pet" :=
  ⟨C22_single_reference_allOf 0 "Foo" "pet" { AllOf := [petMember] } (some emptyResolver)
      cachedFooBar petMember rfl rfl rfl rfl,
   by decide⟩

/-- C23. For an inline property `propName` of parent `parentName` whose schema
has allOf, anyOf or oneOf members, is not a single allOf member that is a
reference, and is no enumeration, resolvePropertyType is the lookup of the
name `toExportedName parentName ++ toExportedName propName` in the helper
cache: a cached name is returned with the cache unchanged; otherwise the
definition built by buildUnionDTO (anyOf or oneOf members) or by
buildObjectDTO is stored under that name, and the call returns exactly when
that build returns. Whatever the call returns, the type is that name and the
cache it leaves has a definition under it. -/
theorem C23_composite_helper_name (fuel : Nat) (parentName propName : String)
    (schema : Schema) (resolver : Option SchemaResolver) (helpers : Helpers)
    (hcomp : hasComposition schema = true) (hsingle : isSingleRefAllOf schema = false)
    (henum : isEnumSchema (some schema) = false) :
    resolvePropertyType (fuel + 1) parentName propName (.mk none (some schema)) resolver
        helpers =
      (match mapGet helpers (toExportedName parentName ++ toExportedName propName) with
       | some _ => some (toExportedName parentName ++ toExportedName propName, helpers)
       | none =>
         if isUnionSchema (some schema) then
           (buildUnionDTO (fuel + 1) (toExportedName parentName ++ toExportedName propName)
              schema resolver).map
             (fun dto => (toExportedName parentName ++ toExportedName propName,
               mapSet helpers (toExportedName parentName ++ toExportedName propName) dto))
         else
           (buildObjectDTO fuel (toExportedName parentName ++ toExportedName propName)
              schema resolver helpers).map
             (fun r => (toExportedName parentName ++ toExportedName propName,
               mapSet r.2 (toExportedName parentName ++ toExportedName propName) r.1))) ∧
    ∀ t helpers1,
      resolvePropertyType (fuel + 1) parentName propName (.mk none (some schema)) resolver
        helpers = some (t, helpers1) →
      t = toExportedName parentName ++ toExportedName propName ∧
        (mapGet helpers1 (toExportedName parentName ++ toExportedName propName)).isSome = true := by
  have he := buildEnumDTO_none_of_not_enum (helperTypeName parentName propName) schema henum
  have hkey : helperKey parentName propName schema = some (helperTypeName parentName propName) := by
    unfold helperKey
    simp [hsingle, he, hcomp]
  constructor
  · unfold resolvePropertyType resolvePropertyTypeWith
    simp only [hsingle, Bool.false_eq_true, if_false, he, hcomp, if_true]
    show _ = (match mapGet helpers (helperTypeName parentName propName) with
       | some _ => some (helperTypeName parentName propName, helpers)
       | none =>
         if isUnionSchema (some schema) then
           (buildUnionDTO (fuel + 1) (helperTypeName parentName propName) schema resolver).map
             (fun dto => (helperTypeName parentName propName,
               mapSet helpers (helperTypeName parentName propName) dto))
         else
           (buildObjectDTO fuel (helperTypeName parentName propName) schema resolver helpers).map
             (fun r => (helperTypeName parentName propName,
               mapSet r.2 (helperTypeName parentName propName) r.1)))
    cases mapGet helpers (helperTypeName parentName propName) with
    | some d => rfl
    | none =>
      by_cases hu : isUnionSchema (some schema) = true
      · simp only [hu, if_true]
        cases buildUnionDTO (fuel + 1) (helperTypeName parentName propName) schema resolver <;> rfl
      · simp only [hu, Bool.false_eq_true, if_false]
        cases buildObjectDTO fuel (helperTypeName parentName propName) schema resolver helpers with
        | none => rfl
        | some r => cases r; rfl
  · intro t helpers1 hrun
    unfold resolvePropertyType at hrun
    obtain ⟨ht, hin⟩ := resolvePropertyTypeWith_key hkey hrun
    refine ⟨ht, ?_⟩
    obtain ⟨v, hv⟩ := (mapGet_isSome_iff helpers1 _).mpr hin
    show (mapGet helpers1 (helperTypeName parentName propName)).isSome = true
    rw [hv]
    rfl

theorem C23_composite_helper_name_witness :
    hasComposition { AnyOf := [stringMember, integerMember] } = true ∧
    resolvePropertyType 1 "foo" "bar"
        (.mk none (some { AnyOf := [stringMember, integerMember] })) none [] =
      (buildUnionDTO 1 "FooBar" { AnyOf := [stringMember, integerMember] } none).map
        (fun dto => ("FooBar", mapSet [] "FooBar" dto)) ∧
    resolvePropertyType 1 "foo" "bar"
        (.mk none (some { AnyOf := [stringMember, integerMember] })) none cachedFooBar =
      some ("FooBar", cachedFooBar) :=
  ⟨by decide,
   (C23_composite_helper_name 0 "foo" "bar" { AnyOf := [stringMember, integerMember] } none []
      (by decide) (by decide) (by decide)).1,
   (C23_composite_helper_name 0 "foo" "bar" { AnyOf := [stringMember, integerMember] } none
      cachedFooBar (by decide) (by decide) (by decide)).1⟩

/-! ## C25, C26: type and optionality of a resource field -/

theorem buildControlTag_optional_iff (toLower : Char → Char) (name : String) (optional : Bool) :
    ControlResources.buildControlTag toLower name optional = LowerCamel toLower name ++ ",optional" ↔
      optional = true := by
  unfold ControlResources.buildControlTag
  cases optional with
  | true => simp
  | false =>
    simp only [Bool.false_eq_true, if_false, iff_false]
    intro h
    have hl := congrArg String.length h
    rw [String.length_append] at hl
    have h9 : ",optional".length = 9 := by decide
    omega

/-- C25 (counterexample). The explicit type `[]*string` does not begin with
`*`, yet the input and the output built from it are optional: the tag carries
`,optional`. -/
theorem C25_star_inside_type :
    startsWithStr tagsOverride.Typ "*" = false ∧
    (ControlResources.inputField lowerRune "Server" none tagsOverride).Typ = "[]*string" ∧
    (ControlResources.inputField lowerRune "Server" none tagsOverride).Tag = "tags,optional" ∧
    (ControlResources.outputField lowerRune "Server" none tagsOverride).Tag = "tags,optional" ∧
    (ControlResources.outputField lowerRune "Server" none tagsOverride).Optional = true := by
  decide

/-- C25 (amended). For an input or output override with an explicit type,
buildResourceDef uses that type verbatim as the field type, and the field is
optional (its tag is the lower-camel name followed by `,optional`) exactly
when the explicit type contains `*`, wherever in the string. -/
theorem C25_explicit_type_verbatim (toLower : Char → Char)
    (name : String) (resolver : Option SchemaResolver)
    (field : ControlFieldSpec) (htype : field.Typ ≠ "") :
    (ControlResources.inputField toLower name resolver field).Typ = field.Typ ∧
    (ControlResources.outputField toLower name resolver field).Typ = field.Typ ∧
    ((ControlResources.inputField toLower name resolver field).Tag =
        LowerCamel toLower field.Name ++ ",optional" ↔ '*' ∈ field.Typ.data) ∧
    ((ControlResources.inputField toLower name resolver field).Tag = LowerCamel toLower field.Name ↔
        '*' ∉ field.Typ.data) ∧
    ((ControlResources.outputField toLower name resolver field).Tag =
        LowerCamel toLower field.Name ++ ",optional" ↔ '*' ∈ field.Typ.data) ∧
    ((ControlResources.outputField toLower name resolver field).Tag = LowerCamel toLower field.Name ↔
        '*' ∉ field.Typ.data) ∧
    ((ControlResources.outputField toLower name resolver field).Optional = true ↔
        '*' ∈ field.Typ.data) := by
  have ho : ControlResources.hasOverride field = true := by
    simp [ControlResources.hasOverride, htype]
  have hplain : ∀ o : Bool, ControlResources.buildControlTag toLower field.Name o = LowerCamel toLower field.Name ↔
      o = false := by
    intro o
    cases o with
    | false => simp [ControlResources.buildControlTag]
    | true =>
      have h1 := (buildControlTag_optional_iff toLower field.Name true).mpr rfl
      have h2 := (buildControlTag_optional_iff toLower field.Name false)
      simp only [Bool.true_eq_false, iff_false]
      intro h
      rw [h1] at h
      exact absurd (h2.mp (by simpa [ControlResources.buildControlTag] using h.symm)) (by simp)
  refine ⟨?_, ?_, ?_, ?_, ?_, ?_, ?_⟩
  · simp [ControlResources.inputField, ho, htype]
  · simp [ControlResources.outputField, ho, htype]
  · simp only [ControlResources.inputField, ho, htype, ne_eq, not_false_eq_true, decide_True,
      Bool.and_self, if_true]
    rw [buildControlTag_optional_iff toLower]
    simp [containsRune]
  · simp only [ControlResources.inputField, ho, htype, ne_eq, not_false_eq_true, decide_True,
      Bool.and_self, if_true]
    rw [hplain]
    simp [containsRune]
  · simp only [ControlResources.outputField, ho, htype, ne_eq, not_false_eq_true, decide_True,
      Bool.and_self, if_true]
    rw [buildControlTag_optional_iff toLower]
    simp [containsRune]
  · simp only [ControlResources.outputField, ho, htype, ne_eq, not_false_eq_true, decide_True,
      Bool.and_self, if_true]
    rw [hplain]
    simp [containsRune]
  · simp [ControlResources.outputField, ho, htype, containsRune]

theorem C25_explicit_type_verbatim_witness :
    labelOverride.Typ ≠ "" ∧
    (ControlResources.inputField lowerRune "Server" none labelOverride).Typ = "*string" ∧
    (ControlResources.outputField lowerRune "Server" none labelOverride).Typ = "*string" ∧
    (ControlResources.inputField lowerRune "Server" none labelOverride).Tag = "label,optional" :=
  ⟨by decide,
   (C25_explicit_type_verbatim lowerRune "Server" none labelOverride (by decide)).1,
   (C25_explicit_type_verbatim lowerRune "Server" none labelOverride (by decide)).2.1,
   (C25_explicit_type_verbatim lowerRune "Server" none labelOverride (by decide)).2.2.1.mpr (by decide)⟩

/-- C26 (counterexample). The output override that supplies only the name
`Status` gives a field that is not optional: its tag carries no `,optional`
and its type is not pointer-wrapped, although it is not named Spec. The input
built from the same override is optional. -/
theorem C26_output_is_never_optional :
    statusOverride.Typ = "" ∧ statusOverride.Name ≠ "Spec" ∧
    (ControlResources.outputField lowerRune "Server" none statusOverride).Tag = "status" ∧
    (ControlResources.outputField lowerRune "Server" none statusOverride).Typ = "schemas.Status" ∧
    (ControlResources.outputField lowerRune "Server" none statusOverride).Optional = false ∧
    (ControlResources.inputField lowerRune "Server" none statusOverride).Tag = "status,optional" ∧
    (ControlResources.inputField lowerRune "Server" none statusOverride).Typ = "*schemas.Status" := by
  decide

/-- C26 (amended). For an override that supplies no explicit type: the input
built by buildResourceDef is required when it is named Spec (plain tag, the
qualified type) and optional otherwise (the tag carries `,optional` and the
qualified type is wrapped in a pointer); the output is never optional, whatever
its name (plain tag, the qualified type without a pointer). -/
theorem C26_required_by_convention (toLower : Char → Char)
    (name : String) (resolver : Option SchemaResolver)
    (field : ControlFieldSpec) (htype : field.Typ = "") :
    (field.Name = "Spec" →
      (ControlResources.inputField toLower name resolver field).Tag = LowerCamel toLower field.Name ∧
      (ControlResources.inputField toLower name resolver field).Typ =
        ControlResources.qualifySchemaType
          (ControlResources.resolveControlType toLower name field.Name resolver)) ∧
    (field.Name ≠ "Spec" →
      (ControlResources.inputField toLower name resolver field).Tag =
        LowerCamel toLower field.Name ++ ",optional" ∧
      (ControlResources.inputField toLower name resolver field).Typ =
        "*" ++ ControlResources.qualifySchemaType
          (ControlResources.resolveControlType toLower name field.Name resolver)) ∧
    (ControlResources.outputField toLower name resolver field).Tag = LowerCamel toLower field.Name ∧
    (ControlResources.outputField toLower name resolver field).Optional = false ∧
    (ControlResources.outputField toLower name resolver field).Typ =
      ControlResources.qualifySchemaType
        (ControlResources.resolveControlType toLower name field.Name resolver) := by
  refine ⟨?_, ?_, ?_, ?_, ?_⟩
  · intro hn
    simp [ControlResources.inputField, ControlResources.fieldTypeName, htype, hn,
      ControlResources.isRequiredInput, ControlResources.buildControlTag]
  · intro hn
    simp [ControlResources.inputField, ControlResources.fieldTypeName, htype, hn,
      ControlResources.isRequiredInput, ControlResources.buildControlTag]
  · simp [ControlResources.outputField, htype, ControlResources.buildControlTag]
  · simp [ControlResources.outputField, htype]
  · simp [ControlResources.outputField, ControlResources.fieldTypeName, htype]

theorem C26_required_by_convention_witness :
    specOverride.Typ = "" ∧
    (ControlResources.inputField lowerRune "Server" none specOverride).Tag = "spec" ∧
    (ControlResources.inputField lowerRune "Server" none specOverride).Typ = "schemas.Spec" ∧
    (ControlResources.inputField lowerRune "Server" none statusOverride).Tag = "status,optional" ∧
    (ControlResources.outputField lowerRune "Server" none specOverride).Optional = false :=
  ⟨rfl,
   ((C26_required_by_convention lowerRune "Server" none specOverride rfl).1 rfl).1,
   ((C26_required_by_convention lowerRune "Server" none specOverride rfl).1 rfl).2,
   ((C26_required_by_convention lowerRune "Server" none statusOverride rfl).2.1 (by decide)).1,
   (C26_required_by_convention lowerRune "Server" none specOverride rfl).2.2.2.1⟩

/-! ## C27: the type of a field given by its name only -/

theorem findInAllOf_first (name : String) (m : SchemaProxy) (ms : Schema) (prop : SchemaProxy)
    (post : List SchemaProxy) (hm : m.Schema = some ms)
    (hp : ControlResources.getProperty ms name = some prop) :
    ∀ pre : List SchemaProxy,
      (∀ x, x ∈ pre → ∀ xs, x.Schema = some xs → ControlResources.getProperty xs name = none) →
      ControlResources.findInAllOf name (pre ++ m :: post) = prop := by
  intro pre
  induction pre with
  | nil =>
    intro _
    show ControlResources.findInAllOf name (m :: post) = prop
    simp [ControlResources.findInAllOf, hm, hp]
  | cons x pre ih =>
    intro hpre
    show ControlResources.findInAllOf name (x :: (pre ++ m :: post)) = prop
    have ihp := ih (fun y hy => hpre y (List.mem_cons_of_mem _ hy))
    cases hx : x.Schema with
    | none => simp [ControlResources.findInAllOf, hx, ihp]
    | some xs =>
      have hn := hpre x (List.mem_cons_self _ _) xs hx
      simp [ControlResources.findInAllOf, hx, hn, ihp]

theorem findInAllOf_none (name : String) :
    ∀ l : List SchemaProxy,
      (∀ x, x ∈ l → ∀ xs, x.Schema = some xs → ControlResources.getProperty xs name = none) →
      ControlResources.findInAllOf name l = .nil := by
  intro l
  induction l with
  | nil => intro _; rfl
  | cons x l ih =>
    intro hl
    have ihp := ih (fun y hy => hl y (List.mem_cons_of_mem _ hy))
    cases hx : x.Schema with
    | none => simp [ControlResources.findInAllOf, hx, ihp]
    | some xs =>
      have hn := hl x (List.mem_cons_self _ _) xs hx
      simp [ControlResources.findInAllOf, hx, hn, ihp]

/-- The function lookupResourcePropertyType gives the reference name of the
property that findPropertySchema finds. -/
theorem lookupResourcePropertyType_eq (toLower : Char → Char)
    (resourceName fieldName : String) (r : SchemaResolver)
    (schema : Schema) (hs : (Lookup (some r) resourceName).Schema = some schema) :
    ControlResources.lookupResourcePropertyType toLower resourceName fieldName (some r) =
      referenceName
        (ControlResources.findPropertySchema (some schema) (LowerCamel toLower fieldName) (some r)) := by
  unfold ControlResources.lookupResourcePropertyType
  cases hl : Lookup (some r) resourceName with
  | nil => rw [hl] at hs; simp [SchemaProxy.Schema] at hs
  | mk ref sch =>
    rw [hl] at hs
    simp only [SchemaProxy.Schema] at hs
    subst hs
    simp only [SchemaProxy.Schema]
    cases hf : ControlResources.findPropertySchema (some schema) (LowerCamel toLower fieldName) (some r) with
    | nil => simp [referenceName, SchemaProxy.IsReference, SchemaProxy.Schema]
    | mk pref psch => simp only [referenceName]; rfl

theorem lookupResourcePropertyType_no_schema (toLower : Char → Char)
    (resourceName fieldName : String)
    (resolver : Option SchemaResolver) (hs : (Lookup resolver resourceName).Schema = none) :
    ControlResources.lookupResourcePropertyType toLower resourceName fieldName resolver = "" := by
  unfold ControlResources.lookupResourcePropertyType
  cases resolver with
  | none => rfl
  | some r =>
    cases hl : Lookup (some r) resourceName with
    | nil => rfl
    | mk ref sch =>
      rw [hl] at hs
      simp only [SchemaProxy.Schema] at hs
      subst hs
      rfl

/-- C27. The function resolveControlType returns the reference name that the
resource schema gives to the property named by the lower-camel field name
(the field name with its first rune lowered by `toLower`, the lower-case
mapping of the package unicode), when that name is not empty; else the field name when the resolver knows a
schema of that name; else the resource name followed by the field name when
the resolver knows a schema of that name; else the field name, as it does for
a nil resolver. The property is the one among the own properties of the
resource schema and, only when there is none, the one of the first allOf
member that declares it; its reference name is its own when it is a
reference, and that of its single allOf member when that is a reference. -/
theorem C27_resolveControlType_precedence (toLower : Char → Char)
    (resourceName fieldName : String) (resolver : Option SchemaResolver) :
    ControlResources.resolveControlType toLower resourceName fieldName none = fieldName ∧
    ControlResources.resolveControlType toLower resourceName fieldName resolver =
      (if ControlResources.lookupResourcePropertyType toLower resourceName fieldName resolver ≠ "" then
        ControlResources.lookupResourcePropertyType toLower resourceName fieldName resolver
      else if (Lookup resolver fieldName).isNil = false then fieldName
      else if (Lookup resolver (resourceName ++ fieldName)).isNil = false then
        resourceName ++ fieldName
      else fieldName) ∧
    (∀ r schema prop, resolver = some r →
      (Lookup resolver resourceName).Schema = some schema →
      ControlResources.getProperty schema (LowerCamel toLower fieldName) = some prop →
      ControlResources.lookupResourcePropertyType toLower resourceName fieldName resolver =
        referenceName prop) ∧
    (∀ r schema pre m ms post prop, resolver = some r →
      (Lookup resolver resourceName).Schema = some schema →
      ControlResources.getProperty schema (LowerCamel toLower fieldName) = none →
      schema.AllOf = pre ++ m :: post →
      (∀ x, x ∈ pre → ∀ xs, x.Schema = some xs →
        ControlResources.getProperty xs (LowerCamel toLower fieldName) = none) →
      m.Schema = some ms →
      ControlResources.getProperty ms (LowerCamel toLower fieldName) = some prop →
      ControlResources.lookupResourcePropertyType toLower resourceName fieldName resolver =
        referenceName prop) ∧
    (∀ schema, (Lookup resolver resourceName).Schema = some schema →
      ControlResources.getProperty schema (LowerCamel toLower fieldName) = none →
      (∀ x, x ∈ schema.AllOf → ∀ xs, x.Schema = some xs →
        ControlResources.getProperty xs (LowerCamel toLower fieldName) = none) →
      ControlResources.lookupResourcePropertyType toLower resourceName fieldName resolver = "") ∧
    ((Lookup resolver resourceName).Schema = none →
      ControlResources.lookupResourcePropertyType toLower resourceName fieldName resolver = "") := by
  refine ⟨?_, ?_, ?_, ?_, ?_, ?_⟩
  · simp [ControlResources.resolveControlType, ControlResources.lookupResourcePropertyType]
  · unfold ControlResources.resolveControlType
    cases resolver with
    | none => simp [Lookup, SchemaProxy.isNil, ControlResources.lookupResourcePropertyType]
    | some r =>
      simp only [Option.isSome_some, Bool.true_and, Bool.not_eq_true', ne_eq]
  · intro r schema prop hr hs hp
    subst hr
    rw [lookupResourcePropertyType_eq toLower resourceName fieldName r schema hs]
    simp [ControlResources.findPropertySchema, hp]
  · intro r schema pre m ms post prop hr hs hp hall hpre hm hmp
    subst hr
    rw [lookupResourcePropertyType_eq toLower resourceName fieldName r schema hs]
    simp only [ControlResources.findPropertySchema, hp, hall]
    rw [findInAllOf_first (LowerCamel toLower fieldName) m ms prop post hm hmp pre hpre]
  · intro schema hs hp hall
    cases resolver with
    | none => rfl
    | some r =>
      rw [lookupResourcePropertyType_eq toLower resourceName fieldName r schema hs]
      simp only [ControlResources.findPropertySchema, hp]
      rw [findInAllOf_none (LowerCamel toLower fieldName) schema.AllOf hall]
      rfl
  · exact lookupResourcePropertyType_no_schema toLower resourceName fieldName resolver

theorem C27_resolveControlType_precedence_witness :
    ControlResources.resolveControlType lowerRune "Server" "Spec" (some serverResolver) = "ServerSpec" ∧
    ControlResources.lookupResourcePropertyType lowerRune "Server" "Status" (some serverResolver) =
      "ServerStatus" ∧
    ControlResources.resolveControlType lowerRune "Server" "Zone" (some serverResolver) = "Zone" ∧
    ControlResources.resolveControlType lowerRune "Server" "Metadata" (some serverResolver) =
      "ServerMetadata" ∧
    ControlResources.resolveControlType lowerRune "Server" "Name" (some serverResolver) = "Name" ∧
    ControlResources.resolveControlType lowerRune "Server" "Spec" none = "Spec" ∧
    ControlResources.resolveControlType accentLower "Cake" "Éclair" (some cakeResolver) =
      "Pastry" :=
  ⟨by
     rw [(C27_resolveControlType_precedence lowerRune "Server" "Spec" (some serverResolver)).2.1,
       (C27_resolveControlType_precedence lowerRune "Server" "Spec" (some serverResolver)).2.2.1
         serverResolver serverSchema serverSpecRef rfl rfl rfl]
     decide,
   (C27_resolveControlType_precedence lowerRune "Server" "Status" (some serverResolver)).2.2.2.1
      serverResolver serverSchema [stringMember] statusHolder
      { Properties := some [("status", SchemaProxy.mk (some "ServerStatus") none)] } []
      (SchemaProxy.mk (some "ServerStatus") none) rfl rfl rfl rfl
      (by
        intro x hx xs hxs
        simp only [List.mem_singleton] at hx
        subst hx
        simp only [stringMember, SchemaProxy.Schema, Option.some.injEq] at hxs
        subst hxs
        rfl) rfl rfl,
   by
     rw [(C27_resolveControlType_precedence lowerRune "Server" "Zone" (some serverResolver)).2.1]
     decide,
   by
     rw [(C27_resolveControlType_precedence lowerRune "Server" "Metadata" (some serverResolver)).2.1]
     decide,
   by
     rw [(C27_resolveControlType_precedence lowerRune "Server" "Name" (some serverResolver)).2.1]
     decide,
   (C27_resolveControlType_precedence lowerRune "Server" "Spec" (some serverResolver)).1,
   by
     rw [(C27_resolveControlType_precedence accentLower "Cake" "Éclair" (some cakeResolver)).2.1,
       (C27_resolveControlType_precedence accentLower "Cake" "Éclair" (some cakeResolver)).2.2.1
         cakeResolver cakeSchema (SchemaProxy.mk (some "#/components/schemas/Pastry") none)
         rfl rfl rfl]
     decide⟩

/-! ## C28: the annotation lines of a resource field -/

/-- C28 (counterexample). The input override `Size` supplies the type `int`
and the scalar default `5` but no description: the default is resolvable (it
has the literal `5`), yet the field built from it is not annotated and gives
no line, neither as an input nor as an output. -/
theorem C28_default_without_description :
    ControlResources.defaultLiteralFromNode sizeOverride.Typ sizeOverride.Default = ("5", true) ∧
    (ControlResources.inputField lowerRune "Server" none sizeOverride).Annotate = false ∧
    (ControlResources.inputField lowerRune "Server" none sizeOverride).HasDefault = false ∧
    ControlResources.buildAnnotateLines
      [ControlResources.inputField lowerRune "Server" none sizeOverride] = [] ∧
    ControlResources.buildAnnotateLines
      [ControlResources.outputField lowerRune "Server" none sizeOverride] = [] := by
  decide

/-- C28 (amended). The annotation lines of buildResourceDef are those of its
inputs and of its outputs, field by field in order, and an output gives the
lines of the input built from the same override. For an override with a
non-empty description: a Describe line when the normalized description is not
empty, and a SetDefault line when the override supplies a default that is
neither a mapping nor a sequence. For an override with an empty description
that supplies a type or a default: no line, whatever the default of the
override or of the schema. For an override that supplies the name only: a
Describe line for a non-empty description of the schema property and a
SetDefault line for its default literal. A field with neither a description
nor a default contributes no line. -/
theorem C28_annotation_lines (toLower : Char → Char) (name : String) (spec : ControlResourceSpec)
    (resolver : Option SchemaResolver) (field : ControlFieldSpec) :
    (ControlResources.buildResourceDef toLower name spec resolver).ArgsAnnotateLines =
      (spec.Input.map (ControlResources.inputField toLower name resolver)).flatMap
        ControlResources.annotateField ∧
    (ControlResources.buildResourceDef toLower name spec resolver).StateAnnotateLines =
      (spec.Output.map (ControlResources.outputField toLower name resolver)).flatMap
        ControlResources.annotateField ∧
    ControlResources.annotateField (ControlResources.outputField toLower name resolver field) =
      ControlResources.annotateField (ControlResources.inputField toLower name resolver field) ∧
    (field.Description ≠ "" →
      ControlResources.annotateField (ControlResources.inputField toLower name resolver field) =
        (if NormalizeDescription field.Description ≠ "" then
          ["a.Describe(&dto." ++ field.Name ++ ", " ++
            goQuote (NormalizeDescription field.Description) ++ ")"]
         else []) ++
        (if (ControlResources.defaultLiteralFromNode field.Typ field.Default).2 = true then
          ["a.SetDefault(&dto." ++ field.Name ++ ", " ++
            (ControlResources.defaultLiteralFromNode field.Typ field.Default).1 ++ ")"]
         else [])) ∧
    (∀ typeName node, (ControlResources.defaultLiteralFromNode typeName node).2 = true ↔
      ∃ n, node = some n ∧ n.Kind ≠ Kind.MappingNode ∧ n.Kind ≠ Kind.SequenceNode) ∧
    (field.Description = "" → (field.Typ ≠ "" ∨ field.Default.isSome = true) →
      ControlResources.annotateField (ControlResources.inputField toLower name resolver field) = []) ∧
    (field.Description = "" → field.Typ = "" → field.Default = none →
      ControlResources.annotateField (ControlResources.inputField toLower name resolver field) =
        (if ControlResources.propertyDescription toLower name field.Name resolver ≠ "" then
          ["a.Describe(&dto." ++ field.Name ++ ", " ++
            goQuote (ControlResources.propertyDescription toLower name field.Name resolver) ++ ")"]
         else []) ++
        (if (ControlResources.propertyDefaultLiteral toLower name field.Name resolver).2 = true then
          ["a.SetDefault(&dto." ++ field.Name ++ ", " ++
            (ControlResources.propertyDefaultLiteral toLower name field.Name resolver).1 ++ ")"]
         else [])) ∧
    (∀ f : ControlResources.resourceField, f.Desc = "" → f.HasDefault = false →
      ControlResources.annotateField f = []) := by
  refine ⟨rfl, rfl, rfl, ?_, ?_, ?_, ?_, ?_⟩
  · intro hd
    have ho : ControlResources.hasOverride field = true := by
      simp [ControlResources.hasOverride, hd]
    simp [ControlResources.annotateField, ControlResources.inputField,
      ControlResources.fieldNotes, ho, hd]
  · intro typeName node
    cases node with
    | none => simp [ControlResources.defaultLiteralFromNode]
    | some n =>
      unfold ControlResources.defaultLiteralFromNode
      by_cases hk : n.Kind = Kind.MappingNode ∨ n.Kind = Kind.SequenceNode
      · simp only [hk, if_true, Bool.false_eq_true, Option.some.injEq, ne_eq, exists_eq_left',
          false_iff, not_and_or, not_not]
      · simp only [hk, if_false, Option.some.injEq, ne_eq, exists_eq_left']
        have hk2 : ¬ n.Kind = Kind.MappingNode ∧ ¬ n.Kind = Kind.SequenceNode := not_or.mp hk
        simp only [hk2, not_false_eq_true, and_self, iff_true]
        repeat' split
        all_goals rfl
  · intro hd ht
    have ho : ControlResources.hasOverride field = true := by
      rcases ht with ht | ht
      · simp [ControlResources.hasOverride, ht]
      · simp [ControlResources.hasOverride, ht]
    simp [ControlResources.annotateField, ControlResources.inputField,
      ControlResources.fieldNotes, ho, hd]
  · intro hd ht hdef
    have ho : ControlResources.hasOverride field = false := by
      simp [ControlResources.hasOverride, hd, ht, hdef]
    simp [ControlResources.annotateField, ControlResources.inputField,
      ControlResources.fieldNotes, ho]
  · intro f hd hdef
    simp [ControlResources.annotateField, hd, hdef]

theorem C28_annotation_lines_witness :
    ControlResources.annotateField
        (ControlResources.inputField lowerRune "Server" none describedSizeOverride) =
      ["a.Describe(&dto.Size, " ++ goQuote "the size" ++ ")", "a.SetDefault(&dto.Size, 5)"] ∧
    ControlResources.annotateField (ControlResources.inputField lowerRune "Server" none tagsOverride) =
      [] ∧
    ControlResources.annotateField (ControlResources.inputField lowerRune "Server" none statusOverride) =
      [] :=
  ⟨((C28_annotation_lines lowerRune "Server" { } none describedSizeOverride).2.2.2.1
      (by decide)).trans (by decide),
   (C28_annotation_lines lowerRune "Server" { } none tagsOverride).2.2.2.2.2.1 rfl (Or.inl (by decide)),
   ((C28_annotation_lines lowerRune "Server" { } none statusOverride).2.2.2.2.2.2.1 rfl rfl rfl).trans
      (by decide)⟩

/-! ## C29: decoding a field override -/

/-- C29 (counterexample). The mapping `{name: ""}` carries the key name; the
four values it gives are all empty, and UnmarshalYAML does not keep them: it
reads the mapping by position and takes the text `name` of the key as the
name of the field. -/
theorem C29_empty_name_is_read_by_position :
    (decodeFieldMapping emptyNameMapping).map (fun raw => raw.Name) = some "" ∧
    (UnmarshalYAML decodeFieldMapping { } (some emptyNameMapping)).toOption.map
        (fun c => (c.Name, c.Typ, c.Description, c.Default.isSome)) =
      some ("name", "", "", false) := by
  decide

/-- C29 (amended). Decoding a field override into an empty spec yields, for a
bare scalar, a spec whose Name is the text of the scalar and whose Type,
Description and Default are empty. For a mapping that decodes without error
and gives a non-empty name, type or description, or a default, it yields the
spec holding exactly those four values. For any other mapping the spec is read
by position: with at least two content nodes the Name is the text of the
first and the Type that of the second; with fewer the call fails. Other kinds
of node fail, and a nil node leaves the spec as it is. -/
theorem C29_UnmarshalYAML_forms (decode : YamlNode → Option rawFieldSpec)
    (c : ControlFieldSpec) (v : YamlNode) :
    (v.Kind = Kind.ScalarNode →
      UnmarshalYAML decode c (some v) = .ok { c with Name := v.Value } ∧
      UnmarshalYAML decode { } (some v) =
        .ok { Name := v.Value, Typ := "", Description := "", Default := none }) ∧
    (v.Kind = Kind.MappingNode → ∀ raw, decode v = some raw →
      (raw.Name ≠ "" ∨ raw.Typ ≠ "" ∨ raw.Description ≠ "" ∨ raw.Default.isSome = true) →
      UnmarshalYAML decode c (some v) =
        .ok { Name := raw.Name, Typ := raw.Typ, Description := raw.Description,
              Default := raw.Default }) ∧
    (v.Kind = Kind.MappingNode →
      (decode v = none ∨ ∃ raw, decode v = some raw ∧ raw.Name = "" ∧ raw.Typ = "" ∧
        raw.Description = "" ∧ raw.Default = none) →
      (∀ k t rest, v.Content = some k :: some t :: rest →
        UnmarshalYAML decode c (some v) = .ok { c with Name := k.Value, Typ := t.Value }) ∧
      (v.Content.length < 2 →
        UnmarshalYAML decode c (some v) = .error "invalid field mapping")) ∧
    (v.Kind ≠ Kind.ScalarNode → v.Kind ≠ Kind.MappingNode →
      UnmarshalYAML decode c (some v) = .error "invalid field type") ∧
    UnmarshalYAML decode c none = .ok c := by
  refine ⟨?_, ?_, ?_, ?_, rfl⟩
  · intro hk
    constructor
    · simp only [UnmarshalYAML, hk]
    · simp only [UnmarshalYAML, hk]
  · intro hk raw hd hne
    simp only [UnmarshalYAML, hk, hd, hne, if_true]
  · intro hk hd
    have hpos : UnmarshalYAML decode c (some v) = positionalField c v := by
      rcases hd with hd | ⟨raw, hd, h1, h2, h3, h4⟩
      · simp only [UnmarshalYAML, hk, hd]
      · simp [UnmarshalYAML, hk, hd, h1, h2, h3, h4]
    rw [hpos]
    constructor
    · intro k t rest hc
      simp [positionalField, hc]
    · intro hl
      simp [positionalField, hl]
  · intro h1 h2
    unfold UnmarshalYAML
    cases hk : v.Kind <;> simp_all

theorem C29_UnmarshalYAML_forms_witness :
    UnmarshalYAML decodeFieldMapping { } (some (strScalar "Size")) =
      .ok { Name := "Size", Typ := "", Description := "", Default := none } ∧
    UnmarshalYAML decodeFieldMapping { } (some sizeMapping) =
      .ok { Name := "Size", Typ := "int", Description := "", Default := none } ∧
    UnmarshalYAML decodeFieldMapping { } (some shortMapping) =
      .ok { Name := "Size", Typ := "int" } :=
  ⟨((C29_UnmarshalYAML_forms decodeFieldMapping { } (strScalar "Size")).1 rfl).2,
   (C29_UnmarshalYAML_forms decodeFieldMapping { } sizeMapping).2.1 rfl
      { Name := "Size", Typ := "int" } rfl (Or.inl (by decide)),
   ((C29_UnmarshalYAML_forms decodeFieldMapping { } shortMapping).2.2.1 rfl
      (Or.inr ⟨{ }, rfl, rfl, rfl, rfl, rfl⟩)).1 (strScalar "Size") (strScalar "int") [] rfl⟩

/-! ## C24: the order of the fields -/

theorem firstOccurrences_mem (x : String) :
    ∀ l : List String, x ∈ firstOccurrences l ↔ x ∈ l := by
  intro l
  induction l with
  | nil => simp [firstOccurrences]
  | cons y ys ih =>
    simp only [firstOccurrences, List.mem_cons, List.mem_filter, ih, decide_eq_true_eq]
    constructor
    · rintro (h | ⟨h, _⟩)
      · exact Or.inl h
      · exact Or.inr h
    · intro h
      by_cases hxy : x = y
      · exact Or.inl hxy
      · rcases h with h | h
        · exact Or.inl h
        · exact Or.inr ⟨h, hxy⟩

theorem firstOccurrences_nodup : ∀ l : List String, (firstOccurrences l).Nodup := by
  intro l
  induction l with
  | nil => simp [firstOccurrences]
  | cons y ys ih =>
    simp only [firstOccurrences, List.nodup_cons, List.mem_filter, decide_eq_true_eq]
    exact ⟨fun h => h.2 rfl, ih.filter _⟩

/-- The loop that appends each new name leaves the names at their first
occurrence after what was there. -/
theorem foldl_appendNew (names : List String) :
    ∀ acc : List String, names.foldl appendNew acc =
      acc ++ (firstOccurrences names).filter (fun y => decide (y ∉ acc)) := by
  induction names with
  | nil => intro acc; simp [firstOccurrences]
  | cons x xs ih =>
    intro acc
    rw [List.foldl_cons, ih]
    unfold appendNew
    by_cases hx : x ∈ acc
    · simp only [hx, if_true, firstOccurrences, List.filter_cons, not_true_eq_false,
        decide_False, Bool.false_eq_true, if_false, List.filter_filter]
      congr 1
      apply List.filter_congr
      intro y _
      by_cases hy : y ∈ acc
      · simp [hy]
      · have hyx : y ≠ x := fun e => hy (e ▸ hx)
        simp [hy, hyx]
    · simp only [hx, if_false, firstOccurrences, List.filter_cons, not_false_eq_true,
        decide_True, if_true, List.filter_filter, List.append_assoc, List.singleton_append]
      congr 2
      apply List.filter_congr
      intro y _
      by_cases hy : y ∈ acc
      · simp [hy]
      · by_cases hyx : y = x
        · simp [hyx]
        · simp [hy, hyx]

theorem foldl_appendNew_nil (names : List String) :
    names.foldl appendNew [] = firstOccurrences names := by
  rw [foldl_appendNew]
  simp

theorem unionFields_sourceNames (fuel : Nat) (resolver : Option SchemaResolver) :
    ∀ (variants : List SchemaProxy) (idx : Nat) (seen : List (String × Nat))
      (fields : List fieldDef),
      unionFields fuel resolver variants idx seen = some fields →
      fields.map (fun f => f.Name) = variantSourceNames variants idx := by
  intro variants
  induction variants with
  | nil =>
    intro idx seen fields h
    simp only [unionFields, Option.some.injEq] at h
    subst h
    rfl
  | cons v rest ih =>
    intro idx seen fields h
    unfold unionFields at h
    split at h
    · rename_i g ann fs hg hann hfs
      simp only [Option.some.injEq] at h
      subst h
      simp [variantSourceNames, ih _ _ _ hfs]
    · exact absurd h (by simp)

theorem addUnionField_order {st : mergeState} (h : OrderInv st) (field : fieldDef) :
    (addUnionField st field).order = appendNew st.order field.Name := by
  unfold addUnionField appendNew
  cases hg : mapGet st.fields field.Name with
  | none =>
    have hn : field.Name ∉ st.order := fun hin => by
      obtain ⟨f, hf⟩ := (h _).mp hin
      rw [hg] at hf
      exact absurd hf (by simp)
    simp [hn]
  | some existing =>
    have hin : field.Name ∈ st.order := (h _).mpr ⟨existing, hg⟩
    simp [hin]

theorem foldl_addUnionField_order (fields : List fieldDef) :
    ∀ st : mergeState, OrderInv st →
      OrderInv (fields.foldl addUnionField st) ∧
      (fields.foldl addUnionField st).order =
        (fields.map (fun f => f.Name)).foldl appendNew st.order := by
  induction fields with
  | nil => intro st h; exact ⟨h, rfl⟩
  | cons f rest ih =>
    intro st h
    rw [List.foldl_cons, List.map_cons, List.foldl_cons, ← addUnionField_order h f]
    exact ih _ (OrderInv_addUnionField h f)

section MergeOrder

variable {resolveProp : String → String → SchemaProxy → Helpers → Option (String × Helpers)}
variable {fuel : Nat} {resolver : Option SchemaResolver} {required : List (String × Bool)}
variable {parentName : String}

theorem addProperty_order {optOverride : Bool} {st st1 : mergeState} {propName : String}
    {propSchema : SchemaProxy} (h : OrderInv st)
    (hstep : addProperty resolveProp fuel resolver required parentName optOverride st
      propName propSchema = some st1) :
    st1.order = appendNew st.order propName := by
  obtain ⟨goType0, annotate, _, _, hord, _⟩ := addProperty_spec hstep
  rw [hord]
  unfold appendNew
  cases hg : mapGet st.fields propName with
  | none =>
    have hn : propName ∉ st.order := fun hin => by
      obtain ⟨f, hf⟩ := (h _).mp hin
      rw [hg] at hf
      exact absurd hf (by simp)
    simp [hn]
  | some existing =>
    have hin : propName ∈ st.order := (h _).mpr ⟨existing, hg⟩
    simp [hin]

theorem addPropertyList_order {optOverride : Bool} (props : List (String × SchemaProxy)) :
    ∀ {st st1 : mergeState}, OrderInv st →
      addPropertyList resolveProp fuel resolver required parentName optOverride st props
        = some st1 →
      OrderInv st1 ∧ st1.order = (props.map Prod.fst).foldl appendNew st.order := by
  induction props with
  | nil =>
    intro st st1 h hstep
    simp only [addPropertyList, Option.some.injEq] at hstep
    subst hstep
    exact ⟨h, rfl⟩
  | cons p rest ih =>
    intro st st1 h hstep
    obtain ⟨propName, propSchema⟩ := p
    unfold addPropertyList at hstep
    cases hone : addProperty resolveProp fuel resolver required parentName optOverride st
        propName propSchema with
    | none => simp [hone] at hstep
    | some st2 =>
      simp only [hone] at hstep
      obtain ⟨hinv, hord⟩ := ih (OrderInv_addProperty h hone) hstep
      refine ⟨hinv, ?_⟩
      rw [hord, addProperty_order h hone]
      rfl

theorem addProperties_order {optOverride : Bool} {s : Option Schema} {st st1 : mergeState}
    (h : OrderInv st)
    (hstep : addProperties resolveProp fuel resolver required parentName s optOverride st
      = some st1) :
    OrderInv st1 ∧ st1.order = (contributedNames s).foldl appendNew st.order := by
  unfold addProperties at hstep
  cases s with
  | none =>
    simp only [declaredProperties, Option.some.injEq] at hstep
    subst hstep
    exact ⟨h, rfl⟩
  | some sch =>
    cases hp : sch.Properties with
    | some props =>
      simp only [declaredProperties, hp] at hstep
      simp only [contributedNames, hp]
      exact addPropertyList_order props h hstep
    | none =>
      simp only [declaredProperties, hp] at hstep
      simp only [contributedNames, hp]
      by_cases hu : isUnionSchema (some sch) = true
      · simp only [hu, if_true] at hstep ⊢
        cases hb : buildUnionDTO fuel "" sch resolver with
        | none => simp [hb] at hstep
        | some unionDTO =>
          simp only [hb, Option.some.injEq] at hstep
          subst hstep
          have hn := unionFields_sourceNames fuel resolver _ _ _ _ (buildUnionDTO_fields hb).1
          rw [← hn]
          exact foldl_addUnionField_order unionDTO.Fields st h
      · simp only [hu, Bool.false_eq_true, if_false, Option.some.injEq] at hstep ⊢
        subst hstep
        exact ⟨h, rfl⟩

theorem addAllOf_order (members : List SchemaProxy) :
    ∀ {st st1 : mergeState}, OrderInv st →
      addAllOf resolveProp fuel resolver required parentName st members = some st1 →
      OrderInv st1 ∧
        st1.order =
          (members.flatMap (fun m => contributedNames m.Schema)).foldl appendNew st.order := by
  induction members with
  | nil =>
    intro st st1 h hstep
    simp only [addAllOf, Option.some.injEq] at hstep
    subst hstep
    exact ⟨h, rfl⟩
  | cons m rest ih =>
    intro st st1 h hstep
    unfold addAllOf at hstep
    cases hone : addProperties resolveProp fuel resolver required parentName m.Schema false st with
    | none => simp [hone] at hstep
    | some st2 =>
      simp only [hone] at hstep
      obtain ⟨h2, hord2⟩ := addProperties_order h hone
      obtain ⟨h3, hord3⟩ := ih h2 hstep
      refine ⟨h3, ?_⟩
      rw [hord3, hord2, List.flatMap_cons, List.foldl_append]

end MergeOrder

/-- The names of the fields read from a state are its slice `order`, when
every name of the slice is a key of the map and every field is stored under
its own name. -/
theorem orderedFields_names (st : mergeState) (hord : OrderInv st)
    (hname : ∀ k f, mapGet st.fields k = some f → f.Name = k) :
    (orderedFields st).map (fun f => f.Name) = st.order := by
  unfold orderedFields
  have key : ∀ l : List String, (∀ k, k ∈ l → ∃ f, mapGet st.fields k = some f) →
      (l.filterMap (fun propName => mapGet st.fields propName)).map (fun f => f.Name) = l := by
    intro l
    induction l with
    | nil => intro _; rfl
    | cons k ks ih =>
      intro hl
      obtain ⟨f, hf⟩ := hl k (List.mem_cons_self _ _)
      rw [List.filterMap_cons, hf]
      simp only [List.map_cons]
      rw [hname k f hf, ih (fun k2 hk2 => hl k2 (List.mem_cons_of_mem _ hk2))]
  exact key st.order (fun k hk => (hord k).mp hk)

/-- The names of the fields of a merged definition. -/
theorem mergeFields_names
    {resolveProp : String → String → SchemaProxy → Helpers → Option (String × Helpers)}
    {fuel : Nat} {name : String} {schema : Schema} {resolver : Option SchemaResolver}
    {helpers helpers1 : Helpers} {dto : dtoDef}
    (h : mergeFields resolveProp fuel name schema resolver helpers = some (dto, helpers1)) :
    dto.Fields.map (fun f => f.Name) = declarationOrder schema := by
  obtain ⟨st1, st2, h1, h2, hdto, _⟩ := mergeFields_cases h
  have h0 : OrderInv { fields := [], order := [], helpers := helpers } := by
    intro k
    simp [mapGet]
  obtain ⟨hi1, ho1⟩ := addProperties_order h0 h1
  obtain ⟨hi2, ho2⟩ := addAllOf_order schema.AllOf hi1 h2
  have hn2 : ∀ k f, mapGet st2.fields k = some f → f.Name = k := by
    have hinv0 : OptInv (mergeAllOfRequired (requiredSet schema.Required) schema.AllOf) []
        { fields := [], order := [], helpers := helpers } :=
      ⟨fun k f hk => by simp [mapGet] at hk, fun k hk => by simp at hk⟩
    have hinv2 := OptInv_addAllOf schema.AllOf (OptInv_addProperties hinv0 h1) h2
    intro k f hk
    exact (hinv2.1 k f hk).1
  rw [hdto]
  show (orderedFields st2).map (fun f => f.Name) = declarationOrder schema
  rw [orderedFields_names st2 hi2 hn2, ho2, ho1, ← List.foldl_append, foldl_appendNew_nil]
  rfl

/-- C24. The fields of a definition built by buildObjectDTO have pairwise
distinct source names, and whenever there are fields their names are the
names declared by the schema itself and then by its allOf members in member
order, each at the place of its first declaration (a member without property
map that is a union declares the source names of its variants). The Inputs
and Outputs built by buildResourceDef have the lengths of the input and
output lists of the manifest entry, and the same names in the same order. -/
theorem C24_fields_follow_declaration_order (toLower : Char → Char)
    (fuel : Nat) (name : String) (schema : Schema)
    (resolver : Option SchemaResolver) (helpers helpers1 : Helpers) (dto : dtoDef)
    (resource : String) (spec : ControlResourceSpec)
    (h : buildObjectDTO (fuel + 1) name schema resolver helpers = some (dto, helpers1)) :
    (dto.Fields.map (fun f => f.Name)).Nodup ∧
    (dto.Fields = [] ∨ dto.Fields.map (fun f => f.Name) = declarationOrder schema) ∧
    (ControlResources.buildResourceDef toLower resource spec resolver).Inputs.length =
      spec.Input.length ∧
    (ControlResources.buildResourceDef toLower resource spec resolver).Inputs.map (fun f => f.Name) =
      spec.Input.map (fun f => f.Name) ∧
    (ControlResources.buildResourceDef toLower resource spec resolver).Outputs.length =
      spec.Output.length ∧
    (ControlResources.buildResourceDef toLower resource spec resolver).Outputs.map (fun f => f.Name) =
      spec.Output.map (fun f => f.Name) := by
  have hfields : dto.Fields = [] ∨ dto.Fields.map (fun f => f.Name) = declarationOrder schema := by
    unfold buildObjectDTO at h
    rcases buildObjectDTOWith_cases h with ⟨he, _⟩ | ⟨_, _, hm⟩
    · exact Or.inl he
    · exact Or.inr (mergeFields_names hm)
  refine ⟨?_, hfields, ?_, ?_, ?_, ?_⟩
  · rcases hfields with he | hn
    · rw [he]
      exact List.nodup_nil
    · rw [hn]
      exact firstOccurrences_nodup _
  · simp [ControlResources.buildResourceDef]
  · simp [ControlResources.buildResourceDef, ControlResources.inputField, Function.comp_def]
  · simp [ControlResources.buildResourceDef]
  · simp [ControlResources.buildResourceDef, ControlResources.outputField, Function.comp_def]

theorem C24_fields_follow_declaration_order_witness :
    ([statusField, integerField].map (fun f => f.Name)).Nodup ∧
    (buildObjectDTO 2 "Thing" orderSample none []).map (fun r => r.1.Fields.map (fun f => f.Name)) =
      some ["b", "a", "c", "d"] ∧
    declarationOrder orderSample = ["b", "a", "c", "d"] ∧
    (ControlResources.buildResourceDef lowerRune "Server" serverSpec none).Inputs.map (fun f => f.Name) =
      ["Spec", "Label"] ∧
    (ControlResources.buildResourceDef lowerRune "Server" serverSpec none).Outputs.map (fun f => f.Name) =
      ["Status", "Tags"] :=
  ⟨(C24_fields_follow_declaration_order lowerRune 1 "Thing" statusFirst none [] []
      { TypeName := "Thing", Fields := [statusField, integerField], HasAnnotate := true }
      "Server" serverSpec (by decide)).1,
   by decide, by decide,
   (C24_fields_follow_declaration_order lowerRune 1 "Thing" statusFirst none [] []
      { TypeName := "Thing", Fields := [statusField, integerField], HasAnnotate := true }
      "Server" serverSpec (by decide)).2.2.2.1,
   (C24_fields_follow_declaration_order lowerRune 1 "Thing" statusFirst none [] []
      { TypeName := "Thing", Fields := [statusField, integerField], HasAnnotate := true }
      "Server" serverSpec (by decide)).2.2.2.2.2⟩

/-! ## C30: termination on schema sets without reference cycles -/

theorem sizeOf_items_lt (s : Schema) (a : SchemaProxy) (h : s.Items = some (.A a)) :
    sizeOf a < sizeOf (SchemaProxy.mk none (some s)) := by
  cases s
  simp only at h
  subst h
  simp only [SchemaProxy.mk.sizeOf_spec, Option.some.sizeOf_spec, SchemaOf.mk.sizeOf_spec,
    DynamicValue.A.sizeOf_spec]
  omega

theorem sizeOf_additional_lt (s : Schema) (a : SchemaProxy)
    (h : s.AdditionalProperties = some (.A a)) :
    sizeOf a < sizeOf (SchemaProxy.mk none (some s)) := by
  cases s
  simp only at h
  subst h
  simp only [SchemaProxy.mk.sizeOf_spec, Option.some.sizeOf_spec, SchemaOf.mk.sizeOf_spec,
    DynamicValue.A.sizeOf_spec]
  omega

theorem sizeOf_allOf_lt (s : Schema) (m : SchemaProxy) (h : m ∈ s.AllOf) :
    sizeOf m < sizeOf (SchemaProxy.mk none (some s)) := by
  cases s
  simp only at h
  have hm := List.sizeOf_lt_of_mem h
  simp only [SchemaProxy.mk.sizeOf_spec, Option.some.sizeOf_spec, SchemaOf.mk.sizeOf_spec]
  omega

theorem sizeOf_property_lt (s : Schema) (props : List (String × SchemaProxy)) (k : String)
    (p : SchemaProxy) (h : s.Properties = some props) (hp : (k, p) ∈ props) :
    sizeOf p < sizeOf s := by
  cases s
  simp only at h
  subst h
  have hm := List.sizeOf_lt_of_mem hp
  simp only [Prod.mk.sizeOf_spec] at hm
  simp only [Option.some.sizeOf_spec, SchemaOf.mk.sizeOf_spec]
  omega

/-- One step of goTypeForSchema on a reference returns when the call on the
item schema of the registered array does. -/
theorem goTypeForSchema_ref_isSome (fuel : Nat) (ref : String) (x : Option Schema)
    (resolver : Option SchemaResolver) (allowUnion : Bool)
    (h : ∀ sch a, (Lookup resolver (RefToSchemaName ref)).Schema = some sch →
      sch.Items = some (.A a) → (goTypeForSchema fuel a resolver allowUnion).isSome = true) :
    (goTypeForSchema (fuel + 1) (.mk (some ref) x) resolver allowUnion).isSome = true := by
  unfold goTypeForSchema
  cases resolver with
  | none => rfl
  | some r =>
    simp only
    cases hl : (Lookup (some r) (RefToSchemaName ref)).Schema with
    | none => rfl
    | some sch =>
      simp only
      cases buildEnumDTO (RefToSchemaName ref) (some sch) with
      | some e => rfl
      | none =>
        simp only
        split
        · split <;> rfl
        · split
          · rfl
          · cases hty : sch.Typ with
            | nil => rfl
            | cons t rest =>
              simp only
              cases hi : sch.Items with
              | none =>
                simp only [hi]
                repeat' split
                all_goals rfl
              | some d =>
                cases d with
                | B b =>
                  simp only [hi]
                  repeat' split
                  all_goals rfl
                | A a =>
                  have ha := h sch a hl hi
                  obtain ⟨v, hv⟩ := Option.isSome_iff_exists.mp ha
                  simp only [hi, hv]
                  repeat' split
                  all_goals rfl

/-- One step of goTypeForSchema on an inline schema returns when the calls on
its single allOf member, on its additional-properties schema and on its item
schema do. -/
theorem goTypeForSchema_inline_isSome (fuel : Nat) (s : Schema)
    (resolver : Option SchemaResolver) (allowUnion : Bool)
    (h1 : ∀ m rest, s.AllOf = m :: rest →
      (goTypeForSchema fuel m resolver allowUnion).isSome = true)
    (h2 : ∀ a, s.AdditionalProperties = some (.A a) →
      (goTypeForSchema fuel a resolver true).isSome = true)
    (h3 : ∀ a, s.Items = some (.A a) → (goTypeForSchema fuel a resolver allowUnion).isSome = true) :
    (goTypeForSchema (fuel + 1) (.mk none (some s)) resolver allowUnion).isSome = true := by
  have halias : ∃ r, additionalPropertiesAliasWith
      (fun p => goTypeForSchema fuel p resolver true) (some s) = some r := by
    rw [additionalPropertiesAliasWith_eq]
    split
    · rename_i hc
      cases hap : s.AdditionalProperties with
      | none => exact ⟨_, rfl⟩
      | some ap =>
        cases ap with
        | B b => exact ⟨_, rfl⟩
        | A a =>
          have := h2 a hap
          obtain ⟨v, hv⟩ := Option.isSome_iff_exists.mp this
          simp only [hv]
          cases a <;> exact ⟨_, rfl⟩
    · exact ⟨_, rfl⟩
  obtain ⟨r, hr⟩ := halias
  rw [goTypeForSchema]
  simp only [hr]
  split
  · rename_i hc
    cases hl : s.AllOf with
    | nil => rw [hl] at hc; simp at hc
    | cons m rest =>
      have := h1 m rest hl
      simpa using this
  · cases buildEnumDTO "" (some s) with
    | some e => rfl
    | none =>
      simp only
      split
      · rfl
      · cases hty : s.Typ with
        | nil => cases r <;> rfl
        | cons t rest =>
          simp only
          cases hi : s.Items with
          | none =>
            simp only [hi]
            repeat' split
            all_goals first
              | rfl
              | (cases r <;> simp_all)
          | some d =>
            cases d with
            | B b =>
              simp only [hi]
              repeat' split
              all_goals first
                | rfl
                | (cases r <;> simp_all)
            | A a =>
              have ha := h3 a hi
              obtain ⟨v, hv⟩ := Option.isSome_iff_exists.mp ha
              simp only [hi, hv]
              repeat' split
              all_goals first
                | rfl
                | (cases r <;> simp_all)

theorem RefEdge_registered {r : SchemaResolver} {a b : String}
    (h : RefEdge (some r) a b) : a ∈ mapKeys r.Schemas := by
  obtain ⟨s, q, hs, _, _⟩ := h
  cases hg : mapGet r.Schemas a with
  | none => simp [Lookup, hg, SchemaProxy.Schema] at hs
  | some v => exact (mapGet_isSome_iff _ _).mp ⟨v, hg⟩

theorem RefEdge_nil_resolver {a b : String} : ¬ RefEdge none a b := by
  rintro ⟨s, q, hs, _, _⟩
  simp [Lookup, SchemaProxy.Schema] at hs

/-- Without reference cycles, every chain of references ends: the names of
the resolver are finitely many. -/
theorem Acyclic_acc (resolver : Option SchemaResolver) (h : Acyclic resolver) :
    ∀ a, Acc (fun b a => RefEdge resolver a b) a := by
  cases resolver with
  | none =>
    intro a
    exact Acc.intro _ (fun b hb => absurd hb RefEdge_nil_resolver)
  | some r =>
    have hIrr : IsIrrefl {a // a ∈ mapKeys r.Schemas}
        (fun x y => Relation.TransGen (RefEdge (some r)) y.1 x.1) := ⟨fun x hx => h x.1 hx⟩
    have hTr : IsTrans {a // a ∈ mapKeys r.Schemas}
        (fun x y => Relation.TransGen (RefEdge (some r)) y.1 x.1) :=
      ⟨fun x y z hxy hyz => Relation.TransGen.trans hyz hxy⟩
    have wf : WellFounded (fun x y : {a // a ∈ mapKeys r.Schemas} =>
        Relation.TransGen (RefEdge (some r)) y.1 x.1) :=
      Finite.wellFounded_of_trans_of_irrefl _
    have hout : ∀ b, b ∉ mapKeys r.Schemas → Acc (fun b a => RefEdge (some r) a b) b :=
      fun b hb => Acc.intro _ (fun c hc => absurd (RefEdge_registered hc) hb)
    have key : ∀ x : {a // a ∈ mapKeys r.Schemas},
        Acc (fun b a => RefEdge (some r) a b) x.1 := by
      intro x
      induction x using wf.induction with
      | _ x ih =>
        refine Acc.intro _ (fun b hb => ?_)
        by_cases hbK : b ∈ mapKeys r.Schemas
        · exact ih ⟨b, hbK⟩ (Relation.TransGen.single hb)
        · exact hout b hbK
    intro a
    by_cases haK : a ∈ mapKeys r.Schemas
    · exact key ⟨a, haK⟩
    · exact hout a haK


theorem sizeOf_part_lt {s : Schema} {q : SchemaProxy} (h : Part s q) :
    sizeOf q < sizeOf (SchemaProxy.mk none (some s)) := by
  cases h with
  | items hi => exact sizeOf_items_lt s q hi
  | allOf hm => exact sizeOf_allOf_lt s q hm
  | additional ha => exact sizeOf_additional_lt s q ha
  | property hp hk =>
    have h1 := sizeOf_property_lt s _ _ q hp hk
    simp only [SchemaProxy.mk.sizeOf_spec, Option.some.sizeOf_spec]
    omega

theorem goTypeForSchema_leaf_isSome (resolver : Option SchemaResolver) (p : SchemaProxy)
    (h : p = .nil ∨ p = .mk none none) : goTypeReturns resolver p := by
  refine ⟨1, fun fuel hf allowUnion => ?_⟩
  obtain ⟨f, rfl⟩ : ∃ f, fuel = f + 1 := ⟨fuel - 1, by omega⟩
  rcases h with h | h
  · subst h
    rfl
  · subst h
    rfl

/-- The calls of goTypeForSchema on a proxy return when those on the
references that it refers to do. -/
theorem goTypeReturns_tree (resolver : Option SchemaResolver) :
    ∀ (k : Nat) (p : SchemaProxy), sizeOf p ≤ k →
      (∀ b, Refers p b → nameReturns resolver b) → goTypeReturns resolver p := by
  intro k
  induction k with
  | zero =>
    intro p hp
    cases p <;> simp at hp
  | succ k ih =>
    intro p hp hname
    cases p with
    | nil => exact goTypeForSchema_leaf_isSome resolver _ (Or.inl rfl)
    | mk ref sch =>
      cases ref with
      | some r => exact hname _ Refers.ref r sch rfl
      | none =>
        cases sch with
        | none => exact goTypeForSchema_leaf_isSome resolver _ (Or.inr rfl)
        | some s =>
          have hchild : ∀ q, Part s q → goTypeReturns resolver q := by
            intro q hq
            have hlt := sizeOf_part_lt hq
            exact ih q (by omega) (fun b hb => hname b (Refers.part hq hb))
          have h1 : ∃ n, ∀ fuel, n ≤ fuel → ∀ allowUnion m rest, s.AllOf = m :: rest →
              (goTypeForSchema fuel m resolver allowUnion).isSome = true := by
            cases hl : s.AllOf with
            | nil => exact ⟨0, fun _ _ _ m rest h => by simp at h⟩
            | cons m0 rest0 =>
              obtain ⟨n, hn⟩ := hchild m0 (Part.allOf (by rw [hl]; exact List.mem_cons_self _ _))
              refine ⟨n, fun fuel hf allowUnion m rest h => ?_⟩
              simp only [List.cons.injEq] at h
              rw [← h.1]
              exact hn fuel hf allowUnion
          have h2 : ∃ n, ∀ fuel, n ≤ fuel → ∀ a, s.AdditionalProperties = some (.A a) →
              (goTypeForSchema fuel a resolver true).isSome = true := by
            cases hl : s.AdditionalProperties with
            | none => exact ⟨0, fun _ _ a h => by simp at h⟩
            | some d =>
              cases d with
              | B b => exact ⟨0, fun _ _ a h => by simp at h⟩
              | A a0 =>
                obtain ⟨n, hn⟩ := hchild a0 (Part.additional hl)
                refine ⟨n, fun fuel hf a h => ?_⟩
                simp only [Option.some.injEq, DynamicValue.A.injEq] at h
                rw [← h]
                exact hn fuel hf true
          have h3 : ∃ n, ∀ fuel, n ≤ fuel → ∀ allowUnion a, s.Items = some (.A a) →
              (goTypeForSchema fuel a resolver allowUnion).isSome = true := by
            cases hl : s.Items with
            | none => exact ⟨0, fun _ _ _ a h => by simp at h⟩
            | some d =>
              cases d with
              | B b => exact ⟨0, fun _ _ _ a h => by simp at h⟩
              | A a0 =>
                obtain ⟨n, hn⟩ := hchild a0 (Part.items hl)
                refine ⟨n, fun fuel hf allowUnion a h => ?_⟩
                simp only [Option.some.injEq, DynamicValue.A.injEq] at h
                rw [← h]
                exact hn fuel hf allowUnion
          obtain ⟨n1, hn1⟩ := h1
          obtain ⟨n2, hn2⟩ := h2
          obtain ⟨n3, hn3⟩ := h3
          refine ⟨n1 + n2 + n3 + 1, fun fuel hf allowUnion => ?_⟩
          obtain ⟨f, rfl⟩ : ∃ f, fuel = f + 1 := ⟨fuel - 1, by omega⟩
          exact goTypeForSchema_inline_isSome f s resolver allowUnion
            (hn1 f (by omega) allowUnion) (hn2 f (by omega)) (hn3 f (by omega) allowUnion)

/-- Without reference cycles the calls of goTypeForSchema on the references
to any name return. -/
theorem nameReturns_all (resolver : Option SchemaResolver) (h : Acyclic resolver) :
    ∀ a, nameReturns resolver a := by
  intro a
  induction Acyclic_acc resolver h a with
  | intro a _ ih =>
    intro ref x hr
    have hitems : ∃ n, ∀ fuel, n ≤ fuel → ∀ allowUnion sch a2,
        (Lookup resolver (RefToSchemaName ref)).Schema = some sch → sch.Items = some (.A a2) →
        (goTypeForSchema fuel a2 resolver allowUnion).isSome = true := by
      rw [hr]
      cases hl : (Lookup resolver a).Schema with
      | none => exact ⟨0, fun _ _ _ sch a2 h => by simp at h⟩
      | some sch0 =>
        cases hi : sch0.Items with
        | none =>
          refine ⟨0, fun _ _ _ sch a2 h1 h2 => ?_⟩
          simp only [Option.some.injEq] at h1
          rw [← h1, hi] at h2
          simp at h2
        | some d =>
          cases d with
          | B b =>
            refine ⟨0, fun _ _ _ sch a2 h1 h2 => ?_⟩
            simp only [Option.some.injEq] at h1
            rw [← h1, hi] at h2
            simp at h2
          | A a0 =>
            obtain ⟨n, hn⟩ := goTypeReturns_tree resolver (sizeOf a0) a0 (Nat.le_refl _)
              (fun b hb => ih b ⟨sch0, a0, hl, Part.items hi, hb⟩)
            refine ⟨n, fun fuel hf allowUnion sch a2 h1 h2 => ?_⟩
            simp only [Option.some.injEq] at h1
            rw [← h1, hi] at h2
            simp only [Option.some.injEq, DynamicValue.A.injEq] at h2
            rw [← h2]
            exact hn fuel hf allowUnion
    obtain ⟨n, hn⟩ := hitems
    refine ⟨n + 1, fun fuel hf allowUnion => ?_⟩
    obtain ⟨f, rfl⟩ : ∃ f, fuel = f + 1 := ⟨fuel - 1, by omega⟩
    exact goTypeForSchema_ref_isSome f ref x resolver allowUnion (hn f (by omega) allowUnion)

/-- Without reference cycles every call of goTypeForSchema returns. -/
theorem goTypeReturns_all (resolver : Option SchemaResolver) (h : Acyclic resolver)
    (p : SchemaProxy) : goTypeReturns resolver p :=
  goTypeReturns_tree resolver (sizeOf p) p (Nat.le_refl _)
    (fun b _ => nameReturns_all resolver h b)

/-- A bound that serves every element of a list. -/
theorem bound_list {α : Type} (Q : α → Nat → Prop) :
    ∀ l : List α, (∀ x, x ∈ l → ∃ n, ∀ fuel, n ≤ fuel → Q x fuel) →
      ∃ n, ∀ fuel, n ≤ fuel → ∀ x, x ∈ l → Q x fuel := by
  intro l
  induction l with
  | nil => intro _; exact ⟨0, fun _ _ x hx => by simp at hx⟩
  | cons y ys ih =>
    intro h
    obtain ⟨n1, hn1⟩ := h y (List.mem_cons_self _ _)
    obtain ⟨n2, hn2⟩ := ih (fun x hx => h x (List.mem_cons_of_mem _ hx))
    refine ⟨n1 + n2, fun fuel hf x hx => ?_⟩
    rcases List.mem_cons.mp hx with hxy | hxs
    · rw [hxy]
      exact hn1 fuel (by omega)
    · exact hn2 fuel (by omega) x hxs

section Returns

variable {resolver : Option SchemaResolver}

theorem additionalPropertiesAlias_returns (hG : ∀ p, goTypeReturns resolver p)
    (s : Option Schema) :
    ∃ n, ∀ fuel, n ≤ fuel → (additionalPropertiesAlias fuel s resolver).isSome = true := by
  cases s with
  | none => exact ⟨0, fun _ _ => rfl⟩
  | some sch =>
    cases hap : sch.AdditionalProperties with
    | none =>
      refine ⟨0, fun fuel _ => ?_⟩
      unfold additionalPropertiesAlias
      rw [additionalPropertiesAliasWith_eq]
      split <;> simp [hap]
    | some d =>
      cases d with
      | B b =>
        refine ⟨0, fun fuel _ => ?_⟩
        unfold additionalPropertiesAlias
        rw [additionalPropertiesAliasWith_eq]
        split <;> simp [hap]
      | A a =>
        obtain ⟨n, hn⟩ := hG a
        refine ⟨n, fun fuel hf => ?_⟩
        obtain ⟨v, hv⟩ := Option.isSome_iff_exists.mp (hn fuel hf true)
        unfold additionalPropertiesAlias
        rw [additionalPropertiesAliasWith_eq]
        split <;> simp [hap, hv]

theorem isEmptySchema_returns (hG : ∀ p, goTypeReturns resolver p) (s : Option Schema) :
    ∃ n, ∀ fuel, n ≤ fuel → (isEmptySchema fuel s resolver).isSome = true := by
  cases s with
  | none => exact ⟨0, fun _ _ => rfl⟩
  | some sch =>
    obtain ⟨n, hn⟩ := hG (ParentProxy sch)
    refine ⟨n, fun fuel hf => ?_⟩
    obtain ⟨v, hv⟩ := Option.isSome_iff_exists.mp (hn fuel hf false)
    unfold isEmptySchema
    simp only
    split
    · simp [hv]
    · rfl

theorem annotatableShape_returns (hG : ∀ p, goTypeReturns resolver p) (schema : Schema) :
    ∃ n, ∀ fuel, n ≤ fuel → (annotatableShape fuel schema resolver).isSome = true := by
  obtain ⟨n, hn⟩ := additionalPropertiesAlias_returns hG (some schema)
  refine ⟨n, fun fuel hf => ?_⟩
  obtain ⟨v, hv⟩ := Option.isSome_iff_exists.mp (hn fuel hf)
  unfold annotatableShape
  split
  · rfl
  · rw [hv]
    cases v with
    | some a => rfl
    | none =>
      simp only
      repeat' split
      all_goals rfl

theorem isAnnotatableSchema_returns (hG : ∀ p, goTypeReturns resolver p) (p : SchemaProxy) :
    ∃ n, ∀ fuel, n ≤ fuel → (isAnnotatableSchema fuel p resolver).isSome = true := by
  cases p with
  | nil => exact ⟨0, fun _ _ => rfl⟩
  | mk ref sch =>
    cases ref with
    | some r =>
      cases resolver with
      | none => exact ⟨0, fun _ _ => rfl⟩
      | some res =>
        cases hl : (Lookup (some res) (RefToSchemaName r)).Schema with
        | none =>
          refine ⟨0, fun fuel _ => ?_⟩
          simp [isAnnotatableSchema, hl]
        | some schema =>
          obtain ⟨n, hn⟩ := annotatableShape_returns hG schema
          refine ⟨n, fun fuel hf => ?_⟩
          simp only [isAnnotatableSchema, hl]
          exact hn fuel hf
    | none =>
      cases sch with
      | none => exact ⟨0, fun _ _ => rfl⟩
      | some s =>
        obtain ⟨n, hn⟩ := annotatableShape_returns hG s
        refine ⟨n, fun fuel hf => ?_⟩
        simp only [isAnnotatableSchema]
        exact hn fuel hf

theorem isAnnotatableProperty_returns (hG : ∀ p, goTypeReturns resolver p) (p : SchemaProxy) :
    ∃ n, ∀ fuel, n ≤ fuel → (isAnnotatableProperty fuel p resolver).isSome = true := by
  cases p with
  | nil => exact ⟨0, fun _ _ => rfl⟩
  | mk ref sch =>
    cases ref with
    | some r =>
      obtain ⟨n, hn⟩ := isAnnotatableSchema_returns hG (.mk (some r) sch)
      exact ⟨n, fun fuel hf => by simpa [isAnnotatableProperty] using hn fuel hf⟩
    | none =>
      cases sch with
      | none => exact ⟨0, fun _ _ => rfl⟩
      | some s =>
        obtain ⟨n1, hn1⟩ := isAnnotatableSchema_returns hG (s.AllOf.headD .nil)
        obtain ⟨n2, hn2⟩ := isAnnotatableSchema_returns hG (.mk none (some s))
        refine ⟨n1 + n2, fun fuel hf => ?_⟩
        simp only [isAnnotatableProperty]
        split
        · exact hn1 fuel (by omega)
        · exact hn2 fuel (by omega)

theorem unionFields_returns (hG : ∀ p, goTypeReturns resolver p) :
    ∀ variants : List SchemaProxy, ∃ n, ∀ fuel, n ≤ fuel → ∀ idx seen,
      (unionFields fuel resolver variants idx seen).isSome = true := by
  intro variants
  induction variants with
  | nil => exact ⟨0, fun _ _ _ _ => rfl⟩
  | cons v rest ih =>
    obtain ⟨n1, hn1⟩ := hG v
    obtain ⟨n2, hn2⟩ := isAnnotatableProperty_returns hG v
    obtain ⟨n3, hn3⟩ := ih
    refine ⟨n1 + n2 + n3, fun fuel hf idx seen => ?_⟩
    obtain ⟨g, hg⟩ := Option.isSome_iff_exists.mp (hn1 fuel (by omega) true)
    obtain ⟨a, ha⟩ := Option.isSome_iff_exists.mp (hn2 fuel (by omega))
    obtain ⟨fs, hfs⟩ := Option.isSome_iff_exists.mp
      (hn3 fuel (by omega) (idx + 1) (variantGoName idx v seen).2)
    unfold unionFields
    simp only [hg, ha, hfs]
    rfl

theorem buildUnionDTO_returns (hG : ∀ p, goTypeReturns resolver p) (schema : Schema) :
    ∃ n, ∀ fuel, n ≤ fuel → ∀ name, (buildUnionDTO fuel name schema resolver).isSome = true := by
  obtain ⟨n, hn⟩ := unionFields_returns hG (unionVariants schema)
  refine ⟨n, fun fuel hf name => ?_⟩
  obtain ⟨fs, hfs⟩ := Option.isSome_iff_exists.mp (hn fuel hf 0 [])
  unfold buildUnionDTO
  simp only [hfs]
  rfl

end Returns

section MergeReturns

variable {resolveProp : String → String → SchemaProxy → Helpers → Option (String × Helpers)}
variable {fuel : Nat} {resolver : Option SchemaResolver} {required : List (String × Bool)}
variable {parentName : String}

theorem addPropertyList_isSome {optOverride : Bool} :
    ∀ (props : List (String × SchemaProxy)),
      (∀ k p, (k, p) ∈ props →
        (∀ parent name H, (resolveProp parent name p H).isSome = true) ∧
        (isAnnotatableProperty fuel p resolver).isSome = true) →
      ∀ st, (addPropertyList resolveProp fuel resolver required parentName optOverride st
        props).isSome = true := by
  intro props
  induction props with
  | nil => intro _ st; rfl
  | cons e rest ih =>
    intro h st
    obtain ⟨k, p⟩ := e
    obtain ⟨h1, h2⟩ := h k p (List.mem_cons_self _ _)
    obtain ⟨r, hr⟩ := Option.isSome_iff_exists.mp (h1 parentName k st.helpers)
    obtain ⟨a, ha⟩ := Option.isSome_iff_exists.mp h2
    obtain ⟨t, H1⟩ := r
    have hstep : ∃ st1, addProperty resolveProp fuel resolver required parentName optOverride st
        k p = some st1 := by
      unfold addProperty
      simp only [hr, ha]
      cases mapGet st.fields k <;> exact ⟨_, rfl⟩
    obtain ⟨st1, hst1⟩ := hstep
    unfold addPropertyList
    simp only [hst1]
    exact ih (fun k2 p2 hm => h k2 p2 (List.mem_cons_of_mem _ hm)) st1

/-- The closure addProperties returns on a schema pointer when the resolution
and the annotation test of each of its properties do, and the union
definition of a union without property map. -/
theorem addProperties_isSome {optOverride : Bool} (s : Option Schema)
    (hprops : ∀ sch props k p, s = some sch → sch.Properties = some props → (k, p) ∈ props →
      (∀ parent name H, (resolveProp parent name p H).isSome = true) ∧
      (isAnnotatableProperty fuel p resolver).isSome = true)
    (hunion : ∀ sch, s = some sch → (buildUnionDTO fuel "" sch resolver).isSome = true)
    (st : mergeState) :
    (addProperties resolveProp fuel resolver required parentName s optOverride st).isSome
      = true := by
  unfold addProperties
  cases s with
  | none => rfl
  | some sch =>
    cases hp : sch.Properties with
    | some props =>
      simp only [declaredProperties, hp]
      exact addPropertyList_isSome props (fun k p hm => hprops sch props k p rfl hp hm) st
    | none =>
      simp only [declaredProperties, hp]
      split
      · obtain ⟨d, hd⟩ := Option.isSome_iff_exists.mp (hunion sch rfl)
        simp only [hd]
        rfl
      · rfl

theorem addAllOf_isSome :
    ∀ (members : List SchemaProxy),
      (∀ m sch props k p, m ∈ members → m.Schema = some sch → sch.Properties = some props →
        (k, p) ∈ props →
        (∀ parent name H, (resolveProp parent name p H).isSome = true) ∧
        (isAnnotatableProperty fuel p resolver).isSome = true) →
      (∀ m sch, m ∈ members → m.Schema = some sch →
        (buildUnionDTO fuel "" sch resolver).isSome = true) →
      ∀ st, (addAllOf resolveProp fuel resolver required parentName st members).isSome
        = true := by
  intro members
  induction members with
  | nil => intro _ _ st; rfl
  | cons m rest ih =>
    intro hprops hunion st
    have h1 := @addProperties_isSome resolveProp fuel resolver required parentName false m.Schema
      (fun sch props k p hs hp hm => hprops m sch props k p (List.mem_cons_self _ _) hs hp hm)
      (fun sch hs => hunion m sch (List.mem_cons_self _ _) hs) st
    obtain ⟨st1, hst1⟩ := Option.isSome_iff_exists.mp h1
    unfold addAllOf
    simp only [hst1]
    exact ih (fun m2 sch props k p hm => hprops m2 sch props k p (List.mem_cons_of_mem _ hm))
      (fun m2 sch hm => hunion m2 sch (List.mem_cons_of_mem _ hm)) st1

/-- The body of buildObjectDTO returns when the tests on the schema do, the
resolution and the annotation test of every property of the schema and of its
allOf members, and the union definitions of the schema and of the members. -/
theorem buildObjectDTOWith_isSome (name : String) (schema : Schema) (helpers : Helpers)
    (halias : (additionalPropertiesAlias fuel (some schema) resolver).isSome = true)
    (hempty : (isEmptySchema fuel (some schema) resolver).isSome = true)
    (hown : ∀ props k p, schema.Properties = some props → (k, p) ∈ props →
      (∀ parent name H, (resolveProp parent name p H).isSome = true) ∧
      (isAnnotatableProperty fuel p resolver).isSome = true)
    (hmem : ∀ m sch props k p, m ∈ schema.AllOf → m.Schema = some sch →
      sch.Properties = some props → (k, p) ∈ props →
      (∀ parent name H, (resolveProp parent name p H).isSome = true) ∧
      (isAnnotatableProperty fuel p resolver).isSome = true)
    (hunion : (buildUnionDTO fuel "" schema resolver).isSome = true)
    (hunionMem : ∀ m sch, m ∈ schema.AllOf → m.Schema = some sch →
      (buildUnionDTO fuel "" sch resolver).isSome = true) :
    (buildObjectDTOWith resolveProp fuel name schema resolver helpers).isSome = true := by
  unfold buildObjectDTOWith
  cases buildEnumDTO name (some schema) with
  | some e => rfl
  | none =>
    obtain ⟨a, ha⟩ := Option.isSome_iff_exists.mp halias
    obtain ⟨e, he⟩ := Option.isSome_iff_exists.mp hempty
    simp only [ha]
    cases a with
    | some al => rfl
    | none =>
      simp only [he]
      cases e with
      | some typ =>
        simp only
        split <;> rfl
      | none =>
        simp only
        unfold mergeFields
        have h1 := @addProperties_isSome resolveProp fuel resolver
          (mergeAllOfRequired (requiredSet schema.Required) schema.AllOf) name false (some schema)
          (fun sch props k p hs hp hm => by
            simp only [Option.some.injEq] at hs
            subst hs
            exact hown props k p hp hm)
          (fun sch hs => by
            simp only [Option.some.injEq] at hs
            subst hs
            exact hunion) { fields := [], order := [], helpers := helpers }
        obtain ⟨st1, hst1⟩ := Option.isSome_iff_exists.mp h1
        have h2 := @addAllOf_isSome resolveProp fuel resolver
          (mergeAllOfRequired (requiredSet schema.Required) schema.AllOf) name schema.AllOf hmem
          hunionMem st1
        obtain ⟨st2, hst2⟩ := Option.isSome_iff_exists.mp h2
        simp only [hst1, hst2]
        rfl

end MergeReturns

/-- The body of resolvePropertyType returns when goTypeForSchema does, the
union definition of the schema, and the nested call of buildObjectDTO. -/
theorem resolvePropertyTypeWith_isSome
    (build : String → Schema → Helpers → Option (dtoDef × Helpers))
    (fuel : Nat) (resolver : Option SchemaResolver) (parentName propName : String)
    (p : SchemaProxy) (helpers : Helpers)
    (hgo : (goTypeForSchema fuel p resolver true).isSome = true)
    (hhead : ∀ sch, p = .mk none (some sch) →
      (goTypeForSchema fuel (sch.AllOf.headD .nil) resolver true).isSome = true)
    (hunion : ∀ sch name, p = .mk none (some sch) →
      (buildUnionDTO fuel name sch resolver).isSome = true)
    (hbuild : ∀ sch name H, p = .mk none (some sch) → (build name sch H).isSome = true) :
    (resolvePropertyTypeWith build fuel resolver parentName propName p helpers).isSome
      = true := by
  unfold resolvePropertyTypeWith
  cases p with
  | nil => rfl
  | mk ref sch =>
    cases ref with
    | some r =>
      obtain ⟨v, hv⟩ := Option.isSome_iff_exists.mp hgo
      simp [hv]
    | none =>
      cases sch with
      | none => rfl
      | some schema =>
        simp only
        split
        · simpa using hhead schema rfl
        · cases buildEnumDTO (helperTypeName parentName propName) (some schema) with
          | some e =>
            simp only
            cases mapGet helpers e.TypeName <;> rfl
          | none =>
            simp only
            split
            · cases mapGet helpers (helperTypeName parentName propName) with
              | some d => rfl
              | none =>
                simp only
                split
                · obtain ⟨d, hd⟩ := Option.isSome_iff_exists.mp
                    (hunion schema (helperTypeName parentName propName) rfl)
                  simp only [hd]
                  rfl
                · obtain ⟨d, hd⟩ := Option.isSome_iff_exists.mp
                    (hbuild schema (helperTypeName parentName propName) helpers rfl)
                  obtain ⟨d1, H1⟩ := d
                  simp only [hd]
                  rfl
            · obtain ⟨v, hv⟩ := Option.isSome_iff_exists.mp hgo
              simp [hv]

theorem sizeOf_member_lt (s : Schema) (m : SchemaProxy) (h : m ∈ s.AllOf) :
    sizeOf m < sizeOf s := by
  cases s
  simp only at h
  have hm := List.sizeOf_lt_of_mem h
  simp only [SchemaOf.mk.sizeOf_spec]
  omega

theorem sizeOf_schema_lt (p : SchemaProxy) (s : Schema) (h : p.Schema = some s) :
    sizeOf s < sizeOf p := by
  cases p with
  | nil => simp [SchemaProxy.Schema] at h
  | mk ref sch =>
    simp only [SchemaProxy.Schema] at h
    subst h
    simp only [SchemaProxy.mk.sizeOf_spec, Option.some.sizeOf_spec]
    omega

section Structural

variable {resolver : Option SchemaResolver}

theorem properties_return (hG : ∀ p, goTypeReturns resolver p)
    (props : List (String × SchemaProxy))
    (h : ∀ k p, (k, p) ∈ props → resolveReturns resolver p) :
    ∃ n, ∀ fuel, n ≤ fuel → ∀ k p, (k, p) ∈ props →
      (∀ parent name H, (resolvePropertyType fuel parent name p resolver H).isSome = true) ∧
      (isAnnotatableProperty fuel p resolver).isSome = true := by
  have hb := bound_list
    (fun (e : String × SchemaProxy) fuel =>
      (∀ parent name H, (resolvePropertyType fuel parent name e.2 resolver H).isSome = true) ∧
      (isAnnotatableProperty fuel e.2 resolver).isSome = true) props
    (fun e he => by
      obtain ⟨k, p⟩ := e
      obtain ⟨n1, hn1⟩ := h k p he
      obtain ⟨n2, hn2⟩ := isAnnotatableProperty_returns hG p
      exact ⟨n1 + n2, fun fuel hf =>
        ⟨fun parent name H => hn1 fuel (by omega) parent name H, hn2 fuel (by omega)⟩⟩)
  obtain ⟨n, hn⟩ := hb
  exact ⟨n, fun fuel hf k p hm => hn fuel hf (k, p) hm⟩

theorem schema_properties_return (hG : ∀ p, goTypeReturns resolver p) (s : Option Schema)
    (h : ∀ sch props k p, s = some sch → sch.Properties = some props → (k, p) ∈ props →
      resolveReturns resolver p) :
    ∃ n, ∀ fuel, n ≤ fuel →
      (∀ sch props k p, s = some sch → sch.Properties = some props → (k, p) ∈ props →
        (∀ parent name H, (resolvePropertyType fuel parent name p resolver H).isSome = true) ∧
        (isAnnotatableProperty fuel p resolver).isSome = true) ∧
      (∀ sch, s = some sch → (buildUnionDTO fuel "" sch resolver).isSome = true) := by
  cases s with
  | none =>
    exact ⟨0, fun _ _ => ⟨fun sch _ _ _ hs => by simp at hs, fun sch hs => by simp at hs⟩⟩
  | some sch0 =>
    obtain ⟨n1, hn1⟩ := buildUnionDTO_returns hG sch0
    cases hp : sch0.Properties with
    | none =>
      refine ⟨n1, fun fuel hf => ⟨fun sch props k p hs hprops _ => ?_, fun sch hs => ?_⟩⟩
      · simp only [Option.some.injEq] at hs
        rw [← hs, hp] at hprops
        simp at hprops
      · simp only [Option.some.injEq] at hs
        rw [← hs]
        exact hn1 fuel hf ""
    | some props0 =>
      obtain ⟨n2, hn2⟩ := properties_return hG props0
        (fun k p hm => h sch0 props0 k p rfl hp hm)
      refine ⟨n1 + n2, fun fuel hf => ⟨fun sch props k p hs hprops hm => ?_, fun sch hs => ?_⟩⟩
      · simp only [Option.some.injEq] at hs
        rw [← hs, hp] at hprops
        simp only [Option.some.injEq] at hprops
        rw [← hprops] at hm
        exact hn2 fuel (by omega) k p hm
      · simp only [Option.some.injEq] at hs
        rw [← hs]
        exact hn1 fuel (by omega) ""

/-- Every call of resolvePropertyType and of buildObjectDTO returns when every
call of goTypeForSchema does: their own recursion descends into the schema. -/
theorem resolve_build_return (hG : ∀ p, goTypeReturns resolver p) :
    ∀ k : Nat, (∀ p : SchemaProxy, sizeOf p ≤ k → resolveReturns resolver p) ∧
      (∀ s : Schema, sizeOf s ≤ k → buildReturns resolver s) := by
  intro k
  induction k with
  | zero =>
    constructor
    · intro p hp
      cases p <;> simp at hp
    · intro s hs
      cases s
      simp only [SchemaOf.mk.sizeOf_spec] at hs
      omega
  | succ k ih =>
    obtain ⟨ihR, ihB⟩ := ih
    constructor
    · intro p hp
      obtain ⟨n1, hn1⟩ := hG p
      have hhead : ∃ n, ∀ fuel, n ≤ fuel → ∀ sch, p = .mk none (some sch) →
          (goTypeForSchema fuel (sch.AllOf.headD .nil) resolver true).isSome = true ∧
          (∀ name, (buildUnionDTO fuel name sch resolver).isSome = true) ∧
          (∀ name H, (buildObjectDTO fuel name sch resolver H).isSome = true) := by
        cases p with
        | nil => exact ⟨0, fun _ _ sch h => by simp at h⟩
        | mk ref sch0 =>
          cases ref with
          | some r => exact ⟨0, fun _ _ sch h => by simp at h⟩
          | none =>
            cases sch0 with
            | none => exact ⟨0, fun _ _ sch h => by simp at h⟩
            | some s0 =>
              obtain ⟨m1, hm1⟩ := hG (s0.AllOf.headD .nil)
              obtain ⟨m2, hm2⟩ := buildUnionDTO_returns hG s0
              have hlt : sizeOf s0 ≤ k := by
                simp only [SchemaProxy.mk.sizeOf_spec, Option.some.sizeOf_spec] at hp
                omega
              obtain ⟨m3, hm3⟩ := ihB s0 hlt
              refine ⟨m1 + m2 + m3, fun fuel hf sch h => ?_⟩
              simp only [SchemaProxy.mk.injEq, Option.some.injEq, true_and] at h
              rw [← h]
              exact ⟨hm1 fuel (by omega) true, fun name => hm2 fuel (by omega) name,
                fun name H => hm3 fuel (by omega) name H⟩
      obtain ⟨n2, hn2⟩ := hhead
      refine ⟨n1 + n2 + 1, fun fuel hf parentName propName helpers => ?_⟩
      obtain ⟨f, rfl⟩ : ∃ f, fuel = f + 1 := ⟨fuel - 1, by omega⟩
      unfold resolvePropertyType
      exact resolvePropertyTypeWith_isSome _ (f + 1) resolver parentName propName p helpers
        (hn1 (f + 1) (by omega) true)
        (fun sch h => (hn2 (f + 1) (by omega) sch h).1)
        (fun sch name h => (hn2 (f + 1) (by omega) sch h).2.1 name)
        (fun sch name H h => (hn2 f (by omega) sch h).2.2 name H)
    · intro s hs
      obtain ⟨n1, hn1⟩ := additionalPropertiesAlias_returns hG (some s)
      obtain ⟨n2, hn2⟩ := isEmptySchema_returns hG (some s)
      obtain ⟨n3, hn3⟩ := schema_properties_return hG (some s)
        (fun sch props key p h1 h2 h3 => by
          simp only [Option.some.injEq] at h1
          subst h1
          have := sizeOf_property_lt s props key p h2 h3
          exact ihR p (by omega))
      obtain ⟨n4, hn4⟩ := bound_list
        (fun (m : SchemaProxy) fuel =>
          (∀ sch props key p, m.Schema = some sch → sch.Properties = some props →
            (key, p) ∈ props →
            (∀ parent name H, (resolvePropertyType fuel parent name p resolver H).isSome = true) ∧
            (isAnnotatableProperty fuel p resolver).isSome = true) ∧
          (∀ sch, m.Schema = some sch → (buildUnionDTO fuel "" sch resolver).isSome = true))
        s.AllOf
        (fun m hm => schema_properties_return hG m.Schema
          (fun sch props key p h1 h2 h3 => by
            have e1 := sizeOf_member_lt s m hm
            have e2 := sizeOf_schema_lt m sch h1
            have e3 := sizeOf_property_lt sch props key p h2 h3
            exact ihR p (by omega)))
      refine ⟨n1 + n2 + n3 + n4 + 1, fun fuel hf name helpers => ?_⟩
      obtain ⟨f, rfl⟩ : ∃ f, fuel = f + 1 := ⟨fuel - 1, by omega⟩
      unfold buildObjectDTO
      exact buildObjectDTOWith_isSome name s helpers (hn1 (f + 1) (by omega))
        (hn2 (f + 1) (by omega))
        (fun props key p h2 h3 => (hn3 (f + 1) (by omega)).1 s props key p rfl h2 h3)
        (fun m sch props key p hm h1 h2 h3 =>
          (hn4 (f + 1) (by omega) m hm).1 sch props key p h1 h2 h3)
        ((hn3 (f + 1) (by omega)).2 s rfl)
        (fun m sch hm h1 => (hn4 (f + 1) (by omega) m hm).2 sch h1)

end Structural

/-- A schema set whose references descend along a rank has no cycle. -/
theorem Acyclic_of_rank (resolver : Option SchemaResolver) (rank : String → Nat)
    (h : ∀ a b, RefEdge resolver a b → rank b < rank a) : Acyclic resolver := by
  have key : ∀ a b, Relation.TransGen (RefEdge resolver) a b → rank b < rank a := by
    intro a b hab
    induction hab with
    | single h1 => exact h _ _ h1
    | tail _ h2 ih => exact Nat.lt_trans (h _ _ h2) ih
  intro a ha
  exact Nat.lt_irrefl _ (key a a ha)

theorem listResolver_edges (a b : String) (h : RefEdge (some listResolver) a b) :
    a = "Items" ∧ b = "Item" := by
  obtain ⟨s, q, hs, hpart, href⟩ := h
  by_cases h1 : a = "Items"
  · subst h1
    have hs2 : s = itemList := by
      have : (Lookup (some listResolver) "Items").Schema = some itemList := rfl
      rw [this] at hs
      exact (Option.some.inj hs).symm
    subst hs2
    have hq : q = itemRef := by
      cases hpart with
      | items hi =>
        have e : itemList.Items = some (.A itemRef) := rfl
        rw [e] at hi
        simp only [Option.some.injEq, DynamicValue.A.injEq] at hi
        exact hi.symm
      | allOf hm =>
        have e : itemList.AllOf = [] := rfl
        rw [e] at hm
        simp at hm
      | additional ha =>
        have e : itemList.AdditionalProperties = none := rfl
        rw [e] at ha
        simp at ha
      | property hp hk =>
        have e : itemList.Properties = some [("first", itemRef)] := rfl
        rw [e] at hp
        simp only [Option.some.injEq] at hp
        rw [← hp] at hk
        simp only [List.mem_singleton, Prod.mk.injEq] at hk
        exact hk.2
    subst hq
    refine ⟨rfl, ?_⟩
    cases href with
    | ref => decide
  · exfalso
    by_cases h2 : a = "Item"
    · subst h2
      have e : (Lookup (some listResolver) "Item").Schema = some { Typ := ["string"] } := rfl
      rw [e] at hs
      have hs2 := (Option.some.inj hs).symm
      subst hs2
      cases hpart with
      | items hi => simp at hi
      | allOf hm => simp at hm
      | additional ha => simp at ha
      | property hp hk => simp at hp
    · have e : (Lookup (some listResolver) a).Schema = none := by
        have h3 : ¬ "Items" = a := fun e => h1 e.symm
        have h4 : ¬ "Item" = a := fun e => h2 e.symm
        simp [Lookup, listResolver, mapGet, h3, h4, SchemaProxy.Schema]
      rw [e] at hs
      simp at hs

theorem listResolver_acyclic : Acyclic (some listResolver) := by
  apply Acyclic_of_rank (some listResolver) (fun a => if a = "Items" then 1 else 0)
  intro a b h
  obtain ⟨ha, hb⟩ := listResolver_edges a b h
  subst ha
  subst hb
  decide

/-- C30. On a schema set without reference cycles (no registered name reaches
itself in one or more steps, a step leading from a registered schema to a
name that one of its parts refers to through items, allOf, additional
properties or properties), goTypeForSchema, resolvePropertyType and
buildObjectDTO terminate: each call returns a result for every bound on the
recursion from some bound on, whatever the proxy or schema, the names, the
flag and the helper cache. -/
theorem C30_terminates_without_cycles (resolver : Option SchemaResolver)
    (hacyclic : Acyclic resolver) :
    (∀ p : SchemaProxy, ∃ n, ∀ fuel, n ≤ fuel → ∀ allowUnion,
      (goTypeForSchema fuel p resolver allowUnion).isSome = true) ∧
    (∀ p : SchemaProxy, ∃ n, ∀ fuel, n ≤ fuel → ∀ parentName propName helpers,
      (resolvePropertyType fuel parentName propName p resolver helpers).isSome = true) ∧
    (∀ schema : Schema, ∃ n, ∀ fuel, n ≤ fuel → ∀ name helpers,
      (buildObjectDTO fuel name schema resolver helpers).isSome = true) := by
  have hG := goTypeReturns_all resolver hacyclic
  exact ⟨hG, fun p => (resolve_build_return hG (sizeOf p)).1 p (Nat.le_refl _),
    fun s => (resolve_build_return hG (sizeOf s)).2 s (Nat.le_refl _)⟩

theorem C30_terminates_without_cycles_witness :
    Acyclic (some listResolver) ∧
    (∃ n, ∀ fuel, n ≤ fuel → ∀ allowUnion,
      (goTypeForSchema fuel (.mk (some "Items") none) (some listResolver) allowUnion).isSome
        = true) ∧
    goTypeForSchema 2 (.mk (some "Items") none) (some listResolver) true = some "[]Item" ∧
    (∃ n, ∀ fuel, n ≤ fuel → ∀ name helpers,
      (buildObjectDTO fuel name itemList (some listResolver) helpers).isSome = true) :=
  ⟨listResolver_acyclic,
   (C30_terminates_without_cycles (some listResolver) listResolver_acyclic).1
      (.mk (some "Items") none),
   by decide,
   (C30_terminates_without_cycles (some listResolver) listResolver_acyclic).2.2 itemList⟩

/-- On the reference cycle of `loopResolver` every bound on the recursion is
exhausted: the hypothesis of the termination result cannot be dropped. -/
theorem goTypeForSchema_cycle_exhausts :
    ∀ (fuel : Nat) (allowUnion : Bool),
      goTypeForSchema fuel loopRef (some loopResolver) allowUnion = none := by
  intro fuel
  induction fuel with
  | zero => intro allowUnion; rfl
  | succ f ih =>
    intro allowUnion
    have hn : RefToSchemaName "Loop" = "Loop" := by decide
    have hl : (Lookup (some loopResolver) "Loop").Schema = some loopList := rfl
    have he : buildEnumDTO "Loop" (some loopList) = none := by decide
    have hu : isUnionSchema (some loopList) = false := by decide
    have hs : isSimpleAliasSchema (some loopList) = false := by decide
    have ht : loopList.Typ = ["array"] := rfl
    have hi : loopList.Items = some (.A loopRef) := rfl
    show goTypeForSchema (f + 1) (.mk (some "Loop") none) (some loopResolver) allowUnion = none
    unfold goTypeForSchema
    simp only [hn, hl, he, hu, hs, ht, hi, ih]
    simp

/-! ## C35, C40: the canonical names -/

theorem toExportedLoop_skip (upperNext wrote : Bool) (tail : List Char) :
    ∀ pre : List Char, (∀ c, c ∈ pre → isAlnumAscii c = false) →
      toExportedLoop (pre ++ tail) upperNext wrote =
        if pre = [] then toExportedLoop tail upperNext wrote
        else toExportedLoop tail true wrote := by
  intro pre
  induction pre generalizing upperNext with
  | nil => intro _; simp
  | cons c pre ih =>
    intro h
    have hc : isAlnumAscii c = false := h c (List.mem_cons_self _ _)
    have ih2 := ih true (fun x hx => h x (List.mem_cons_of_mem _ hx))
    show toExportedLoop (c :: (pre ++ tail)) upperNext wrote = _
    rw [toExportedLoop]
    simp only [hc, Bool.false_eq_true, if_false, ih2]
    by_cases hp : pre = []
    · simp [hp]
    · simp [hp]

/-- A name whose first letter or digit is a digit receives the prefix `Field`. -/
theorem toExportedName_digit_first (name : String) (pre : List Char) (d : Char)
    (rest : List Char) (hname : name.data = pre ++ d :: rest)
    (hpre : ∀ c, c ∈ pre → isAlnumAscii c = false) (hd : isDigitAscii d = true) :
    (toExportedName name).data = "Field".data ++ d :: toExportedLoop rest false true := by
  have hal : isAlnumAscii d = true := by simp [isAlnumAscii, hd]
  have hlow : isLowerAscii d = false := by
    simp only [isDigitAscii, isLowerAscii, Bool.and_eq_true, decide_eq_true_eq] at hd ⊢
    simp only [Bool.and_eq_false_iff, decide_eq_false_iff_not]
    omega
  have hstep : ∀ u, toExportedLoop (d :: rest) u false =
      "Field".data ++ d :: toExportedLoop rest false true := by
    intro u
    rw [toExportedLoop]
    simp [hal, hlow, hd]
  rw [toExportedName_data, hname, toExportedLoop_skip true false (d :: rest) pre hpre]
  split <;> exact hstep _

theorem startsUpper_iff (l : List Char) :
    startsUpper l = true ↔ l = [] ∨ ∃ c rest, l = c :: rest ∧ isUpperAscii c = true := by
  cases l with
  | nil => simp [startsUpper]
  | cons c rest => simp [startsUpper]

theorem startsUpper_toExportedName (name : String) :
    startsUpper (toExportedName name).data = true := by
  rw [toExportedName_data]
  exact startsUpper_toExportedLoop _

/-- C35. For every string, toExportedName returns a string made only of ASCII
letters and digits that is empty or begins with an upper-case ASCII letter;
a name whose first letter or digit is a digit gives `Field` followed by that
digit and the rest of the canonical name. -/
theorem C35_toExportedName_is_identifier (name : String) :
    (∀ c, c ∈ (toExportedName name).data → isAlnumAscii c = true) ∧
    (toExportedName name = "" ∨
      ∃ c rest, (toExportedName name).data = c :: rest ∧ isUpperAscii c = true) ∧
    (∀ pre d rest, name.data = pre ++ d :: rest → (∀ c, c ∈ pre → isAlnumAscii c = false) →
      isDigitAscii d = true →
      (toExportedName name).data = "Field".data ++ d :: toExportedLoop rest false true) := by
  refine ⟨toExportedName_alnum name, ?_, ?_⟩
  · rcases (startsUpper_iff _).mp (startsUpper_toExportedName name) with h | h
    · exact Or.inl ((string_eq_empty_iff _).mpr h)
    · exact Or.inr h
  · intro pre d rest h1 h2 h3
    exact toExportedName_digit_first name pre d rest h1 h2 h3

theorem C35_toExportedName_is_identifier_witness :
    toExportedName "my-field_name" = "MyFieldName" ∧
    (toExportedName "-2nd place").data = "Field".data ++ '2' :: "ndPlace".data ∧
    toExportedName "--" = "" :=
  ⟨by decide,
   ((C35_toExportedName_is_identifier "-2nd place").2.2 ['-'] '2' "nd place".data rfl
      (by decide) (by decide)).trans (by decide),
   by decide⟩

/-- C40. The function toExportedName is idempotent, and the helper name of a
parent and a property, the concatenation of their canonical names, is left
as it is by toExportedName. -/
theorem C40_toExportedName_idempotent (s parentName propName : String) :
    toExportedName (toExportedName s) = toExportedName s ∧
    toExportedName (helperTypeName parentName propName) = helperTypeName parentName propName :=
  ⟨toExportedName_fixed _ (toExportedName_alnum s) (startsUpper_toExportedName s),
   toExportedName_helperTypeName parentName propName⟩

theorem C40_toExportedName_idempotent_witness :
    toExportedName (toExportedName "2nd-place") = toExportedName "2nd-place" ∧
    toExportedName (helperTypeName "foo" "bar-baz") = helperTypeName "foo" "bar-baz" :=
  C40_toExportedName_idempotent "2nd-place" "foo" "bar-baz"

/-! ## C33: the keys of the helper cache -/

theorem KeysOK_nil : KeysOK ([] : Helpers) :=
  ⟨fun k d h => by simp [mapGet] at h, List.nodup_nil⟩

theorem KeysOK_entries {h : Helpers} (hk : KeysOK h) (e : String × dtoDef) (he : e ∈ h) :
    e.2.TypeName = e.1 := by
  obtain ⟨k, d⟩ := e
  exact hk.1 k d (mapGet_of_mem_nodup h hk.2 (k, d) he)

/-- C33. Starting from the empty helper cache, every entry of the cache that
a call of buildObjectDTO or of resolvePropertyType leaves is stored under the
type name of its definition, and no key occurs twice. -/
theorem C33_cache_keys_are_type_names (fuel : Nat) (name parentName propName : String)
    (schema : Schema) (schemaProxy : SchemaProxy) (resolver : Option SchemaResolver) :
    (∀ dto helpers1, buildObjectDTO fuel name schema resolver [] = some (dto, helpers1) →
      (∀ e, e ∈ helpers1 → e.2.TypeName = e.1) ∧ (mapKeys helpers1).Nodup) ∧
    (∀ t helpers1,
      resolvePropertyType fuel parentName propName schemaProxy resolver [] = some (t, helpers1) →
      (∀ e, e ∈ helpers1 → e.2.TypeName = e.1) ∧ (mapKeys helpers1).Nodup) := by
  constructor
  · intro dto helpers1 h
    have hk := (buildObjectDTO_KeysOK fuel name schema resolver [] dto helpers1 h).1 KeysOK_nil
    exact ⟨KeysOK_entries hk, hk.2⟩
  · intro t helpers1 h
    cases fuel with
    | zero => simp [resolvePropertyType] at h
    | succ n =>
      unfold resolvePropertyType at h
      have hk := resolvePropertyTypeWith_KeysOK
        (fun n2 s h2 d h3 hb => buildObjectDTO_KeysOK n n2 s resolver h2 d h3 hb) h KeysOK_nil
      exact ⟨KeysOK_entries hk, hk.2⟩

theorem C33_cache_keys_are_type_names_witness :
    (resolvePropertyType 1 "foo" "bar" barUnion none []).map
        (fun r => r.2.map (fun e => (e.1, e.2.TypeName))) = some [("FooBar", "FooBar")] ∧
    (∀ e, e ∈ [("FooBar", fooBarHelper)] → e.2.TypeName = e.1) :=
  ⟨by decide,
   ((C33_cache_keys_are_type_names 1 "foo" "foo" "bar" { } barUnion none).2 "FooBar"
      [("FooBar", fooBarHelper)] (by decide)).1⟩

/-! ## C36: the two canonicalizers -/

theorem toExportedLoop_wrote :
    ∀ (l : List Char) (upperNext : Bool), toExportedLoop l upperNext true = pascalLoop l upperNext := by
  intro l
  induction l with
  | nil => intro u; rfl
  | cons c rest ih =>
    intro u
    rw [toExportedLoop, pascalLoop]
    simp [ih]

theorem isDigitAscii_written (c : Char) (u : Bool) (hd : isDigitAscii c = false) :
    isDigitAscii (if (u && isLowerAscii c) = true then upperAscii c else c) = false := by
  by_cases h : (u && isLowerAscii c) = true
  · simp only [h, if_true]
    simp only [Bool.and_eq_true] at h
    have hu := isUpperAscii_upperAscii c h.2
    exact (isUpperAscii_not_lower_digit _ hu).2.1
  · simp only [h, Bool.false_eq_true, if_false]
    exact hd

/-- Without a leading digit the loop of toExportedName writes what the ASCII
loop of PascalCase writes. -/
theorem toExportedLoop_eq_pascalLoop :
    ∀ (l : List Char) (upperNext : Bool),
      (∀ d, l.find? isAlnumAscii = some d → isDigitAscii d = false) →
      toExportedLoop l upperNext false = pascalLoop l upperNext := by
  intro l
  induction l with
  | nil => intro u _; rfl
  | cons c rest ih =>
    intro u h
    rw [toExportedLoop, pascalLoop]
    by_cases hc : isAlnumAscii c = true
    · have hd : isDigitAscii c = false := h c (by simp [List.find?, hc])
      have hw := isDigitAscii_written c u hd
      simp only [hc, if_true]
      simp only [hw, Bool.and_false, Bool.false_eq_true, if_false, List.nil_append,
        toExportedLoop_wrote]
    · have hc2 : isAlnumAscii c = false := by simpa using hc
      simp only [hc2, Bool.false_eq_true, if_false]
      exact ih true (fun d hd => h d (by simpa [List.find?, hc2] using hd))

/-- C36. For every ASCII string whose first ASCII letter or digit is not a
digit (or that has none), PascalCase and toExportedName return the same
string, whatever the tables of the unicode package. -/
theorem C36_PascalCase_agrees_with_toExportedName (isLetterOrDigit : Char → Bool)
    (toUpper : Char → Char) (s : String) (hascii : isAsciiString s = true)
    (hfirst : ∀ d, firstAlnum s = some d → isDigitAscii d = false) :
    PascalCase isLetterOrDigit toUpper s = toExportedName s := by
  unfold PascalCase toExportedName
  by_cases h0 : s = ""
  · simp [h0]
  · simp only [h0, if_false, hascii, if_true]
    rw [toExportedLoop_eq_pascalLoop s.data true hfirst]

theorem C36_PascalCase_agrees_with_toExportedName_witness :
    PascalCase (fun _ => false) id "api-package_v2" = toExportedName "api-package_v2" ∧
    toExportedName "api-package_v2" = "ApiPackageV2" ∧
    PascalCase (fun _ => false) id "2fa" = "2fa" ∧ toExportedName "2fa" = "Field2fa" :=
  ⟨C36_PascalCase_agrees_with_toExportedName (fun _ => false) id "api-package_v2" (by decide)
      (by decide),
   by decide, by decide, by decide⟩

/-! ## C37: the identifier of a configuration field -/

/-- C37. The title `2nd place` gives the field base `2ndPlace`, which begins
with a digit: toGoIdentifier puts no letter before a part that begins with a
digit, where toExportedName writes `Field`. -/
theorem C37_digit_first_identifier :
    toGoIdentifier "2nd place" = "2ndPlace" ∧
    (toGoIdentifier "2nd place").data.head? = some '2' ∧
    isUpperAscii '2' = false ∧
    toExportedName "2nd place" = "Field2ndPlace" ∧
    toGoIdentifier "provider API v1" = "ProviderApiV1" := by
  decide

/-! ## C38, C39: the store of the mock server -/

/-- C38. The triples (`a-b`, `c`, `d`) and (`a`, `b-c`, `d`) differ in tenant
and workspace and have the same store key `a-b-c-d`: the instance created for
the first is what GetInstance returns for the second, and DeleteInstance for
the second removes it. -/
theorem C38_store_keys_collide :
    instanceKey "a-b" "c" "d" = instanceKey "a" "b-c" "d" ∧
    ("a-b", "c", "d") ≠ ("a", "b-c", "d") ∧
    ((GetInstance (CreateOrUpdateInstance sampleConstants 1 1 1 [] "a-b" "c" "d" emptyBody).1
        "a" "b-c" "d").bind (fun i => i.Metadata)).map (fun m => (m.Tenant, m.Workspace)) =
      some ("a-b", "c") ∧
    DeleteInstance (CreateOrUpdateInstance sampleConstants 1 1 1 [] "a-b" "c" "d" emptyBody).1
        "a" "b-c" "d" = ([], true) ∧
    resourcePath "a-b" "c" "d" ≠ resourcePath "a" "b-c" "d" := by
  decide

theorem setInstanceState_Metadata {B : Type} (powerOff : String) (now : Nat)
    (inst : Instance B) (state : String) :
    (setInstanceState powerOff now inst state).Metadata = inst.Metadata := by
  unfold setInstanceState
  simp only
  split <;> rfl

theorem mapKeys_mapSet_of_mem {V : Type} (m : List (String × V)) (k : String) (v w : V)
    (h : mapGet m k = some w) : mapKeys (mapSet m k v) = mapKeys m := by
  induction m with
  | nil => simp [mapGet] at h
  | cons e rest ih =>
    obtain ⟨k1, v1⟩ := e
    by_cases hk : k1 = k
    · simp [mapSet, mapKeys, hk]
    · have h2 : mapGet rest k = some w := by simpa [mapGet, hk] using h
      have ih2 := ih h2
      simp only [mapKeys] at ih2
      simp [mapSet, mapKeys, hk, ih2]

theorem wrapInt64_succ_ne (v : Int) (hlo : -2 ^ 63 ≤ v) (hhi : v < 2 ^ 63) :
    (if wrapInt64 (v + 1) = 0 then 1 else wrapInt64 (v + 1)) ≠ v := by
  unfold wrapInt64
  norm_num at hlo hhi ⊢
  split <;> omega

/-- What stateTransition does to the store. -/
theorem stateTransition_eq {B : Type} (powerOff : String) (now : Nat) (store : Store B)
    (tenant workspace name : String) (version : Int) (state : String) :
    stateTransition powerOff now store tenant workspace name version state = store ∨
    ∃ inst md, mapGet store (instanceKey tenant workspace name) = some inst ∧
      inst.Metadata = some md ∧ md.ResourceVersion = version ∧
      stateTransition powerOff now store tenant workspace name version state =
        mapSet store (instanceKey tenant workspace name)
          (setInstanceState powerOff now inst state) := by
  unfold stateTransition
  cases hg : mapGet store (instanceKey tenant workspace name) with
  | none => exact Or.inl rfl
  | some inst =>
    cases hm : inst.Metadata with
    | none => exact Or.inl (by simp [hm])
    | some md =>
      by_cases hv : md.ResourceVersion = version
      · exact Or.inr ⟨inst, md, rfl, hm, hv, by simp [hm, hv]⟩
      · exact Or.inl (by simp [hm, hv])

/-- The store after an update of a stored instance holds, under its key,
an entry whose version is not the one the instance had. -/
theorem update_changes_version {B : Type} (consts : ModelConstants) (now t1 t2 : Nat)
    (store : Store B) (tenant workspace name : String) (body existing : Instance B)
    (md : ResourceMetadata)
    (hex : mapGet store (instanceKey tenant workspace name) = some existing)
    (hmd : existing.Metadata = some md)
    (hlo : -2 ^ 63 ≤ md.ResourceVersion) (hhi : md.ResourceVersion < 2 ^ 63) :
    ∃ inst md1,
      mapGet (CreateOrUpdateInstance consts now t1 t2 store tenant workspace name body).1
        (instanceKey tenant workspace name) = some inst ∧
      inst.Metadata = some md1 ∧ md1.ResourceVersion ≠ md.ResourceVersion := by
  unfold CreateOrUpdateInstance
  simp only [hex, hmd, mapGet_mapSet_same]
  exact ⟨_, _, rfl, setInstanceState_Metadata _ _ _ _,
    wrapInt64_succ_ne md.ResourceVersion hlo hhi⟩

/-- When a scheduled transition fires, the store is modified only if an
instance is stored under its key, has metadata, and its
resourceVersion equals the version captured when the transition was
scheduled; in that case the entry becomes the instance in the new state, with
its metadata as they were. Otherwise the store is left as it is. In every
case the keys of the store and the entries under the other keys are
unchanged. An update of the instance changes its resourceVersion, so that a
transition scheduled with the version before the update leaves the store
after the update as it is. -/
theorem stateTransition_guard {B : Type} (consts : ModelConstants) (now later t1 t2 : Nat)
    (store : Store B) (tenant workspace name : String) (version : Int) (state : String) :
    (stateTransition consts.PowerOff now store tenant workspace name version state ≠ store →
      ∃ inst md, mapGet store (instanceKey tenant workspace name) = some inst ∧
        inst.Metadata = some md ∧ md.ResourceVersion = version) ∧
    (∀ inst md, mapGet store (instanceKey tenant workspace name) = some inst →
      inst.Metadata = some md → md.ResourceVersion = version →
      mapGet (stateTransition consts.PowerOff now store tenant workspace name version state)
          (instanceKey tenant workspace name) =
        some (setInstanceState consts.PowerOff now inst state) ∧
      (setInstanceState consts.PowerOff now inst state).Metadata = some md ∧
      (setInstanceState consts.PowerOff now inst state).Body = inst.Body) ∧
    (mapGet store (instanceKey tenant workspace name) = none →
      stateTransition consts.PowerOff now store tenant workspace name version state = store) ∧
    (∀ inst, mapGet store (instanceKey tenant workspace name) = some inst →
      (inst.Metadata = none ∨ ∃ md, inst.Metadata = some md ∧ md.ResourceVersion ≠ version) →
      stateTransition consts.PowerOff now store tenant workspace name version state = store) ∧
    (∀ k, k ≠ instanceKey tenant workspace name →
      mapGet (stateTransition consts.PowerOff now store tenant workspace name version state) k =
        mapGet store k) ∧
    mapKeys (stateTransition consts.PowerOff now store tenant workspace name version state) =
      mapKeys store ∧
    (∀ body existing md, mapGet store (instanceKey tenant workspace name) = some existing →
      existing.Metadata = some md → md.ResourceVersion = version →
      -2 ^ 63 ≤ version → version < 2 ^ 63 →
      stateTransition consts.PowerOff later
          (CreateOrUpdateInstance consts now t1 t2 store tenant workspace name body).1
          tenant workspace name version state =
        (CreateOrUpdateInstance consts now t1 t2 store tenant workspace name body).1) := by
  refine ⟨?_, ?_, ?_, ?_, ?_, ?_, ?_⟩
  · intro hne
    rcases stateTransition_eq consts.PowerOff now store tenant workspace name version state with
      h | ⟨inst, md, h1, h2, h3, _⟩
    · exact absurd h hne
    · exact ⟨inst, md, h1, h2, h3⟩
  · intro inst md h1 h2 h3
    refine ⟨?_, ?_, ?_⟩
    · unfold stateTransition
      simp [h1, h2, h3, mapGet_mapSet_same]
    · rw [setInstanceState_Metadata, h2]
    · unfold setInstanceState
      simp only
      split <;> rfl
  · intro h
    unfold stateTransition
    simp [h]
  · intro inst h1 h2
    unfold stateTransition
    rcases h2 with h2 | ⟨md, h2, h3⟩
    · simp [h1, h2]
    · simp [h1, h2, h3]
  · intro k hk
    rcases stateTransition_eq consts.PowerOff now store tenant workspace name version state with
      h | ⟨inst, md, _, _, _, h4⟩
    · rw [h]
    · rw [h4]
      exact mapGet_mapSet_other _ _ _ _ (fun e => hk e.symm)
  · rcases stateTransition_eq consts.PowerOff now store tenant workspace name version state with
      h | ⟨inst, md, h1, _, _, h4⟩
    · rw [h]
    · rw [h4]
      exact mapKeys_mapSet_of_mem _ _ _ _ h1
  · intro body existing md hex hmd hv hlo hhi
    obtain ⟨inst, md1, hg, hm1, hne⟩ := update_changes_version consts now t1 t2 store tenant
      workspace name body existing md hex hmd (hv ▸ hlo) (hv ▸ hhi)
    unfold stateTransition
    simp only [hg, hm1]
    rw [hv] at hne
    simp [hne]

/-- The guard on the instance `vm`: the transitions of its creation, one
that an update supersedes, one that fires, and one on the empty store. -/
theorem stateTransition_guard_vm :
    (CreateOrUpdateInstance sampleConstants 1 1 1 [] "t" "w" "vm" emptyBody).2.map
        (fun s => (s.version, s.delay, s.state)) = [(1, 100, "creating"), (1, 600, "active")] ∧
    stateTransition "off" 5
        (CreateOrUpdateInstance sampleConstants 3 3 3 vmStore "t" "w" "vm" emptyBody).1
        "t" "w" "vm" 1 "active" =
      (CreateOrUpdateInstance sampleConstants 3 3 3 vmStore "t" "w" "vm" emptyBody).1 ∧
    ((GetInstance (stateTransition "off" 2 vmStore "t" "w" "vm" 1 "active") "t" "w" "vm").bind
        (fun i => i.Status)).bind (fun st => st.State) = some "active" ∧
    stateTransition "off" 2 ([] : Store Unit) "t" "w" "vm" 1 "active" = [] :=
  ⟨by decide,
   (stateTransition_guard sampleConstants 3 5 3 3 vmStore "t" "w" "vm" 1 "active").2.2.2.2.2.2
      emptyBody vmPending vmMetadata (by decide) (by decide) rfl (by decide) (by decide),
   by decide,
   (stateTransition_guard sampleConstants 2 2 2 2 ([] : Store Unit) "t" "w" "vm" 1 "active").2.2.1
      rfl⟩

/-- C39. An instance is created, deleted and created again, and then the
transition to active that the first creation scheduled fires. The instance it
was scheduled for is no longer stored, the one stored under the key is the
second one (created at time 2, pending), and its resourceVersion is 1 again,
the version the transition captured: the guard passes and the transition
sets the second instance to active. -/
theorem C39_recreated_instance_is_changed :
    (CreateOrUpdateInstance sampleConstants 1 1 1 ([] : Store Unit) "t" "w" "vm" emptyBody).2.get? 1
      = some vmFirstActive ∧
    vmDeleted = ([], true) ∧
    (GetInstance vmRecreated.1 "t" "w" "vm").map
        (fun i => (i.Metadata.map (fun m => (m.CreatedAt, m.ResourceVersion)),
          i.Status.bind (fun st => st.State))) = some (some (2, 1), some "pending") ∧
    fire sampleConstants 3 vmRecreated.1 vmFirstActive ≠ vmRecreated.1 ∧
    (GetInstance (fire sampleConstants 3 vmRecreated.1 vmFirstActive) "t" "w" "vm").map
        (fun i => (i.Metadata.map (fun m => (m.CreatedAt, m.ResourceVersion)),
          i.Status.bind (fun st => st.State))) = some (some (2, 1), some "active") := by
  refine ⟨by decide, by decide, by decide, by decide, by decide⟩

/-! ## C32: the optional flag of a resource field -/

/-- C32. The input built from the override `Status`, which supplies the name
only, has the tag `status,optional` and the flag Optional false: the loop
over the inputs never sets the flag, whatever the override, while the loop
over the outputs sets it together with the tag. -/
theorem C32_input_flag_is_not_set (toLower : Char → Char) (name : String)
    (resolver : Option SchemaResolver) (field : ControlFieldSpec) :
    (ControlResources.inputField lowerRune "Server" none statusOverride).Tag = "status,optional" ∧
    (ControlResources.inputField lowerRune "Server" none statusOverride).Optional = false ∧
    (ControlResources.inputField toLower name resolver field).Optional = false ∧
    (ControlResources.outputField lowerRune "Server" none labelOverride).Tag = "label,optional" ∧
    (ControlResources.outputField lowerRune "Server" none labelOverride).Optional = true ∧
    ((ControlResources.outputField toLower name resolver field).Tag =
        LowerCamel toLower field.Name ++ ",optional" ↔
      (ControlResources.outputField toLower name resolver field).Optional = true) := by
  refine ⟨by decide, by decide, rfl, by decide, by decide, ?_⟩
  simp only [ControlResources.outputField]
  exact buildControlTag_optional_iff toLower _ _

/-! ## C31: flag, tag and type of a field -/

theorem hasInfix_skip (p : Char) (ps b : List Char) :
    ∀ a : List Char, (∀ c, c ∈ a → c ≠ p) → hasInfix (p :: ps) (a ++ b) = hasInfix (p :: ps) b := by
  intro a
  induction a with
  | nil => intro _; rfl
  | cons c a ih =>
    intro h
    have hc : (p == c) = false := by
      have := h c (List.mem_cons_self _ _)
      simp only [beq_eq_false_iff_ne, ne_eq]
      exact fun e => this e.symm
    show hasInfix (p :: ps) (c :: (a ++ b)) = _
    rw [hasInfix]
    simp only [List.isPrefixOf, hc, Bool.false_and, Bool.false_or]
    exact ih (fun x hx => h x (List.mem_cons_of_mem _ hx))

theorem isPrefixOf_append_end (q : Char) :
    ∀ (pat l : List Char), q ∉ pat → pat.isPrefixOf (l ++ [q]) = pat.isPrefixOf l := by
  intro pat
  induction pat with
  | nil => intro l _; simp [List.isPrefixOf]
  | cons p ps ih =>
    intro l hq
    have hp : (p == q) = false := by
      simp only [beq_eq_false_iff_ne, ne_eq]
      intro e
      exact hq (e ▸ List.mem_cons_self _ _)
    have hps : q ∉ ps := fun h => hq (List.mem_cons_of_mem _ h)
    cases l with
    | nil => simp [List.isPrefixOf, hp]
    | cons c cs =>
      show (p :: ps).isPrefixOf (c :: (cs ++ [q])) = _
      simp only [List.isPrefixOf, ih cs hps]

theorem hasInfix_end (q p : Char) (ps : List Char) (hq : q ∉ p :: ps) :
    ∀ l : List Char, hasInfix (p :: ps) (l ++ [q]) = hasInfix (p :: ps) l := by
  intro l
  induction l with
  | nil =>
    have hp : (p == q) = false := by
      simp only [beq_eq_false_iff_ne, ne_eq]
      intro e
      exact hq (e ▸ List.mem_cons_self _ _)
    simp [hasInfix, List.isPrefixOf, hp]
  | cons c cs ih =>
    show hasInfix (p :: ps) (c :: (cs ++ [q])) = _
    rw [hasInfix, hasInfix, ih]
    have := isPrefixOf_append_end q (p :: ps) (c :: cs) hq
    simp only [List.cons_append] at this
    rw [this]

theorem hasInfix_mid (pat b : List Char) :
    ∀ a : List Char, hasInfix pat (a ++ (pat ++ b)) = true := by
  have h0 : hasInfix pat (pat ++ b) = true := by
    cases hpb : pat ++ b with
    | nil =>
      have : pat = [] := (List.append_eq_nil.mp hpb).1
      simp [hasInfix, this]
    | cons c cs =>
      rw [hasInfix, ← hpb]
      have : pat.isPrefixOf (pat ++ b) = true :=
        List.isPrefixOf_iff_prefix.mpr (List.prefix_append _ _)
      simp [this]
  intro a
  induction a with
  | nil => exact h0
  | cons c a ih =>
    show hasInfix pat (c :: (a ++ (pat ++ b))) = true
    rw [hasInfix, ih]
    simp

theorem hasInfix_head_mem (p : Char) (ps : List Char) :
    ∀ l : List Char, hasInfix (p :: ps) l = true → p ∈ l := by
  intro l
  induction l with
  | nil => intro h; simp [hasInfix] at h
  | cons c cs ih =>
    intro h
    rw [hasInfix] at h
    simp only [List.isPrefixOf, Bool.or_eq_true, Bool.and_eq_true, beq_iff_eq] at h
    rcases h with h | h
    · rw [h.1]
      exact List.mem_cons_self _ _
    · exact List.mem_cons_of_mem _ (ih h)

theorem buildPulumiTag_data (n : String) (o : Bool) :
    (buildPulumiTag n o).data =
      "pulumi:".data ++ (dq :: (n.data ++ ((if o then ",optional".data else []) ++ [dq]))) := by
  unfold buildPulumiTag
  cases o <;> simp [String.data_append]

/-- The tag of an optional field contains `,optional`; the tag of another
field contains it exactly when the tag name does. -/
theorem containsOptional_buildPulumiTag (n : String) (o : Bool) :
    containsOptional (buildPulumiTag n o) = (o || containsOptional n) := by
  unfold containsOptional
  rw [buildPulumiTag_data]
  have hskip : ∀ rest, hasInfix ",optional".data ("pulumi:".data ++ (dq :: rest)) =
      hasInfix ",optional".data rest := by
    intro rest
    have e : "pulumi:".data ++ (dq :: rest) = ("pulumi:".data ++ [dq]) ++ rest := by simp
    rw [e]
    exact hasInfix_skip ',' "optional".data rest _ (by decide)
  rw [hskip]
  cases o with
  | true =>
    simp only [if_true, Bool.true_or]
    exact hasInfix_mid ",optional".data [dq] n.data
  | false =>
    simp only [Bool.false_eq_true, if_false, List.nil_append, Bool.false_or]
    exact hasInfix_end dq ',' "optional".data (by decide) n.data

theorem containsOptional_alnum (n : String) (h : ∀ c, c ∈ n.data → isAlnumAscii c = true) :
    containsOptional n = false := by
  cases hc : containsOptional n with
  | false => rfl
  | true =>
    have := h ',' (hasInfix_head_mem ',' "optional".data n.data hc)
    exact absurd this (by decide)

theorem isAlnumAscii_of_digit (c : Char) (h : isDigitAscii c = true) : isAlnumAscii c = true := by
  simp [isAlnumAscii, h]

theorem isAlnumAscii_lowerRune (r : Char) (h : isAlnumAscii r = true) :
    isAlnumAscii (lowerRune r) = true := by
  unfold lowerRune
  by_cases hu : isUpperAscii r = true
  · simp only [hu, if_true]
    have hr : 65 ≤ r.toNat ∧ r.toNat ≤ 90 := by
      simpa [isUpperAscii] using hu
    have hn := toNat_ofNat_small (r.toNat + 32) (by omega)
    simp only [isAlnumAscii, isLowerAscii, hn, Bool.or_eq_true, Bool.and_eq_true,
      decide_eq_true_eq]
    left
    left
    omega
  · simp only [hu, Bool.false_eq_true, if_false]
    exact h

theorem toLowerCamel_alnum (name : String) (h : ∀ c, c ∈ name.data → isAlnumAscii c = true) :
    ∀ c, c ∈ (toLowerCamel name).data → isAlnumAscii c = true := by
  intro c hc
  unfold toLowerCamel at hc
  cases hd : name.data with
  | nil => simp [hd] at hc
  | cons r rest =>
    simp only [hd, List.mem_cons] at hc
    rcases hc with hc | hc
    · rw [hc]
      exact isAlnumAscii_lowerRune r (h r (by rw [hd]; exact List.mem_cons_self _ _))
    · exact h c (by rw [hd]; exact List.mem_cons_of_mem _ hc)

theorem variantGoName_alnum (idx : Nat) (variant : SchemaProxy) (seen : List (String × Nat)) :
    ∀ c, c ∈ (variantGoName idx variant seen).1.data → isAlnumAscii c = true := by
  have hbase : ∀ c, c ∈ (variantBaseName idx variant).data → isAlnumAscii c = true := by
    intro c hc
    unfold variantBaseName at hc
    split at hc
    · simp only [String.data_append, List.mem_append] at hc
      rcases hc with hc | hc
      · have hall : ∀ x, x ∈ "Variant".data → isAlnumAscii x = true := by decide
        exact hall c hc
      · exact isAlnumAscii_of_digit c ((itoa_spec _).2.1 c hc)
    · exact toExportedName_alnum _ c hc
  intro c hc
  rw [variantGoName_eq] at hc
  cases hg : mapGet seen (variantBaseName idx variant) with
  | none =>
    simp only [hg] at hc
    exact hbase c hc
  | some count =>
    simp only [hg, String.data_append, List.mem_append] at hc
    rcases hc with hc | hc
    · exact hbase c hc
    · exact isAlnumAscii_of_digit c ((itoa_spec _).2.1 c hc)

/-- Every field of a union definition is optional, its tag is built from the
lower-camel form of its exported name, and that name consists of ASCII
letters and digits. -/
theorem unionFields_tag (fuel : Nat) (resolver : Option SchemaResolver) :
    ∀ (variants : List SchemaProxy) (idx : Nat) (seen : List (String × Nat))
      (fields : List fieldDef),
      unionFields fuel resolver variants idx seen = some fields →
      ∀ f, f ∈ fields → f.Optional = true ∧
        f.Tag = buildPulumiTag (toLowerCamel f.GoName) true ∧
        ∀ c, c ∈ f.GoName.data → isAlnumAscii c = true := by
  intro variants
  induction variants with
  | nil =>
    intro idx seen fields h f hf
    simp only [unionFields, Option.some.injEq] at h
    subst h
    simp at hf
  | cons v rest ih =>
    intro idx seen fields h f hf
    unfold unionFields at h
    split at h
    · rename_i g ann fs hg hann hfs
      simp only [Option.some.injEq] at h
      subst h
      rcases List.mem_cons.mp hf with hf | hf
      · subst hf
        exact ⟨rfl, rfl, variantGoName_alnum idx v seen⟩
      · exact ih _ _ _ hfs f hf
    · exact absurd h (by simp)

theorem TagInv_addUnionField {st : mergeState} (h : TagInv st) (field : fieldDef)
    (htag : field.Tag = buildPulumiTag (toLowerCamel field.GoName) true)
    (hal : ∀ c, c ∈ field.GoName.data → isAlnumAscii c = true) :
    TagInv (addUnionField st field) := by
  intro k f hk
  rw [addUnionField_get] at hk
  by_cases hkn : field.Name = k
  · rw [if_pos hkn] at hk
    cases hg : mapGet st.fields field.Name with
    | none =>
      simp only [hg, Option.some.injEq] at hk
      subst hk
      exact ⟨toLowerCamel field.GoName, htag, Or.inr (toLowerCamel_alnum _ hal)⟩
    | some existing =>
      simp only [hg, Option.some.injEq] at hk
      subst hk
      exact ⟨toLowerCamel field.GoName, rfl, Or.inr (toLowerCamel_alnum _ hal)⟩
  · simp only [hkn, if_false] at hk
    exact h k f hk

theorem TagInv_addProperty
    {resolveProp : String → String → SchemaProxy → Helpers → Option (String × Helpers)}
    {fuel : Nat} {resolver : Option SchemaResolver} {required : List (String × Bool)}
    {parentName : String} {optOverride : Bool} {st st1 : mergeState} {propName : String}
    {propSchema : SchemaProxy} (h : TagInv st)
    (hstep : addProperty resolveProp fuel resolver required parentName optOverride st
      propName propSchema = some st1) : TagInv st1 := by
  obtain ⟨goType0, annotate, _, _, _, hget⟩ := addProperty_spec hstep
  intro k f hk
  rw [hget] at hk
  by_cases hkn : propName = k
  · simp only [hkn, if_true] at hk
    cases hg : mapGet st.fields propName with
    | none =>
      rw [hkn] at hg
      simp only [hg, Option.some.injEq] at hk
      subst hk
      exact ⟨k, rfl, Or.inl rfl⟩
    | some existing =>
      rw [hkn] at hg
      simp only [hg, Option.some.injEq] at hk
      subst hk
      exact ⟨k, rfl, Or.inl rfl⟩
  · simp only [hkn, if_false] at hk
    exact h k f hk

/-- The tags of the fields of a definition built by buildObjectDTO. -/
theorem buildObjectDTO_tags {fuel : Nat} {name : String} {schema : Schema}
    {resolver : Option SchemaResolver} {helpers helpers1 : Helpers} {dto : dtoDef}
    (h : buildObjectDTO fuel name schema resolver helpers = some (dto, helpers1))
    (f : fieldDef) (hf : f ∈ dto.Fields) :
    ∃ n : String, f.Tag = buildPulumiTag n f.Optional ∧
      (n = f.Name ∨ ∀ c, c ∈ n.data → isAlnumAscii c = true) := by
  cases fuel with
  | zero => simp [buildObjectDTO] at h
  | succ n =>
    unfold buildObjectDTO at h
    rcases buildObjectDTOWith_cases h with ⟨hnil, _, _⟩ | ⟨_, _, hm⟩
    · rw [hnil] at hf
      exact absurd hf (by simp)
    · obtain ⟨st2, hfields, _, hopt, hJ⟩ := mergeFields_state hm
      have hT : TagInv st2 := hJ TagInv
        (fun k f hk => by simp [mapGet] at hk)
        (fun sch d hd st f2 hst hf2 => by
          obtain ⟨huf, _⟩ := buildUnionDTO_fields hd
          obtain ⟨h1, h2, h3⟩ := unionFields_tag _ _ _ _ _ _ huf f2 hf2
          exact TagInv_addUnionField hst f2 h2 h3)
        (fun st p ps st1 hst hstep => TagInv_addProperty hst hstep)
      rw [hfields] at hf
      obtain ⟨k, _, hk⟩ := mem_orderedFields hf
      obtain ⟨n2, hn1, hn2⟩ := hT k f hk
      have hname : f.Name = k := (hopt.1 k f hk).1
      exact ⟨n2, hn1, by rw [hname]; exact hn2⟩

/-- C31 (counterexample). The required property `status` refers to the
enumeration registered under `_`, whose type name is `**a`: the field is not
optional and its type begins with `*`. The required property `a,optional`
gives a field that is not optional and whose tag contains `,optional`. -/
theorem C31_required_field_breaks_the_agreement :
    (buildObjectDTO 2 "Thing" starObject (some starResolver) []).map
        (fun r => r.1.Fields.map (fun f => (f.Name, f.Optional, f.GoType, leadingStar f.GoType))) =
      some [("status", false, "**a", true)] ∧
    (buildObjectDTO 2 "Thing" commaObject none []).map
        (fun r => r.1.Fields.map (fun f => (f.Name, f.Optional, containsOptional f.Tag))) =
      some [("a,optional", false, true)] := by
  decide

/-- C31 (amended). For every field of a definition returned by buildObjectDTO
the tag is built from a tag name and the optional flag of the field: it
contains `,optional` whenever Optional is true, and exactly then when the
source name of the field does not contain `,optional`. When Optional is
false the Go type does not begin with `*`, provided that the name of the
schema and the names registered in the resolver have non-empty canonical
forms. Every field of a definition returned by buildUnionDTO is optional and
its tag contains `,optional`. -/
theorem C31_flag_tag_type_agree (fuel : Nat) (name : String) (schema : Schema)
    (resolver : Option SchemaResolver) (helpers helpers1 : Helpers) (dto udto : dtoDef)
    (f : fieldDef) :
    (buildObjectDTO fuel name schema resolver helpers = some (dto, helpers1) → f ∈ dto.Fields →
      (∃ n : String, f.Tag = buildPulumiTag n f.Optional) ∧
      (f.Optional = true → containsOptional f.Tag = true) ∧
      (containsOptional f.Name = false →
        (containsOptional f.Tag = true ↔ f.Optional = true)) ∧
      (canonicalKeys resolver = true → toExportedName name ≠ "" → f.Optional = false →
        leadingStar f.GoType = false)) ∧
    (buildUnionDTO fuel name schema resolver = some udto → f ∈ udto.Fields →
      f.Optional = true ∧ f.Tag = buildPulumiTag (toLowerCamel f.GoName) true ∧
      containsOptional f.Tag = true) := by
  constructor
  · intro hrun hf
    obtain ⟨n, hn, hor⟩ := buildObjectDTO_tags hrun f hf
    have hc := containsOptional_buildPulumiTag n f.Optional
    rw [← hn] at hc
    refine ⟨⟨n, hn⟩, ?_, ?_, ?_⟩
    · intro ho
      rw [hc, ho]
      rfl
    · intro hname
      have hn0 : containsOptional n = false := by
        rcases hor with h | h
        · rw [h]
          exact hname
        · exact containsOptional_alnum n h
      rw [hc, hn0]
      simp
    · intro hkeys hcanon hreq
      exact buildObjectDTO_noStar hkeys hcanon hrun f hf hreq
  · intro hrun hf
    obtain ⟨huf, _⟩ := buildUnionDTO_fields hrun
    obtain ⟨h1, h2, _⟩ := unionFields_tag _ _ _ _ _ _ huf f hf
    refine ⟨h1, h2, ?_⟩
    rw [h2, containsOptional_buildPulumiTag]
    rfl

theorem C31_flag_tag_type_agree_witness :
    buildObjectDTO 2 "Foo" fooObject (some fooOnlyResolver) [] = some (fooDTO, fooHelpers) ∧
    containsOptional (buildPulumiTag "bar" true) = true ∧
    (buildObjectDTO 2 "Thing" commaObject none []).map
        (fun r => r.1.Fields.map (fun f => (f.Optional, leadingStar f.GoType))) =
      some [(false, false)] :=
  ⟨by decide,
   ((C31_flag_tag_type_agree 2 "Foo" fooObject (some fooOnlyResolver) [] fooHelpers fooDTO
      fooDTO { Name := "bar", GoName := "Bar", GoType := "*FooBar", Optional := true,
               Tag := buildPulumiTag "bar" true, Annotate := true }).1
      (by decide) (by decide)).2.1 rfl,
   by decide⟩

/-! ## C34: what a merged field keeps -/

theorem Keeps_refl (f : fieldDef) : Keeps f f :=
  ⟨rfl, rfl, rfl, rfl, rfl, rfl, 0, rfl⟩

theorem Keeps_trans {a b c : fieldDef} (h1 : Keeps a b) (h2 : Keeps b c) : Keeps a c := by
  obtain ⟨a1, a2, a3, a4, a5, a6, j, aj⟩ := h1
  obtain ⟨b1, b2, b3, b4, b5, b6, k, bk⟩ := h2
  refine ⟨b1.trans a1, b2.trans a2, b3.trans a3, b4.trans a4, b5.trans a5, b6.trans a6,
    j + k, ?_⟩
  rw [aj, bk, ← List.append_assoc, List.replicate_add]

theorem stripOptionalType_stars (t : String) :
    ∃ j : Nat, t.data = List.replicate j '*' ++ (stripOptionalType t).data := by
  unfold stripOptionalType
  cases h : t.data with
  | nil => exact ⟨0, by simp [h]⟩
  | cons c rest =>
    by_cases hc : c = '*'
    · subst hc
      exact ⟨1, by simp⟩
    · refine ⟨0, ?_⟩
      have : (match c :: rest with
          | '*' :: r => String.mk r
          | _ => t) = t := by
        split
        · rename_i r heq
          simp only [List.cons.injEq] at heq
          exact absurd heq.1 hc
        · rfl
      rw [this, h]
      rfl

/-- A later contribution to an existing field keeps it. -/
theorem Keeps_mergeExisting (existing : fieldDef) (propOptional : Bool) (tagName : String) :
    Keeps existing (mergeExisting existing propOptional tagName) := by
  refine ⟨rfl, rfl, rfl, rfl, rfl, rfl, ?_⟩
  unfold mergeExisting
  simp only
  split
  · exact stripOptionalType_stars existing.GoType
  · exact ⟨0, rfl⟩

theorem dropStars_replicate (j : Nat) (l : List Char) :
    (List.replicate j '*' ++ l).dropWhile (fun c => c == '*') =
      l.dropWhile (fun c => c == '*') := by
  induction j with
  | zero => rfl
  | succ j ih =>
    rw [List.replicate_succ, List.cons_append, List.dropWhile_cons]
    simp [ih]

/-- A field that keeps another has its base type. -/
theorem Keeps_dropStars {a b : fieldDef} (h : Keeps a b) : dropStars b.GoType = dropStars a.GoType := by
  obtain ⟨_, _, _, _, _, _, j, hj⟩ := h
  unfold dropStars
  rw [hj, dropStars_replicate]

/-- The invariant that a field stored under `k` is kept. -/
theorem KeptInv_addUnionField (k : String) (first : fieldDef) {st : mergeState}
    (h : ∃ g, mapGet st.fields k = some g ∧ Keeps first g) (field : fieldDef) :
    ∃ g, mapGet (addUnionField st field).fields k = some g ∧ Keeps first g := by
  obtain ⟨g, hg, hk⟩ := h
  rw [addUnionField_get]
  by_cases hkn : field.Name = k
  · rw [if_pos hkn, hkn, hg]
    exact ⟨_, rfl, Keeps_trans hk (Keeps_mergeExisting g true _)⟩
  · rw [if_neg hkn]
    exact ⟨g, hg, hk⟩

theorem KeptInv_addProperty (k : String) (first : fieldDef)
    {resolveProp : String → String → SchemaProxy → Helpers → Option (String × Helpers)}
    {fuel : Nat} {resolver : Option SchemaResolver} {required : List (String × Bool)}
    {parentName : String} {optOverride : Bool} {st st1 : mergeState} {propName : String}
    {propSchema : SchemaProxy}
    (h : ∃ g, mapGet st.fields k = some g ∧ Keeps first g)
    (hstep : addProperty resolveProp fuel resolver required parentName optOverride st
      propName propSchema = some st1) :
    ∃ g, mapGet st1.fields k = some g ∧ Keeps first g := by
  obtain ⟨g, hg, hk⟩ := h
  obtain ⟨goType0, annotate, _, _, _, hget⟩ := addProperty_spec hstep
  rw [hget]
  by_cases hkn : propName = k
  · rw [if_pos hkn, hkn, hg]
    exact ⟨_, rfl, Keeps_trans hk (Keeps_mergeExisting g _ _)⟩
  · rw [if_neg hkn]
    exact ⟨g, hg, hk⟩

section Kept

variable {resolveProp : String → String → SchemaProxy → Helpers → Option (String × Helpers)}
variable {fuel : Nat} {resolver : Option SchemaResolver} {required : List (String × Bool)}
variable {parentName : String}

/-- A run of addProperties keeps every field that is there when it starts. -/
theorem addProperties_keeps {s : Option Schema} {st st1 : mergeState}
    (hstep : addProperties resolveProp fuel resolver required parentName s false st = some st1)
    (k : String) (first : fieldDef) (h : ∃ g, mapGet st.fields k = some g ∧ Keeps first g) :
    ∃ g, mapGet st1.fields k = some g ∧ Keeps first g :=
  @addProperties_invariant resolveProp fuel resolver required parentName
    (fun st2 => ∃ g, mapGet st2.fields k = some g ∧ Keeps first g)
    (fun _ _ _ _ f h2 _ => KeptInv_addUnionField k first h2 f)
    (fun _ _ _ _ h2 hs => KeptInv_addProperty k first h2 hs) s st st1 h hstep

theorem addAllOf_keeps (members : List SchemaProxy) {st st1 : mergeState}
    (hstep : addAllOf resolveProp fuel resolver required parentName st members = some st1)
    (k : String) (first : fieldDef) (h : ∃ g, mapGet st.fields k = some g ∧ Keeps first g) :
    ∃ g, mapGet st1.fields k = some g ∧ Keeps first g :=
  @addAllOf_invariant resolveProp fuel resolver required parentName
    (fun st2 => ∃ g, mapGet st2.fields k = some g ∧ Keeps first g)
    (fun _ _ _ _ f h2 _ => KeptInv_addUnionField k first h2 f)
    (fun _ _ _ _ h2 hs => KeptInv_addProperty k first h2 hs) members st st1 h hstep

/-- The loop over declared properties that do not name `k` leaves the field
under `k` as it is. -/
theorem addPropertyList_frame (k : String) (props : List (String × SchemaProxy)) :
    ∀ {st st1 : mergeState}, k ∉ props.map Prod.fst →
      addPropertyList resolveProp fuel resolver required parentName false st props = some st1 →
      mapGet st1.fields k = mapGet st.fields k := by
  induction props with
  | nil =>
    intro st st1 _ hstep
    simp only [addPropertyList, Option.some.injEq] at hstep
    subst hstep
    rfl
  | cons p rest ih =>
    intro st st1 hk hstep
    obtain ⟨propName, propSchema⟩ := p
    simp only [List.map_cons, List.mem_cons, not_or] at hk
    unfold addPropertyList at hstep
    cases hone : addProperty resolveProp fuel resolver required parentName false st
        propName propSchema with
    | none => simp [hone] at hstep
    | some st2 =>
      simp only [hone] at hstep
      obtain ⟨_, _, _, _, _, hget⟩ := addProperty_spec hone
      rw [ih hk.2 hstep, hget, if_neg (fun e => hk.1 e.symm)]

/-- The first declaration of `k` among the properties creates its field, and
the loop keeps it. -/
theorem addPropertyList_first (k : String) (p : SchemaProxy)
    (pre post : List (String × SchemaProxy)) {st st1 : mergeState}
    (hk : k ∉ pre.map Prod.fst) (habsent : mapGet st.fields k = none)
    (hstep : addPropertyList resolveProp fuel resolver required parentName false st
      (pre ++ (k, p) :: post) = some st1) :
    ∃ g goType0 annotate H H1, mapGet st1.fields k = some g ∧
      resolveProp parentName k p H = some (goType0, H1) ∧
      Keeps (propertyFieldEntry k p goType0 (!isRequired required k) annotate) g := by
  have split : ∀ (l1 l2 : List (String × SchemaProxy)) (s0 s2 : mergeState),
      addPropertyList resolveProp fuel resolver required parentName false s0 (l1 ++ l2) = some s2 →
      ∃ s1, addPropertyList resolveProp fuel resolver required parentName false s0 l1 = some s1 ∧
        addPropertyList resolveProp fuel resolver required parentName false s1 l2 = some s2 := by
    intro l1
    induction l1 with
    | nil => intro l2 s0 s2 h; exact ⟨s0, rfl, h⟩
    | cons e l1 ih =>
      intro l2 s0 s2 h
      obtain ⟨pn, ps⟩ := e
      rw [List.cons_append] at h
      unfold addPropertyList at h
      cases hone : addProperty resolveProp fuel resolver required parentName false s0 pn ps with
      | none => simp [hone] at h
      | some sa =>
        simp only [hone] at h
        obtain ⟨s1, h1, h2⟩ := ih l2 sa s2 h
        refine ⟨s1, ?_, h2⟩
        unfold addPropertyList
        simp only [hone]
        exact h1
  obtain ⟨s1, h1, h2⟩ := split pre ((k, p) :: post) st st1 hstep
  have hab1 : mapGet s1.fields k = none := by rw [addPropertyList_frame k pre hk h1, habsent]
  unfold addPropertyList at h2
  cases hone : addProperty resolveProp fuel resolver required parentName false s1 k p with
  | none => simp [hone] at h2
  | some sa =>
    simp only [hone] at h2
    obtain ⟨goType0, annotate, hres, _, _, hget⟩ := addProperty_spec hone
    have hcreated : mapGet sa.fields k =
        some (propertyFieldEntry k p goType0 (!isRequired required k) annotate) := by
      rw [hget, if_pos rfl, hab1]
      simp
    have hI : ∃ g, mapGet st1.fields k = some g ∧
        Keeps (propertyFieldEntry k p goType0 (!isRequired required k) annotate) g :=
      @addPropertyList_invariant resolveProp fuel resolver required parentName
        (fun st2 => ∃ g, mapGet st2.fields k = some g ∧
          Keeps (propertyFieldEntry k p goType0 (!isRequired required k) annotate) g)
        (fun _ _ _ _ h3 hs => KeptInv_addProperty k _ h3 hs) post sa st1
        ⟨_, hcreated, Keeps_refl _⟩ h2
    obtain ⟨g, hg, hkeep⟩ := hI
    exact ⟨g, goType0, annotate, s1.helpers, sa.helpers, hg, hres, hkeep⟩

end Kept

/-- The field of a merged definition whose name is first declared by the
property `p` of the schema itself keeps the entry that this declaration
created. -/
theorem mergeFields_first_own
    {resolveProp : String → String → SchemaProxy → Helpers → Option (String × Helpers)}
    {fuel : Nat} {name : String} {schema : Schema} {resolver : Option SchemaResolver}
    {helpers helpers1 : Helpers} {dto : dtoDef}
    (h : mergeFields resolveProp fuel name schema resolver helpers = some (dto, helpers1))
    (k : String) (p : SchemaProxy) (pre post : List (String × SchemaProxy))
    (hprops : schema.Properties = some (pre ++ (k, p) :: post)) (hk : k ∉ pre.map Prod.fst)
    (f : fieldDef) (hf : f ∈ dto.Fields) (hname : f.Name = k) :
    ∃ goType0 annotate H H1, resolveProp name k p H = some (goType0, H1) ∧
      Keeps (propertyFieldEntry k p goType0
        (!isRequired (mergeAllOfRequired (requiredSet schema.Required) schema.AllOf) k)
        annotate) f := by
  obtain ⟨st1, st2, h1, h2, hdto, _⟩ := mergeFields_cases h
  have hinv0 : OptInv (mergeAllOfRequired (requiredSet schema.Required) schema.AllOf) []
      { fields := [], order := [], helpers := helpers } :=
    ⟨fun k f hk => by simp [mapGet] at hk, fun k hk => by simp at hk⟩
  have hinv2 := OptInv_addAllOf schema.AllOf (OptInv_addProperties hinv0 h1) h2
  have h1b : addPropertyList resolveProp fuel resolver
      (mergeAllOfRequired (requiredSet schema.Required) schema.AllOf) name false
      { fields := [], order := [], helpers := helpers } (pre ++ (k, p) :: post) = some st1 := by
    unfold addProperties at h1
    simpa [declaredProperties, hprops] using h1
  obtain ⟨g, goType0, annotate, H, H1, hg, hres, hkeep⟩ :=
    addPropertyList_first k p pre post hk (by simp [mapGet]) h1b
  obtain ⟨g2, hg2, hkeep2⟩ := addAllOf_keeps schema.AllOf h2 k _ ⟨g, hg, hkeep⟩
  rw [hdto] at hf
  obtain ⟨k2, _, hk2⟩ := mem_orderedFields hf
  have hk2n : f.Name = k2 := (hinv2.1 k2 f hk2).1
  have hkk : k2 = k := by rw [← hk2n, hname]
  rw [hkk, hg2] at hk2
  simp only [Option.some.injEq] at hk2
  rw [← hk2]
  exact ⟨goType0, annotate, H, H1, hres, hkeep2⟩

/-- C34. A contribution to a name that already has a field, by a declared
property or by the variant of a folded union, keeps the source name, the
exported name, the description, the default and the annotation flag of the
field and changes its type at most by removing a leading `*`; every later
run of the merge over the allOf members keeps the fields that are there. So
a field of the definition built by buildObjectDTO whose name is first
declared by a property of the schema itself has the exported name, the
description and the default of that property, and the base type of the type
resolved for it. -/
theorem C34_merged_field_keeps_first_source (fuel : Nat) (name : String) (schema : Schema)
    (resolver : Option SchemaResolver) (helpers helpers1 : Helpers) (dto : dtoDef)
    (k : String) (p : SchemaProxy) (pre post : List (String × SchemaProxy))
    (hrun : buildObjectDTO (fuel + 1) name schema resolver helpers = some (dto, helpers1))
    (hprops : schema.Properties = some (pre ++ (k, p) :: post))
    (hk : k ∉ pre.map Prod.fst) :
    (∀ f, f ∈ dto.Fields → f.Name = k →
      f.GoName = toExportedName k ∧
      f.Description = NormalizeDescription (schemaDescription p) ∧
      f.Default = (DefaultValueLiteral p).1 ∧ f.HasDefault = (DefaultValueLiteral p).2 ∧
      ∃ goType0 H H1,
        resolvePropertyType (fuel + 1) name k p resolver H = some (goType0, H1) ∧
        (dropStars f.GoType = dropStars goType0 ∨
          dropStars f.GoType = dropStars (makeOptionalType goType0))) ∧
    (∀ (st : mergeState) (field existing : fieldDef),
      mapGet st.fields field.Name = some existing →
      ∃ merged, mapGet (addUnionField st field).fields field.Name = some merged ∧
        Keeps existing merged ∧ merged.Optional = existing.Optional ∧
        dropStars merged.GoType = dropStars existing.GoType) ∧
    (∀ (st st1 : mergeState) (required : List (String × Bool)) (propName : String)
      (propSchema : SchemaProxy) (existing : fieldDef),
      mapGet st.fields propName = some existing →
      addProperty (fun parent prop q H => resolvePropertyType (fuel + 1) parent prop q resolver H)
        (fuel + 1) resolver required name false st propName propSchema = some st1 →
      ∃ merged, mapGet st1.fields propName = some merged ∧ Keeps existing merged ∧
        merged.Optional = (existing.Optional && !isRequired required propName) ∧
        dropStars merged.GoType = dropStars existing.GoType) := by
  refine ⟨?_, ?_, ?_⟩
  · intro f hf hname
    unfold buildObjectDTO at hrun
    rcases buildObjectDTOWith_cases hrun with ⟨hnil, _, _⟩ | ⟨_, _, hm⟩
    · rw [hnil] at hf
      exact absurd hf (by simp)
    · obtain ⟨goType0, annotate, H, H1, hres, hkeep⟩ :=
        mergeFields_first_own hm k p pre post hprops hk f hf hname
      have hbase := Keeps_dropStars hkeep
      obtain ⟨_, h2, h3, h4, h5, _, _⟩ := hkeep
      refine ⟨h2, h3, h4, h5, goType0, H, H1, hres, ?_⟩
      rw [hbase]
      simp only [propertyFieldEntry]
      split
      · exact Or.inr rfl
      · exact Or.inl rfl
  · intro st field existing hex
    refine ⟨mergeExisting existing true (toLowerCamel field.GoName), ?_,
      Keeps_mergeExisting _ _ _, ?_, Keeps_dropStars (Keeps_mergeExisting _ _ _)⟩
    · rw [addUnionField_get, if_pos rfl, hex]
    · simp [mergeExisting]
  · intro st st1 required propName propSchema existing hex hstep
    obtain ⟨goType0, annotate, _, _, _, hget⟩ := addProperty_spec hstep
    refine ⟨mergeExisting existing (false || !isRequired required propName) propName, ?_,
      Keeps_mergeExisting _ _ _, ?_, Keeps_dropStars (Keeps_mergeExisting _ _ _)⟩
    · rw [hget, if_pos rfl, hex]
    · simp [mergeExisting]

theorem C34_merged_field_keeps_first_source_witness :
    (buildObjectDTO 2 "Thing" statusTwice none []).map
        (fun r => r.1.Fields.map (fun f => (f.Name, f.GoName, f.GoType))) =
      some [("status", "Status", "int64"), ("integer", "Integer", "*int64")] ∧
    (buildObjectDTO 2 "Thing" statusTwice none []).map
        (fun r => r.1.Fields.map (fun f => (f.Description, f.Default, f.Optional))) =
      some [("the size", "5", false), ("", "", true)] ∧
    (∀ f, f ∈ (match buildObjectDTO 2 "Thing" statusTwice none [] with
               | some r => r.1.Fields
               | none => []) → f.Name = "status" → f.GoName = toExportedName "status") :=
  ⟨by decide, by decide,
   fun f hf hn =>
     ((C34_merged_field_keeps_first_source 1 "Thing" statusTwice none []
        (match buildObjectDTO 2 "Thing" statusTwice none [] with
         | some r => r.2
         | none => [])
        (match buildObjectDTO 2 "Thing" statusTwice none [] with
         | some r => r.1
         | none => { })
        "status" sizeProperty [] [] (by decide) rfl (by decide)).1 f
        (by
          revert hf
          cases buildObjectDTO 2 "Thing" statusTwice none [] <;> exact id) hn).1⟩

end Cape
